import Mathlib

/-! # Glove: route-cost trie, proxy session, handler chain and access control list

A shallow embedding of `internal/tree/tree.go`, of `pkg/proxy/session.go` with
`pkg/proxy/context.go`, and of `internal/acl`.

Go strings are byte sequences; they are embedded as `List Nat` (one entry per byte).
Go `int` costs are embedded as `Int`.  A nil `*node` is `none`.  Run-time panics
(index or slice out of range, nil dereference) are an explicit outcome, and loops whose
termination is not structural carry a fuel argument with its own outcome.
-/

namespace Glove

/-- A Go string: its bytes. -/
abbrev Bytes := List Nat

/-- The bytes of an ASCII string literal. -/
def str (s : String) : Bytes := s.toList.map Char.toNat

/-- Outcome of running a piece of Go code. -/
inductive Run (α : Type) where
  | ok (v : α)
  | panic
  | outOfFuel
deriving DecidableEq

/-- Continue with the value of a finished run. -/
def Run.andThen {α β : Type} (r : Run α) (f : α → Run β) : Run β :=
  match r with
  | .ok v => f v
  | .panic => .panic
  | .outOfFuel => .outOfFuel

/-! ## internal/tree/tree.go -/

inductive nodeKind where
  | text
  | parameter
deriving DecidableEq

/-- The trie node of `tree.go`; `special` is a nil-able pointer. -/
inductive node where
  | mk (kind : nodeKind) (hasWildcard : Bool) (route : Bytes) (index : Bytes)
       (children : List node) (special : Option node) (cost : Int)

def node.kind : node → nodeKind
  | .mk k _ _ _ _ _ _ => k

def node.hasWildcard : node → Bool
  | .mk _ w _ _ _ _ _ => w

def node.route : node → Bytes
  | .mk _ _ r _ _ _ _ => r

def node.index : node → Bytes
  | .mk _ _ _ i _ _ _ => i

def node.children : node → List node
  | .mk _ _ _ _ c _ _ => c

def node.special : node → Option node
  | .mk _ _ _ _ _ s _ => s

def node.cost : node → Int
  | .mk _ _ _ _ _ _ c => c

def node.setCost : node → Int → node
  | .mk k w r i c s _, cost => .mk k w r i c s cost

def node.setHasWildcard : node → Bool → node
  | .mk k _ r i c s cost, w => .mk k w r i c s cost

def node.setSpecial : node → Option node → node
  | .mk k w r i c _ cost, s => .mk k w r i c s cost

def node.setChildren : node → List node → node
  | .mk k w r i _ s cost, c => .mk k w r i c s cost

structure root where
  method : Bytes
  node : Option node

structure tree where
  roots : List root

structure Route where
  method : Bytes
  route : Bytes
  cost : Int
deriving DecidableEq

structure checkpoint where
  node : node
  offset : Nat
  cost : Int

/-- Byte `'/'`. -/
abbrev slash : Nat := 47
/-- Byte `':'`. -/
abbrev colon : Nat := 58
/-- Byte `'*'`. -/
abbrev star : Nat := 42

def stripTrailingSlash (r : Bytes) : Bytes :=
  if r.getLast? = some slash then r.dropLast else r

def addTrailingSlash (r : Bytes) : Bytes :=
  match r.getLast? with
  | some b => if b ≠ slash then r ++ [slash] else r
  | none => r

/-- The longest prefix of `r` holding neither `':'` nor `'*'`. -/
def takeText : Bytes → Bytes
  | [] => []
  | b :: r => if b = colon ∨ b = star then [] else b :: takeText r

/-- The prefix of `r` up to and including its first `'/'`, or `r` when it has none. -/
def takeParameter : Bytes → Bytes
  | [] => []
  | b :: r => if b = slash then [b] else b :: takeParameter r

/-- The loop of `skipParameter` started at `pos`, on the bytes from `pos` on. -/
def skipFrom : Bytes → Nat → Nat
  | [], pos => pos
  | b :: r, pos => if b = slash then pos + 1 else skipFrom r (pos + 1)

def skipParameter (r : Bytes) (offset : Nat) : Nat :=
  if offset < r.length then skipFrom (r.drop offset) offset else r.length

def takePrefix : Bytes → Bytes → Bytes
  | x :: a, y :: b => if x = y then x :: takePrefix a b else []
  | _, _ => []

def newNode (route : Bytes) : Option node :=
  match route with
  | [] => none
  | b :: _ =>
    if b = colon then
      some (.mk .parameter false (takeParameter route) [] [] none 0)
    else
      some (.mk .text (decide (route.getLast? = some star)) (takeText route) [] [] none 0)

/-- The method `insertNode`: `child.route[0]` panics on an empty route. -/
def node.insertNode (n child : node) : Run node :=
  match n with
  | .mk k w r i c s cost =>
    if child.kind = .text then
      match child.route with
      | [] => .panic
      | b :: _ => .ok (.mk k w r (i ++ [b]) (c ++ [child]) s cost)
    else
      .ok (.mk k w r i c (some child) cost)

/-- The loop of `newList` from the node `current` on: the chain below `current` is built
for `remainder` and the last node receives `cost`.  `current` is returned completed. -/
def newListLoop : Nat → node → Bytes → Int → Run node
  | 0, _, _, _ => .outOfFuel
  | fuel + 1, current, remainder, cost =>
    if remainder = [] ∨ remainder = [star] then
      .ok (current.setCost cost)
    else
      match newNode remainder with
      | none => .panic
      | some next =>
        (current.insertNode next).andThen fun _ =>
          (newListLoop fuel next (remainder.drop next.route.length) cost).andThen fun next1 =>
            current.insertNode next1

def newList (route : Bytes) (cost : Int) : Run (Option node) :=
  match newNode route with
  | none => .ok none
  | some head =>
    (newListLoop (route.length + 1) head (route.drop head.route.length) cost).andThen
      fun h => .ok (some h)

/-- The code of `insertRoute` after the `walk` loop, on the node the loop stopped at. -/
def insertFinish (current : node) (remainder : Bytes) (cost : Int) : Run node :=
  if remainder = [] then
    .ok (current.setCost cost)
  else if remainder = [star] then
    .ok ((current.setCost cost).setHasWildcard true)
  else
    (newList remainder cost).andThen fun stem =>
      match stem with
      | none => .panic
      | some s => current.insertNode s

/-- The split of a text node at `pre`, a strict prefix of its route. -/
def splitNode (current : node) (pre : Bytes) : node :=
  match current with
  | .mk _ w r i c s cost =>
    let stem := node.mk .text w (r.drop pre.length) i c s cost
    .mk .text w pre (stem.route.take 1) [stem] none 0

/-- What one pass through the `walk` loop of `insertRoute` decides. -/
inductive insertStep where
  /-- The loop is left (`break`, or the remainder is used up). -/
  | finish (current : node) (remainder : Bytes)
  /-- The step `continue` after a text node was matched up to a `':'`; `current` stays. -/
  | again (current : node) (remainder : Bytes)
  /-- The step `current = current.special`. -/
  | intoSpecial (current : node) (sp : node) (remainder : Bytes)
  /-- The step `current = current.children[idx]`. -/
  | intoChild (current : node) (idx : Nat) (child : node) (remainder : Bytes)
  | panic

/-- The search of `remainder[0]` in `current.index` at the end of the loop body. -/
def findChild (current : node) (remainder : Bytes) (c : Nat) : insertStep :=
  let idx := current.index.indexOf c
  if idx < current.index.length then
    match current.children[idx]? with
    | none => .panic
    | some child => .intoChild current idx child remainder
  else
    .finish current remainder

/-- The body of the `walk` loop of `insertRoute`; a text node is split in place. -/
def insertBody (current : node) (remainder : Bytes) : insertStep :=
  match remainder with
  | [] => .finish current []
  | b :: _ =>
    if b = colon then
      match current.special with
      | none => .finish current remainder
      | some sp => .intoSpecial current sp (remainder.drop (takeParameter remainder).length)
    else if current.kind = .text then
      let pre := takePrefix remainder current.route
      let current1 := if pre.length < current.route.length then splitNode current pre
                      else current
      let remainder1 := remainder.drop pre.length
      match remainder1 with
      | [] => .finish current1 []
      | b1 :: _ =>
        if b1 = colon then .again current1 remainder1
        else findChild current1 remainder1 b1
    else
      findChild current remainder b

/-- The `walk` loop of `insertRoute` from `current` on, followed by the code after the
loop; the result is `current` as the call leaves it. -/
def insertRouteLoop : Nat → node → Bytes → Int → Run node
  | 0, _, _, _ => .outOfFuel
  | fuel + 1, current, remainder, cost =>
    match insertBody current remainder with
    | .finish current1 remainder1 => insertFinish current1 remainder1 cost
    | .again current1 remainder1 => insertRouteLoop fuel current1 remainder1 cost
    | .intoSpecial current1 sp remainder1 =>
      (insertRouteLoop fuel sp remainder1 cost).andThen fun sp1 =>
        .ok (current1.setSpecial (some sp1))
    | .intoChild current1 idx child remainder1 =>
      (insertRouteLoop fuel child remainder1 cost).andThen fun child1 =>
        .ok (current1.setChildren (current1.children.set idx child1))
    | .panic => .panic

mutual
def node.size : node → Nat
  | .mk _ _ _ _ c s _ => 1 + sizeList c + sizeOpt s
def sizeList : List node → Nat
  | [] => 0
  | n :: ns => n.size + sizeList ns
def sizeOpt : Option node → Nat
  | none => 0
  | some n => n.size
end

def node.insertRoute (n : node) (route : Bytes) (cost : Int) : Run node :=
  insertRouteLoop (2 * n.size + 2) n route cost

def tree.get (t : tree) (method : Bytes) : Option node :=
  match t.roots.find? (fun b => decide (b.method = method)) with
  | some b => b.node
  | none => none

/-- Store `n` in the first root of `method` (the node `tree.get` hands out). -/
def setRoot : List root → Bytes → node → List root
  | [], _, _ => []
  | b :: bs, method, n =>
    if b.method = method then { method := b.method, node := some n } :: bs
    else b :: setRoot bs method n

def tree.add (t : tree) (method : Bytes) (route : Bytes) (cost : Int) : Run tree :=
  match t.get method with
  | some rootNode =>
    (rootNode.insertRoute route cost).andThen fun n => .ok { roots := setRoot t.roots method n }
  | none =>
    (newList route cost).andThen fun head =>
      .ok { roots := t.roots ++ [{ method := method, node := head }] }

/-- The number of leading bytes on which `a` and `b` agree. -/
def matchLen : Bytes → Bytes → Nat
  | x :: a, y :: b => if x = y then matchLen a b + 1 else 0
  | _, _ => 0

/-- What one pass through the body of the `walk` loop of `get` does: it returns, or it
goes on (`continue walk`) with a new state. -/
inductive getStep where
  | done (result : Run Int)
  | next (current : node) (offset : Nat) (cost : Int) (checkpoints : List checkpoint)

/-- Pop the last checkpoint, or leave the loop (`break`, then `return cost`) when there is
none.  The stack has its top at the head. -/
def popCheckpoint (cost : Int) : List checkpoint → getStep
  | cp :: rest => .next cp.node cp.offset cp.cost rest
  | [] => .done (.ok cost)

/-- The part `find next node` of the loop body of `get`. -/
def findNext (route : Bytes) (current : node) (offset : Nat) (cost : Int)
    (checkpoints : List checkpoint) : getStep :=
  match route[offset]? with
  | none => .done .panic
  | some c =>
    let pos := current.index.indexOf c
    if pos < current.index.length then
      match current.children[pos]? with
      | none => .done .panic
      | some child =>
        match current.special with
        | some sp =>
          .next child offset cost ({ node := sp, offset := offset, cost := cost } :: checkpoints)
        | none => .next child offset cost checkpoints
    else
      match current.special with
      | some sp => .next sp offset cost checkpoints
      | none =>
        if current.hasWildcard then .done (.ok current.cost)
        else popCheckpoint cost checkpoints

/-- The body of the `walk` loop of `get`, for a non-nil `current`. -/
def getBody (route : Bytes) (current : node) (offset : Nat) (cost0 : Int)
    (checkpoints : List checkpoint) : getStep :=
  let cost := if current.hasWildcard then current.cost else cost0
  let remLen := route.length - offset
  if current.kind = .text then
    let currentLen := current.route.length
    let maxLen := min currentLen remLen
    let prefixLen := matchLen current.route (route.drop offset)
    let offset1 := offset + prefixLen
    if prefixLen = maxLen ∧
        (prefixLen = remLen ∨ (prefixLen + 1 = remLen ∧ route[offset1]? = some slash)) then
      .done (.ok current.cost)
    else
      findNext route current offset1 cost checkpoints
  else
    let offset1 := skipParameter route offset
    if offset1 = route.length then
      if current.cost > 0 then .done (.ok current.cost)
      else popCheckpoint cost checkpoints
    else
      findNext route current offset1 cost checkpoints

/-- The `walk` loop of `get`: it ends when `current` is nil or the body returns. -/
def getLoop : Nat → Bytes → Option node → Nat → Int → List checkpoint → Run Int
  | 0, _, _, _, _, _ => .outOfFuel
  | _ + 1, _, none, _, cost, _ => .ok cost
  | fuel + 1, route, some current, offset, cost, checkpoints =>
    match getBody route current offset cost checkpoints with
    | .done result => result
    | .next current1 offset1 cost1 checkpoints1 =>
      getLoop fuel route (some current1) offset1 cost1 checkpoints1

/-- The method `get` of a (nil-able) node. -/
def node.get (n : Option node) (route : Bytes) : Run Int :=
  getLoop (sizeOpt n + 1) route n 0 0 []

/-- Add the routes in order, starting from the tree `t`. -/
def addAll : tree → List Route → Run tree
  | t, [] => .ok t
  | t, r :: rs => (t.add r.method r.route r.cost).andThen fun t1 => addAll t1 rs

/-- The tree built from the empty tree by adding the routes in order. -/
def build (rs : List Route) : Run tree :=
  addAll { roots := [] } rs

/-- Build the tree with `add`, take the root of `method`, and look `path` up. -/
def lookup (rs : List Route) (method : Bytes) (path : Bytes) : Run Int :=
  (build rs).andThen fun t => node.get (t.get method) path

/-! ### dump -/

/-- The Go map write `m[key] = v`, on an association list. -/
def mapSet : List (Bytes × Int) → Bytes → Int → List (Bytes × Int)
  | [], key, v => [(key, v)]
  | (k, w) :: m, key, v => if k = key then (k, v) :: m else (k, w) :: mapSet m key v

mutual
/-- The function `dumpNode` for one method: `results` is the map `results[method]`. -/
def dumpNode : node → Bytes → List (Bytes × Int) → List (Bytes × Int)
  | .mk kind _ route _ children special cost, pre, results =>
    let fullRoute := pre ++ route
    let results1 := if cost > 0 then mapSet results (stripTrailingSlash fullRoute) cost
                    else results
    let fullRoute1 := if kind = .parameter then addTrailingSlash fullRoute else fullRoute
    let results2 := dumpSpecial special fullRoute1 results1
    dumpChildren children fullRoute1 results2
/-- The call on `node.special` when it is not nil. -/
def dumpSpecial : Option node → Bytes → List (Bytes × Int) → List (Bytes × Int)
  | none, _, results => results
  | some sp, pre, results => dumpNode sp pre results
/-- The loop over `node.children`. -/
def dumpChildren : List node → Bytes → List (Bytes × Int) → List (Bytes × Int)
  | [], _, results => results
  | c :: cs, pre, results => dumpChildren cs pre (dumpNode c pre results)
end

/-- The Go map write `results[method] = m` on the outer map. -/
def outerSet : List (Bytes × List (Bytes × Int)) → Bytes → List (Bytes × Int) →
    List (Bytes × List (Bytes × Int))
  | [], method, m => [(method, m)]
  | (k, w) :: o, method, m => if k = method then (k, m) :: o else (k, w) :: outerSet o method m

/-- The first loop of `dump`; `dumpNode` on a nil root node dereferences nil. -/
def dumpRoots : List root → List (Bytes × List (Bytes × Int)) →
    Run (List (Bytes × List (Bytes × Int)))
  | [], results => .ok results
  | r :: rs, results =>
    match r.node with
    | none => .panic
    | some n => dumpRoots rs (outerSet results r.method (dumpNode n [] []))

/-- Go's `<` on strings: bytewise lexicographic order. -/
def bytesLess : Bytes → Bytes → Bool
  | [], [] => false
  | [], _ :: _ => true
  | _ :: _, [] => false
  | x :: a, y :: b => if x < y then true else if y < x then false else bytesLess a b

/-- The `less` function handed to `sort.Slice` in `dump`. -/
def routeLess (a b : Route) : Bool :=
  if bytesLess a.method b.method then true
  else decide (a.method = b.method) && bytesLess a.route b.route

/-- Insert into a list sorted by `routeLess`. -/
def sortedInsert (r : Route) : List Route → List Route
  | [] => [r]
  | x :: xs => if routeLess x r then x :: sortedInsert r xs else r :: x :: xs

/-- The effect of `sort.Slice` with `routeLess` (the keys of the maps are distinct). -/
def sortRoutes : List Route → List Route
  | [] => []
  | r :: rs => sortedInsert r (sortRoutes rs)

def tree.dump (t : tree) : Run (List Route) :=
  (dumpRoots t.roots []).andThen fun results =>
    .ok (sortRoutes (results.flatMap fun mc =>
      mc.2.map fun rc => { method := mc.1, route := rc.1, cost := rc.2 }))

/-! ### validateRoute -/

/-- The class `\w` of Go's regexp: `[0-9A-Za-z_]`. -/
def isWord (b : Nat) : Bool :=
  (decide (48 ≤ b) && decide (b ≤ 57)) || (decide (65 ≤ b) && decide (b ≤ 90)) ||
    decide (b = 95) || (decide (97 ≤ b) && decide (b ≤ 122))

/-- Go's `regexp.FindAllStringIndex` for the pattern of `parameterPattern`, a `':'`
followed by the longest run of word bytes: the leftmost non-overlapping matches as
`(start, end)` pairs.  The bytes still to scan start at position `pos`; `start` is the
`':'` of the match being extended, if any. -/
def findParams : Bytes → Nat → Option Nat → List (Nat × Nat)
  | [], pos, some s => [(s, pos)]
  | [], _, none => []
  | b :: r, pos, some s =>
    if isWord b then findParams r (pos + 1) (some s)
    else (s, pos) :: (if b = colon then findParams r (pos + 1) (some pos)
                      else findParams r (pos + 1) none)
  | b :: r, pos, none =>
    if b = colon then findParams r (pos + 1) (some pos) else findParams r (pos + 1) none

/-- The loop of `validateRoute` over the parameter locations; the result is the error
message, if one is returned.  `text[start-1]` and `text[start : end+1]` panic when out
of range. -/
def checkParams (text : Bytes) : List (Nat × Nat) → Run (Option Bytes)
  | [] => .ok none
  | (s, e) :: rest =>
    match (if s = 0 then none else text[s - 1]?) with
    | none => .panic
    | some b =>
      if b ≠ slash then
        if e + 1 ≤ text.length then
          .ok (some (str "parameter '" ++ (text.take (e + 1)).drop s ++
            str "' must directly follow '/' in the route: " ++ text))
        else .panic
      else if e - s < 2 then
        .ok (some (str "at least one parameter is not named in the route: " ++ text))
      else checkParams text rest

/-- The function `validateRoute`: the returned route and the error (`none` is Go's nil
error, otherwise the message). -/
def validateRoute (text : Bytes) : Run (Bytes × Option Bytes) :=
  if text = [] ∨ text.head? ≠ some slash then
    .ok ([], some (str "route must start with '/': " ++ text))
  else
    let lastPos := text.length - 1
    let wildcardPos := text.indexOf star
    if wildcardPos < text.length ∧ wildcardPos < lastPos then
      .ok ([], some (str "wildcard '*' is only allowed at the end of the route: " ++ text))
    else
      (checkParams text ((findParams text 0 none).take text.length)).andThen fun err =>
        match err with
        | some e => .ok ([], some e)
        | none =>
          if text[lastPos]? = some slash then .ok (text.take lastPos, none)
          else .ok (text, none)

/-! ## pkg/proxy: action.go, rule.go, http.go, session.go -/

inductive Action where
  | TunnelAction
  | BlockAction
  | MITMAction
deriving DecidableEq

/-- What the session inspects of a Go `error` value. -/
structure NetError where
  /-- The value of `errors.Is(e, context.DeadlineExceeded)`. -/
  deadlineExceeded : Bool
  /-- Whether `errors.As` finds a `tls.RecordHeaderError`. -/
  recordHeader : Bool
  /-- Whether `errors.As` finds a `*tls.CertificateVerificationError`. -/
  certificateVerification : Bool
deriving DecidableEq

/-- A network connection, by identity. -/
abbrev Conn := Nat

/-- A `*tls.Config`, by identity. -/
abbrev TLSConfig := Nat

structure Request where
  Method : Bytes
  Host : Bytes
  /-- The value of `isWebsocketUpgrade` on the headers of the request. -/
  websocketUpgrade : Bool
deriving DecidableEq

/-- The constant `http.MethodConnect`. -/
def MethodConnect : Bytes := str "CONNECT"

structure Response where
  ProtoMajor : Nat
  ProtoMinor : Nat
  StatusCode : Nat
  Status : Bytes
  Request : Option Request
  Close : Bool
deriving DecidableEq

/-- What a handler of a rule does with the `*Context` it is given.  The field `s` of the
Context is unexported, so a handler reads and writes `Request` and `Response` (both
pointers, nil is `none`) and reaches the session through `c.Next()` only.  One run of
a handler is a tree: it assigns the two fields and returns, or assigns them and panics,
or assigns them, calls `c.Next()` and goes on according to what it then reads. -/
inductive HandlerRun where
  | ret (request : Option Request) (response : Option Response)
  | throw (request : Option Request) (response : Option Response)
  | next (request : Option Request) (response : Option Response)
      (k : Option Request → Option Response → HandlerRun)

/-- The type `Handler`, a `func(c *Context)`: the run it makes from the fields it finds. -/
abbrev Handler := Option Request → Option Response → HandlerRun

structure Rule where
  Action : Action
  ClientConfig : Option (Bytes → Except NetError TLSConfig)
  ServerConfig : Option (Bytes → Except NetError TLSConfig)
  Handlers : List Handler := []

/-- The parts of `Engine` the session calls, and the network behind them. -/
structure Engine where
  dialTCP : Bytes → Except NetError Conn
  dialTLS : Bytes → TLSConfig → Except NetError Conn
  clientConfig : Bytes → Except NetError TLSConfig
  serverConfig : Bytes → Except NetError TLSConfig
  /-- The call `Request.Write(serverConn)`: the error, if any. -/
  writeRequest : Request → Conn → Option NetError
  /-- The call `http.ReadResponse(serverReader, request)`. -/
  readResponse : Conn → Request → Except NetError Response

/-- The two methods stored in `postRequestAction`. -/
inductive PostAction where
  | tunnel
  | clientHandshake
deriving DecidableEq

/-- A dial made by the session. -/
inductive Dial where
  | tcp (host : Bytes)
  | tls (host : Bytes) (config : TLSConfig)
deriving DecidableEq

structure session where
  engine : Engine
  rule : Rule
  serverHost : Bytes
  clientTLSConfig : Option TLSConfig
  serverConn : Option Conn
  serverReader : Option Conn
  close : Bool
  callDepth : Nat
  postRequestAction : Option PostAction
  /-- The dials made so far, oldest first (not a field of the Go struct). -/
  dials : List Dial

def StatusOK : Nat := 200
def StatusForbidden : Nat := 403
def StatusInternalServerError : Nat := 500
def StatusBadGateway : Nat := 502
def StatusGatewayTimeout : Nat := 504

def newHTTP10ConnectionEstablished (r : Request) : Response :=
  { ProtoMajor := 1, ProtoMinor := 0, StatusCode := StatusOK,
    Status := str "200 Connection established", Request := some r, Close := false }

def newHTTP11Response (statusCode : Nat) (r : Option Request) : Response :=
  { ProtoMajor := 1, ProtoMinor := 1, StatusCode := statusCode, Status := [],
    Request := r, Close := false }

def session.clientConfigOrDefault (s : session) : Except NetError TLSConfig :=
  match s.rule.ClientConfig with
  | some f => f s.serverHost
  | none => s.engine.clientConfig s.serverHost

def session.serverConfigOrDefault (s : session) : Except NetError TLSConfig :=
  match s.rule.ServerConfig with
  | some f => f s.serverHost
  | none => s.engine.serverConfig s.serverHost

def session.onWriteErr (s : session) (r : Request) (_e : NetError) : Response × session :=
  (newHTTP11Response StatusBadGateway (some r), { s with close := true })

def session.onReadError (s : session) (r : Request) (_e : NetError) : Response × session :=
  (newHTTP11Response StatusBadGateway (some r), { s with close := true })

def session.onCertificateVerificationFailure (s : session) (r : Request) (_e : NetError) :
    Response × session :=
  (newHTTP11Response StatusBadGateway (some r), { s with close := true })

def session.onTLSConfigError (s : session) (r : Request) (_e : NetError) : Response × session :=
  (newHTTP11Response StatusInternalServerError (some r), { s with close := true })

def session.onTCPDialError (s : session) (r : Request) (e : NetError) : Response × session :=
  let statusCode := if e.deadlineExceeded then StatusGatewayTimeout else StatusBadGateway
  (newHTTP11Response statusCode (some r), { s with close := true })

/-- The tail of `execute` for a request other than CONNECT, once `serverConn` is set:
write the request, read the response.  Reading through a nil `serverReader` panics. -/
def session.roundTrip (s : session) (r : Request) : Run (Response × session) :=
  match s.serverConn with
  | none => .panic
  | some conn =>
    match s.engine.writeRequest r conn with
    | some writeErr => .ok (s.onWriteErr r writeErr)
    | none =>
      match s.serverReader with
      | none => .panic
      | some reader =>
        match s.engine.readResponse reader r with
        | .error readErr => .ok (s.onReadError r readErr)
        | .ok resp =>
          if r.websocketUpgrade then .ok (resp, { s with postRequestAction := some .tunnel })
          else .ok (resp, s)

/-- The method `execute`: the response it returns and the session as it leaves it. -/
def session.execute (s : session) (r : Request) : Run (Response × session) :=
  if s.rule.Action = .BlockAction then
    .ok (newHTTP11Response StatusForbidden none, s)
  else if r.Method = MethodConnect then
    if s.rule.Action = .TunnelAction then
      let s1 := { s with dials := s.dials ++ [Dial.tcp r.Host] }
      match s.engine.dialTCP r.Host with
      | .error dialErr => .ok (s1.onTCPDialError r dialErr)
      | .ok serverConn =>
        .ok (newHTTP10ConnectionEstablished r,
          { s1 with serverConn := some serverConn, postRequestAction := some .tunnel })
    else
      match s.serverConfigOrDefault with
      | .error serverConfigErr => .ok (s.onTLSConfigError r serverConfigErr)
      | .ok serverConfig =>
        let s1 := { s with dials := s.dials ++ [Dial.tls r.Host serverConfig] }
        match s.engine.dialTLS r.Host serverConfig with
        | .error dialErr =>
          if dialErr.recordHeader then
            let s2 := { s1 with dials := s1.dials ++ [Dial.tcp r.Host] }
            match s.engine.dialTCP r.Host with
            | .error tcpDialErr => .ok (s2.onTCPDialError r tcpDialErr)
            | .ok tcpServerConn =>
              match s2.clientConfigOrDefault with
              | .error clientConfigErr => .ok (s2.onTLSConfigError r clientConfigErr)
              | .ok clientConfig =>
                .ok (newHTTP10ConnectionEstablished r,
                  { s2 with serverConn := some tcpServerConn,
                            serverReader := some tcpServerConn,
                            clientTLSConfig := some clientConfig,
                            postRequestAction := some .clientHandshake })
          else if dialErr.certificateVerification then
            .ok (s1.onCertificateVerificationFailure r dialErr)
          else
            .ok (s1.onTCPDialError r dialErr)
        | .ok serverConn =>
          let s2 := { s1 with serverConn := some serverConn, serverReader := some serverConn }
          match s2.clientConfigOrDefault with
          | .error clientConfigErr => .ok (s2.onTLSConfigError r clientConfigErr)
          | .ok clientConfig =>
            .ok (newHTTP10ConnectionEstablished r,
              { s2 with clientTLSConfig := some clientConfig,
                        postRequestAction := some .clientHandshake })
  else
    match s.serverConn with
    | some _ => s.roundTrip r
    | none =>
      let s1 := { s with dials := s.dials ++ [Dial.tcp r.Host] }
      match s.engine.dialTCP r.Host with
      | .error dialErr => .ok (s1.onTCPDialError r dialErr)
      | .ok serverConn =>
        { s1 with serverConn := some serverConn, serverReader := some serverConn }.roundTrip r

/-! ## pkg/proxy/context.go and the request loop of pkg/proxy/session.go -/

/-- One step of the request, recorded in order (not part of the Go state): a handler
dispatched by `Next` (`some i` for `Handlers[i]`, `none` for the method `handler` of the
session), the value of `callDepth` when a call of `Next` returns, the response handed to
`Response.Write`, a post-request action invoked. -/
inductive Event where
  | call (target : Option Nat)
  | ret (callDepth : Nat)
  | write (resp : Response)
  | action (a : PostAction)
deriving DecidableEq

structure Context where
  Request : Option Request
  Response : Option Response
  s : session
  /-- The steps taken so far, oldest first (not a field of the Go struct). -/
  log : List Event

/-- How a call on a Context ends: it returns, it panics (the Context as the panic leaves
it), or the fuel of the model is used up. -/
inductive Flow where
  | done (c : Context)
  | panicked (c : Context)
  | outOfFuel

/-- What `nextHandler` returns: a handler of the rule with its position, or the method
`handler` of the session. -/
inductive NextHandler where
  | rule (i : Nat) (h : Handler)
  | transport

def session.nextHandler (s : session) : NextHandler × session :=
  if h : s.callDepth < s.rule.Handlers.length then
    (.rule s.callDepth (s.rule.Handlers.get ⟨s.callDepth, h⟩),
      { s with callDepth := s.callDepth + 1 })
  else
    (.transport, s)

/-- The method `handler` of the session, `c.Response = s.execute(c)`.  With a nil
`c.Request` the Block branch of `execute` still returns, every other branch dereferences
the request first.  A panic of `execute` (reading through a nil `serverReader`) comes
before any assignment to the session. -/
def Context.handler (c : Context) : Flow :=
  match c.Request with
  | none =>
    if c.s.rule.Action = .BlockAction then
      .done { c with Response := some (newHTTP11Response StatusForbidden none) }
    else .panicked c
  | some r =>
    match c.s.execute r with
    | .ok (resp, s1) => .done { c with Response := some resp, s := s1 }
    | .panic => .panicked c
    | .outOfFuel => .outOfFuel

/-- One run of a handler on the Context; `next` is the method `c.Next`. -/
def HandlerRun.run (next : Context → Flow) : HandlerRun → Context → Flow
  | .ret rq rs, c => .done { c with Request := rq, Response := rs }
  | .throw rq rs, c => .panicked { c with Request := rq, Response := rs }
  | .next rq rs k, c =>
    match next { c with Request := rq, Response := rs } with
    | .done c1 => (k c1.Request c1.Response).run next c1
    | .panicked c1 => .panicked c1
    | .outOfFuel => .outOfFuel

/-- The body of `Next`: `h := c.s.nextHandler(); h(c)`. -/
def Context.invoke (next : Context → Flow) (c : Context) : Flow :=
  match c.s.nextHandler with
  | (.rule i h, s1) =>
    (h c.Request c.Response).run next { c with s := s1, log := c.log ++ [.call (some i)] }
  | (.transport, s1) =>
    Context.handler { c with s := s1, log := c.log ++ [.call none] }

/-- The deferred function of `Next`: a panic of the body is recovered, `close` is set and
the response is the synthesised 500; then `Next` returns. -/
def Flow.leave : Flow → Flow
  | .done c => .done { c with log := c.log ++ [.ret c.s.callDepth] }
  | .panicked c =>
    .done { c with s := { c.s with close := true },
                   Response := some (newHTTP11Response StatusInternalServerError c.Request),
                   log := c.log ++ [.ret c.s.callDepth] }
  | .outOfFuel => .outOfFuel

/-- The method `Next`.  The fuel bounds the depth of the calls of `Next` inside handlers. -/
def Context.Next : Nat → Context → Flow
  | 0, _ => .outOfFuel
  | fuel + 1, c => (Context.invoke (Context.Next fuel) c).leave

/-- The client side of a session: what `Response.Write(s.clientConn)` returns for a
response, and what the TLS handshake on `clientConn` returns for a configuration. -/
structure ClientSide where
  write : Response → Option NetError
  handshake : Option TLSConfig → Option NetError

/-- The method `tunnel`: after the pipe ends, `close` is set and nil is returned. -/
def session.tunnel (s : session) : session × Option NetError :=
  ({ s with close := true }, none)

/-- The method `clientHandshake`: the error of the handshake, if any (the replacement of
`clientConn` by the TLS stream is on the client side). -/
def session.clientHandshake (s : session) (cl : ClientSide) : session × Option NetError :=
  (s, cl.handshake s.clientTLSConfig)

def session.reset (s : session) : session :=
  { s with callDepth := 0, postRequestAction := none }

/-- The call `s.postRequestAction()`. -/
def PostAction.invoke (a : PostAction) (s : session) (cl : ClientSide) :
    session × Option NetError :=
  match a with
  | .tunnel => s.tunnel
  | .clientHandshake => s.clientHandshake cl

/-- The nil check of `handle` after the chain: the response to write and the session. -/
def Context.settle (c : Context) : Glove.Response × session :=
  match c.Response with
  | none => (newHTTP11Response StatusInternalServerError c.Request, { c.s with close := true })
  | some resp => (resp, c.s)

/-- The write of `handle`: `c.Response.Close = s.close`, then `Response.Write`; an error
of the write sets `close`. -/
def session.writeResponse (s : session) (cl : ClientSide) (resp : Glove.Response) :
    Glove.Response × session :=
  let resp1 := { resp with Close := s.close }
  match cl.write resp1 with
  | some _ => (resp1, { s with close := true })
  | none => (resp1, s)

/-- The end of `handle`: the pending action, if any, is invoked and the session is reset;
the actions invoked are returned. -/
def session.afterWrite (s : session) (cl : ClientSide) : session × List Event :=
  match s.postRequestAction with
  | some a =>
    match a.invoke s cl with
    | (s1, some _) => (({ s1 with close := true } : session).reset, [.action a])
    | (s1, none) => (s1.reset, [.action a])
  | none => (s.reset, [])

/-- The part of `handle` after the handler chain, from the Context the chain leaves. -/
def Context.finish (c : Context) (cl : ClientSide) : session × List Event :=
  let written := c.settle.2.writeResponse cl c.settle.1
  let ended := written.2.afterWrite cl
  (ended.1, c.log ++ [.write written.1] ++ ended.2)

/-- The method `handle`: the session as it is left and the steps of the request. -/
def session.handle (s : session) (cl : ClientSide) (r : Request) : Run (session × List Event) :=
  let c : Context := { Request := some r, Response := none, s := s, log := [] }
  match c.Next (s.rule.Handlers.length + 1) with
  | .done c1 => .ok (c1.finish cl)
  | .panicked _ => .panic
  | .outOfFuel => .outOfFuel

/-! ## internal/acl -/

/-- A `net.IP`: a byte slice. -/
abbrev IP := List Nat

/-- A `net.IPNet`. -/
structure IPNet where
  IP : IP
  Mask : List Nat
deriving DecidableEq

/-- An `error` value of the package: its own `ErrNoRemoteAddress`, or an error that comes
from outside (the wrapped listener, package `net`), by identity. -/
inductive AclError where
  | ErrNoRemoteAddress
  | foreign (id : Nat)
deriving DecidableEq

/-- The functions of the Go package `net` that the package calls. -/
structure NetLib where
  /-- The method `IP.String`. -/
  ipString : IP → Bytes
  /-- The method `IPNet.Contains`. -/
  contains : IPNet → IP → Bool
  /-- The function `net.SplitHostPort`: the host, or the error. -/
  splitHostPort : Bytes → Except AclError Bytes
  /-- The function `net.ParseIP` (nil, the empty slice, for a text that is no address). -/
  parseIP : Bytes → IP

structure WhiteListOptions where
  ip : List (Bytes × Bool)
  mask : List IPNet

structure Whitelist where
  ip : List (Bytes × Bool)
  mask : List IPNet

abbrev WhitelistOption := WhiteListOptions → WhiteListOptions

/-- The Go map write `m[key] = v` of a `map[string]bool`, on an association list. -/
def flagSet : List (Bytes × Bool) → Bytes → Bool → List (Bytes × Bool)
  | [], key, v => [(key, v)]
  | (k, w) :: m, key, v => if k = key then (k, v) :: m else (k, w) :: flagSet m key v

/-- The Go map read `v, ok := m[key]`: `none` when `ok` is false. -/
def flagGet : List (Bytes × Bool) → Bytes → Option Bool
  | [], _ => none
  | (k, w) :: m, key => if k = key then some w else flagGet m key

def NewWhitelist (opts : List WhitelistOption) : Whitelist :=
  let options := opts.foldl (fun o opt => opt o) { ip := [], mask := [] }
  { ip := options.ip, mask := options.mask }

def WithIP (lib : NetLib) (ip : IP) : WhitelistOption :=
  fun opts => { opts with ip := flagSet opts.ip (lib.ipString ip) true }

def WithMask (net : IPNet) : WhitelistOption :=
  fun opts => { opts with mask := opts.mask ++ [net] }

/-- The loop of `Allowed` over the masks. -/
def anyMask (lib : NetLib) (ip : IP) : List IPNet → Bool
  | [] => false
  | mask :: rest => if lib.contains mask ip then true else anyMask lib ip rest

def Whitelist.Allowed (lib : NetLib) (w : Whitelist) (ip : IP) : Bool :=
  match flagGet w.ip (lib.ipString ip) with
  | some _ => true
  | none => anyMask lib ip w.mask

/-- A `net.Conn` as the listener sees it: its identity and the text of `RemoteAddr()`,
`none` for a nil address. -/
structure NetConn where
  id : Nat
  remoteAddr : Option Bytes
deriving DecidableEq

/-- The function `netConnLookup`: the IP returned (nil is `[]`) and the error. -/
def netConnLookup (lib : NetLib) (conn : NetConn) : IP × Option AclError :=
  match conn.remoteAddr with
  | none => ([], some .ErrNoRemoteAddress)
  | some addr =>
    match lib.splitHostPort addr with
    | .error err => ([], some err)
    | .ok host => (lib.parseIP host, none)

/-- One result of `Accept` of the wrapped listener. -/
inductive Incoming where
  | conn (c : NetConn)
  | error (e : AclError)
deriving DecidableEq

/-- The type `Listener`: the ACL by its method `Allowed`, and the wrapped listener by the
results its `Accept` is going to return, in order. -/
structure Listener where
  acl : IP → Bool
  listener : List Incoming

/-- What a call of `Accept` returns and does: the connection, the error, the connections
it closed (in order, one entry per call of `Close`), and the listener as it is left. -/
structure Accepted where
  conn : Option NetConn
  err : Option AclError
  closed : List NetConn
  rest : List Incoming
deriving DecidableEq

/-- The loop of `Accept`; `closed` holds the connections closed so far.  When the wrapped
listener has no further result its `Accept` blocks: `none`. -/
def acceptLoop (lib : NetLib) (acl : IP → Bool) : List Incoming → List NetConn → Option Accepted
  | [], _ => none
  | .error acceptErr :: rest, closed =>
    some { conn := none, err := some acceptErr, closed := closed, rest := rest }
  | .conn conn :: rest, closed =>
    match netConnLookup lib conn with
    | (_, some lookupErr) =>
      some { conn := none, err := some lookupErr, closed := closed ++ [conn], rest := rest }
    | (ip, none) =>
      if acl ip then some { conn := some conn, err := none, closed := closed, rest := rest }
      else acceptLoop lib acl rest (closed ++ [conn])

def Listener.Accept (lib : NetLib) (l : Listener) : Option Accepted :=
  acceptLoop lib l.acl l.listener []

/-! ## internal/urllib/urllib.go -/

/-- Byte `','`. -/
abbrev comma : Nat := 44

/-- What `ClientIP` reads of a `*http.Request`: the field `RemoteAddr` and the method
`Header.Get`. -/
structure HTTPRequest where
  RemoteAddr : Bytes
  Header : Bytes → Bytes

/-- The call `strings.Split(s, ",")`. -/
def splitComma : Bytes → List Bytes
  | [] => [[]]
  | b :: s =>
    if b = comma then [] :: splitComma s
    else
      match splitComma s with
      | item :: items => (b :: item) :: items
      | [] => [[b]]

/-- The function `RemoteIp`; `trimSpace` is `strings.TrimSpace`, and a nil `net.IP` is
the empty slice. -/
def RemoteIp (lib : NetLib) (trimSpace : Bytes → Bytes) (r : HTTPRequest) : IP :=
  match lib.splitHostPort (trimSpace r.RemoteAddr) with
  | .error _ => []
  | .ok ip => lib.parseIP ip

/-- The loop of `parseIpHeader`, `for i := len(items) - 1; i >= 0; i--`; the argument is
`i + 1`. -/
def parseIpLoop (lib : NetLib) (trimSpace : Bytes → Bytes) (items : List Bytes) : Nat → IP
  | 0 => []
  | i + 1 =>
    match items[i]? with
    | none => []
    | some item =>
      let ip := lib.parseIP (trimSpace item)
      if ip ≠ [] then ip else parseIpLoop lib trimSpace items i

def parseIpHeader (lib : NetLib) (trimSpace : Bytes → Bytes) (header : Bytes) : IP :=
  if header = [] then []
  else
    let items := splitComma header
    parseIpLoop lib trimSpace items items.length

/-- The loop of `ClientIP` over the header names. -/
def headerLoop (lib : NetLib) (trimSpace : Bytes → Bytes) (r : HTTPRequest) (remoteIP : IP) :
    List Bytes → IP
  | [] => remoteIP
  | headerName :: rest =>
    let ip := parseIpHeader lib trimSpace (r.Header headerName)
    if ip ≠ [] then ip else headerLoop lib trimSpace r remoteIP rest

def ClientIP (lib : NetLib) (trimSpace : Bytes → Bytes) (r : HTTPRequest) : IP :=
  let remoteIP := RemoteIp lib trimSpace r
  if remoteIP = [] then []
  else headerLoop lib trimSpace r remoteIP [str "X-Forwarded-For", str "X-Real-IP"]

/-! ## internal/ca -/

/-- A `crypto.PrivateKey` by its dynamic type: an `*rsa.PrivateKey` with the modulus `N`
of its public key, an `*ecdsa.PrivateKey` with its curve (by identity), or a value of
another type. -/
inductive PrivateKey where
  | rsa (N : Nat)
  | ecdsa (curve : Nat)
  | other (kind : Nat)
deriving DecidableEq

/-- The fields of `x509.Certificate` that the attribute setters write; `KeyUsage` is the
bit mask of the type `x509.KeyUsage`. -/
structure Certificate where
  IsCA : Bool
  BasicConstraintsValid : Bool
  KeyUsage : Nat
  ExtKeyUsage : List Nat
deriving DecidableEq

/-- The constant `x509.KeyUsageDigitalSignature`, `1 << 0`. -/
def KeyUsageDigitalSignature : Nat := 1
/-- The constant `x509.KeyUsageKeyEncipherment`, `1 << 2`. -/
def KeyUsageKeyEncipherment : Nat := 4
/-- The constant `x509.KeyUsageCertSign`, `1 << 5`. -/
def KeyUsageCertSign : Nat := 32
/-- The constant `x509.ExtKeyUsageServerAuth`. -/
def ExtKeyUsageServerAuth : Nat := 1
/-- The constant `x509.ExtKeyUsageClientAuth`. -/
def ExtKeyUsageClientAuth : Nat := 2

def setExtKeyUsage (cert : Certificate) : List Nat → Certificate
  | [] => cert
  | keyUsage :: keyUsages =>
    if keyUsage ∈ cert.ExtKeyUsage then setExtKeyUsage cert keyUsages
    else setExtKeyUsage { cert with ExtKeyUsage := cert.ExtKeyUsage ++ [keyUsage] } keyUsages

def setAttributesForCA (cert : Certificate) : Certificate :=
  let cert1 := { cert with IsCA := true }
  let cert2 := { cert1 with BasicConstraintsValid := true }
  let cert3 := { cert2 with
    KeyUsage := cert2.KeyUsage ||| (KeyUsageDigitalSignature ||| KeyUsageCertSign) }
  setExtKeyUsage cert3 [ExtKeyUsageServerAuth, ExtKeyUsageClientAuth]

def setAttributesForTLS (cert : Certificate) (privateKey : PrivateKey) : Certificate :=
  let cert1 := { cert with BasicConstraintsValid := true }
  let cert2 := { cert1 with KeyUsage := cert1.KeyUsage ||| KeyUsageDigitalSignature }
  let cert3 :=
    match privateKey with
    | .rsa _ => { cert2 with KeyUsage := cert2.KeyUsage ||| KeyUsageKeyEncipherment }
    | _ => cert2
  setExtKeyUsage cert3 [ExtKeyUsageServerAuth, ExtKeyUsageClientAuth]

/-- The method `big.Int.BitLen` on a modulus. -/
def bitLen (N : Nat) : Nat :=
  if N = 0 then 0 else Nat.log2 N + 1

/-- The method `rsa.PublicKey.Size`: the size of the modulus in bytes,
`(N.BitLen() + 7) / 8`. -/
def PublicKeySize (N : Nat) : Nat :=
  (bitLen N + 7) / 8

/-- The implementations of the interface `KeyGenerator`. -/
inductive KeyGenerator where
  | RSAKeyGenerator (Bits : Nat)
  | ECDSAKeyGenerator (Curve : Nat)
deriving DecidableEq

/-- The function `NewKeyGenerator`: the generator, or the error for the key kind. -/
def NewKeyGenerator (privateKey : PrivateKey) : Except Nat KeyGenerator :=
  match privateKey with
  | .rsa N => .ok (.RSAKeyGenerator (PublicKeySize N))
  | .ecdsa curve => .ok (.ECDSAKeyGenerator curve)
  | .other kind => .error kind

/-- The modulus size, in bits, that `RSAKeyGenerator.Next` asks of `rsa.GenerateKey`. -/
def KeyGenerator.nextBits : KeyGenerator → Option Nat
  | .RSAKeyGenerator bits => some bits
  | .ECDSAKeyGenerator _ => none

/-! ## internal/version -/

/-- Byte `'.'`. -/
abbrev dot : Nat := 46
/-- Byte `'-'`. -/
abbrev minus : Nat := 45

structure Version where
  Major : Int
  Minor : Int
  Patch : Int
  Suffix : Bytes
deriving DecidableEq

/-- The largest value of a Go `int` (64 bits). -/
def maxInt : Nat := 9223372036854775807

/-- The decimal digits of `n` in front of `acc`; the fuel bounds the number of digits. -/
def digitsLoop : Nat → Nat → Bytes → Bytes
  | 0, _, acc => acc
  | fuel + 1, n, acc =>
    if n < 10 then (48 + n) :: acc
    else digitsLoop fuel (n / 10) ((48 + n % 10) :: acc)

/-- The verb `%d` on a natural number. -/
def formatNat (n : Nat) : Bytes :=
  digitsLoop (n + 1) n []

/-- The verb `%d` of `fmt.Sprintf` on an `int`. -/
def formatInt : Int → Bytes
  | .ofNat n => formatNat n
  | .negSucc n => minus :: formatNat (n + 1)

def Version.String (v : Version) : Bytes :=
  formatInt v.Major ++ dot :: formatInt v.Minor ++ dot :: formatInt v.Patch ++ v.Suffix

/-- The class `\d` of the pattern. -/
def isDigit (b : Nat) : Bool :=
  decide (48 ≤ b) && decide (b ≤ 57)

/-- The class `\s` of the pattern: `[\t\n\f\r ]`. -/
def isSpace (b : Nat) : Bool :=
  decide (b = 9) || decide (b = 10) || decide (b = 12) || decide (b = 13) || decide (b = 32)

/-- The value of a string of decimal digits, read in front of the value `acc`. -/
def digitsValue : Bytes → Nat → Nat
  | [], acc => acc
  | b :: s, acc => digitsValue s (acc * 10 + (b - 48))

/-- The function `strconv.Atoi`: an optional sign and decimal digits; `none` for a syntax
error or a value out of the range of `int`. -/
def Atoi (value : Bytes) : Option Int :=
  match value with
  | [] => none
  | b :: s =>
    if b = minus then
      if s ≠ [] ∧ s.all isDigit ∧ digitsValue s 0 ≤ maxInt + 1 then
        some (-(digitsValue s 0 : Int))
      else none
    else if b = 43 then
      if s ≠ [] ∧ s.all isDigit ∧ digitsValue s 0 ≤ maxInt then some (digitsValue s 0 : Int)
      else none
    else if (b :: s).all isDigit ∧ digitsValue (b :: s) 0 ≤ maxInt then
      some (digitsValue (b :: s) 0 : Int)
    else none

def mustParseInt (value : Bytes) : Run Int :=
  match Atoi value with
  | some number => .ok number
  | none => .panic

/-- A match of `versionPattern`,
`(?P<major>\d+)\.(?P<minor>\d+)\.(?P<patch>\d+)(?P<suffix>\S+)?`, that starts at the head
of `s`: the groups 1 to 4.  Every repetition is greedy; a run of digits shorter than the
longest one is followed by a digit, not by `'.'`, so the longest run is the only
candidate, and the optional suffix takes the longest run of non-space bytes. -/
def matchHere (s : Bytes) : Option (Bytes × Bytes × Bytes × Bytes) :=
  let major := s.takeWhile isDigit
  if major = [] then none
  else
    match s.drop major.length with
    | [] => none
    | b1 :: s1 =>
      if b1 ≠ dot then none
      else
        let minor := s1.takeWhile isDigit
        if minor = [] then none
        else
          match s1.drop minor.length with
          | [] => none
          | b2 :: s2 =>
            if b2 ≠ dot then none
            else
              let patch := s2.takeWhile isDigit
              if patch = [] then none
              else
                some (major, minor, patch,
                  (s2.drop patch.length).takeWhile fun b => !isSpace b)

/-- The call `versionPattern.FindStringSubmatch(value)`: the groups of the leftmost match,
`none` when the slice returned is nil. -/
def FindStringSubmatch : Bytes → Option (Bytes × Bytes × Bytes × Bytes)
  | [] => none
  | b :: s =>
    match matchHere (b :: s) with
    | some groups => some groups
    | none => FindStringSubmatch s

/-- The errors of the package. -/
inductive VersionError where
  | ErrInvalidFormat
deriving DecidableEq

def ParseVersion (value : Bytes) : Run (Version × Option VersionError) :=
  match FindStringSubmatch value with
  | none => .ok ({ Major := 0, Minor := 0, Patch := 0, Suffix := [] }, some .ErrInvalidFormat)
  | some (major, minor, patch, suffix) =>
    (mustParseInt major).andThen fun a =>
      (mustParseInt minor).andThen fun b =>
        (mustParseInt patch).andThen fun c =>
          .ok ({ Major := a, Minor := b, Patch := c, Suffix := suffix }, none)

/-- The function `CurrentVersion`, for a value of the build-time variable `version`. -/
def CurrentVersion (version : Bytes) : Run Version :=
  (ParseVersion version).andThen fun x => .ok x.1

/-! ## Notions of the specification -/

mutual
/-- Exact match of a concrete path against a template, as the specification words it:
every literal byte of the template is equal to the byte of the path, and every `:name`
is bound to one non-empty segment of the path holding no `'/'`.  First argument: the
template; second: the path. -/
def specMatch : Bytes → Bytes → Bool
  | [], p => decide (p = [])
  | b :: t, p =>
    if b = colon then
      let seg := p.takeWhile (fun x => decide (x ≠ slash))
      decide (seg ≠ []) && specSkipName t (p.drop seg.length)
    else
      match p with
      | [] => false
      | x :: q => decide (x = b) && specMatch t q
/-- The rest of a parameter name is skipped in the template; the match goes on at the
`'/'` that ends the name. -/
def specSkipName : Bytes → Bytes → Bool
  | [], p => decide (p = [])
  | b :: t, p =>
    if b = slash then
      match p with
      | [] => false
      | x :: q => decide (x = slash) && specMatch t q
    else specSkipName t p
end

/-- A template ending in `'*'` matches a path by its part before the `'*'`: some start of
the path is an instance of that part. -/
def specWildcardMatch (template path : Bytes) : Bool :=
  decide (template.getLast? = some star) &&
    (List.range (path.length + 1)).any fun k => specMatch template.dropLast (path.take k)

/-- A template with its parameter names erased: each `:name` becomes a bare `':'`.  The
flag tells whether the bytes read belong to a parameter name. -/
def eraseFrom : Bool → Bytes → Bytes
  | _, [] => []
  | true, b :: t => if b = slash then b :: eraseFrom false t else eraseFrom true t
  | false, b :: t => if b = colon then b :: eraseFrom true t else b :: eraseFrom false t

/-- A template with its parameter names erased. -/
def eraseNames (t : Bytes) : Bytes := eraseFrom false t

/-- The method name used in the examples. -/
def GET : Bytes := str "GET"

/-- A session of a blocked host that is not marked for closing; every dial of its engine
fails. -/
def blockedSession : session :=
  { engine :=
      { dialTCP := fun _ => .error ⟨false, false, false⟩,
        dialTLS := fun _ _ => .error ⟨false, false, false⟩,
        clientConfig := fun _ => .ok 0,
        serverConfig := fun _ => .ok 0,
        writeRequest := fun _ _ => none,
        readResponse := fun _ _ => .error ⟨false, false, false⟩ },
    rule := { Action := .BlockAction, ClientConfig := none, ServerConfig := none },
    serverHost := str "example.org",
    clientTLSConfig := none,
    serverConn := none,
    serverReader := none,
    close := false,
    callDepth := 0,
    postRequestAction := none,
    dials := [] }

/-- The shape of a route text that the specification accepts: it starts with `'/'`, a
`'*'` stands at its last byte only, and every `':'` is directly preceded by `'/'` and
directly followed by a word byte. -/
def specAccepts (text : Bytes) : Prop :=
  text.head? = some slash ∧
  (∀ i, text[i]? = some star → i + 1 = text.length) ∧
  (∀ i, text[i]? = some colon →
    (∃ j, i = j + 1 ∧ text[j]? = some slash) ∧
    (∃ b, text[i + 1]? = some b ∧ isWord b = true))

/-- A `':'` of the text is well placed: it follows a `'/'` and a word byte follows it. -/
def goodColon (text : Bytes) (i : Nat) : Prop :=
  text[i]? = some colon →
    (∃ j, i = j + 1 ∧ text[j]? = some slash) ∧
    (∃ b, text[i + 1]? = some b ∧ isWord b = true)

/-- Two wildcard-free routes whose costs are not both positive: the first has cost 0. -/
def zeroCostRoutes : List Route :=
  [⟨GET, str "/a/:x", 0⟩, ⟨GET, str "/:y/:z", 5⟩]

/-- Three routes of the Coinbase Prime table of the tests. -/
def sampleRoutes : List Route :=
  [⟨str "POST", str "/v1/allocations", 25⟩,
   ⟨GET, str "/v1/portfolios/:portfolio_id/allocations", 20⟩,
   ⟨GET, str "/v1/portfolios", 30⟩]

/-- Three routes for the dump: a template with a trailing `'/'`, two names for the same
parameter, two methods. -/
def dumpRoutes : List Route :=
  [⟨GET, str "/v1/:id/a/", 3⟩, ⟨GET, str "/v1/:key/b", 4⟩, ⟨str "POST", str "/v1", 1⟩]

/-! ## Invariant and relations of the trie -/

mutual
/-- The shape every node built by `add` has: `index` and `children` correspond, every
child is a text node whose route starts with its index byte and holds no `':'`, and
`special` is a parameter node whose route is one parameter segment. -/
def node.Inv : node → Prop
  | .mk _ _ _ i c s _ => childrenInv i c ∧ specialInv s
/-- The part of `node.Inv` on `index` and `children`. -/
def childrenInv : Bytes → List node → Prop
  | [], [] => True
  | b :: i, ch :: c =>
    ch.kind = .text ∧ (∃ r, ch.route = b :: r) ∧ colon ∉ ch.route ∧ ch.Inv ∧ childrenInv i c
  | [], _ :: _ => False
  | _ :: _, [] => False
/-- The part of `node.Inv` on `special`. -/
def specialInv : Option node → Prop
  | none => True
  | some sp =>
    sp.kind = .parameter ∧ (∃ t, sp.route = colon :: t) ∧ takeParameter sp.route = sp.route ∧
      sp.Inv
end

/-- The invariant of a method root: a text node whose route starts with `'/'`. -/
def rootInv (n : node) : Prop :=
  n.kind = .text ∧ (∃ r, n.route = slash :: r) ∧ colon ∉ n.route ∧ n.Inv

/-- The template remainder `t`, read after the segment of node `n`, ends at a node of
cost `c` below `n` (or at `n` itself): text children are chosen by the first byte through
`index`, a remainder starting with `':'` goes to `special`, which takes one parameter
segment. -/
inductive After : node → Bytes → Int → Prop where
  | here (n : node) (c : Int) : n.cost = c → After n [] c
  | child (n : node) (b : Nat) (t : Bytes) (ch : node) (t1 : Bytes) (c : Int) :
      b ≠ colon → n.index.indexOf b < n.index.length →
      n.children[n.index.indexOf b]? = some ch → b :: t = ch.route ++ t1 →
      After ch t1 c → After n (b :: t) c
  | special (n : node) (t : Bytes) (sp : node) (c : Int) :
      n.special = some sp →
      After sp ((colon :: t).drop (takeParameter (colon :: t)).length) c →
      After n (colon :: t) c

/-- The template remainder `t`, read from the start of the text node `n`, ends at a node
of cost `c`. -/
def TextAfter (n : node) (t : Bytes) (c : Int) : Prop :=
  ∃ t1, t = n.route ++ t1 ∧ After n t1 c

/-- Two template remainders lead to the same node of every trie: equal literal bytes and
parameters at the same places, whatever their names. -/
inductive SameSlot : Bytes → Bytes → Prop where
  | nil : SameSlot [] []
  | lit (b : Nat) (t r : Bytes) : b ≠ colon → SameSlot t r → SameSlot (b :: t) (b :: r)
  | par (t r : Bytes) :
      SameSlot ((colon :: t).drop (takeParameter (colon :: t)).length)
        ((colon :: r).drop (takeParameter (colon :: r)).length) →
      SameSlot (colon :: t) (colon :: r)

/-- The chain of nodes `newList` builds for a remainder without `'*'`. -/
inductive Chain : Bytes → Int → node → Prop where
  | textEnd (b : Nat) (r : Bytes) (c : Int) :
      b ≠ colon → b ≠ star → takeText (b :: r) = b :: r →
      Chain (b :: r) c (.mk .text false (b :: r) [] [] none c)
  | textMore (b : Nat) (r : Bytes) (c : Int) (next : node) :
      b ≠ colon → b ≠ star → (b :: r).drop (takeText (b :: r)).length ≠ [] →
      next.kind = .parameter →
      Chain ((b :: r).drop (takeText (b :: r)).length) c next →
      Chain (b :: r) c (.mk .text false (takeText (b :: r)) [] [] (some next) 0)
  | paramEnd (r : Bytes) (c : Int) :
      takeParameter (colon :: r) = colon :: r →
      Chain (colon :: r) c (.mk .parameter false (colon :: r) [] [] none c)
  | paramText (r : Bytes) (c : Int) (b : Nat) (next : node) :
      (colon :: r).drop (takeParameter (colon :: r)).length ≠ [] →
      next.kind = .text → (∃ q, next.route = b :: q) →
      Chain ((colon :: r).drop (takeParameter (colon :: r)).length) c next →
      Chain (colon :: r) c (.mk .parameter false (takeParameter (colon :: r)) [b] [next] none 0)
  | paramParam (r : Bytes) (c : Int) (next : node) :
      (colon :: r).drop (takeParameter (colon :: r)).length ≠ [] →
      next.kind = .parameter →
      Chain ((colon :: r).drop (takeParameter (colon :: r)).length) c next →
      Chain (colon :: r) c (.mk .parameter false (takeParameter (colon :: r)) [] [] (some next) 0)

/-- The result of the `walk` loop of `insertRoute` and the code after it, for a remainder
without `'*'`.  With the flag `true` the remainder is read from the start of the text
node; with `false` it is read after the segment of the node. -/
inductive Ins : Bool → node → Bytes → Int → node → Prop where
  | done (n : node) (c : Int) : Ins false n [] c (n.setCost c)
  | newSpecial (n : node) (t : Bytes) (c : Int) (stem : node) :
      n.special = none → stem.kind = .parameter → Chain (colon :: t) c stem →
      Ins false n (colon :: t) c (n.setSpecial (some stem))
  | viaSpecial (n : node) (t : Bytes) (c : Int) (sp sp1 : node) :
      n.special = some sp →
      Ins false sp ((colon :: t).drop (takeParameter (colon :: t)).length) c sp1 →
      Ins false n (colon :: t) c (n.setSpecial (some sp1))
  | newChild (n : node) (b : Nat) (t : Bytes) (c : Int) (stem : node) :
      b ≠ colon → ¬ n.index.indexOf b < n.index.length →
      stem.kind = .text → (∃ q, stem.route = b :: q) → Chain (b :: t) c stem →
      Ins false n (b :: t) c
        (.mk n.kind n.hasWildcard n.route (n.index ++ [b]) (n.children ++ [stem]) n.special
          n.cost)
  | viaChild (n : node) (b : Nat) (t : Bytes) (c : Int) (ch ch1 : node) :
      b ≠ colon → n.index.indexOf b < n.index.length →
      n.children[n.index.indexOf b]? = some ch →
      Ins true ch (b :: t) c ch1 →
      Ins false n (b :: t) c (n.setChildren (n.children.set (n.index.indexOf b) ch1))
  | full (n : node) (r : Bytes) (c : Int) (n1 : node) :
      takePrefix r n.route = n.route →
      Ins false n (r.drop n.route.length) c n1 →
      Ins true n r c n1
  | split (n : node) (r : Bytes) (c : Int) (n1 : node) :
      (takePrefix r n.route).length < n.route.length →
      Ins false (splitNode n (takePrefix r n.route)) (r.drop (takePrefix r n.route).length)
        c n1 →
      Ins true n r c n1

/-- The template does not end in `'/'`. -/
def noTrailingSlash (t : Bytes) : Prop := t.getLast? ≠ some slash

/-- What the walk of `insertRoute` needs of the node it enters. -/
def insPre (mode : Bool) (n : node) (r : Bytes) : Prop :=
  n.Inv ∧ (mode = true → n.kind = .text ∧ colon ∉ n.route ∧
    ∃ b t q, r = b :: t ∧ b ≠ colon ∧ n.route = b :: q)

/-- Every root of the tree holds a node that satisfies the root invariant. -/
def treeInv (t : tree) : Prop :=
  ∀ r ∈ t.roots, ∃ n, r.node = some n ∧ rootInv n

/-- The template `tmpl` is stored with cost `c` under the root of `method`. -/
def treeStored (t : tree) (method : Bytes) (tmpl : Bytes) (c : Int) : Prop :=
  ∃ n, t.get method = some n ∧ TextAfter n tmpl c

/-- A template of the round-trip claims: accepted by the specification, without `'*'`, not
ending in `'/'`. -/
def plainTemplate (t : Bytes) : Prop :=
  specAccepts t ∧ star ∉ t ∧ noTrailingSlash t

mutual
/-- The writes of `dumpNode` below a node, in order: the stripped full route and the cost
of every node of positive cost.  `pre` is the route handed down by the parent. -/
def entries : node → Bytes → List (Bytes × Int)
  | .mk kind _ route _ children special cost, pre =>
    (if cost > 0 then [(stripTrailingSlash (pre ++ route), cost)] else []) ++
      (entriesOpt special
        (if kind = .parameter then addTrailingSlash (pre ++ route) else pre ++ route) ++
      entriesList children
        (if kind = .parameter then addTrailingSlash (pre ++ route) else pre ++ route))
/-- The writes below `special`. -/
def entriesOpt : Option node → Bytes → List (Bytes × Int)
  | none, _ => []
  | some sp, pre => entries sp pre
/-- The writes below the children. -/
def entriesList : List node → Bytes → List (Bytes × Int)
  | [], _ => []
  | c :: cs, pre => entries c pre ++ entriesList cs pre
end

/-- The route handed down to the children of a node. -/
def downRoute (n : node) (pre : Bytes) : Bytes :=
  if n.kind = .parameter then addTrailingSlash (pre ++ n.route) else pre ++ n.route

/-- The writes of `dumpNode` below the children and `special` of a node. -/
def entriesBelow (n : node) (full1 : Bytes) : List (Bytes × Int) :=
  entriesOpt n.special full1 ++ entriesList n.children full1

/-- The string ends outside a parameter name: erasing the names of a longer string
erases both parts on their own. -/
def outside (s : Bytes) : Prop :=
  ∀ x, eraseNames (s ++ x) = eraseNames s ++ eraseNames x

/-- The key under which `dump` reports a template, up to parameter names. -/
def dumpKey (t : Bytes) : Bytes := eraseNames (stripTrailingSlash t)

/-- The methods of the roots are pairwise distinct. -/
def distinctMethods (t : tree) : Prop := (t.roots.map fun r => r.method).Nodup

/-- The inner map that `dump` fills for a root. -/
def rootDump (r : root) : List (Bytes × Int) :=
  match r.node with
  | some n => dumpNode n [] []
  | none => []

/-- Every write of `dump` below a root comes from a route of the list `rs`: same method,
same cost, same key. -/
def treeSound (t : tree) (rs : List Route) : Prop :=
  ∀ (m : Bytes) (n : node), t.get m = some n → ∀ x ∈ entries n [],
    ∃ r ∈ rs, r.method = m ∧ r.cost = x.2 ∧ eraseNames x.1 = dumpKey r.route

/-- A template that `dump` can report: accepted by the specification and without `'*'`. -/
def dumpTemplate (t : Bytes) : Prop :=
  specAccepts t ∧ star ∉ t

/-! ## Notions for the handler chain and the access control list -/

/-- The handlers dispatched by `Next`, in order. -/
def calls : List Event → List (Option Nat)
  | [] => []
  | .call t :: l => t :: calls l
  | _ :: l => calls l

/-- The responses handed to `Response.Write`, in order. -/
def writes : List Event → List Response
  | [] => []
  | .write r :: l => r :: writes l
  | _ :: l => writes l

/-- The post-request actions invoked, in order. -/
def actions : List Event → List PostAction
  | [] => []
  | .action a :: l => a :: actions l
  | _ :: l => actions l

/-- An event of the handler chain: a dispatch or a return of `Next`. -/
def chainEvent : Event → Bool
  | .call _ => true
  | .ret _ => true
  | _ => false

/-- The dispatch that the specification gives to the call of `Next` number `k` (counted
from 0) under a rule of `n` handlers: `Handlers[k]`, or the transport handler. -/
def specTarget (n k : Nat) : Option Nat :=
  if k < n then some k else none

/-- The log of a request agrees with the specification: `callDepth` is the number of
calls of `Next` so far, capped at `n`; every call dispatched what the specification
says; every call returned with `callDepth ≤ n`. -/
def LogInv (n d : Nat) (log : List Event) : Prop :=
  d = min (calls log).length n ∧
  (∀ k t, (calls log)[k]? = some t → t = specTarget n k) ∧
  (∀ x, Event.ret x ∈ log → x ≤ n)

/-- What a call on a Context may change of the session and the log: the rule is kept,
`callDepth` does not decrease, `close` is not cleared, the log is extended by events of
the chain and stays in agreement with the specification. -/
def Step (c c1 : Context) : Prop :=
  c1.s.rule = c.s.rule ∧ c.s.callDepth ≤ c1.s.callDepth ∧
  (c.s.close = true → c1.s.close = true) ∧
  (LogInv c.s.rule.Handlers.length c.s.callDepth c.log →
    LogInv c.s.rule.Handlers.length c1.s.callDepth c1.log) ∧
  ∃ ext, c1.log = c.log ++ ext ∧ ∀ e ∈ ext, chainEvent e = true

/-- The Context that `handle` builds for a request. -/
def startContext (s : session) (r : Request) : Context :=
  { Request := some r, Response := none, s := s, log := [] }

/-- For a CONNECT request, the dial that `execute` makes yields the connection `conn`:
under Tunnel the TCP dial; under MITM the TLS dial with the resolved server
configuration, or the TCP dial after a TLS record-header error. -/
def originEstablished (s : session) (r : Request) (conn : Conn) : Prop :=
  (s.rule.Action = .TunnelAction ∧ s.engine.dialTCP r.Host = .ok conn) ∨
  (s.rule.Action = .MITMAction ∧ ∃ cfg, s.serverConfigOrDefault = .ok cfg ∧
    (s.engine.dialTLS r.Host cfg = .ok conn ∨
      ∃ e, s.engine.dialTLS r.Host cfg = .error e ∧ e.recordHeader = true ∧
        s.engine.dialTCP r.Host = .ok conn))

/-- The origin dial of `execute` fails with the error `e`, at one of the places where
`execute` answers through `onTCPDialError`: the TCP dial of a request other than CONNECT
without a server connection, the TCP dial of a CONNECT under Tunnel, the TLS dial under
MITM with an error that is neither a record-header nor a certificate error, the TCP dial
after a record-header error. -/
def originDialFails (s : session) (r : Request) (e : NetError) : Prop :=
  (r.Method ≠ MethodConnect ∧ s.serverConn = none ∧ s.engine.dialTCP r.Host = .error e) ∨
  (r.Method = MethodConnect ∧ s.rule.Action = .TunnelAction ∧
    s.engine.dialTCP r.Host = .error e) ∨
  (r.Method = MethodConnect ∧ s.rule.Action = .MITMAction ∧
    ∃ cfg, s.serverConfigOrDefault = .ok cfg ∧
      ((s.engine.dialTLS r.Host cfg = .error e ∧ e.recordHeader = false ∧
          e.certificateVerification = false) ∨
        ∃ e0, s.engine.dialTLS r.Host cfg = .error e0 ∧ e0.recordHeader = true ∧
          s.engine.dialTCP r.Host = .error e))

/-- An entry of a whitelist: a literal IP or a CIDR mask. -/
inductive Entry where
  | ip (x : IP)
  | mask (m : IPNet)
deriving DecidableEq

/-- The option that an entry stands for. -/
def Entry.option (lib : NetLib) : Entry → WhitelistOption
  | .ip x => WithIP lib x
  | .mask m => WithMask m

/-- The listener closes and skips the connection: its lookup succeeds and the ACL does
not allow its IP. -/
def refused (lib : NetLib) (acl : IP → Bool) (c : NetConn) : Prop :=
  (netConnLookup lib c).2 = none ∧ acl (netConnLookup lib c).1 = false

/-- The listener returns the connection: its lookup succeeds and the ACL allows its IP. -/
def passes (lib : NetLib) (acl : IP → Bool) (c : NetConn) : Prop :=
  (netConnLookup lib c).2 = none ∧ acl (netConnLookup lib c).1 = true

/-- A CONNECT request. -/
def connectRequest : Request := ⟨MethodConnect, str "example.org:443", false⟩

/-- A GET request. -/
def getRequest : Request := ⟨GET, str "example.org:80", false⟩

/-- An engine whose dials succeed with the connection 7, and whose TLS configurations
resolve to 1 (server) and, if `client` is true, to 2 (client). -/
def reachableEngine (client : Bool) : Engine :=
  { dialTCP := fun _ => .ok 7,
    dialTLS := fun _ _ => .ok 7,
    clientConfig := fun _ => if client then .ok 2 else .error ⟨false, false, false⟩,
    serverConfig := fun _ => .ok 1,
    writeRequest := fun _ _ => none,
    readResponse := fun _ _ => .error ⟨false, false, false⟩ }

/-- A fresh session under a rule of the given action and handlers. -/
def freshSession (e : Engine) (a : Action) (hs : List Handler) : session :=
  { engine := e,
    rule := { Action := a, ClientConfig := none, ServerConfig := none, Handlers := hs },
    serverHost := str "example.org",
    clientTLSConfig := none,
    serverConn := none,
    serverReader := none,
    close := false,
    callDepth := 0,
    postRequestAction := none,
    dials := [] }

/-- An engine whose dials fail with a deadline error. -/
def timeoutEngine : Engine :=
  { dialTCP := fun _ => .error ⟨true, false, false⟩,
    dialTLS := fun _ _ => .error ⟨true, false, false⟩,
    clientConfig := fun _ => .ok 2,
    serverConfig := fun _ => .ok 1,
    writeRequest := fun _ _ => none,
    readResponse := fun _ _ => .error ⟨false, false, false⟩ }

/-- A handler that calls `Next` twice and returns. -/
def twiceHandler : Handler :=
  fun rq rs => .next rq rs fun rq1 rs1 => .next rq1 rs1 fun rq2 rs2 => .ret rq2 rs2

/-- A handler that calls `Next` once and returns. -/
def passHandler : Handler :=
  fun rq rs => .next rq rs fun rq1 rs1 => .ret rq1 rs1

/-- A handler that panics. -/
def panicHandler : Handler :=
  fun rq rs => .throw rq rs

/-- A stand-in for package `net` in the examples: a host is the text before the first
`':'`, an address is its own text, and a mask contains the addresses that start with
its `IP`. -/
def textLib : NetLib :=
  { ipString := fun ip => ip,
    contains := fun m ip => m.IP.isPrefixOf ip,
    splitHostPort := fun a =>
      if colon ∈ a then .ok (a.takeWhile fun b => decide (b ≠ colon)) else .error (.foreign 1),
    parseIP := fun h => h }

/-- A listener that allows the addresses starting with `10.`, with two connections
waiting: one from `9.9.9.9`, one from `10.0.0.1`. -/
def sampleListener : Listener :=
  { acl := fun ip => (str "10.").isPrefixOf ip,
    listener := [.conn ⟨1, some (str "9.9.9.9:80")⟩, .conn ⟨2, some (str "10.0.0.1:80")⟩] }

/-- The last comma-separated entry of a header value that parses as an IP literal (after
trimming); nil when the header is empty or no entry parses. -/
def lastLiteral (lib : NetLib) (trimSpace : Bytes → Bytes) (header : Bytes) : IP :=
  if header = [] then []
  else
    match ((splitComma header).reverse.map fun e => lib.parseIP (trimSpace e)).find?
        (fun ip => decide (ip ≠ [])) with
    | some ip => ip
    | none => []

/-- The key usage `u` (a bit mask) is included in the mask `ku`. -/
def includesUsage (ku u : Nat) : Prop := ku &&& u = u

/-- A request with the given remote address and the two headers that `ClientIP` reads. -/
def sampleRequest (remoteAddr forwardedFor realIP : Bytes) : HTTPRequest :=
  { RemoteAddr := remoteAddr,
    Header := fun name =>
      if name = str "X-Forwarded-For" then forwardedFor
      else if name = str "X-Real-IP" then realIP
      else [] }

/-- The route, the wildcard flag and the cost of a node. -/
def node.summary (n : node) : Bytes × Bool × Int :=
  (n.route, n.hasWildcard, n.cost)

/-- The root of `method` in the trie built from the routes: its summary, the summary of
its `special`, and the summaries of its children. -/
def rootSummary (rs : List Route) (method : Bytes) :
    Run ((Bytes × Bool × Int) × Option (Bytes × Bool × Int) × List (Bytes × Bool × Int)) :=
  (build rs).andThen fun t =>
    match t.get method with
    | none => .panic
    | some n => .ok (n.summary, n.special.map node.summary, n.children.map node.summary)

/-- One run of a handler with the number of calls of `Next` made so far in the request
carried along (spec side): `next` is the chain behind a call of `Next`, which takes the
number of calls made before it and returns the number made after it. -/
def HandlerRun.runCounted (next : Nat → Context → Flow × Nat) :
    HandlerRun → Nat → Context → Flow × Nat
  | .ret rq rs, k, c => (.done { c with Request := rq, Response := rs }, k)
  | .throw rq rs, k, c => (.panicked { c with Request := rq, Response := rs }, k)
  | .next rq rs f, k, c =>
    match next k { c with Request := rq, Response := rs } with
    | (.done c1, k1) => (f c1.Request c1.Response).runCounted next k1 c1
    | (.panicked c1, k1) => (.panicked c1, k1)
    | (.outOfFuel, k1) => (.outOfFuel, k1)

/-- The handler chain as the specification words it, with the handlers `hs` of the rule
and the calls of `Next` of the request counted from 0: the call number `k` invokes
`hs[k]` when `k < len(hs)`, with the cursor `callDepth` advanced to `k + 1`, and the
terminal transport handler otherwise; a panic is recovered as `Next` does.  The result
is how the call ends and the number of calls of `Next` made up to then. -/
def specNext (hs : List Handler) : Nat → Nat → Context → Flow × Nat
  | 0, k, _ => (.outOfFuel, k)
  | fuel + 1, k, c =>
    if h : k < hs.length then
      let body := (hs.get ⟨k, h⟩ c.Request c.Response).runCounted (specNext hs fuel) (k + 1)
        { c with s := { c.s with callDepth := k + 1 }, log := c.log ++ [.call (some k)] }
      (body.1.leave, body.2)
    else
      ((Context.handler { c with log := c.log ++ [.call none] }).leave, k + 1)

/-- What the comparison of `Next` with `specNext` keeps of a Context that a call leaves,
with `k` calls of `Next` made: the rule, the cursor `callDepth = min(k, n)`, and `k`
dispatches in the log. -/
def InChain (R : Rule) (k : Nat) (c : Context) : Prop :=
  c.s.rule = R ∧ c.s.callDepth = min k R.Handlers.length ∧ (calls c.log).length = k

/-! ## Shape of the trie -/

mutual
/-- The shape of the nodes below a node, as the trie keeps it for every template: the
bytes of `index` are pairwise distinct, `index` and `children` correspond, every child
is a text node whose route starts with its index byte and holds neither `':'` nor
`'*'`, and `special` is a parameter node. -/
def node.Shape : node → Prop
  | .mk _ _ _ i c s _ => i.Nodup ∧ childrenShape i c ∧ specialShape s
/-- The part of `node.Shape` on `index` and `children`. -/
def childrenShape : Bytes → List node → Prop
  | [], [] => True
  | b :: i, ch :: c =>
    ch.kind = .text ∧ (∃ r, ch.route = b :: r) ∧ colon ∉ ch.route ∧ star ∉ ch.route ∧
      ch.Shape ∧ childrenShape i c
  | [], _ :: _ => False
  | _ :: _, [] => False
/-- The part of `node.Shape` on `special`. -/
def specialShape : Option node → Prop
  | none => True
  | some sp => sp.kind = .parameter ∧ sp.Shape
end

/-- The shape of a method root: a text node whose route starts with `'/'`. -/
def rootShape (n : node) : Prop :=
  n.kind = .text ∧ (∃ r, n.route = slash :: r) ∧ colon ∉ n.route ∧ star ∉ n.route ∧ n.Shape

/-- Every root of the tree holds a node of the shape of a root. -/
def treeShape (t : tree) : Prop :=
  ∀ r ∈ t.roots, ∃ n, r.node = some n ∧ rootShape n

/-- The node `m` is reachable from the node `n` through `children` and `special`. -/
inductive Reach : node → node → Prop where
  | self (n : node) : Reach n n
  | child (n ch m : node) : ch ∈ n.children → Reach ch m → Reach n m
  | special (n sp m : node) : n.special = some sp → Reach sp m → Reach n m

/-- What the specification says of one node: `index` and `children` have the same length,
`index[i]` is the first byte of `children[i].route`, the bytes of `index` are pairwise
distinct, every child is a text node with a non-empty route holding neither `':'` nor
`'*'`, and `special`, when present, is a parameter node. -/
def wellIndexed (n : node) : Prop :=
  n.index.length = n.children.length ∧
  (∀ (i b : Nat) (ch : node), n.index[i]? = some b → n.children[i]? = some ch →
    ch.route.head? = some b) ∧
  n.index.Nodup ∧
  (∀ ch ∈ n.children,
    ch.kind = .text ∧ ch.route ≠ [] ∧ colon ∉ ch.route ∧ star ∉ ch.route) ∧
  (∀ sp, n.special = some sp → sp.kind = .parameter)

/-- What the walk of `insertRoute` needs of a text node it enters: its route holds
neither `':'` nor `'*'`, and the remainder starts with `':'` or with the first byte of
the route. -/
def textHead (n : node) (remainder : Bytes) : Prop :=
  n.kind = .text → colon ∉ n.route ∧ star ∉ n.route ∧
    ∃ b t, remainder = b :: t ∧ (b = colon ∨ ∃ q, n.route = b :: q)

/-- A node without children and without `special`, as `newNode` returns it. -/
def fresh (n : node) : Prop :=
  n.index = [] ∧ n.children = [] ∧ n.special = none

/-- The node `n1` stands for the node `cur` after a step of `insertRoute`: it has the
shape, the kind of `cur`, and its route is a start of the route of `cur`, non-empty if
that one is. -/
def kept (cur n1 : node) : Prop :=
  n1.Shape ∧ n1.kind = cur.kind ∧ (∃ q, cur.route = n1.route ++ q) ∧
    (cur.route ≠ [] → n1.route ≠ [])

/-- What a pass through the loop body of `insertRoute` hands on, from a node of the shape. -/
def stepShape (cur : node) : insertStep → Prop
  | .finish c1 r1 => kept cur c1 ∧ ∀ b t, r1 = b :: t → b ≠ colon → b ∉ c1.index
  | .again c1 r1 => kept cur c1 ∧ textHead c1 r1
  | .intoSpecial c1 sp _ => c1 = cur ∧ cur.special = some sp
  | .intoChild c1 idx child r1 =>
    kept cur c1 ∧ c1.children[idx]? = some child ∧
      ∃ b t, r1 = b :: t ∧ b ≠ colon ∧ c1.index[idx]? = some b
  | .panic => True

/-- The number of nodes below the checkpoints of `get`. -/
def checkpointsSize : List checkpoint → Nat
  | [] => 0
  | cp :: rest => cp.node.size + checkpointsSize rest

/-- A pass through the loop body of `get` on nodes of the shape returns a cost, or goes on
with nodes of the shape and fewer nodes to visit. -/
def stepTotal (cur : node) (cps : List checkpoint) : getStep → Prop
  | .done result => ∃ v, result = .ok v
  | .next cur1 _ _ cps1 =>
    cur1.Shape ∧ (∀ cp ∈ cps1, cp.node.Shape) ∧
      cur1.size + checkpointsSize cps1 < cur.size + checkpointsSize cps

/-! ## The places `get` visits -/

/-- Where a node lies below a root: the steps taken from the root, `k + 1` for
`children[k]` and `0` for `special`. -/
abbrev Place := List Nat

/-- The node at a place below `n`, if there is one. -/
def nodeAt : node → Place → Option node
  | n, [] => some n
  | n, 0 :: p =>
    match n.special with
    | some sp => nodeAt sp p
    | none => none
  | n, (k + 1) :: p =>
    match n.children[k]? with
    | some ch => nodeAt ch p
    | none => none

/-- The place of the node `popCheckpoint` goes on with, and the places of the
checkpoints left. -/
def popPlace : List Place → Place × List Place
  | p :: rest => (p, rest)
  | [] => ([], [])

/-- The place of the node `findNext` goes on with, and the places of its checkpoints. -/
def findNextPlace (route : Bytes) (current : node) (offset : Nat) (place : Place)
    (places : List Place) : Place × List Place :=
  match route[offset]? with
  | none => (place, places)
  | some c =>
    let pos := current.index.indexOf c
    if pos < current.index.length then
      match current.special with
      | some _ => (place ++ [pos + 1], (place ++ [0]) :: places)
      | none => (place ++ [pos + 1], places)
    else
      match current.special with
      | some _ => (place ++ [0], places)
      | none => popPlace places

/-- The place of the node `getBody` goes on with, and the places of its checkpoints. -/
def getBodyPlace (route : Bytes) (current : node) (offset : Nat) (place : Place)
    (places : List Place) : Place × List Place :=
  if current.kind = .text then
    findNextPlace route current (offset + matchLen current.route (route.drop offset)) place places
  else
    let offset1 := skipParameter route offset
    if offset1 = route.length then popPlace places
    else findNextPlace route current offset1 place places

/-- The places of the nodes the `walk` loop of `get` makes current, one for each pass
through the loop body, in order.  The walk is that of `getLoop`; `place` and `places`
follow where `current` and the nodes of `checkpoints` lie. -/
def getVisits : Nat → Bytes → node → Nat → Int → List checkpoint → Place → List Place →
    List Place
  | 0, _, _, _, _, _, _, _ => []
  | fuel + 1, route, current, offset, cost, checkpoints, place, places =>
    place ::
      match getBody route current offset cost checkpoints with
      | .done _ => []
      | .next current1 offset1 cost1 checkpoints1 =>
        getVisits fuel route current1 offset1 cost1 checkpoints1
          (getBodyPlace route current offset place places).1
          (getBodyPlace route current offset place places).2

/-- The node `current` lies at `place` below `top`, and the nodes of the checkpoints lie
at `places`. -/
def Located (top current : node) (checkpoints : List checkpoint) (place : Place)
    (places : List Place) : Prop :=
  nodeAt top place = some current ∧
    List.Forall₂ (fun (cp : checkpoint) (p : Place) => nodeAt top p = some cp.node)
      checkpoints places

/-- No place of the list lies at or below another one. -/
def Apart (ps : List Place) : Prop :=
  ps.Pairwise fun a b => ¬ a <+: b ∧ ¬ b <+: a

/-- How the places move with a pass through the loop body that goes on: down from the
current place, with or without a checkpoint at its `special`, or back to the last
checkpoint. -/
def placeMove (place : Place) (places : List Place) (pp : Place × List Place) : Prop :=
  (∃ k, pp = (place ++ [k], places)) ∨
  (∃ k, pp = (place ++ [k + 1], (place ++ [0]) :: places)) ∨
  places = pp.1 :: pp.2

/-! ## Tries up to parameter names and the order of children -/

/-- The nodes `a` and `b` stand for the same trie up to the names of the parameters and
the order of the children: same kind, flag and cost, the same route for text nodes,
`special` present in both or in neither, the same bytes in `index`, and the same again for
`special` and for the children found under each byte. -/
inductive Sim : node → node → Prop where
  | mk (a b : node) :
      a.kind = b.kind → a.hasWildcard = b.hasWildcard → a.cost = b.cost →
      (a.kind = .text → a.route = b.route) →
      (a.special = none ↔ b.special = none) →
      (∀ sa sb, a.special = some sa → b.special = some sb → Sim sa sb) →
      (∀ c, a.index.indexOf c < a.index.length ↔ b.index.indexOf c < b.index.length) →
      (∀ c, a.index.indexOf c < a.index.length →
        (a.children[a.index.indexOf c]? = none ↔ b.children[b.index.indexOf c]? = none)) →
      (∀ c ca cb, a.index.indexOf c < a.index.length →
        a.children[a.index.indexOf c]? = some ca →
        b.children[b.index.indexOf c]? = some cb → Sim ca cb) →
      Sim a b

/-- The checkpoints of two walks of `get` correspond: same offsets and costs, on nodes
that stand for the same trie. -/
def cpSim (x y : List checkpoint) : Prop :=
  List.Forall₂ (fun (p q : checkpoint) => Sim p.node q.node ∧ p.offset = q.offset ∧
    p.cost = q.cost) x y

/-- Two passes through the loop body of `get` decide the same. -/
def stepSim : getStep → getStep → Prop
  | .done r, .done r1 => r = r1
  | .next a o c x, .next b o1 c1 y => Sim a b ∧ o = o1 ∧ c = c1 ∧ cpSim x y
  | _, _ => False

/-- What hangs below the first text node of a chain: nothing, and the node carries the
cost, or the chain of the rest, which starts with a parameter. -/
def chainTail (rest : Bytes) (c : Int) (sp : Option node) (k : Int) : Prop :=
  (rest = [] ∧ sp = none ∧ k = c) ∨
    (∃ u next, rest = colon :: u ∧ Chain (colon :: u) c next ∧ sp = some next ∧ k = 0)

/-! ### validateRoute -/

theorem indexOf_le_of_getElem (a : Nat) : ∀ (l : Bytes) (i : Nat), l[i]? = some a → l.indexOf a ≤ i := by
  intro l
  induction l with
  | nil => intro i h; simp at h
  | cons x l ih =>
    intro i h
    rw [List.indexOf_cons]
    by_cases hx : x = a
    · simp [hx]
    · have : (x == a) = false := by simp [hx]
      rw [this]
      cases i with
      | zero => simp at h; exact absurd h hx
      | succ i => simp at h; simpa using ih i h

theorem getElem_indexOf (a : Nat) : ∀ (l : Bytes), l.indexOf a < l.length → l[l.indexOf a]? = some a := by
  intro l
  induction l with
  | nil => intro h; simp at h
  | cons x l ih =>
    intro h
    rw [List.indexOf_cons] at h ⊢
    by_cases hx : x = a
    · simp [hx]
    · have : (x == a) = false := by simp [hx]
      rw [this] at h ⊢
      simp at h ⊢
      exact ih h

theorem star_check_iff (text : Bytes) :
    ¬ (text.indexOf star < text.length ∧ text.indexOf star < text.length - 1) ↔
      ∀ i, text[i]? = some star → i + 1 = text.length := by
  constructor
  · intro h i hi
    have h1 := indexOf_le_of_getElem star text i hi
    have h2 : i < text.length := by
      by_contra hc
      have := List.getElem?_eq_none (Nat.le_of_not_lt hc)
      rw [this] at hi; simp at hi
    by_contra hne
    apply h
    omega
  · intro h ⟨h1, h2⟩
    have := h _ (getElem_indexOf star text h1)
    omega

theorem isWord_colon : isWord colon = false := by decide

theorem checkParams_cons (text : Bytes) (s e : Nat) (rest : List (Nat × Nat)) :
    checkParams text ((s, e) :: rest) = .ok none ↔
      (s ≠ 0 ∧ text[s - 1]? = some slash ∧ 2 ≤ e - s) ∧ checkParams text rest = .ok none := by
  rw [checkParams]
  by_cases hs : s = 0
  · simp [hs]
  · simp only [hs, if_false]
    cases hg : text[s - 1]? with
    | none => simp
    | some b =>
      by_cases hb : b = slash
      · subst hb
        by_cases he : e - s < 2
        · simp [he]
        · simp [he]; omega
      · simp only [ne_eq, hb, not_false_eq_true, if_true]
        split <;> simp [hb]

theorem pending_iff (text : Bytes) (s pos : Nat) (hs : s < pos)
    (hcol : text[s]? = some colon)
    (hword : ∀ k, s < k → k < pos → ∃ b, text[k]? = some b ∧ isWord b = true)
    (hend : ∀ b, text[pos]? = some b → isWord b = false) :
    (s ≠ 0 ∧ text[s - 1]? = some slash ∧ 2 ≤ pos - s) ↔ goodColon text s := by
  unfold goodColon
  constructor
  · rintro ⟨h0, h1, h2⟩ _
    refine ⟨⟨s - 1, by omega, h1⟩, ?_⟩
    exact hword (s + 1) (by omega) (by omega)
  · intro h
    obtain ⟨⟨j, hj, hj2⟩, b, hb, hbw⟩ := h hcol
    subst hj
    refine ⟨by omega, by simpa using hj2, ?_⟩
    by_contra hc
    have hp : pos = j + 1 + 1 := by omega
    rw [← hp] at hb
    have := hend b hb
    rw [this] at hbw; exact absurd hbw (by simp)

theorem checkParams_findParams (text : Bytes) :
    ∀ (r pre : Bytes) (pos : Nat) (st : Option Nat), text = pre ++ r → pre.length = pos →
      (∀ s, st = some s → s < pos ∧ text[s]? = some colon ∧
        ∀ k, s < k → k < pos → ∃ b, text[k]? = some b ∧ isWord b = true) →
      (checkParams text (findParams r pos st) = .ok none ↔
        (∀ s, st = some s → goodColon text s) ∧ ∀ i, pos ≤ i → goodColon text i) := by
  intro r
  induction r with
  | nil =>
    intro pre pos st htext hlen hst
    have hnone : ∀ i, pos ≤ i → text[i]? = none := by
      intro i hi
      apply List.getElem?_eq_none
      rw [htext]; simp; omega
    have hvac : ∀ i, pos ≤ i → goodColon text i := by
      intro i hi hc
      rw [hnone i hi] at hc; simp at hc
    cases st with
    | none => simp [findParams, checkParams]; exact hvac
    | some s =>
      obtain ⟨h1, h2, h3⟩ := hst s rfl
      simp only [findParams]
      rw [checkParams_cons, pending_iff text s pos h1 h2 h3
        (by intro b hb; rw [hnone pos (le_refl _)] at hb; simp at hb)]
      simp [checkParams]
      intro _; exact hvac
  | cons b r ih =>
    intro pre pos st htext hlen hst
    have htext' : text = (pre ++ [b]) ++ r := by simp [htext]
    have hlen' : (pre ++ [b]).length = pos + 1 := by simp [hlen]
    have hpos : text[pos]? = some b := by
      rw [htext, ← hlen, List.getElem?_append_right (le_refl _)]; simp
    have hsplit : ∀ (P : Nat → Prop), (∀ i, pos ≤ i → P i) ↔ (P pos ∧ ∀ i, pos + 1 ≤ i → P i) := by
      intro P
      constructor
      · intro h; exact ⟨h pos (le_refl _), fun i hi => h i (by omega)⟩
      · rintro ⟨h1, h2⟩ i hi
        rcases Nat.eq_or_lt_of_le hi with h | h
        · rw [← h]; exact h1
        · exact h2 i h
    cases st with
    | some s =>
      obtain ⟨h1, h2, h3⟩ := hst s rfl
      by_cases hw : isWord b = true
      · simp only [findParams, hw, if_true]
        have hb : b ≠ colon := by
          intro hc; rw [hc, isWord_colon] at hw; exact absurd hw (by simp)
        rw [ih (pre ++ [b]) (pos + 1) (some s) htext' hlen' (by
          intro s' hs'
          cases hs'
          refine ⟨by omega, h2, ?_⟩
          intro k hk1 hk2
          rcases Nat.eq_or_lt_of_le (Nat.le_of_lt_succ hk2) with h | h
          · rw [h]; exact ⟨b, hpos, hw⟩
          · exact h3 k hk1 h)]
        rw [hsplit (goodColon text)]
        have : goodColon text pos := by
          intro hc; rw [hpos] at hc; simp at hc; exact absurd hc hb
        simp [this]
      · have hw' : isWord b = false := by simpa using hw
        simp only [findParams, hw', Bool.false_eq_true, if_false]
        rw [checkParams_cons, pending_iff text s pos h1 h2 h3
          (by intro b' hb'; rw [hpos] at hb'; cases hb'; exact hw')]
        by_cases hc : b = colon
        · simp only [hc, if_true]
          rw [ih (pre ++ [b]) (pos + 1) (some pos) htext' hlen' (by
            intro s' hs'
            cases hs'
            refine ⟨by omega, by rw [hpos, hc], ?_⟩
            intro k hk1 hk2; omega)]
          rw [hsplit (goodColon text)]
          simp
        · simp only [hc, if_false]
          rw [ih (pre ++ [b]) (pos + 1) none htext' hlen' (by simp)]
          rw [hsplit (goodColon text)]
          have : goodColon text pos := by
            intro hc'; rw [hpos] at hc'; simp at hc'; exact absurd hc' hc
          simp [this]
    | none =>
      by_cases hc : b = colon
      · simp only [findParams, hc, if_true]
        rw [ih (pre ++ [b]) (pos + 1) (some pos) htext' hlen' (by
          intro s' hs'
          cases hs'
          refine ⟨by omega, by rw [hpos, hc], ?_⟩
          intro k hk1 hk2; omega)]
        rw [hsplit (goodColon text)]
        simp
      · simp only [findParams, hc, if_false]
        rw [ih (pre ++ [b]) (pos + 1) none htext' hlen' (by simp)]
        rw [hsplit (goodColon text)]
        have : goodColon text pos := by
          intro hc'; rw [hpos] at hc'; simp at hc'; exact absurd hc' hc
        simp [this]

theorem findParams_length : ∀ (r : Bytes) (pos : Nat) (st : Option Nat),
    (findParams r pos st).length ≤ r.length + (if st.isSome then 1 else 0) := by
  intro r
  induction r with
  | nil => intro pos st; cases st <;> simp [findParams]
  | cons b r ih =>
    intro pos st
    cases st with
    | none =>
      simp only [findParams]
      split
      · have := ih (pos + 1) (some pos); simp at this ⊢; omega
      · have := ih (pos + 1) none; simp at this ⊢; omega
    | some s =>
      simp only [findParams]
      split
      · have := ih (pos + 1) (some s); simp at this ⊢; omega
      · split
        · have := ih (pos + 1) (some pos); simp at this ⊢; omega
        · have := ih (pos + 1) none; simp at this ⊢; omega

theorem validateRoute_ok_iff (text : Bytes) (r : Bytes) :
    validateRoute text = .ok (r, none) ↔ specAccepts text ∧ r = stripTrailingSlash text := by
  unfold validateRoute specAccepts
  by_cases h1 : text = [] ∨ text.head? ≠ some slash
  · simp only [h1, if_true]
    constructor
    · intro h; simp at h
    · rintro ⟨⟨hh, _⟩, _⟩
      rcases h1 with h | h
      · subst h; simp at hh
      · exact absurd hh h
  · simp only [h1, if_false]
    push_neg at h1
    obtain ⟨hne, hhead⟩ := h1
    by_cases h2 : text.indexOf star < text.length ∧ text.indexOf star < text.length - 1
    · simp only [h2, and_self, if_true]
      constructor
      · intro h; simp at h
      · rintro ⟨⟨_, hs, _⟩, _⟩
        exact absurd h2 ((star_check_iff text).mpr hs)
    · rw [if_neg h2]
      have hstar := (star_check_iff text).mp h2
      have htake : (findParams text 0 none).take text.length = findParams text 0 none := by
        apply List.take_of_length_le
        have := findParams_length text 0 none
        simpa using this
      rw [htake]
      have hcp := checkParams_findParams text text [] 0 none (by simp) (by simp) (by simp)
      have hgood : (∀ i, 0 ≤ i → goodColon text i) ↔ (∀ i, text[i]? = some colon →
          (∃ j, i = j + 1 ∧ text[j]? = some slash) ∧
          (∃ b, text[i + 1]? = some b ∧ isWord b = true)) := by
        unfold goodColon; simp
      have hstrip : stripTrailingSlash text =
          if text[text.length - 1]? = some slash then text.take (text.length - 1) else text := by
        unfold stripTrailingSlash
        rw [List.getLast?_eq_getElem?, List.dropLast_eq_take]
      cases hck : checkParams text (findParams text 0 none) with
      | panic =>
        simp only [Run.andThen]
        have : ¬ (∀ i, 0 ≤ i → goodColon text i) := by
          intro hg; have := hcp.mpr ⟨by simp, hg⟩; rw [hck] at this; cases this
        rw [hgood] at this
        constructor
        · intro h; cases h
        · rintro ⟨⟨_, _, hg⟩, _⟩; exact absurd hg this
      | outOfFuel =>
        simp only [Run.andThen]
        have : ¬ (∀ i, 0 ≤ i → goodColon text i) := by
          intro hg; have := hcp.mpr ⟨by simp, hg⟩; rw [hck] at this; cases this
        rw [hgood] at this
        constructor
        · intro h; cases h
        · rintro ⟨⟨_, _, hg⟩, _⟩; exact absurd hg this
      | ok err =>
        simp only [Run.andThen]
        cases err with
        | some e =>
          have : ¬ (∀ i, 0 ≤ i → goodColon text i) := by
            intro hg; have := hcp.mpr ⟨by simp, hg⟩; rw [hck] at this; cases this
          rw [hgood] at this
          constructor
          · intro h; simp at h
          · rintro ⟨⟨_, _, hg⟩, _⟩; exact absurd hg this
        | none =>
          have hg := (hcp.mp hck).2
          rw [hgood] at hg
          simp only []
          rw [hstrip]
          split
          · constructor
            · intro h; cases h; exact ⟨⟨hhead, hstar, hg⟩, rfl⟩
            · rintro ⟨_, h⟩; rw [h]
          · constructor
            · intro h; cases h; exact ⟨⟨hhead, hstar, hg⟩, rfl⟩
            · rintro ⟨_, h⟩; rw [h]

/-! ### Elementary facts on the helpers of the trie -/

theorem matchLen_append (r x : Bytes) : matchLen r (r ++ x) = r.length := by
  induction r with
  | nil => cases x <;> simp [matchLen]
  | cons b r ih => simp [matchLen, ih]

theorem skipFrom_eq (l : Bytes) (pos : Nat) :
    skipFrom l pos = pos + (takeParameter l).length := by
  induction l generalizing pos with
  | nil => simp [skipFrom, takeParameter]
  | cons b l ih =>
    simp only [skipFrom, takeParameter]
    split
    · simp
    · rw [ih]; simp; omega

theorem skipParameter_eq (path : Bytes) (offset : Nat) (h : offset < path.length) :
    skipParameter path offset = offset + (takeParameter (path.drop offset)).length := by
  simp [skipParameter, h, skipFrom_eq]

theorem takeParameter_length_le (l : Bytes) : (takeParameter l).length ≤ l.length := by
  induction l with
  | nil => simp [takeParameter]
  | cons b l ih =>
    simp only [takeParameter]
    split
    · simp
    · simp; omega

theorem takeParameter_append_drop (l : Bytes) :
    takeParameter l ++ l.drop (takeParameter l).length = l := by
  induction l with
  | nil => simp [takeParameter]
  | cons b l ih =>
    simp only [takeParameter]
    split
    · simp
    · simp [ih]

/-- When a parameter segment is followed by more bytes, appending a suffix does not change
the segment. -/
theorem takeParameter_append_of_drop_ne (l x : Bytes)
    (h : l.drop (takeParameter l).length ≠ []) :
    takeParameter (l ++ x) = takeParameter l := by
  induction l with
  | nil => simp [takeParameter] at h
  | cons b l ih =>
    rw [List.cons_append]
    simp only [takeParameter] at h ⊢
    split
    · rfl
    · rename_i hb
      simp only [hb, if_false, List.length_cons, List.drop_succ_cons] at h
      rw [ih h]

/-- A segment that takes the whole remainder ends in `'/'` or holds none. -/
theorem takeParameter_whole (l : Bytes) (h : l.drop (takeParameter l).length = [])
    (hl : l.getLast? ≠ some slash) : slash ∉ l := by
  induction l with
  | nil => simp
  | cons b l ih =>
    simp only [takeParameter] at h
    by_cases hb : b = slash
    · simp [hb] at h
      subst h; subst hb; simp at hl
    · simp only [hb, if_false, List.length_cons, List.drop_succ_cons] at h
      have hl' : l.getLast? ≠ some slash := by
        cases l with
        | nil => simp
        | cons c l => simpa [List.getLast?_cons_cons] using hl
      have := ih h hl'
      simp [this, Ne.symm hb]

theorem takeParameter_of_not_mem (l : Bytes) (h : slash ∉ l) : takeParameter l = l := by
  induction l with
  | nil => simp [takeParameter]
  | cons b l ih =>
    simp at h
    simp only [takeParameter]
    rw [if_neg (Ne.symm h.1), ih h.2]

theorem takeParameter_snoc_slash (l : Bytes) (h : slash ∉ l) :
    takeParameter (l ++ [slash]) = l ++ [slash] := by
  induction l with
  | nil => simp [takeParameter]
  | cons b l ih =>
    simp at h
    rw [List.cons_append]
    simp only [takeParameter]
    rw [if_neg (Ne.symm h.1), ih h.2]

theorem size_le_sizeList (cs : List node) (i : Nat) (ch : node) (h : cs[i]? = some ch) :
    ch.size ≤ sizeList cs := by
  induction cs generalizing i with
  | nil => simp at h
  | cons c cs ih =>
    cases i with
    | zero => simp at h; subst h; simp [sizeList]
    | succ i => simp at h; have := ih i h; simp only [sizeList]; omega

theorem node_size_pos (n : node) : 0 < n.size := by
  cases n; simp [node.size]

theorem childrenInv_length : ∀ (i : Bytes) (c : List node), childrenInv i c → i.length = c.length := by
  intro i
  induction i with
  | nil => intro c h; cases c <;> simp [childrenInv] at h ⊢
  | cons b i ih =>
    intro c h
    cases c with
    | nil => simp [childrenInv] at h
    | cons ch c => simp [childrenInv] at h; simp [ih c h.2.2.2.2]

theorem childrenInv_get : ∀ (i : Bytes) (cs : List node), childrenInv i cs →
    ∀ (k : Nat) (ch : node), cs[k]? = some ch →
      ch.kind = .text ∧ (∃ b r, i[k]? = some b ∧ ch.route = b :: r) ∧ colon ∉ ch.route ∧ ch.Inv := by
  intro i
  induction i with
  | nil => intro c h k ch hk; cases c <;> simp [childrenInv] at h hk
  | cons b i ih =>
    intro c h k ch hk
    cases c with
    | nil => simp at hk
    | cons c0 c =>
      simp only [childrenInv] at h
      cases k with
      | zero =>
        simp at hk; subst hk
        obtain ⟨h1, ⟨r, hr⟩, h3, h4, _⟩ := h
        exact ⟨h1, ⟨b, r, by simp, hr⟩, h3, h4⟩
      | succ k =>
        simp at hk
        simpa using ih c h.2.2.2.2 k ch hk

theorem childrenInv_colon : ∀ (i : Bytes) (c : List node), childrenInv i c → colon ∉ i := by
  intro i
  induction i with
  | nil => intro c _; simp
  | cons b i ih =>
    intro c h
    cases c with
    | nil => simp [childrenInv] at h
    | cons c0 c =>
      simp only [childrenInv] at h
      obtain ⟨_, ⟨r, hr⟩, h3, _, h5⟩ := h
      have := ih c h5
      rw [hr] at h3
      simp at h3 ⊢
      exact ⟨h3.1, this⟩

theorem node_Inv_iff (n : node) :
    n.Inv ↔ childrenInv n.index n.children ∧ specialInv n.special := by
  cases n; simp [node.Inv, node.index, node.children, node.special]

theorem indexOf_getElem (a : Nat) : ∀ (l : Bytes), l.indexOf a < l.length →
    l[l.indexOf a]? = some a := getElem_indexOf a

/-! ### Lookup of a stored template -/

theorem getLoop_succ (fuel : Nat) (route : Bytes) (current : node) (offset : Nat) (cost : Int)
    (cps : List checkpoint) :
    getLoop (fuel + 1) route (some current) offset cost cps =
      match getBody route current offset cost cps with
      | .done result => result
      | .next current1 offset1 cost1 checkpoints1 =>
        getLoop fuel route (some current1) offset1 cost1 checkpoints1 := rfl

theorem drop_length_of_eq {path x : Bytes} {offset : Nat} (hp : path.drop offset = x) :
    path.length - offset = x.length := by
  rw [← hp]; simp

theorem getElem_of_drop {path x : Bytes} {offset : Nat} (hp : path.drop offset = x) (k : Nat) :
    path[offset + k]? = x[k]? := by
  rw [← hp, List.getElem?_drop]

theorem noTrailingSlash_of_append {a b : Bytes} (hb : b ≠ []) (h : noTrailingSlash (a ++ b)) :
    noTrailingSlash b := by
  unfold noTrailingSlash at *
  rwa [List.getLast?_append_of_ne_nil _ hb] at h

theorem noTrailingSlash_nil : noTrailingSlash [] := by simp [noTrailingSlash]

theorem getBody_text_here (path : Bytes) (n : node) (offset : Nat) (memo : Int)
    (cps : List checkpoint) (sfx : Bytes) (hs : sfx = [] ∨ sfx = [slash])
    (hk : n.kind = .text) (hp : path.drop offset = n.route ++ sfx) :
    getBody path n offset memo cps = .done (.ok n.cost) := by
  have hlen := drop_length_of_eq hp
  have hm : matchLen n.route (path.drop offset) = n.route.length := by
    rw [hp, matchLen_append]
  unfold getBody
  simp only [hk, if_true, hm, hlen]
  rw [if_pos]
  refine ⟨by simp, ?_⟩
  rcases hs with h | h
  · left; simp [h]
  · right
    refine ⟨by simp [h], ?_⟩
    rw [getElem_of_drop hp, h]
    simp

theorem getBody_text_more (path : Bytes) (n : node) (offset : Nat) (memo : Int)
    (cps : List checkpoint) (t1 sfx : Bytes) (hs : sfx = [] ∨ sfx = [slash])
    (hk : n.kind = .text) (hp : path.drop offset = n.route ++ (t1 ++ sfx))
    (ht : t1 ≠ []) (hnt : noTrailingSlash t1) :
    getBody path n offset memo cps =
      findNext path n (offset + n.route.length)
        (if n.hasWildcard then n.cost else memo) cps := by
  have hlen := drop_length_of_eq hp
  have hm : matchLen n.route (path.drop offset) = n.route.length := by
    rw [hp, matchLen_append]
  unfold getBody
  simp only [hk, if_true, hm, hlen]
  rw [if_neg]
  rintro ⟨_, h | ⟨h1, h2⟩⟩
  · simp at h
    exact ht h.1
  · rw [getElem_of_drop hp] at h2
    simp at h1
    cases t1 with
    | nil => exact ht rfl
    | cons b t =>
      simp at h1
      have ht' : t = [] := by
        cases t with
        | nil => rfl
        | cons _ _ => simp at h1; omega
      have hs' : sfx = [] := by
        cases sfx with
        | nil => rfl
        | cons _ _ => simp at h1; omega
      subst ht' hs'
      simp at h2
      subst h2
      simp [noTrailingSlash] at hnt

theorem getBody_param_here (path : Bytes) (n : node) (offset : Nat) (memo : Int)
    (cps : List checkpoint) (p sfx : Bytes) (hs : sfx = [] ∨ sfx = [slash])
    (hk : n.kind = .parameter) (hp : path.drop offset = p ++ sfx) (hne : p ≠ [])
    (hsl : slash ∉ p) (hc : 0 < n.cost) :
    getBody path n offset memo cps = .done (.ok n.cost) := by
  have hlen := drop_length_of_eq hp
  have hoff : offset < path.length := by
    have : 0 < (p ++ sfx).length := by
      cases p with
      | nil => exact absurd rfl hne
      | cons _ _ => simp
    omega
  have hskip : skipParameter path offset = path.length := by
    rw [skipParameter_eq path offset hoff, hp]
    rcases hs with h | h
    · subst h
      rw [List.append_nil, takeParameter_of_not_mem p hsl]
      simp at hlen; omega
    · subst h
      rw [takeParameter_snoc_slash p hsl]
      omega
  unfold getBody
  simp [hk, hskip, hc]

theorem getBody_param_more (path : Bytes) (n : node) (offset : Nat) (memo : Int)
    (cps : List checkpoint) (p sfx : Bytes)
    (hk : n.kind = .parameter) (hp : path.drop offset = p ++ sfx)
    (hne : p.drop (takeParameter p).length ≠ []) :
    getBody path n offset memo cps =
      findNext path n (offset + (takeParameter p).length)
        (if n.hasWildcard then n.cost else memo) cps := by
  have hlen := drop_length_of_eq hp
  have hlt : (takeParameter p).length < p.length := by
    by_contra hc
    exact hne (List.drop_eq_nil_of_le (Nat.le_of_not_lt hc))
  have hoff : offset < path.length := by
    simp at hlen; omega
  have hskip : skipParameter path offset = offset + (takeParameter p).length := by
    rw [skipParameter_eq path offset hoff, hp, takeParameter_append_of_drop_ne p sfx hne]
  unfold getBody
  simp only [hk, hskip]
  simp
  intro h
  simp at hlen
  omega

theorem findNext_child (path : Bytes) (n : node) (offset : Nat) (memo : Int)
    (cps : List checkpoint) (b : Nat) (ch : node) (hb : path[offset]? = some b)
    (hi : n.index.indexOf b < n.index.length)
    (hch : n.children[n.index.indexOf b]? = some ch) :
    ∃ cps1, findNext path n offset memo cps = .next ch offset memo cps1 := by
  unfold findNext
  simp only [hb, hi, if_true, hch]
  cases n.special with
  | none => exact ⟨_, rfl⟩
  | some sp => exact ⟨_, rfl⟩

theorem findNext_special (path : Bytes) (n : node) (offset : Nat) (memo : Int)
    (cps : List checkpoint) (sp : node) (hb : path[offset]? = some colon)
    (hi : colon ∉ n.index) (hsp : n.special = some sp) :
    findNext path n offset memo cps = .next sp offset memo cps := by
  have : ¬ n.index.indexOf colon < n.index.length := by
    rw [List.indexOf_lt_length]; exact hi
  unfold findNext
  simp only [hb, this, if_false, hsp]

/-- A template stored with a positive cost is found by the walk of `get`, with or without
one trailing `'/'` after it, whatever the memoized cost and the checkpoints are. -/
theorem getLoop_after (sfx : Bytes) (hs : sfx = [] ∨ sfx = [slash]) (n : node) (t1 : Bytes)
    (c : Int) (h : After n t1 c) (hc : 0 < c) :
    ∀ (fuel : Nat) (path : Bytes) (offset : Nat) (memo : Int) (cps : List checkpoint),
      n.Inv → n.size ≤ fuel → noTrailingSlash t1 →
      (n.kind = .text → path.drop offset = n.route ++ (t1 ++ sfx) →
        getLoop fuel path (some n) offset memo cps = .ok c) ∧
      (n.kind = .parameter → ∀ p : Bytes, p ≠ [] → noTrailingSlash p →
        p.drop (takeParameter p).length = t1 → path.drop offset = p ++ sfx →
        getLoop fuel path (some n) offset memo cps = .ok c) := by
  induction h with
  | here n c hcost =>
    intro fuel path offset memo cps _ hfuel _
    obtain ⟨f, rfl⟩ : ∃ f, fuel = f + 1 := ⟨fuel - 1, by have := node_size_pos n; omega⟩
    constructor
    · intro hk hp
      rw [getLoop_succ, getBody_text_here path n offset memo cps sfx hs hk (by simpa using hp)]
      simp [hcost]
    · intro hk p hne hnt hdrop hp
      have hsl := takeParameter_whole p hdrop hnt
      rw [getLoop_succ, getBody_param_here path n offset memo cps p sfx hs hk hp hne hsl
        (by rw [hcost]; exact hc)]
      simp [hcost]
  | child n b t ch t1 c hb hi hch hsplit _ ih =>
    intro fuel path offset memo cps hinv hfuel hnt
    obtain ⟨f, rfl⟩ : ∃ f, fuel = f + 1 := ⟨fuel - 1, by have := node_size_pos n; omega⟩
    have hcinv := (node_Inv_iff n).mp hinv
    obtain ⟨hck, _, _, hchinv⟩ := childrenInv_get _ _ hcinv.1 _ _ hch
    have hsize : ch.size ≤ f := by
      have := size_le_sizeList _ _ _ hch
      cases n
      simp [node.size, node.children] at hfuel this
      omega
    have hnt1 : noTrailingSlash t1 := by
      cases t1 with
      | nil => exact noTrailingSlash_nil
      | cons x t1 =>
        rw [hsplit] at hnt
        exact noTrailingSlash_of_append (by simp) hnt
    have key : ∀ (off1 : Nat) (m1 : Int), path.drop off1 = (b :: t) ++ sfx →
        (match findNext path n off1 m1 cps with
          | .done result => result
          | .next current1 offset1 cost1 checkpoints1 =>
            getLoop f path (some current1) offset1 cost1 checkpoints1) = .ok c := by
      intro off1 m1 hp1
      have hb1 : path[off1]? = some b := by
        have := getElem_of_drop hp1 0
        simpa using this
      obtain ⟨cps1, hfn⟩ := findNext_child path n off1 m1 cps b ch hb1 hi hch
      rw [hfn]
      exact (ih hc f path off1 m1 cps1 hchinv hsize hnt1).1 hck (by rw [hp1, hsplit]; simp)
    constructor
    · intro hk hp
      rw [getLoop_succ, getBody_text_more path n offset memo cps (b :: t) sfx hs hk hp (by simp) hnt]
      apply key
      rw [← List.drop_drop, hp]; simp
    · intro hk p hne hntp hdrop hp
      rw [getLoop_succ, getBody_param_more path n offset memo cps p sfx hk hp (by rw [hdrop]; simp)]
      apply key
      rw [← List.drop_drop, hp, ← hdrop]
      have hlt := takeParameter_length_le p
      rw [List.drop_append_of_le_length hlt]
  | special n t sp c hsp _ ih =>
    intro fuel path offset memo cps hinv hfuel hnt
    obtain ⟨f, rfl⟩ : ∃ f, fuel = f + 1 := ⟨fuel - 1, by have := node_size_pos n; omega⟩
    have hcinv := (node_Inv_iff n).mp hinv
    have hcol := childrenInv_colon _ _ hcinv.1
    have hspinv : sp.kind = .parameter ∧ sp.Inv := by
      have := hcinv.2
      rw [hsp] at this
      simp [specialInv] at this
      exact ⟨this.1, this.2.2.2⟩
    have hsize : sp.size ≤ f := by
      cases n
      simp [node.size, node.special] at hfuel hsp
      subst hsp
      simp [sizeOpt] at hfuel
      omega
    have hnt1 : noTrailingSlash ((colon :: t).drop (takeParameter (colon :: t)).length) := by
      by_cases hnil : (colon :: t).drop (takeParameter (colon :: t)).length = []
      · rw [hnil]; exact noTrailingSlash_nil
      · have := takeParameter_append_drop (colon :: t)
        rw [← this] at hnt
        exact noTrailingSlash_of_append hnil hnt
    have key : ∀ (off1 : Nat) (m1 : Int), path.drop off1 = (colon :: t) ++ sfx →
        (match findNext path n off1 m1 cps with
          | .done result => result
          | .next current1 offset1 cost1 checkpoints1 =>
            getLoop f path (some current1) offset1 cost1 checkpoints1) = .ok c := by
      intro off1 m1 hp1
      have hb1 : path[off1]? = some colon := by
        have := getElem_of_drop hp1 0
        simpa using this
      rw [findNext_special path n off1 m1 cps sp hb1 hcol hsp]
      exact (ih hc f path off1 m1 cps hspinv.2 hsize hnt1).2 hspinv.1 (colon :: t) (by simp) hnt
        rfl hp1
    constructor
    · intro hk hp
      rw [getLoop_succ, getBody_text_more path n offset memo cps (colon :: t) sfx hs hk hp (by simp) hnt]
      apply key
      rw [← List.drop_drop, hp]; simp
    · intro hk p hne hntp hdrop hp
      rw [getLoop_succ, getBody_param_more path n offset memo cps p sfx hk hp (by rw [hdrop]; simp)]
      apply key
      rw [← List.drop_drop, hp, ← hdrop]
      have hlt := takeParameter_length_le p
      rw [List.drop_append_of_le_length hlt]

/-! ### The chain built by `newList` -/

theorem takeText_cons (b : Nat) (r : Bytes) (h1 : b ≠ colon) (h2 : b ≠ star) :
    takeText (b :: r) = b :: takeText r := by
  simp [takeText, h1, h2]

theorem takeText_length_le (r : Bytes) : (takeText r).length ≤ r.length := by
  induction r with
  | nil => simp [takeText]
  | cons b r ih =>
    simp only [takeText]
    split
    · simp
    · simp; omega

/-- After the text taken by `takeText`, a remainder without `'*'` is empty or starts with
`':'`. -/
theorem drop_takeText (r : Bytes) (hs : star ∉ r) :
    r.drop (takeText r).length = [] ∨ ∃ t, r.drop (takeText r).length = colon :: t := by
  induction r with
  | nil => simp [takeText]
  | cons b r ih =>
    simp at hs
    simp only [takeText]
    by_cases hb : b = colon
    · right; simp [hb]
    · have hb2 : b ≠ star := fun h => hs.1 h.symm
      simp only [hb, hb2, or_self, if_false, List.length_cons, List.drop_succ_cons]
      exact ih hs.2

theorem takeText_eq_of_drop_nil (r : Bytes) (h : r.drop (takeText r).length = []) :
    takeText r = r := by
  induction r with
  | nil => simp [takeText]
  | cons b r ih =>
    simp only [takeText] at h ⊢
    split
    · rename_i hb; simp [hb] at h
    · rename_i hb
      simp only [hb, if_false, List.length_cons, List.drop_succ_cons] at h
      rw [ih h]

theorem takeParameter_cons_colon (r : Bytes) :
    takeParameter (colon :: r) = colon :: takeParameter r := by
  simp [takeParameter]

theorem takeParameter_eq_of_drop_nil (r : Bytes)
    (h : r.drop (takeParameter r).length = []) : takeParameter r = r := by
  have := takeParameter_append_drop r
  rw [h] at this
  simpa using this

theorem not_mem_drop {a : Nat} {r : Bytes} (k : Nat) (h : a ∉ r) : a ∉ r.drop k :=
  fun hm => h (List.mem_of_mem_drop hm)

theorem insertNode_text (n child : node) (b : Nat) (q : Bytes) (hk : child.kind = .text)
    (hr : child.route = b :: q) :
    n.insertNode child =
      .ok (.mk n.kind n.hasWildcard n.route (n.index ++ [b]) (n.children ++ [child]) n.special
        n.cost) := by
  cases n
  simp only [node.insertNode, hk, if_true, hr]
  rfl

theorem insertNode_param (n child : node) (hk : child.kind = .parameter) :
    n.insertNode child = .ok (n.setSpecial (some child)) := by
  cases n
  simp only [node.insertNode, hk]
  rfl

/-- The kind and the first byte of the head of a chain. -/
theorem Chain.head {r : Bytes} {c : Int} {n : node} (h : Chain r c n) :
    (∃ t, r = colon :: t ∧ n.kind = .parameter ∧ n.route = takeParameter r) ∨
    (∃ b t, r = b :: t ∧ b ≠ colon ∧ b ≠ star ∧ n.kind = .text ∧ n.route = takeText r) := by
  cases h with
  | textEnd b r c h1 h2 h3 => right; exact ⟨b, r, rfl, h1, h2, rfl, h3.symm⟩
  | textMore b r c next h1 h2 _ _ _ => right; exact ⟨b, r, rfl, h1, h2, rfl, rfl⟩
  | paramEnd r c h1 => left; exact ⟨r, rfl, rfl, h1.symm⟩
  | paramText r c b next _ _ _ _ => left; exact ⟨r, rfl, rfl, rfl⟩
  | paramParam r c next _ _ _ => left; exact ⟨r, rfl, rfl, rfl⟩

theorem Chain.text_route {b : Nat} {t : Bytes} {c : Int} {n : node} (h : Chain (b :: t) c n)
    (hb : b ≠ colon) : n.kind = .text ∧ ∃ q, n.route = b :: q := by
  rcases h.head with ⟨t', ht, _⟩ | ⟨b', t', ht, h1, h2, h3, h4⟩
  · cases ht; exact absurd rfl hb
  · cases ht
    exact ⟨h3, takeText t, by rw [h4, takeText_cons b t h1 h2]⟩

theorem Chain.param_kind {t : Bytes} {c : Int} {n : node} (h : Chain (colon :: t) c n) :
    n.kind = .parameter := by
  rcases h.head with ⟨t', _, h2, _⟩ | ⟨b', t', ht, h1, _⟩
  · exact h2
  · cases ht; exact absurd rfl h1

theorem newNode_text (b : Nat) (r : Bytes) (h1 : b ≠ colon) (h2 : star ∉ b :: r) :
    newNode (b :: r) = some (.mk .text false (takeText (b :: r)) [] [] none 0) := by
  have : (b :: r).getLast? ≠ some star := by
    intro h
    exact h2 (List.mem_of_getLast?_eq_some h)
  simp only [newNode, h1, if_false]
  simp only [this, decide_False]

theorem newNode_param (r : Bytes) :
    newNode (colon :: r) = some (.mk .parameter false (takeParameter (colon :: r)) [] [] none 0) := by
  simp [newNode]

/-- For a non-empty remainder without `'*'`, `newNode` gives a head and the loop of
`newList` completes it to the chain of the remainder. -/
theorem newListLoop_chain : ∀ (fuel : Nat) (r : Bytes) (c : Int), star ∉ r → r ≠ [] →
    r.length ≤ fuel →
    ∃ head n, newNode r = some head ∧
      newListLoop fuel head (r.drop head.route.length) c = .ok n ∧ Chain r c n := by
  intro fuel
  induction fuel with
  | zero =>
    intro r c _ hne hlen
    cases r with
    | nil => exact absurd rfl hne
    | cons _ _ => simp at hlen
  | succ f ih =>
    intro r c hs hne hlen
    cases r with
    | nil => exact absurd rfl hne
    | cons b r =>
      by_cases hb : b = colon
      · subst hb
        by_cases hnil : (colon :: r).drop (takeParameter (colon :: r)).length = []
        · refine ⟨_, _, newNode_param r, ?_,
            Chain.paramEnd r c (takeParameter_eq_of_drop_nil _ hnil)⟩
          show newListLoop (f + 1) _ ((colon :: r).drop (takeParameter (colon :: r)).length) c = _
          rw [newListLoop, hnil]
          simp [node.setCost, takeParameter_eq_of_drop_nil _ hnil]
        · have hs' : star ∉ (colon :: r).drop (takeParameter (colon :: r)).length :=
            not_mem_drop _ hs
          have hlen' : ((colon :: r).drop (takeParameter (colon :: r)).length).length ≤ f := by
            rw [takeParameter_cons_colon]
            simp at hlen ⊢
            omega
          obtain ⟨head, n1, hhead, hloop, hchain⟩ := ih _ c hs' hnil hlen'
          have hnstar : (colon :: r).drop (takeParameter (colon :: r)).length ≠ [star] := by
            intro h; rw [h] at hs'; simp at hs'
          have hstep : ∀ cur : node, newListLoop (f + 1) cur
              ((colon :: r).drop (takeParameter (colon :: r)).length) c =
              (cur.insertNode head).andThen fun _ =>
                (newListLoop f head
                  (((colon :: r).drop (takeParameter (colon :: r)).length).drop
                    head.route.length) c).andThen fun next1 => cur.insertNode next1 := by
            intro cur
            rw [newListLoop, if_neg (by simp [hnil, hnstar]), hhead]
          rcases hh : (colon :: r).drop (takeParameter (colon :: r)).length with _ | ⟨b1, t1⟩
          · exact absurd hh hnil
          · rw [hh] at hchain hhead hloop
            by_cases hb1 : b1 = colon
            · subst hb1
              have hk := hchain.param_kind
              have hk0 : head.kind = .parameter := by
                rw [newNode_param] at hhead; cases hhead; rfl
              refine ⟨_, _, newNode_param r, ?_,
                Chain.paramParam r c n1 (by rw [hh]; simp) hk (by rw [hh]; exact hchain)⟩
              show newListLoop (f + 1) _ ((colon :: r).drop (takeParameter (colon :: r)).length) c = _
              rw [hstep, insertNode_param _ _ hk0]
              simp only [Run.andThen]
              rw [hh, hloop]
              simp only [Run.andThen]
              rw [insertNode_param _ _ hk]
              rfl
            · obtain ⟨hk, q, hq⟩ := hchain.text_route hb1
              have hk0 : head.kind = .text ∧ ∃ q0, head.route = b1 :: q0 := by
                have hs1 : star ∉ b1 :: t1 := by rw [← hh]; exact hs'
                rw [newNode_text b1 t1 hb1 hs1] at hhead
                cases hhead
                have hb1s : b1 ≠ star := by
                  intro h; apply hs1; simp [h]
                exact ⟨rfl, takeText t1, by simp [node.route, takeText_cons b1 t1 hb1 hb1s]⟩
              obtain ⟨hk0, q0, hq0⟩ := hk0
              refine ⟨_, _, newNode_param r, ?_, Chain.paramText r c b1 n1 (by rw [hh]; simp) hk
                ⟨q, hq⟩ (by rw [hh]; exact hchain)⟩
              show newListLoop (f + 1) _ ((colon :: r).drop (takeParameter (colon :: r)).length) c = _
              rw [hstep, insertNode_text _ _ b1 q0 hk0 hq0]
              simp only [Run.andThen]
              rw [hh, hloop]
              simp only [Run.andThen]
              rw [insertNode_text _ _ b1 q hk hq]
              rfl
      · have hbs : b ≠ star := by
          intro h; apply hs; simp [h]
        by_cases hnil : (b :: r).drop (takeText (b :: r)).length = []
        · refine ⟨_, _, newNode_text b r hb hs, ?_,
            Chain.textEnd b r c hb hbs (takeText_eq_of_drop_nil _ hnil)⟩
          show newListLoop (f + 1) _ ((b :: r).drop (takeText (b :: r)).length) c = _
          rw [newListLoop, hnil]
          simp [node.setCost, takeText_eq_of_drop_nil _ hnil]
        · have hs' : star ∉ (b :: r).drop (takeText (b :: r)).length := not_mem_drop _ hs
          have hlen' : ((b :: r).drop (takeText (b :: r)).length).length ≤ f := by
            rw [takeText_cons b r hb hbs]
            simp at hlen ⊢
            omega
          obtain ⟨head, n1, hhead, hloop, hchain⟩ := ih _ c hs' hnil hlen'
          have hnstar : (b :: r).drop (takeText (b :: r)).length ≠ [star] := by
            intro h; rw [h] at hs'; simp at hs'
          have hstep : ∀ cur : node, newListLoop (f + 1) cur
              ((b :: r).drop (takeText (b :: r)).length) c =
              (cur.insertNode head).andThen fun _ =>
                (newListLoop f head
                  (((b :: r).drop (takeText (b :: r)).length).drop head.route.length) c).andThen
                  fun next1 => cur.insertNode next1 := by
            intro cur
            rw [newListLoop, if_neg (by simp [hnil, hnstar]), hhead]
          rcases drop_takeText (b :: r) hs with h0 | ⟨t1, ht1⟩
          · exact absurd h0 hnil
          · rw [ht1] at hchain hhead hloop
            have hk := hchain.param_kind
            have hk0 : head.kind = .parameter := by
              rw [newNode_param] at hhead; cases hhead; rfl
            refine ⟨_, _, newNode_text b r hb hs, ?_,
              Chain.textMore b r c n1 hb hbs hnil hk (by rw [ht1]; exact hchain)⟩
            show newListLoop (f + 1) _ ((b :: r).drop (takeText (b :: r)).length) c = _
            rw [hstep, insertNode_param _ _ hk0]
            simp only [Run.andThen]
            rw [ht1, hloop]
            simp only [Run.andThen]
            rw [insertNode_param _ _ hk]
            rfl

theorem newList_chain (r : Bytes) (c : Int) (hs : star ∉ r) (hne : r ≠ []) :
    ∃ n, newList r c = .ok (some n) ∧ Chain r c n := by
  obtain ⟨head, n, hhead, hloop, hchain⟩ := newListLoop_chain (r.length + 1) r c hs hne (by omega)
  refine ⟨n, ?_, hchain⟩
  unfold newList
  rw [hhead]
  simp only []
  rw [hloop]
  rfl

/-! ### The walk of `insertRoute` -/

theorem insertRouteLoop_succ (fuel : Nat) (current : node) (remainder : Bytes) (cost : Int) :
    insertRouteLoop (fuel + 1) current remainder cost =
      match insertBody current remainder with
      | .finish current1 remainder1 => insertFinish current1 remainder1 cost
      | .again current1 remainder1 => insertRouteLoop fuel current1 remainder1 cost
      | .intoSpecial current1 sp remainder1 =>
        (insertRouteLoop fuel sp remainder1 cost).andThen fun sp1 =>
          .ok (current1.setSpecial (some sp1))
      | .intoChild current1 idx child remainder1 =>
        (insertRouteLoop fuel child remainder1 cost).andThen fun child1 =>
          .ok (current1.setChildren (current1.children.set idx child1))
      | .panic => .panic := rfl

/-- The code after the loop, for a remainder without `'*'`. -/
theorem insertFinish_ins (n : node) (r : Bytes) (c : Int) (hs : star ∉ r)
    (hsp : ∀ t, r = colon :: t → n.special = none)
    (hch : ∀ b t, r = b :: t → b ≠ colon → ¬ n.index.indexOf b < n.index.length) :
    ∃ n1, insertFinish n r c = .ok n1 ∧ Ins false n r c n1 := by
  cases r with
  | nil => exact ⟨_, by simp [insertFinish], Ins.done n c⟩
  | cons b t =>
    obtain ⟨stem, hnew, hchain⟩ := newList_chain (b :: t) c hs (by simp)
    have hnstar : b :: t ≠ [star] := by
      intro h; rw [h] at hs; simp at hs
    unfold insertFinish
    rw [if_neg (by simp), if_neg hnstar, hnew]
    simp only [Run.andThen]
    by_cases hb : b = colon
    · subst hb
      have hk := hchain.param_kind
      exact ⟨_, insertNode_param n stem hk, Ins.newSpecial n t c stem (hsp t rfl) hk hchain⟩
    · obtain ⟨hk, q, hq⟩ := hchain.text_route hb
      exact ⟨_, insertNode_text n stem b q hk hq,
        Ins.newChild n b t c stem hb (hch b t rfl hb) hk ⟨q, hq⟩ hchain⟩

theorem takePrefix_length_le (a b : Bytes) : (takePrefix a b).length ≤ b.length := by
  induction a generalizing b with
  | nil => cases b <;> simp [takePrefix]
  | cons x a ih =>
    cases b with
    | nil => simp [takePrefix]
    | cons y b =>
      simp only [takePrefix]
      split
      · simp; exact ih b
      · simp

theorem takePrefix_append_drop (a b : Bytes) :
    takePrefix a b ++ a.drop (takePrefix a b).length = a := by
  induction a generalizing b with
  | nil => cases b <;> simp [takePrefix]
  | cons x a ih =>
    cases b with
    | nil => simp [takePrefix]
    | cons y b =>
      simp only [takePrefix]
      split
      · simp; exact ih b
      · simp

theorem takePrefix_append_drop_right (a b : Bytes) :
    takePrefix a b ++ b.drop (takePrefix a b).length = b := by
  induction a generalizing b with
  | nil => cases b <;> simp [takePrefix]
  | cons x a ih =>
    cases b with
    | nil => simp [takePrefix]
    | cons y b =>
      simp only [takePrefix]
      split
      · rename_i h; simp [h]; exact ih b
      · simp

/-- After the common part the two strings differ at their first byte. -/
theorem takePrefix_next_ne (a b : Bytes) (x y : Nat) (ta tb : Bytes)
    (ha : a.drop (takePrefix a b).length = x :: ta)
    (hb : b.drop (takePrefix a b).length = y :: tb) : x ≠ y := by
  induction a generalizing b with
  | nil => simp at ha
  | cons x0 a ih =>
    cases b with
    | nil => simp at hb
    | cons y0 b =>
      simp only [takePrefix] at ha hb
      split at ha
      · rename_i h
        simp only [h, if_true, List.length_cons, List.drop_succ_cons] at ha hb
        exact ih b ha hb
      · rename_i h
        simp only [h, if_false, List.length_nil, List.drop_zero] at ha hb
        cases ha; cases hb
        exact h

theorem takePrefix_cons_cons (x : Nat) (a b : Bytes) :
    takePrefix (x :: a) (x :: b) = x :: takePrefix a b := by
  simp [takePrefix]

theorem splitNode_fields (n : node) (pre : Bytes) :
    (splitNode n pre).kind = .text ∧ (splitNode n pre).route = pre ∧
    (splitNode n pre).special = none ∧
    (splitNode n pre).index = (n.route.drop pre.length).take 1 ∧
    (splitNode n pre).children =
      [.mk .text n.hasWildcard (n.route.drop pre.length) n.index n.children n.special n.cost] ∧
    (splitNode n pre).cost = 0 := by
  cases n
  simp [splitNode, node.kind, node.route, node.special, node.index, node.children, node.cost,
    node.hasWildcard]

theorem sizeOpt_special_le (n : node) (sp : node) (h : n.special = some sp) :
    sp.size + 1 ≤ n.size := by
  cases n
  simp [node.special] at h
  subst h
  simp [node.size, sizeOpt]
  omega

theorem size_child_lt (n : node) (k : Nat) (ch : node) (h : n.children[k]? = some ch) :
    ch.size + 1 ≤ n.size := by
  have := size_le_sizeList _ _ _ h
  cases n
  simp [node.size, node.children] at this ⊢
  omega

theorem specialInv_some {sp : node} (h : specialInv (some sp)) :
    sp.kind = .parameter ∧ (∃ t, sp.route = colon :: t) ∧
      takeParameter sp.route = sp.route ∧ sp.Inv := by
  simpa [specialInv] using h

/-- The function `insertRouteLoop` computes the relation `Ins`: with enough fuel it returns
a node, for every remainder without `'*'`. -/
theorem insertRouteLoop_ins : ∀ (fuel : Nat) (n : node) (r : Bytes) (c : Int),
    n.Inv → star ∉ r →
    ((r = [] ∨ (∃ t, r = colon :: t) ∨ n.kind = .parameter) → 2 * n.size ≤ fuel + 1 →
      ∃ n1, insertRouteLoop fuel n r c = .ok n1 ∧ Ins false n r c n1) ∧
    (n.kind = .text → (∃ b t q, r = b :: t ∧ b ≠ colon ∧ n.route = b :: q) → 2 * n.size ≤ fuel →
      ∃ n1, insertRouteLoop fuel n r c = .ok n1 ∧ Ins true n r c n1) := by
  intro fuel
  induction fuel with
  | zero =>
    intro n r c _ _
    have := node_size_pos n
    constructor
    · intro _ h; omega
    · intro _ _ h; omega
  | succ f ih =>
    intro n r c hinv hs
    have hcinv := (node_Inv_iff n).mp hinv
    have hlen := childrenInv_length _ _ hcinv.1
    -- the search of a child, shared by both modes
    have hfind : ∀ (b : Nat) (t : Bytes), b ≠ colon → star ∉ b :: t → 2 * n.size ≤ f + 2 →
        ∃ n1, (match findChild n (b :: t) b with
          | .finish current1 remainder1 => insertFinish current1 remainder1 c
          | .again current1 remainder1 => insertRouteLoop f current1 remainder1 c
          | .intoSpecial current1 sp remainder1 =>
            (insertRouteLoop f sp remainder1 c).andThen fun sp1 =>
              .ok (current1.setSpecial (some sp1))
          | .intoChild current1 idx child remainder1 =>
            (insertRouteLoop f child remainder1 c).andThen fun child1 =>
              .ok (current1.setChildren (current1.children.set idx child1))
          | .panic => .panic) = .ok n1 ∧ Ins false n (b :: t) c n1 := by
      intro b t hb hst hsz
      unfold findChild
      by_cases hi : n.index.indexOf b < n.index.length
      · simp only [hi, if_true]
        have hi' : n.index.indexOf b < n.children.length := by omega
        obtain ⟨ch, hch⟩ : ∃ ch, n.children[n.index.indexOf b]? = some ch :=
          ⟨n.children[n.index.indexOf b], by simp [hi']⟩
        rw [hch]
        simp only []
        obtain ⟨hck, ⟨b', q, hb', hq⟩, _, hchinv⟩ := childrenInv_get _ _ hcinv.1 _ _ hch
        have hbb : b' = b := by
          have := indexOf_getElem b n.index hi
          rw [this] at hb'; cases hb'; rfl
        subst hbb
        have hsize := size_child_lt n _ ch hch
        obtain ⟨ch1, hrun, hins⟩ := (ih ch (b' :: t) c hchinv hst).2 hck ⟨b', t, q, rfl, hb, hq⟩
          (by omega)
        rw [hrun]
        exact ⟨_, rfl, Ins.viaChild n b' t c ch ch1 hb hi hch hins⟩
      · simp only [hi, if_false]
        exact insertFinish_ins n (b :: t) c hst (fun t' h => by cases h; exact absurd rfl hb)
          (fun b' t' h _ => by cases h; exact hi)
    constructor
    · -- the remainder is read after the segment of the node
      intro hmode hsz
      rw [insertRouteLoop_succ]
      cases r with
      | nil =>
        simp only [insertBody]
        exact insertFinish_ins n [] c hs (by simp) (by simp)
      | cons b t =>
        by_cases hb : b = colon
        · subst hb
          simp only [insertBody, if_true]
          cases hsp : n.special with
          | none =>
            simp only []
            exact insertFinish_ins n (colon :: t) c hs (fun _ _ => hsp) (fun b' t' h hb' => by
              cases h; exact absurd rfl hb')
          | some sp =>
            simp only []
            have hspinv := hcinv.2
            rw [hsp] at hspinv
            obtain ⟨hk, _, _, hi⟩ := specialInv_some hspinv
            have hsize := sizeOpt_special_le n sp hsp
            obtain ⟨sp1, hrun, hins⟩ := (ih sp ((colon :: t).drop (takeParameter (colon :: t)).length)
              c hi (not_mem_drop _ hs)).1 (Or.inr (Or.inr hk)) (by omega)
            rw [hrun]
            exact ⟨_, rfl, Ins.viaSpecial n t c sp sp1 hsp hins⟩
        · have hk : n.kind = .parameter := by
            rcases hmode with h | ⟨t', h⟩ | h
            · cases h
            · cases h; exact absurd rfl hb
            · exact h
          simp only [insertBody, hb, if_false, hk]
          exact hfind b t hb hs (by omega)
    · -- the remainder is read from the start of the text node
      rintro hk ⟨b, t, q, rfl, hb, hq⟩ hsz
      rw [insertRouteLoop_succ]
      simp only [insertBody, hb, if_false, hk, if_true]
      have hpd := takePrefix_append_drop (b :: t) n.route
      have hple := takePrefix_length_le (b :: t) n.route
      by_cases hlt : (takePrefix (b :: t) n.route).length < n.route.length
      · -- the node is split
        simp only [hlt, if_true]
        obtain ⟨hsk, hsr, hss, hsi, hsc, _⟩ := splitNode_fields n (takePrefix (b :: t) n.route)
        have hst : star ∉ (b :: t).drop (takePrefix (b :: t) n.route).length := not_mem_drop _ hs
        obtain ⟨y, tb, hy⟩ : ∃ y tb, n.route.drop (takePrefix (b :: t) n.route).length = y :: tb := by
          cases h : n.route.drop (takePrefix (b :: t) n.route).length with
          | nil => simp at h; omega
          | cons y tb => exact ⟨y, tb, rfl⟩
        cases hrem : (b :: t).drop (takePrefix (b :: t) n.route).length with
        | nil =>
          simp only []
          obtain ⟨n1, h1, h2⟩ := insertFinish_ins (splitNode n (takePrefix (b :: t) n.route)) [] c
            (by simp) (by simp) (by simp)
          exact ⟨n1, h1, Ins.split n (b :: t) c n1 hlt (by rw [hrem]; exact h2)⟩
        | cons b1 t1 =>
          simp only []
          rw [hrem] at hst
          by_cases hb1 : b1 = colon
          · subst hb1
            simp only [if_true]
            obtain ⟨f', rfl⟩ : ∃ f', f = f' + 1 := ⟨f - 1, by have := node_size_pos n; omega⟩
            rw [insertRouteLoop_succ]
            simp only [insertBody, if_true, hss]
            obtain ⟨n1, h1, h2⟩ := insertFinish_ins (splitNode n (takePrefix (b :: t) n.route))
              (colon :: t1) c hst (fun _ _ => hss) (fun b' t' h hb' => by
                cases h; exact absurd rfl hb')
            exact ⟨n1, h1, Ins.split n (b :: t) c n1 hlt (by rw [hrem]; exact h2)⟩
          · simp only [hb1, if_false]
            have hne : b1 ≠ y := takePrefix_next_ne (b :: t) n.route b1 y t1 tb hrem hy
            have hidx : ¬ (splitNode n (takePrefix (b :: t) n.route)).index.indexOf b1 <
                (splitNode n (takePrefix (b :: t) n.route)).index.length := by
              rw [hsi, hy]
              simp [List.indexOf_cons, Ne.symm hne]
            unfold findChild
            simp only [hidx, if_false]
            obtain ⟨n1, h1, h2⟩ := insertFinish_ins (splitNode n (takePrefix (b :: t) n.route))
              (b1 :: t1) c hst (fun t' h => by cases h; exact absurd rfl hb1)
              (fun b' t' h _ => by cases h; exact hidx)
            exact ⟨n1, h1, Ins.split n (b :: t) c n1 hlt (by rw [hrem]; exact h2)⟩
      · -- the route of the node is matched as a whole
        simp only [hlt, if_false]
        have hfull : takePrefix (b :: t) n.route = n.route := by
          have h1 := takePrefix_append_drop_right (b :: t) n.route
          have h2 : n.route.drop (takePrefix (b :: t) n.route).length = [] :=
            List.drop_eq_nil_of_le (by omega)
          rw [h2] at h1
          simpa using h1
        rw [hfull]
        have hst : star ∉ (b :: t).drop n.route.length := not_mem_drop _ hs
        cases hrem : (b :: t).drop n.route.length with
        | nil =>
          simp only []
          obtain ⟨n1, h1, h2⟩ := insertFinish_ins n [] c (by simp) (by simp) (by simp)
          exact ⟨n1, h1, Ins.full n (b :: t) c n1 hfull (by rw [hrem]; exact h2)⟩
        | cons b1 t1 =>
          simp only []
          rw [hrem] at hst
          by_cases hb1 : b1 = colon
          · subst hb1
            simp only [if_true]
            obtain ⟨n1, h1, h2⟩ := (ih n (colon :: t1) c hinv hst).1 (Or.inr (Or.inl ⟨t1, rfl⟩))
              (by omega)
            exact ⟨n1, h1, Ins.full n (b :: t) c n1 hfull (by rw [hrem]; exact h2)⟩
          · simp only [hb1, if_false]
            obtain ⟨n1, h1, h2⟩ := hfind b1 t1 hb1 hst (by omega)
            exact ⟨n1, h1, Ins.full n (b :: t) c n1 hfull (by rw [hrem]; exact h2)⟩

/-! ### The invariant is kept by `newList` and `insertRoute` -/

theorem colon_not_mem_takeText (r : Bytes) : colon ∉ takeText r := by
  induction r with
  | nil => simp [takeText]
  | cons b r ih =>
    simp only [takeText]
    split
    · simp
    · rename_i h
      simp only [not_or] at h
      simp [ih, Ne.symm h.1]

theorem takeParameter_idem (r : Bytes) : takeParameter (takeParameter r) = takeParameter r := by
  induction r with
  | nil => simp [takeParameter]
  | cons b r ih =>
    simp only [takeParameter]
    split
    · rename_i h; simp [takeParameter, h]
    · rename_i h; simp [takeParameter, h, ih]

theorem takeText_append_drop (r : Bytes) : takeText r ++ r.drop (takeText r).length = r := by
  induction r with
  | nil => simp [takeText]
  | cons b r ih =>
    simp only [takeText]
    split
    · simp
    · simp [ih]

theorem node_Inv_mk (k : nodeKind) (w : Bool) (r i : Bytes) (cs : List node) (s : Option node)
    (cost : Int) : (node.mk k w r i cs s cost).Inv ↔ childrenInv i cs ∧ specialInv s := by
  simp [node.Inv]

theorem childrenInv_nil : childrenInv [] [] := by simp [childrenInv]

theorem childrenInv_single (b : Nat) (ch : node) (hk : ch.kind = .text)
    (hr : ∃ q, ch.route = b :: q) (hc : colon ∉ ch.route) (hi : ch.Inv) :
    childrenInv [b] [ch] := by
  simp [childrenInv, hk, hr, hc, hi]

theorem childrenInv_append : ∀ (i : Bytes) (cs : List node) (b : Nat) (ch : node),
    childrenInv i cs → ch.kind = .text → (∃ q, ch.route = b :: q) → colon ∉ ch.route → ch.Inv →
    childrenInv (i ++ [b]) (cs ++ [ch]) := by
  intro i
  induction i with
  | nil =>
    intro cs b ch h hk hr hc hi
    cases cs with
    | nil => exact childrenInv_single b ch hk hr hc hi
    | cons _ _ => simp [childrenInv] at h
  | cons x i ih =>
    intro cs b ch h hk hr hc hi
    cases cs with
    | nil => simp [childrenInv] at h
    | cons c0 cs =>
      simp only [childrenInv, List.cons_append] at h ⊢
      exact ⟨h.1, h.2.1, h.2.2.1, h.2.2.2.1, ih cs b ch h.2.2.2.2 hk hr hc hi⟩

theorem childrenInv_set : ∀ (i : Bytes) (cs : List node) (k : Nat) (b : Nat) (ch : node),
    childrenInv i cs → i[k]? = some b → ch.kind = .text → (∃ q, ch.route = b :: q) →
    colon ∉ ch.route → ch.Inv → childrenInv i (cs.set k ch) := by
  intro i
  induction i with
  | nil => intro cs k b ch _ hk; simp at hk
  | cons x i ih =>
    intro cs k b ch h hb hk hr hc hi
    cases cs with
    | nil => simp [childrenInv] at h
    | cons c0 cs =>
      simp only [childrenInv] at h
      cases k with
      | zero =>
        simp at hb; subst hb
        simp only [List.set_cons_zero, childrenInv]
        exact ⟨hk, hr, hc, hi, h.2.2.2.2⟩
      | succ k =>
        simp at hb
        simp only [List.set_cons_succ, childrenInv]
        exact ⟨h.1, h.2.1, h.2.2.1, h.2.2.2.1, ih cs k b ch h.2.2.2.2 hb hk hr hc hi⟩

/-- The nodes of a chain satisfy the invariant. -/
theorem Chain.nodes_inv {r : Bytes} {c : Int} {n : node} (h : Chain r c n) :
    n.Inv ∧ (n.kind = .text → colon ∉ n.route) ∧
      (n.kind = .parameter → (∃ t, n.route = colon :: t) ∧ takeParameter n.route = n.route) := by
  induction h with
  | textEnd b r c h1 h2 h3 =>
    refine ⟨by simp [node.Inv, childrenInv, specialInv], ?_, by simp [node.kind]⟩
    intro _
    simp only [node.route]
    rw [← h3]; exact colon_not_mem_takeText _
  | textMore b r c next h1 h2 _ hk _ ih =>
    refine ⟨?_, ?_, by simp [node.kind]⟩
    · rw [node_Inv_mk]
      refine ⟨childrenInv_nil, ?_⟩
      simp only [specialInv]
      exact ⟨hk, (ih.2.2 hk).1, (ih.2.2 hk).2, ih.1⟩
    · intro _; exact colon_not_mem_takeText _
  | paramEnd r c h1 =>
    refine ⟨by simp [node.Inv, childrenInv, specialInv], by simp [node.kind], ?_⟩
    intro _
    exact ⟨⟨r, rfl⟩, h1⟩
  | paramText r c b next _ hk hr hch ih =>
    refine ⟨?_, by simp [node.kind], ?_⟩
    · rw [node_Inv_mk]
      exact ⟨childrenInv_single b next hk hr (ih.2.1 hk) ih.1, by simp [specialInv]⟩
    · intro _
      exact ⟨⟨takeParameter r, takeParameter_cons_colon r⟩, takeParameter_idem _⟩
  | paramParam r c next _ hk _ ih =>
    refine ⟨?_, by simp [node.kind], ?_⟩
    · rw [node_Inv_mk]
      refine ⟨childrenInv_nil, ?_⟩
      simp only [specialInv]
      exact ⟨hk, (ih.2.2 hk).1, (ih.2.2 hk).2, ih.1⟩
    · intro _
      exact ⟨⟨takeParameter r, takeParameter_cons_colon r⟩, takeParameter_idem _⟩

theorem insPre_special {n sp : node} (h : n.Inv) (hsp : n.special = some sp) (r : Bytes) :
    insPre false sp r := by
  have := ((node_Inv_iff n).mp h).2
  rw [hsp] at this
  exact ⟨(specialInv_some this).2.2.2, by simp⟩

theorem insPre_child {n ch : node} {b : Nat} (h : n.Inv) (hb : b ≠ colon)
    (hi : n.index.indexOf b < n.index.length)
    (hch : n.children[n.index.indexOf b]? = some ch) (t : Bytes) :
    insPre true ch (b :: t) := by
  obtain ⟨hk, ⟨b', q, hb', hq⟩, hc, hinv⟩ :=
    childrenInv_get _ _ ((node_Inv_iff n).mp h).1 _ _ hch
  have hbb : b' = b := by
    have := indexOf_getElem b n.index hi
    rw [this] at hb'; cases hb'; rfl
  subst hbb
  exact ⟨hinv, fun _ => ⟨hk, hc, b', t, q, rfl, hb, hq⟩⟩

theorem takePrefix_cons_of_head {b : Nat} {t q : Bytes} :
    takePrefix (b :: t) (b :: q) = b :: takePrefix t q := takePrefix_cons_cons b t q

theorem mem_of_mem_takePrefix {a : Nat} {x y : Bytes} (h : a ∈ takePrefix x y) : a ∈ y := by
  have := takePrefix_append_drop_right x y
  rw [← this]
  exact List.mem_append_left _ h

/-- The node left by a split satisfies the invariant. -/
theorem splitNode_inv {n : node} {r : Bytes} (h : insPre true n r)
    (hlt : (takePrefix r n.route).length < n.route.length) :
    (splitNode n (takePrefix r n.route)).Inv := by
  obtain ⟨hinv, hpre⟩ := h
  obtain ⟨hk, hc, b, t, q, rfl, hb, hq⟩ := hpre rfl
  obtain ⟨y, tb, hy⟩ : ∃ y tb, n.route.drop (takePrefix (b :: t) n.route).length = y :: tb := by
    cases h : n.route.drop (takePrefix (b :: t) n.route).length with
    | nil => simp at h; omega
    | cons y tb => exact ⟨y, tb, rfl⟩
  have hcs : colon ∉ n.route.drop (takePrefix (b :: t) n.route).length := not_mem_drop _ hc
  cases n with
  | mk k w R i cs s cost =>
    simp only [node.route] at hy hcs hlt hq ⊢
    simp only [splitNode, node.route, hy, node_Inv_mk]
    refine ⟨?_, by simp [specialInv]⟩
    rw [hy] at hcs
    exact childrenInv_single y _ rfl ⟨tb, rfl⟩ hcs (by rw [node_Inv_mk]; exact (node_Inv_mk _ _ _ _ _ _ _).mp hinv)

theorem setCost_fields (n : node) (c : Int) :
    (n.setCost c).kind = n.kind ∧ (n.setCost c).route = n.route ∧
    (n.setCost c).index = n.index ∧ (n.setCost c).children = n.children ∧
    (n.setCost c).special = n.special ∧ (n.setCost c).cost = c := by
  cases n; simp [node.setCost, node.kind, node.route, node.index, node.children, node.special,
    node.cost]

theorem setSpecial_fields (n : node) (s : Option node) :
    (n.setSpecial s).kind = n.kind ∧ (n.setSpecial s).route = n.route ∧
    (n.setSpecial s).index = n.index ∧ (n.setSpecial s).children = n.children ∧
    (n.setSpecial s).special = s ∧ (n.setSpecial s).cost = n.cost := by
  cases n; simp [node.setSpecial, node.kind, node.route, node.index, node.children,
    node.special, node.cost]

theorem setChildren_fields (n : node) (cs : List node) :
    (n.setChildren cs).kind = n.kind ∧ (n.setChildren cs).route = n.route ∧
    (n.setChildren cs).index = n.index ∧ (n.setChildren cs).children = cs ∧
    (n.setChildren cs).special = n.special ∧ (n.setChildren cs).cost = n.cost := by
  cases n; simp [node.setChildren, node.kind, node.route, node.index, node.children,
    node.special, node.cost]

/-- The walk of `insertRoute` keeps the invariant, the kind of the node, and the first
byte of its route. -/
theorem Ins.keeps_inv {mode : Bool} {n : node} {r : Bytes} {c : Int} {n1 : node}
    (h : Ins mode n r c n1) : insPre mode n r →
    n1.Inv ∧ n1.kind = n.kind ∧ (mode = false → n1.route = n.route) ∧
      (mode = true → colon ∉ n1.route ∧ ∃ b q q1, n.route = b :: q ∧ n1.route = b :: q1) := by
  induction h with
  | done n c =>
    intro hp
    obtain ⟨h1, h2, h3, h4, h5, _⟩ := setCost_fields n c
    refine ⟨?_, h1, fun _ => h2, by simp⟩
    rw [node_Inv_iff, h3, h4, h5]
    exact (node_Inv_iff n).mp hp.1
  | newSpecial n t c stem hsp hk hchain =>
    intro hp
    obtain ⟨h1, h2, h3, h4, h5, _⟩ := setSpecial_fields n (some stem)
    refine ⟨?_, h1, fun _ => h2, by simp⟩
    rw [node_Inv_iff, h3, h4, h5]
    refine ⟨((node_Inv_iff n).mp hp.1).1, ?_⟩
    simp only [specialInv]
    exact ⟨hk, (hchain.nodes_inv.2.2 hk).1, (hchain.nodes_inv.2.2 hk).2, hchain.nodes_inv.1⟩
  | viaSpecial n t c sp sp1 hsp _ ih =>
    intro hp
    obtain ⟨h1, h2, h3, h4, h5, _⟩ := setSpecial_fields n (some sp1)
    refine ⟨?_, h1, fun _ => h2, by simp⟩
    rw [node_Inv_iff, h3, h4, h5]
    refine ⟨((node_Inv_iff n).mp hp.1).1, ?_⟩
    have hsi := ((node_Inv_iff n).mp hp.1).2
    rw [hsp] at hsi
    obtain ⟨a1, a2, a3, _⟩ := specialInv_some hsi
    obtain ⟨b1, b2, b3, _⟩ := ih (insPre_special hp.1 hsp _)
    simp only [specialInv]
    rw [b2, b3 rfl]
    exact ⟨a1, a2, a3, b1⟩
  | newChild n b t c stem hb hi hk hr hchain =>
    intro hp
    refine ⟨?_, rfl, fun _ => rfl, by simp⟩
    rw [node_Inv_mk]
    exact ⟨childrenInv_append _ _ b stem ((node_Inv_iff n).mp hp.1).1 hk hr (hchain.nodes_inv.2.1 hk)
      hchain.nodes_inv.1, ((node_Inv_iff n).mp hp.1).2⟩
  | viaChild n b t c ch ch1 hb hi hch _ ih =>
    intro hp
    obtain ⟨h1, h2, h3, h4, h5, _⟩ := setChildren_fields n (n.children.set (n.index.indexOf b) ch1)
    refine ⟨?_, h1, fun _ => h2, by simp⟩
    rw [node_Inv_iff, h3, h4, h5]
    refine ⟨?_, ((node_Inv_iff n).mp hp.1).2⟩
    have hpc := insPre_child hp.1 hb hi hch t
    obtain ⟨b1, b2, _, b4⟩ := ih hpc
    obtain ⟨b5, b', q, q1, hq, hq1⟩ := b4 rfl
    obtain ⟨_, _, b'', _, q', hbt, _, hq'⟩ := hpc.2 rfl
    cases hbt
    rw [hq'] at hq
    cases hq
    exact childrenInv_set _ _ _ b ch1 ((node_Inv_iff n).mp hp.1).1 (indexOf_getElem _ _ hi)
      (by rw [b2]; exact (hpc.2 rfl).1) ⟨q1, hq1⟩ b5 b1
  | full n r c n1 hfull _ ih =>
    intro hp
    obtain ⟨b1, b2, b3, _⟩ := ih ⟨hp.1, by simp⟩
    refine ⟨b1, b2, by simp, fun _ => ?_⟩
    obtain ⟨_, hc, b, t, q, _, _, hq⟩ := hp.2 rfl
    rw [b3 rfl]
    exact ⟨hc, b, q, q, hq, hq⟩
  | split n r c n1 hlt _ ih =>
    intro hp
    obtain ⟨b1, b2, b3, _⟩ := ih ⟨splitNode_inv hp hlt, by simp⟩
    obtain ⟨hsk, hsr, _⟩ := splitNode_fields n (takePrefix r n.route)
    obtain ⟨hk, hc, b, t, q, hr, _, hq⟩ := hp.2 rfl
    refine ⟨b1, by rw [b2, hsk, hk], by simp, fun _ => ?_⟩
    rw [b3 rfl, hsr]
    refine ⟨fun hm => hc (mem_of_mem_takePrefix hm), b, q, takePrefix t q, hq, ?_⟩
    rw [hr, hq, takePrefix_cons_cons]

/-! ### Stored templates and `insertRoute` -/

/-- The relation `After` looks at `index`, `children`, `special` and `cost` only. -/
theorem After.congr {n n2 : node} {t : Bytes} {c : Int} (h : After n t c)
    (hi : n2.index = n.index) (hc : n2.children = n.children) (hs : n2.special = n.special)
    (hcost : n2.cost = n.cost) : After n2 t c := by
  cases h with
  | here _ _ h1 => exact After.here n2 c (by rw [hcost, h1])
  | child _ b t ch t1 _ h1 h2 h3 h4 h5 =>
    exact After.child n2 b t ch t1 c h1 (by rw [hi]; exact h2) (by rw [hi, hc]; exact h3) h4 h5
  | special _ t sp _ h1 h2 => exact After.special n2 t sp c (by rw [hs]; exact h1) h2

theorem SameSlot.append_left {t r : Bytes} (pre : Bytes) (hp : colon ∉ pre)
    (h : SameSlot t r) : SameSlot (pre ++ t) (pre ++ r) := by
  induction pre with
  | nil => simpa using h
  | cons b pre ih =>
    simp at hp
    exact SameSlot.lit b _ _ (Ne.symm hp.1) (ih hp.2)

/-- The template of a chain is stored in it. -/
theorem Chain.after {r : Bytes} {c : Int} {n : node} (h : Chain r c n) :
    (n.kind = .text → TextAfter n r c) ∧
      (n.kind = .parameter → After n (r.drop (takeParameter r).length) c) := by
  induction h with
  | textEnd b r c h1 h2 h3 =>
    refine ⟨fun _ => ⟨[], by simp [node.route], After.here _ _ rfl⟩, by simp [node.kind]⟩
  | textMore b r c next h1 h2 hne hk hchain ih =>
    refine ⟨fun _ => ⟨(b :: r).drop (takeText (b :: r)).length, ?_, ?_⟩, by simp [node.kind]⟩
    · simp only [node.route]; exact (takeText_append_drop _).symm
    · rcases hchain.head with ⟨t, ht, _⟩ | ⟨b', t', _, _, _, hk', _⟩
      · rw [ht]
        refine After.special _ t next c rfl ?_
        rw [← ht]; exact ih.2 hk
      · rw [hk] at hk'; cases hk'
  | paramEnd r c h1 =>
    refine ⟨by simp [node.kind], fun _ => ?_⟩
    rw [h1]; simp
    exact After.here _ _ rfl
  | paramText r c b next hne hk hr hchain ih =>
    refine ⟨by simp [node.kind], fun _ => ?_⟩
    obtain ⟨t1, ht1, ha⟩ := ih.1 hk
    rcases hchain.head with ⟨t, _, hk', _⟩ | ⟨b', t', ht, hb1, hb2, _, hroute⟩
    · rw [hk] at hk'; cases hk'
    · obtain ⟨q, hq⟩ := hr
      have hbb : b' = b := by
        rw [ht, takeText_cons b' t' hb1 hb2, hq] at hroute
        cases hroute; rfl
      subst hbb
      rw [ht] at ht1 ⊢
      exact After.child _ b' t' next t1 c hb1 (by simp [node.index])
        (by simp [node.index, node.children]) ht1 ha
  | paramParam r c next hne hk hchain ih =>
    refine ⟨by simp [node.kind], fun _ => ?_⟩
    rcases hchain.head with ⟨t, ht, _⟩ | ⟨b', t', _, _, _, hk', _⟩
    · rw [ht]
      refine After.special _ t next c rfl ?_
      rw [← ht]; exact ih.2 hk
    · rw [hk] at hk'; cases hk'

theorem getElem?_append_last (cs : List node) (ch : node) :
    (cs ++ [ch])[cs.length]? = some ch := by
  simp

/-- The template that `insertRoute` walks is stored in the node it leaves. -/
theorem Ins.stored {mode : Bool} {n : node} {r : Bytes} {c : Int} {n1 : node}
    (h : Ins mode n r c n1) : insPre mode n r →
    (mode = false → After n1 r c) ∧ (mode = true → TextAfter n1 r c) := by
  induction h with
  | done n c =>
    intro _
    exact ⟨fun _ => After.here _ _ (setCost_fields n c).2.2.2.2.2, by simp⟩
  | newSpecial n t c stem hsp hk hchain =>
    intro _
    refine ⟨fun _ => ?_, by simp⟩
    exact After.special _ t stem c (setSpecial_fields n _).2.2.2.2.1 (hchain.after.2 hk)
  | viaSpecial n t c sp sp1 hsp _ ih =>
    intro hp
    refine ⟨fun _ => ?_, by simp⟩
    exact After.special _ t sp1 c (setSpecial_fields n _).2.2.2.2.1
      ((ih (insPre_special hp.1 hsp _)).1 rfl)
  | newChild n b t c stem hb hi hk hr hchain =>
    intro hp
    refine ⟨fun _ => ?_, by simp⟩
    obtain ⟨t1, ht1, ha⟩ := hchain.after.1 hk
    have hlen := childrenInv_length _ _ ((node_Inv_iff n).mp hp.1).1
    have hidx : (n.index ++ [b]).indexOf b = n.index.length := by
      have hnm : b ∉ n.index := by
        intro hm; exact hi (List.indexOf_lt_length.mpr hm)
      rw [List.indexOf_append_of_not_mem hnm]
      simp
    refine After.child _ b t stem t1 c hb ?_ ?_ ht1 ha
    · show (n.index ++ [b]).indexOf b < (n.index ++ [b]).length
      rw [hidx]; simp
    · show (n.children ++ [stem])[(n.index ++ [b]).indexOf b]? = some stem
      rw [hidx, hlen]; simp
  | viaChild n b t c ch ch1 hb hi hch _ ih =>
    intro hp
    refine ⟨fun _ => ?_, by simp⟩
    obtain ⟨t1, ht1, ha⟩ := (ih (insPre_child hp.1 hb hi hch t)).2 rfl
    obtain ⟨_, _, h3, h4, _, _⟩ := setChildren_fields n (n.children.set (n.index.indexOf b) ch1)
    have hlen := childrenInv_length _ _ ((node_Inv_iff n).mp hp.1).1
    refine After.child _ b t ch1 t1 c hb (by rw [h3]; exact hi) ?_ ht1 ha
    rw [h3, h4, List.getElem?_set_self (by omega)]
  | full n r c n1 hfull _ ih =>
    intro hp
    refine ⟨by simp, fun _ => ?_⟩
    obtain ⟨_, _, b3, _⟩ := Ins.keeps_inv (by assumption) (⟨hp.1, by simp⟩ : insPre false n _)
    refine ⟨r.drop n.route.length, ?_, (ih ⟨hp.1, by simp⟩).1 rfl⟩
    rw [b3 rfl]
    have := takePrefix_append_drop r n.route
    rw [hfull] at this
    exact this.symm
  | split n r c n1 hlt _ ih =>
    intro hp
    refine ⟨by simp, fun _ => ?_⟩
    have hsi := splitNode_inv hp hlt
    obtain ⟨_, _, b3, _⟩ := Ins.keeps_inv (by assumption)
      (⟨hsi, by simp⟩ : insPre false (splitNode n (takePrefix r n.route)) _)
    refine ⟨r.drop (takePrefix r n.route).length, ?_, (ih ⟨hsi, by simp⟩).1 rfl⟩
    rw [b3 rfl, (splitNode_fields n _).2.1]
    exact (takePrefix_append_drop r n.route).symm

theorem indexOf_eq_of_lt {i : Bytes} {a b : Nat} (ha : i.indexOf a < i.length)
    (h : i.indexOf a = i.indexOf b) : a = b := by
  have h1 := indexOf_getElem a i ha
  have h2 := indexOf_getElem b i (by rw [← h]; exact ha)
  rw [h] at h1
  rw [h1] at h2
  cases h2; rfl

/-- A template stored in a node, and not in the slot of the template that `insertRoute`
walks, is stored in the node that `insertRoute` leaves. -/
theorem Ins.preserves {mode : Bool} {n : node} {r : Bytes} {c : Int} {n1 : node}
    (h : Ins mode n r c n1) : insPre mode n r → ∀ (t : Bytes) (c0 : Int), ¬ SameSlot t r →
    (mode = false → After n t c0 → After n1 t c0) ∧
      (mode = true → TextAfter n t c0 → TextAfter n1 t c0) := by
  induction h with
  | done n c =>
    intro _ t c0 hns
    refine ⟨fun _ ha => ?_, by simp⟩
    obtain ⟨_, _, h3, h4, h5, _⟩ := setCost_fields n c
    cases ha with
    | here _ _ _ => exact absurd SameSlot.nil hns
    | child _ b t ch t1 _ a1 a2 a3 a4 a5 =>
      exact After.child _ b t ch t1 c0 a1 (by rw [h3]; exact a2) (by rw [h3, h4]; exact a3) a4 a5
    | special _ t sp _ a1 a2 => exact After.special _ t sp c0 (by rw [h5]; exact a1) a2
  | newSpecial n t c stem hsp hk hchain =>
    intro _ t0 c0 _
    refine ⟨fun _ ha => ?_, by simp⟩
    obtain ⟨_, _, h3, h4, _, h6⟩ := setSpecial_fields n (some stem)
    cases ha with
    | here _ _ a1 => exact After.here _ _ (by rw [h6]; exact a1)
    | child _ b t ch t1 _ a1 a2 a3 a4 a5 =>
      exact After.child _ b t ch t1 c0 a1 (by rw [h3]; exact a2) (by rw [h3, h4]; exact a3) a4 a5
    | special _ t sp _ a1 a2 => rw [hsp] at a1; cases a1
  | viaSpecial n t c sp sp1 hsp _ ih =>
    intro hp t0 c0 hns
    refine ⟨fun _ ha => ?_, by simp⟩
    obtain ⟨_, _, h3, h4, h5, h6⟩ := setSpecial_fields n (some sp1)
    cases ha with
    | here _ _ a1 => exact After.here _ _ (by rw [h6]; exact a1)
    | child _ b t ch t1 _ a1 a2 a3 a4 a5 =>
      exact After.child _ b t ch t1 c0 a1 (by rw [h3]; exact a2) (by rw [h3, h4]; exact a3) a4 a5
    | special _ t' sp' _ a1 a2 =>
      rw [hsp] at a1; cases a1
      refine After.special _ t' sp1 c0 h5 ?_
      exact (ih (insPre_special hp.1 hsp _) _ c0 (fun hss => hns (SameSlot.par _ _ hss))).1 rfl a2
  | newChild n b t c stem hb hi hk hr hchain =>
    intro hp t0 c0 _
    refine ⟨fun _ ha => ?_, by simp⟩
    have hlen := childrenInv_length _ _ ((node_Inv_iff n).mp hp.1).1
    cases ha with
    | here _ _ a1 => exact After.here _ _ a1
    | child _ b' t' ch t1 _ a1 a2 a3 a4 a5 =>
      have hidx : (n.index ++ [b]).indexOf b' = n.index.indexOf b' :=
        List.indexOf_append_of_mem (List.indexOf_lt_length.mp a2)
      refine After.child _ b' t' ch t1 c0 a1 ?_ ?_ a4 a5
      · show (n.index ++ [b]).indexOf b' < (n.index ++ [b]).length
        rw [hidx]; simp; omega
      · show (n.children ++ [stem])[(n.index ++ [b]).indexOf b']? = some ch
        rw [hidx, List.getElem?_append_left (by omega)]
        exact a3
    | special _ t' sp _ a1 a2 => exact After.special _ t' sp c0 a1 a2
  | viaChild n b t c ch ch1 hb hi hch hins ih =>
    intro hp t0 c0 hns
    refine ⟨fun _ ha => ?_, by simp⟩
    obtain ⟨_, _, h3, h4, h5, h6⟩ := setChildren_fields n (n.children.set (n.index.indexOf b) ch1)
    have hlen := childrenInv_length _ _ ((node_Inv_iff n).mp hp.1).1
    cases ha with
    | here _ _ a1 => exact After.here _ _ (by rw [h6]; exact a1)
    | child _ b' t' ch' t1 _ a1 a2 a3 a4 a5 =>
      by_cases hsame : n.index.indexOf b' = n.index.indexOf b
      · have hbb : b' = b := indexOf_eq_of_lt a2 hsame
        subst hbb
        rw [hch] at a3; cases a3
        obtain ⟨t2, ht2, ha2⟩ := (ih (insPre_child hp.1 hb hi hch t) (b' :: t') c0 hns).2 rfl
          ⟨t1, a4, a5⟩
        refine After.child _ b' t' ch1 t2 c0 a1 (by rw [h3]; exact a2) ?_ ht2 ha2
        rw [h3, h4, List.getElem?_set_self (by omega)]
      · refine After.child _ b' t' ch' t1 c0 a1 (by rw [h3]; exact a2) ?_ a4 a5
        rw [h3, h4, List.getElem?_set_ne (Ne.symm hsame)]
        exact a3
    | special _ t' sp _ a1 a2 => exact After.special _ t' sp c0 (by rw [h5]; exact a1) a2
  | full n r c n1 hfull hins ih =>
    intro hp t0 c0 hns
    refine ⟨by simp, fun _ ha => ?_⟩
    obtain ⟨t1, ht1, ha1⟩ := ha
    obtain ⟨_, hc, _⟩ := hp.2 rfl
    obtain ⟨_, _, b3, _⟩ := Ins.keeps_inv hins (⟨hp.1, by simp⟩ : insPre false n _)
    have hr : r = n.route ++ r.drop n.route.length := by
      have := takePrefix_append_drop r n.route
      rw [hfull] at this
      exact this.symm
    refine ⟨t1, by rw [b3 rfl]; exact ht1, (ih ⟨hp.1, by simp⟩ t1 c0 ?_).1 rfl ha1⟩
    intro hss
    apply hns
    rw [ht1, hr]
    exact hss.append_left _ hc
  | split n r c n1 hlt hins ih =>
    intro hp t0 c0 hns
    refine ⟨by simp, fun _ ha => ?_⟩
    obtain ⟨t1, ht1, ha1⟩ := ha
    obtain ⟨hk, hc, b, t, q, hrb, hb, hq⟩ := hp.2 rfl
    have hsi := splitNode_inv hp hlt
    obtain ⟨hsk, hsr, hss, hsidx, hsc, _⟩ := splitNode_fields n (takePrefix r n.route)
    obtain ⟨_, _, b3, _⟩ := Ins.keeps_inv hins
      (⟨hsi, by simp⟩ : insPre false (splitNode n (takePrefix r n.route)) _)
    obtain ⟨y, tb, hy⟩ : ∃ y tb, n.route.drop (takePrefix r n.route).length = y :: tb := by
      cases h : n.route.drop (takePrefix r n.route).length with
      | nil => simp at h; omega
      | cons y tb => exact ⟨y, tb, rfl⟩
    have hyc : y ≠ colon := by
      intro h
      apply hc
      have : y ∈ n.route.drop (takePrefix r n.route).length := by rw [hy]; simp
      rw [← h]
      exact List.mem_of_mem_drop this
    -- the stored template passes through the stem of the split
    have hstem : After (splitNode n (takePrefix r n.route)) (y :: (tb ++ t1)) c0 := by
      rw [hy] at hsc hsidx
      refine After.child _ y (tb ++ t1)
        (node.mk .text n.hasWildcard (y :: tb) n.index n.children n.special n.cost) t1 c0 hyc
        ?_ ?_ ?_ (ha1.congr rfl rfl rfl rfl)
      · rw [hsidx]; simp
      · rw [hsidx, hsc]; simp
      · simp [node.route]
    have hroute : n.route = takePrefix r n.route ++ y :: tb := by
      rw [← hy]; exact (takePrefix_append_drop_right r n.route).symm
    refine ⟨y :: (tb ++ t1), ?_, (ih ⟨hsi, by simp⟩ _ c0 ?_).1 rfl hstem⟩
    · rw [b3 rfl, hsr, ht1]
      conv_lhs => rw [hroute]
      simp
    · intro hsame
      apply hns
      have h1 : t0 = takePrefix r n.route ++ (y :: (tb ++ t1)) := by
        rw [ht1]
        conv_lhs => rw [hroute]
        simp
      have hx := hsame.append_left (takePrefix r n.route)
        (fun hm => hc (mem_of_mem_takePrefix hm))
      rw [← h1, takePrefix_append_drop] at hx
      exact hx

/-! ### The tree of method roots -/

theorem Run.andThen_ok {α β : Type} (v : α) (f : α → Run β) : (Run.ok v).andThen f = f v := rfl

theorem tree_get_cons (b : root) (bs : List root) (m : Bytes) :
    tree.get ⟨b :: bs⟩ m = if b.method = m then b.node else tree.get ⟨bs⟩ m := by
  unfold tree.get
  by_cases h : b.method = m
  · simp [List.find?, h]
  · simp [List.find?, h]

theorem tree_get_nil (m : Bytes) : tree.get ⟨[]⟩ m = none := by
  simp [tree.get]

theorem get_setRoot_same : ∀ (bs : List root) (m : Bytes) (n : node),
    (∃ b ∈ bs, b.method = m) → tree.get ⟨setRoot bs m n⟩ m = some n := by
  intro bs
  induction bs with
  | nil => intro m n h; simp at h
  | cons b bs ih =>
    intro m n h
    by_cases hb : b.method = m
    · simp [setRoot, hb, tree_get_cons]
    · simp only [setRoot, hb, if_false, tree_get_cons]
      apply ih
      obtain ⟨x, hx, hxm⟩ := h
      rcases List.mem_cons.mp hx with h1 | h1
      · subst h1; exact absurd hxm hb
      · exact ⟨x, h1, hxm⟩

theorem get_setRoot_other : ∀ (bs : List root) (m m1 : Bytes) (n : node), m1 ≠ m →
    tree.get ⟨setRoot bs m n⟩ m1 = tree.get ⟨bs⟩ m1 := by
  intro bs
  induction bs with
  | nil => intro m m1 n _; simp [setRoot]
  | cons b bs ih =>
    intro m m1 n hne
    by_cases hb : b.method = m
    · have : ¬ b.method = m1 := fun h => hne (by rw [← h, hb])
      simp [setRoot, hb, tree_get_cons]
      rw [hb] at this
      simp [this, Ne.symm hne]
    · simp only [setRoot, hb, if_false, tree_get_cons]
      rw [ih m m1 n hne]

theorem get_some_mem : ∀ (bs : List root) (m : Bytes) (n : node),
    tree.get ⟨bs⟩ m = some n → ∃ b ∈ bs, b.method = m := by
  intro bs
  induction bs with
  | nil => intro m n h; simp [tree_get_nil] at h
  | cons b bs ih =>
    intro m n h
    rw [tree_get_cons] at h
    by_cases hb : b.method = m
    · exact ⟨b, by simp, hb⟩
    · simp only [hb, if_false] at h
      obtain ⟨x, hx, hxm⟩ := ih m n h
      exact ⟨x, List.mem_cons_of_mem _ hx, hxm⟩

theorem get_append_of_some : ∀ (bs : List root) (x : root) (m : Bytes) (n : node),
    tree.get ⟨bs⟩ m = some n → tree.get ⟨bs ++ [x]⟩ m = some n := by
  intro bs
  induction bs with
  | nil => intro x m n h; simp [tree_get_nil] at h
  | cons b bs ih =>
    intro x m n h
    rw [List.cons_append, tree_get_cons]
    rw [tree_get_cons] at h
    by_cases hb : b.method = m
    · simpa [hb] using h
    · simp only [hb, if_false] at h ⊢
      exact ih x m n h

theorem get_append_new : ∀ (bs : List root) (m : Bytes) (n : node),
    (∀ b ∈ bs, b.method ≠ m) → tree.get ⟨bs ++ [⟨m, some n⟩]⟩ m = some n := by
  intro bs
  induction bs with
  | nil => intro m n _; simp [tree_get_cons]
  | cons b bs ih =>
    intro m n h
    rw [List.cons_append, tree_get_cons]
    have hb : ¬ b.method = m := h b (by simp)
    simp only [hb, if_false]
    exact ih m n (fun x hx => h x (List.mem_cons_of_mem _ hx))

theorem get_none_of_inv : ∀ (bs : List root) (m : Bytes), treeInv ⟨bs⟩ →
    tree.get ⟨bs⟩ m = none → ∀ b ∈ bs, b.method ≠ m := by
  intro bs
  induction bs with
  | nil => intro m _ _ b hb; simp at hb
  | cons b bs ih =>
    intro m hinv h x hx
    rw [tree_get_cons] at h
    by_cases hb : b.method = m
    · simp only [hb, if_true] at h
      obtain ⟨n, hn, _⟩ := hinv b (by simp)
      rw [hn] at h; cases h
    · simp only [hb, if_false] at h
      rcases List.mem_cons.mp hx with h1 | h1
      · subst h1; exact hb
      · exact ih m (fun r hr => hinv r (List.mem_cons_of_mem _ hr)) h x h1

theorem get_inv (t : tree) (m : Bytes) (n : node) (hinv : treeInv t)
    (h : t.get m = some n) : rootInv n := by
  obtain ⟨bs⟩ := t
  induction bs with
  | nil => simp [tree_get_nil] at h
  | cons b bs ih =>
    rw [tree_get_cons] at h
    by_cases hb : b.method = m
    · simp only [hb, if_true] at h
      obtain ⟨n', hn, hr⟩ := hinv b (by simp)
      rw [hn] at h; cases h; exact hr
    · simp only [hb, if_false] at h
      exact ih (fun r hr => hinv r (List.mem_cons_of_mem _ hr)) h

theorem treeInv_setRoot : ∀ (bs : List root) (m : Bytes) (n : node), treeInv ⟨bs⟩ →
    rootInv n → treeInv ⟨setRoot bs m n⟩ := by
  intro bs
  induction bs with
  | nil => intro m n h _; simpa [setRoot] using h
  | cons b bs ih =>
    intro m n h hn r hr
    by_cases hb : b.method = m
    · simp only [setRoot, hb, if_true] at hr
      rcases List.mem_cons.mp hr with h1 | h1
      · subst h1; exact ⟨n, rfl, hn⟩
      · exact h r (List.mem_cons_of_mem _ h1)
    · simp only [setRoot, hb, if_false] at hr
      rcases List.mem_cons.mp hr with h1 | h1
      · subst h1; exact h _ (by simp)
      · exact ih m n (fun r hr => h r (List.mem_cons_of_mem _ hr)) hn r h1

/-- The chain of a template that starts with `'/'` is a root. -/
theorem Chain.root_inv {t : Bytes} {c : Int} {n : node} (h : Chain (slash :: t) c n) :
    rootInv n := by
  obtain ⟨hk, q, hq⟩ := h.text_route (by decide)
  exact ⟨hk, ⟨q, hq⟩, h.nodes_inv.2.1 hk, h.nodes_inv.1⟩

/-- The method `insertRoute` on a root, for a template that starts with `'/'` and holds no
`'*'`. -/
theorem insertRoute_root (n : node) (t : Bytes) (c : Int) (hn : rootInv n)
    (hs : star ∉ slash :: t) :
    ∃ n1, n.insertRoute (slash :: t) c = .ok n1 ∧ rootInv n1 ∧ TextAfter n1 (slash :: t) c ∧
      ∀ (t0 : Bytes) (c0 : Int), ¬ SameSlot t0 (slash :: t) → TextAfter n t0 c0 →
        TextAfter n1 t0 c0 := by
  obtain ⟨hk, ⟨q, hq⟩, hc, hinv⟩ := hn
  have hpre : insPre true n (slash :: t) :=
    ⟨hinv, fun _ => ⟨hk, hc, slash, t, q, rfl, by decide, hq⟩⟩
  obtain ⟨n1, hrun, hins⟩ := (insertRouteLoop_ins (2 * n.size + 2) n (slash :: t) c hinv hs).2 hk
    ⟨slash, t, q, rfl, by decide, hq⟩ (by omega)
  obtain ⟨i1, i2, _, i4⟩ := hins.keeps_inv hpre
  obtain ⟨i5, b, q0, q1, hq0, hq1⟩ := i4 rfl
  refine ⟨n1, hrun, ⟨by rw [i2]; exact hk, ⟨q1, ?_⟩, i5, i1⟩, (hins.stored hpre).2 rfl, ?_⟩
  · rw [hq] at hq0; cases hq0; exact hq1
  · intro t0 c0 hns h0
    exact (hins.preserves hpre t0 c0 hns).2 rfl h0

/-- The method `add` for a template that starts with `'/'` and holds no `'*'`: it returns,
the template is stored, and every template stored in another slot stays stored. -/
theorem add_stored (t : tree) (m : Bytes) (tm : Bytes) (c : Int) (hinv : treeInv t)
    (hs : star ∉ slash :: tm) :
    ∃ t1, t.add m (slash :: tm) c = .ok t1 ∧ treeInv t1 ∧ treeStored t1 m (slash :: tm) c ∧
      ∀ (m0 t0 : Bytes) (c0 : Int), treeStored t m0 t0 c0 →
        (m0 = m → ¬ SameSlot t0 (slash :: tm)) → treeStored t1 m0 t0 c0 := by
  obtain ⟨bs⟩ := t
  unfold tree.add
  cases hg : tree.get ⟨bs⟩ m with
  | some n =>
    simp only []
    have hn := get_inv ⟨bs⟩ m n hinv hg
    obtain ⟨n1, hrun, hn1, hst, hpres⟩ := insertRoute_root n tm c hn hs
    rw [hrun, Run.andThen_ok]
    have hmem := get_some_mem bs m n hg
    refine ⟨_, rfl, treeInv_setRoot bs m n1 hinv hn1, ⟨n1, get_setRoot_same bs m n1 hmem, hst⟩, ?_⟩
    rintro m0 t0 c0 ⟨n0, hg0, h0⟩ hdiff
    by_cases hm : m0 = m
    · subst hm
      rw [hg] at hg0; cases hg0
      exact ⟨n1, get_setRoot_same bs m0 n1 hmem, hpres t0 c0 (hdiff rfl) h0⟩
    · exact ⟨n0, by rw [get_setRoot_other bs m m0 n1 hm]; exact hg0, h0⟩
  | none =>
    simp only []
    obtain ⟨n, hnew, hchain⟩ := newList_chain (slash :: tm) c hs (by simp)
    rw [hnew, Run.andThen_ok]
    have hnone := get_none_of_inv bs m hinv hg
    refine ⟨_, rfl, ?_, ⟨n, get_append_new bs m n hnone, hchain.after.1 (hchain.text_route (by decide)).1⟩, ?_⟩
    · intro r hr
      rcases List.mem_append.mp hr with h1 | h1
      · exact hinv r h1
      · simp at h1; subst h1; exact ⟨n, rfl, hchain.root_inv⟩
    · rintro m0 t0 c0 ⟨n0, hg0, h0⟩ _
      exact ⟨n0, get_append_of_some bs _ m0 n0 hg0, h0⟩

/-- The routes added in order with `add`: every route of the list is stored in the final
tree when no later route of its method falls into its slot. -/
theorem addAll_stored : ∀ (rs : List Route) (t : tree), treeInv t →
    (∀ r ∈ rs, (∃ tm, r.route = slash :: tm) ∧ star ∉ r.route) →
    rs.Pairwise (fun a b => a.method = b.method → ¬ SameSlot a.route b.route) →
    ∃ t1, addAll t rs = .ok t1 ∧ treeInv t1 ∧
      (∀ r ∈ rs, treeStored t1 r.method r.route r.cost) ∧
      (∀ (m0 t0 : Bytes) (c0 : Int), treeStored t m0 t0 c0 →
        (∀ r ∈ rs, r.method = m0 → ¬ SameSlot t0 r.route) → treeStored t1 m0 t0 c0) := by
  intro rs
  induction rs with
  | nil =>
    intro t hinv _ _
    exact ⟨t, rfl, hinv, by simp, fun _ _ _ h _ => h⟩
  | cons r rs ih =>
    intro t hinv hgood hpw
    obtain ⟨⟨tm, htm⟩, hstar⟩ := hgood r (by simp)
    rw [htm] at hstar
    obtain ⟨t1, hadd, hinv1, hst1, hpres1⟩ := add_stored t r.method tm r.cost hinv hstar
    obtain ⟨hhead, htail⟩ := List.pairwise_cons.mp hpw
    obtain ⟨t2, hall, hinv2, hst2, hpres2⟩ := ih t1 hinv1
      (fun x hx => hgood x (List.mem_cons_of_mem _ hx)) htail
    refine ⟨t2, ?_, hinv2, ?_, ?_⟩
    · simp only [addAll]
      rw [htm, hadd, Run.andThen_ok]
      exact hall
    · intro x hx
      rcases List.mem_cons.mp hx with h1 | h1
      · subst h1
        apply hpres2
        · rw [htm]; exact hst1
        · intro y hy hym
          exact hhead y hy hym.symm
      · exact hst2 x h1
    · intro m0 t0 c0 h0 hdiff
      apply hpres2
      · apply hpres1 m0 t0 c0 h0
        intro hm
        rw [← htm]
        exact hdiff r (by simp) hm.symm
      · intro y hy hym
        exact hdiff y (List.mem_cons_of_mem _ hy) hym

/-! ### Erased parameter names -/

theorem eraseFrom_false_cons (b : Nat) (t : Bytes) (hb : b ≠ colon) :
    eraseFrom false (b :: t) = b :: eraseFrom false t := by
  simp [eraseFrom, hb]

theorem eraseFrom_false_colon (t : Bytes) :
    eraseFrom false (colon :: t) = colon :: eraseFrom true t := by
  simp [eraseFrom]

theorem eraseFrom_true (t : Bytes) :
    eraseFrom true t =
      if slash ∈ t then slash :: eraseFrom false (t.drop (takeParameter t).length) else [] := by
  induction t with
  | nil => simp [eraseFrom]
  | cons b t ih =>
    by_cases hb : b = slash
    · subst hb
      simp [eraseFrom, takeParameter]
    · have : ¬ slash = b := fun h => hb h.symm
      simp only [eraseFrom, hb, if_false, takeParameter, List.length_cons, List.drop_succ_cons,
        List.mem_cons, this, false_or]
      exact ih

theorem drop_takeParameter_colon (t : Bytes) :
    (colon :: t).drop (takeParameter (colon :: t)).length = t.drop (takeParameter t).length := by
  rw [takeParameter_cons_colon]
  simp

theorem drop_takeParameter_of_not_mem (t : Bytes) (h : slash ∉ t) :
    t.drop (takeParameter t).length = [] := by
  rw [takeParameter_of_not_mem t h]
  simp

theorem eraseNames_colon (t : Bytes) :
    eraseNames (colon :: t) =
      if slash ∈ t then
        colon :: slash :: eraseNames ((colon :: t).drop (takeParameter (colon :: t)).length)
      else [colon] := by
  unfold eraseNames
  rw [eraseFrom_false_colon, eraseFrom_true, drop_takeParameter_colon]
  split <;> rfl

theorem SameSlot.nil_left {r : Bytes} (h : SameSlot [] r) : r = [] := by
  cases h; rfl

theorem SameSlot.nil_right {t : Bytes} (h : SameSlot t []) : t = [] := by
  cases h; rfl

/-- Two templates of one slot have the same erased form, up to one trailing `'/'`. -/
theorem SameSlot.erase {t r : Bytes} (h : SameSlot t r) :
    eraseNames t = eraseNames r ∨ eraseNames r = eraseNames t ++ [slash] ∨
      eraseNames t = eraseNames r ++ [slash] := by
  induction h with
  | nil => left; rfl
  | lit b t r hb _ ih =>
    unfold eraseNames at ih ⊢
    rw [eraseFrom_false_cons b t hb, eraseFrom_false_cons b r hb]
    rcases ih with h | h | h
    · left; rw [h]
    · right; left; rw [h]; simp
    · right; right; rw [h]; simp
  | par t r hs ih =>
    rw [eraseNames_colon t, eraseNames_colon r]
    by_cases ht : slash ∈ t <;> by_cases hr : slash ∈ r
    · simp only [ht, hr, if_true]
      rcases ih with h | h | h
      · left; rw [h]
      · right; left; rw [h]; simp
      · right; right; rw [h]; simp
    · simp only [ht, hr, if_true, if_false]
      rw [drop_takeParameter_colon r, drop_takeParameter_of_not_mem r hr] at hs
      have := hs.nil_right
      rw [this]
      right; right
      simp [eraseNames, eraseFrom]
    · simp only [ht, hr, if_true, if_false]
      rw [drop_takeParameter_colon t, drop_takeParameter_of_not_mem t ht] at hs
      have := hs.nil_left
      rw [this]
      right; left
      simp [eraseNames, eraseFrom]
    · simp [ht, hr]

theorem eraseFrom_false_eq_nil (x : Bytes) (h : eraseFrom false x = []) : x = [] := by
  cases x with
  | nil => rfl
  | cons b x =>
    simp only [eraseFrom] at h
    split at h <;> simp at h

/-- An erased template ends in `'/'` only when the template does. -/
theorem eraseFrom_getLast (m : Bool) (x : Bytes) (h : (eraseFrom m x).getLast? = some slash) :
    x.getLast? = some slash := by
  induction x generalizing m with
  | nil => simp [eraseFrom] at h
  | cons b x ih =>
    have hcons : ∀ (m1 : Bool), (b :: eraseFrom m1 x).getLast? = some slash →
        (m1 = true → b ≠ slash) →
        (b :: x).getLast? = some slash := by
      intro m1 h1 hm
      cases hx : eraseFrom m1 x with
      | nil =>
        rw [hx] at h1
        simp at h1
        cases m1 with
        | false =>
          have := eraseFrom_false_eq_nil x hx
          subst this; simp [h1]
        | true => exact absurd h1 (hm rfl)
      | cons y ys =>
        rw [hx, List.getLast?_cons_cons] at h1
        have := ih m1 (by rw [hx]; exact h1)
        cases x with
        | nil => simp at this
        | cons z zs => rw [List.getLast?_cons_cons]; exact this
    cases m with
    | true =>
      simp only [eraseFrom] at h
      by_cases hb : b = slash
      · simp only [hb, if_true] at h
        subst hb
        cases hx : eraseFrom false x with
        | nil =>
          have := eraseFrom_false_eq_nil x hx
          subst this; simp
        | cons y ys =>
          rw [hx, List.getLast?_cons_cons] at h
          have := ih false (by rw [hx]; exact h)
          cases x with
          | nil => simp at this
          | cons z zs => rw [List.getLast?_cons_cons]; exact this
      · simp only [hb, if_false] at h
        have := ih true h
        cases x with
        | nil => simp at this
        | cons z zs => rw [List.getLast?_cons_cons]; exact this
    | false =>
      simp only [eraseFrom] at h
      by_cases hb : b = colon
      · simp only [hb, if_true] at h
        rw [← hb] at h
        exact hcons true h (fun _ => by rw [hb]; decide)
      · simp only [hb, if_false] at h
        exact hcons false h (by simp)

/-- Templates that do not end in `'/'` and differ after their names are erased lie in
different slots. -/
theorem not_sameSlot_of_erase {t r : Bytes} (ht : noTrailingSlash t) (hr : noTrailingSlash r)
    (h : eraseNames t ≠ eraseNames r) : ¬ SameSlot t r := by
  intro hs
  rcases hs.erase with h1 | h1 | h1
  · exact h h1
  · apply hr
    apply eraseFrom_getLast false r
    show (eraseNames r).getLast? = some slash
    rw [h1]; simp
  · apply ht
    apply eraseFrom_getLast false t
    show (eraseNames t).getLast? = some slash
    rw [h1]; simp

/-! ### Round trip of the own template -/

theorem specAccepts_head {t : Bytes} (h : specAccepts t) : ∃ tm, t = slash :: tm := by
  have := h.1
  cases t with
  | nil => simp at this
  | cons b tm => simp at this; subst this; exact ⟨tm, rfl⟩

/-- The lookup of a stored template of positive cost, with or without one more `'/'`. -/
theorem get_of_treeStored (t : tree) (m tm : Bytes) (c : Int) (sfx : Bytes)
    (hs : sfx = [] ∨ sfx = [slash]) (hinv : treeInv t) (hst : treeStored t m tm c)
    (hnt : noTrailingSlash tm) (hc : 0 < c) :
    node.get (t.get m) (tm ++ sfx) = .ok c := by
  obtain ⟨n, hg, t1, ht1, ha⟩ := hst
  have hn := get_inv t m n hinv hg
  rw [hg]
  unfold node.get
  have hnt1 : noTrailingSlash t1 := by
    cases t1 with
    | nil => exact noTrailingSlash_nil
    | cons x xs => rw [ht1] at hnt; exact noTrailingSlash_of_append (by simp) hnt
  exact (getLoop_after sfx hs n t1 c ha hc (sizeOpt (some n) + 1) (tm ++ sfx) 0 0 [] hn.2.2.2
    (by simp [sizeOpt]) hnt1).1 hn.1 (by rw [ht1]; simp)

/-- Own-template round trip, with or without one trailing `'/'` on the looked-up path. -/
theorem lookup_own (rs : List Route) (sfx : Bytes) (hs : sfx = [] ∨ sfx = [slash])
    (hgood : ∀ r ∈ rs, plainTemplate r.route ∧ 0 < r.cost)
    (hdist : rs.Pairwise fun a b => a.method = b.method → eraseNames a.route ≠ eraseNames b.route) :
    ∀ r ∈ rs, lookup rs r.method (r.route ++ sfx) = .ok r.cost := by
  intro r hr
  have hpw : rs.Pairwise (fun a b => a.method = b.method → ¬ SameSlot a.route b.route) := by
    have hall : rs.Pairwise (fun a b => a ∈ rs ∧ b ∈ rs ∧
        (a.method = b.method → eraseNames a.route ≠ eraseNames b.route)) := by
      rw [List.pairwise_iff_forall_sublist] at hdist ⊢
      intro a b hab
      have ha : a ∈ rs := hab.subset (by simp)
      have hb : b ∈ rs := hab.subset (by simp)
      exact ⟨ha, hb, hdist hab⟩
    refine hall.imp ?_
    rintro a b ⟨ha, hb, hne⟩ hm
    exact not_sameSlot_of_erase (hgood a ha).1.2.2 (hgood b hb).1.2.2 (hne hm)
  obtain ⟨t1, hall, hinv1, hst, _⟩ := addAll_stored rs ⟨[]⟩ (by intro x hx; simp at hx)
    (fun x hx => ⟨specAccepts_head (hgood x hx).1.1, (hgood x hx).1.2.1⟩) hpw
  unfold lookup build
  rw [hall, Run.andThen_ok]
  exact get_of_treeStored t1 r.method r.route r.cost sfx hs hinv1 (hst r hr) (hgood r hr).1.2.2
    (hgood r hr).2

/-! ### The writes of `dump` -/

mutual
theorem dumpNode_eq : ∀ (n : node) (pre : Bytes) (res : List (Bytes × Int)),
    dumpNode n pre res = (entries n pre).foldl (fun acc e => mapSet acc e.1 e.2) res
  | .mk kind w route i children special cost, pre, res => by
    simp only [dumpNode, entries, List.foldl_append]
    rw [dumpChildren_eq children, dumpSpecial_eq special]
    by_cases hc : cost > 0
    · simp [hc]
    · simp [hc]
theorem dumpSpecial_eq : ∀ (s : Option node) (pre : Bytes) (res : List (Bytes × Int)),
    dumpSpecial s pre res = (entriesOpt s pre).foldl (fun acc e => mapSet acc e.1 e.2) res
  | none, _, _ => by simp [dumpSpecial, entriesOpt]
  | some sp, pre, res => by
    simp only [dumpSpecial, entriesOpt]
    exact dumpNode_eq sp pre res
theorem dumpChildren_eq : ∀ (cs : List node) (pre : Bytes) (res : List (Bytes × Int)),
    dumpChildren cs pre res = (entriesList cs pre).foldl (fun acc e => mapSet acc e.1 e.2) res
  | [], _, _ => by simp [dumpChildren, entriesList]
  | c :: cs, pre, res => by
    simp only [dumpChildren, entriesList, List.foldl_append]
    rw [dumpNode_eq c pre res, dumpChildren_eq cs pre]
end

theorem entries_eq (n : node) (pre : Bytes) :
    entries n pre =
      (if n.cost > 0 then [(stripTrailingSlash (pre ++ n.route), n.cost)] else []) ++
        entriesBelow n (downRoute n pre) := by
  cases n
  simp [entries, entriesBelow, downRoute, node.cost, node.route, node.kind, node.special,
    node.children]

/-! ### The maps and the sort of `dump` -/

theorem mem_mapSet_imp (m : List (Bytes × Int)) (key : Bytes) (w : Int) (x : Bytes × Int)
    (h : x ∈ mapSet m key w) : x ∈ m ∨ x = (key, w) := by
  induction m with
  | nil => simp [mapSet] at h; right; exact h
  | cons e m ih =>
    obtain ⟨k, v⟩ := e
    simp only [mapSet] at h
    split at h
    · rename_i hk
      rcases List.mem_cons.mp h with h1 | h1
      · right; rw [h1, hk]
      · left; exact List.mem_cons_of_mem _ h1
    · rcases List.mem_cons.mp h with h1 | h1
      · left; rw [h1]; simp
      · rcases ih h1 with h2 | h2
        · left; exact List.mem_cons_of_mem _ h2
        · right; exact h2

theorem mem_mapSet_self (m : List (Bytes × Int)) (key : Bytes) (w : Int) :
    (key, w) ∈ mapSet m key w := by
  induction m with
  | nil => simp [mapSet]
  | cons e m ih =>
    obtain ⟨k, v⟩ := e
    simp only [mapSet]
    split
    · rename_i hk; simp [hk]
    · exact List.mem_cons_of_mem _ ih

theorem mem_mapSet_of_ne (m : List (Bytes × Int)) (key : Bytes) (w : Int) (x : Bytes × Int)
    (hne : x.1 ≠ key) (h : x ∈ m) : x ∈ mapSet m key w := by
  induction m with
  | nil => simp at h
  | cons e m ih =>
    obtain ⟨k, v⟩ := e
    simp only [mapSet]
    split
    · rename_i hk
      rcases List.mem_cons.mp h with h1 | h1
      · rw [h1] at hne; exact absurd hk hne
      · exact List.mem_cons_of_mem _ h1
    · rcases List.mem_cons.mp h with h1 | h1
      · rw [h1]; simp
      · exact List.mem_cons_of_mem _ (ih h1)

/-- Every pair of the final map was written. -/
theorem mem_foldl_mapSet_imp (es : List (Bytes × Int)) :
    ∀ (res : List (Bytes × Int)) (x : Bytes × Int),
      x ∈ es.foldl (fun acc e => mapSet acc e.1 e.2) res → x ∈ res ∨ x ∈ es := by
  induction es with
  | nil => intro res x h; left; simpa using h
  | cons e es ih =>
    intro res x h
    simp only [List.foldl_cons] at h
    rcases ih _ x h with h1 | h1
    · rcases mem_mapSet_imp res e.1 e.2 x h1 with h2 | h2
      · left; exact h2
      · right; rw [h2]; simp
    · right; exact List.mem_cons_of_mem _ h1

theorem mem_foldl_mapSet_persist (es : List (Bytes × Int)) :
    ∀ (res : List (Bytes × Int)) (x : Bytes × Int), x ∈ res → (∀ e ∈ es, e.1 ≠ x.1) →
      x ∈ es.foldl (fun acc e => mapSet acc e.1 e.2) res := by
  induction es with
  | nil => intro res x h _; simpa using h
  | cons e es ih =>
    intro res x h hne
    simp only [List.foldl_cons]
    apply ih
    · exact mem_mapSet_of_ne res e.1 e.2 x (Ne.symm (hne e (by simp))) h
    · intro e' he'; exact hne e' (List.mem_cons_of_mem _ he')

/-- Every written key is in the final map, with a value written for it. -/
theorem mem_foldl_mapSet_key (es : List (Bytes × Int)) :
    ∀ (res : List (Bytes × Int)) (x : Bytes × Int), x ∈ es →
      ∃ v, (x.1, v) ∈ es.foldl (fun acc e => mapSet acc e.1 e.2) res ∧ (x.1, v) ∈ es := by
  induction es with
  | nil => intro res x h; simp at h
  | cons e es ih =>
    intro res x h
    simp only [List.foldl_cons]
    by_cases hlater : ∃ e' ∈ es, e'.1 = x.1
    · obtain ⟨e', he', hk⟩ := hlater
      obtain ⟨v, hv1, hv2⟩ := ih (mapSet res e.1 e.2) e' he'
      rw [hk] at hv1 hv2
      exact ⟨v, hv1, List.mem_cons_of_mem _ hv2⟩
    · push_neg at hlater
      rcases List.mem_cons.mp h with h1 | h1
      · subst h1
        refine ⟨x.2, ?_, by simp⟩
        exact mem_foldl_mapSet_persist es _ (x.1, x.2) (mem_mapSet_self res x.1 x.2) hlater
      · exact absurd rfl (hlater x h1)

theorem outerSet_of_not_mem (o : List (Bytes × List (Bytes × Int))) (m : Bytes)
    (v : List (Bytes × Int)) (h : m ∉ o.map Prod.fst) : outerSet o m v = o ++ [(m, v)] := by
  induction o with
  | nil => simp [outerSet]
  | cons e o ih =>
    obtain ⟨k, w⟩ := e
    simp at h
    simp only [outerSet]
    rw [if_neg (fun hk => h.1 hk.symm)]
    simp only [List.cons_append, List.cons.injEq, true_and]
    apply ih
    simpa using h.2

theorem dumpRoots_eq : ∀ (roots : List root) (results : List (Bytes × List (Bytes × Int))),
    (∀ r ∈ roots, ∃ n, r.node = some n) →
    (results.map Prod.fst ++ roots.map fun r => r.method).Nodup →
    dumpRoots roots results = .ok (results ++ roots.map fun r => (r.method, rootDump r)) := by
  intro roots
  induction roots with
  | nil => intro results _ _; simp [dumpRoots]
  | cons r roots ih =>
    intro results hsome hnd
    obtain ⟨n, hn⟩ := hsome r (by simp)
    simp only [dumpRoots, hn]
    have hnm : r.method ∉ results.map Prod.fst := by
      intro hm
      rw [List.nodup_append] at hnd
      exact hnd.2.2 hm (by simp)
    rw [outerSet_of_not_mem results r.method _ hnm]
    rw [ih _ (fun x hx => hsome x (List.mem_cons_of_mem _ hx))]
    · simp [rootDump, hn]
    · have : (results ++ [(r.method, dumpNode n [] [])]).map Prod.fst ++
          roots.map (fun r => r.method) =
          results.map Prod.fst ++ (r :: roots).map fun r => r.method := by simp
      rw [this]; exact hnd

theorem mem_sortedInsert (r x : Route) (l : List Route) :
    x ∈ sortedInsert r l ↔ x = r ∨ x ∈ l := by
  induction l with
  | nil => simp [sortedInsert]
  | cons y l ih =>
    simp only [sortedInsert]
    split
    · simp [ih]; tauto
    · simp

theorem mem_sortRoutes (x : Route) (l : List Route) : x ∈ sortRoutes l ↔ x ∈ l := by
  induction l with
  | nil => simp [sortRoutes]
  | cons y l ih => simp [sortRoutes, mem_sortedInsert, ih]

theorem get_of_mem_distinct : ∀ (bs : List root) (r : root),
    (bs.map fun r => r.method).Nodup → r ∈ bs → tree.get ⟨bs⟩ r.method = r.node := by
  intro bs
  induction bs with
  | nil => intro r _ h; simp at h
  | cons b bs ih =>
    intro r hnd hr
    rw [tree_get_cons]
    simp only [List.map_cons, List.nodup_cons] at hnd
    rcases List.mem_cons.mp hr with h1 | h1
    · subst h1; simp
    · have : ¬ b.method = r.method := by
        intro h
        apply hnd.1
        rw [h]
        exact List.mem_map_of_mem _ h1
      simp only [this, if_false]
      exact ih r hnd.2 h1

theorem get_some_root : ∀ (bs : List root) (m : Bytes) (n : node),
    tree.get ⟨bs⟩ m = some n → ∃ r ∈ bs, r.method = m ∧ r.node = some n := by
  intro bs
  induction bs with
  | nil => intro m n h; simp [tree_get_nil] at h
  | cons b bs ih =>
    intro m n h
    rw [tree_get_cons] at h
    by_cases hb : b.method = m
    · simp only [hb, if_true] at h
      exact ⟨b, by simp, hb, h⟩
    · simp only [hb, if_false] at h
      obtain ⟨r, hr, h1, h2⟩ := ih m n h
      exact ⟨r, List.mem_cons_of_mem _ hr, h1, h2⟩

/-- The result of `dump` on a tree built by `add`: a triple is reported exactly when its
route and cost are in the map filled from the writes below the root of its method. -/
theorem dump_mem (t : tree) (hinv : treeInv t) (hd : distinctMethods t) :
    ∃ d, t.dump = .ok d ∧ ∀ x : Route, x ∈ d ↔
      ∃ n, t.get x.method = some n ∧
        (x.route, x.cost) ∈ (entries n []).foldl (fun acc e => mapSet acc e.1 e.2) [] := by
  obtain ⟨bs⟩ := t
  have hsome : ∀ r ∈ bs, ∃ n, r.node = some n := by
    intro r hr
    obtain ⟨n, hn, _⟩ := hinv r hr
    exact ⟨n, hn⟩
  have hroots := dumpRoots_eq bs [] hsome (by simpa [distinctMethods] using hd)
  have hdump : tree.dump ⟨bs⟩ = .ok (sortRoutes
      (([] ++ bs.map fun (r : root) => (r.method, rootDump r)).flatMap
        fun (mc : Bytes × List (Bytes × Int)) =>
          mc.2.map fun (rc : Bytes × Int) =>
            ({ method := mc.1, route := rc.1, cost := rc.2 } : Route))) := by
    simp only [tree.dump, hroots, Run.andThen_ok]
  refine ⟨_, hdump, ?_⟩
  intro x
  rw [mem_sortRoutes]
  simp only [List.nil_append, List.mem_flatMap, List.mem_map]
  constructor
  · rintro ⟨mc, ⟨r, hr, rfl⟩, rc, hrc, rfl⟩
    obtain ⟨n, hn⟩ := hsome r hr
    refine ⟨n, ?_, ?_⟩
    · rw [← hn]
      exact get_of_mem_distinct bs r hd hr
    · simp only [rootDump, hn, dumpNode_eq] at hrc
      exact hrc
  · rintro ⟨n, hg, hmem⟩
    obtain ⟨r, hr, hm, hn⟩ := get_some_root bs x.method n hg
    refine ⟨(r.method, rootDump r), ⟨r, hr, rfl⟩, (x.route, x.cost), ?_, ?_⟩
    · simp only [rootDump, hn, dumpNode_eq]
      exact hmem
    · cases x
      simp at hm ⊢
      exact hm

/-! ### Erasing names, stripping the trailing slash, and concatenation -/

theorem eraseFrom_snoc_slash (m : Bool) (y : Bytes) :
    eraseFrom m (y ++ [slash]) = eraseFrom m y ++ [slash] := by
  induction y generalizing m with
  | nil => cases m <;> simp [eraseFrom]
  | cons b y ih =>
    cases m with
    | true =>
      simp only [List.cons_append, eraseFrom]
      split
      · simp [ih]
      · exact ih true
    | false =>
      simp only [List.cons_append, eraseFrom]
      split
      · simp [ih]
      · simp [ih]

theorem stripTrailingSlash_snoc (y : Bytes) : stripTrailingSlash (y ++ [slash]) = y := by
  simp [stripTrailingSlash]

theorem stripTrailingSlash_of_noTrail (x : Bytes) (h : x.getLast? ≠ some slash) :
    stripTrailingSlash x = x := by
  simp [stripTrailingSlash, h]

/-- Erasing the names and stripping the trailing `'/'` commute. -/
theorem eraseNames_strip (x : Bytes) :
    eraseNames (stripTrailingSlash x) = stripTrailingSlash (eraseNames x) := by
  by_cases h : x.getLast? = some slash
  · obtain ⟨y, rfl⟩ : ∃ y, x = y ++ [slash] := by
      rw [List.getLast?_eq_some_iff] at h
      exact h
    unfold eraseNames
    rw [eraseFrom_snoc_slash, stripTrailingSlash_snoc, stripTrailingSlash_snoc]
  · rw [stripTrailingSlash_of_noTrail x h, stripTrailingSlash_of_noTrail]
    intro h1
    exact h (eraseFrom_getLast false x h1)

theorem eraseFrom_false_text (r x : Bytes) (h : colon ∉ r) :
    eraseFrom false (r ++ x) = r ++ eraseFrom false x := by
  induction r with
  | nil => simp
  | cons b r ih =>
    simp at h
    rw [List.cons_append, eraseFrom_false_cons b _ (Ne.symm h.1), ih h.2]
    simp

theorem eraseNames_text (r : Bytes) (h : colon ∉ r) : eraseNames r = r := by
  have := eraseFrom_false_text r [] h
  simpa [eraseNames, eraseFrom] using this

theorem outside_nil : outside [] := by
  intro x; simp [eraseNames, eraseFrom]

theorem outside_append_text {s r : Bytes} (hs : outside s) (hr : colon ∉ r) :
    outside (s ++ r) ∧ eraseNames (s ++ r) = eraseNames s ++ r := by
  have h1 : eraseNames (s ++ r) = eraseNames s ++ r := by
    rw [hs r, eraseNames_text r hr]
  refine ⟨?_, h1⟩
  intro x
  rw [List.append_assoc, hs (r ++ x), h1]
  unfold eraseNames
  rw [eraseFrom_false_text r x hr]
  simp

theorem eraseFrom_true_name (nm x : Bytes) (h : slash ∉ nm) :
    eraseFrom true (nm ++ slash :: x) = slash :: eraseFrom false x := by
  induction nm with
  | nil => simp [eraseFrom]
  | cons b nm ih =>
    simp at h
    simp only [List.cons_append, eraseFrom]
    rw [if_neg (Ne.symm h.1)]
    exact ih h.2

theorem eraseFrom_true_name_end (nm : Bytes) (h : slash ∉ nm) : eraseFrom true nm = [] := by
  induction nm with
  | nil => simp [eraseFrom]
  | cons b nm ih =>
    simp at h
    simp only [eraseFrom]
    rw [if_neg (Ne.symm h.1)]
    exact ih h.2

theorem eraseNames_param (nm x : Bytes) (h : slash ∉ nm) :
    eraseNames (colon :: (nm ++ slash :: x)) = colon :: slash :: eraseNames x := by
  unfold eraseNames
  rw [eraseFrom_false_colon, eraseFrom_true_name nm x h]

theorem eraseNames_param_end (nm : Bytes) (h : slash ∉ nm) :
    eraseNames (colon :: nm) = [colon] := by
  unfold eraseNames
  rw [eraseFrom_false_colon, eraseFrom_true_name_end nm h]

/-- A parameter segment is a name without `'/'`, with or without a `'/'` after it. -/
theorem takeParameter_fix (p : Bytes) (h : takeParameter p = p) :
    slash ∉ p ∨ ∃ q, p = q ++ [slash] ∧ slash ∉ q := by
  induction p with
  | nil => left; simp
  | cons b p ih =>
    simp only [takeParameter] at h
    by_cases hb : b = slash
    · simp only [hb, if_true] at h
      have : p = [] := by
        have := congrArg List.length h
        simp at this
        exact this
      subst this
      right; exact ⟨[], by simp [hb], by simp⟩
    · simp only [hb, if_false, List.cons.injEq, true_and] at h
      rcases ih h with h1 | ⟨q, hq, hq2⟩
      · left; simp [h1, Ne.symm hb]
      · right; exact ⟨b :: q, by simp [hq], by simp [hq2, Ne.symm hb]⟩

/-- The shape of a parameter segment that starts with `':'`. -/
theorem param_shape (t : Bytes) (h : takeParameter (colon :: t) = colon :: t) :
    ∃ nm, slash ∉ nm ∧ (t = nm ∨ t = nm ++ [slash]) := by
  rcases takeParameter_fix _ h with h1 | ⟨q, hq, hq2⟩
  · simp at h1; exact ⟨t, h1, Or.inl rfl⟩
  · cases q with
    | nil => simp at hq
    | cons b q =>
      simp at hq hq2
      exact ⟨q, hq2.2, Or.inr hq.2⟩

theorem addTrailingSlash_of_slash (x : Bytes) : addTrailingSlash (x ++ [slash]) = x ++ [slash] := by
  simp [addTrailingSlash]

theorem addTrailingSlash_of_ne (x : Bytes) (b : Nat) (hb : b ≠ slash) :
    addTrailingSlash (x ++ [b]) = x ++ [b] ++ [slash] := by
  simp [addTrailingSlash, hb]

/-- The route handed down by a parameter node: the segment with one `'/'` after it. -/
theorem addTrailingSlash_param (s nm : Bytes) (h : slash ∉ nm) :
    addTrailingSlash (s ++ colon :: nm) = s ++ colon :: (nm ++ [slash]) ∧
    addTrailingSlash (s ++ colon :: (nm ++ [slash])) = s ++ colon :: (nm ++ [slash]) := by
  constructor
  · rcases List.eq_nil_or_concat nm with h1 | ⟨l, b, h1⟩
    · subst h1
      have := addTrailingSlash_of_ne s colon (by decide)
      simpa using this
    · subst h1
      have hb : b ≠ slash := by
        intro hb; apply h; simp [hb]
      have := addTrailingSlash_of_ne (s ++ colon :: l) b hb
      simpa using this
  · have := addTrailingSlash_of_slash (s ++ colon :: nm)
    simpa using this

theorem outside_append_param {s nm : Bytes} (hs : outside s) (h : slash ∉ nm) :
    outside (s ++ colon :: (nm ++ [slash])) ∧
      eraseNames (s ++ colon :: (nm ++ [slash])) = eraseNames s ++ [colon, slash] := by
  have h1 : eraseNames (s ++ colon :: (nm ++ [slash])) = eraseNames s ++ [colon, slash] := by
    rw [hs]
    have := eraseNames_param nm [] h
    simp [eraseNames, eraseFrom] at this ⊢
    exact this
  refine ⟨?_, h1⟩
  intro x
  have : s ++ colon :: (nm ++ [slash]) ++ x = s ++ colon :: (nm ++ slash :: x) := by simp
  rw [this, hs, eraseNames_param nm x h, h1]
  simp

/-- The key of a template that ends with the text of a text node. -/
theorem dumpKey_text {s ts r : Bytes} (hs : outside s) (hts : outside ts)
    (he : eraseNames s = eraseNames ts) (hr : colon ∉ r) :
    eraseNames (stripTrailingSlash (s ++ r)) = dumpKey (ts ++ r) := by
  unfold dumpKey
  rw [eraseNames_strip, eraseNames_strip, (outside_append_text hs hr).2,
    (outside_append_text hts hr).2, he]

theorem strip_param_key (e nm : Bytes) (h : slash ∉ nm) (t : Bytes) (ht : t = nm ∨ t = nm ++ [slash])
    (s : Bytes) (hs : outside s) (he : eraseNames s = e) :
    eraseNames (stripTrailingSlash (s ++ colon :: t)) = e ++ [colon] := by
  rw [eraseNames_strip]
  rcases ht with h1 | h1
  · subst h1
    rw [hs, eraseNames_param_end t h, he, stripTrailingSlash_of_noTrail]
    simp
  · subst h1
    rw [(outside_append_param hs h).2, he]
    have : e ++ [colon, slash] = (e ++ [colon]) ++ [slash] := by simp
    rw [this, stripTrailingSlash_snoc]

/-- The key of a template that ends with a parameter: the name and a trailing `'/'` do not
count. -/
theorem dumpKey_param {s ts p q : Bytes} (hs : outside s) (hts : outside ts)
    (he : eraseNames s = eraseNames ts)
    (hp : takeParameter (colon :: p) = colon :: p) (hq : takeParameter (colon :: q) = colon :: q) :
    eraseNames (stripTrailingSlash (s ++ colon :: p)) = dumpKey (ts ++ colon :: q) := by
  obtain ⟨nm, hnm, hp'⟩ := param_shape p hp
  obtain ⟨nm2, hnm2, hq'⟩ := param_shape q hq
  unfold dumpKey
  rw [strip_param_key (eraseNames ts) nm hnm p hp' s hs he,
    strip_param_key (eraseNames ts) nm2 hnm2 q hq' ts hts rfl]

/-- Two templates of one slot have the same key. -/
theorem SameSlot.erase_strong {t r : Bytes} (h : SameSlot t r) :
    eraseNames t = eraseNames r ∨
      (eraseNames r = eraseNames t ++ [slash] ∧ (eraseNames t).getLast? = some colon) ∨
      (eraseNames t = eraseNames r ++ [slash] ∧ (eraseNames r).getLast? = some colon) := by
  induction h with
  | nil => left; rfl
  | lit b t r hb _ ih =>
    unfold eraseNames at ih ⊢
    rw [eraseFrom_false_cons b t hb, eraseFrom_false_cons b r hb]
    rcases ih with h | ⟨h, h2⟩ | ⟨h, h2⟩
    · left; rw [h]
    · right; left
      refine ⟨by rw [h]; simp, ?_⟩
      cases hx : eraseFrom false t with
      | nil => rw [hx] at h2; simp at h2
      | cons y ys => rw [List.getLast?_cons_cons, ← hx]; exact h2
    · right; right
      refine ⟨by rw [h]; simp, ?_⟩
      cases hx : eraseFrom false r with
      | nil => rw [hx] at h2; simp at h2
      | cons y ys => rw [List.getLast?_cons_cons, ← hx]; exact h2
  | par t r hs ih =>
    rw [eraseNames_colon t, eraseNames_colon r]
    by_cases ht : slash ∈ t <;> by_cases hr : slash ∈ r
    · simp only [ht, hr, if_true]
      rcases ih with h | ⟨h, h2⟩ | ⟨h, h2⟩
      · left; rw [h]
      · right; left
        refine ⟨by rw [h]; simp, ?_⟩
        cases hx : eraseNames ((colon :: t).drop (takeParameter (colon :: t)).length) with
        | nil => rw [hx] at h2; simp at h2
        | cons y ys =>
          rw [List.getLast?_cons_cons, List.getLast?_cons_cons, ← hx]; exact h2
      · right; right
        refine ⟨by rw [h]; simp, ?_⟩
        cases hx : eraseNames ((colon :: r).drop (takeParameter (colon :: r)).length) with
        | nil => rw [hx] at h2; simp at h2
        | cons y ys =>
          rw [List.getLast?_cons_cons, List.getLast?_cons_cons, ← hx]; exact h2
    · simp only [ht, hr, if_true, if_false]
      rw [drop_takeParameter_colon r, drop_takeParameter_of_not_mem r hr] at hs
      have := hs.nil_right
      rw [this]
      right; right
      simp [eraseNames, eraseFrom]
    · simp only [ht, hr, if_true, if_false]
      rw [drop_takeParameter_colon t, drop_takeParameter_of_not_mem t ht] at hs
      have := hs.nil_left
      rw [this]
      right; left
      simp [eraseNames, eraseFrom]
    · simp [ht, hr]

theorem stripTrailingSlash_of_last_colon (x : Bytes) (h : x.getLast? = some colon) :
    stripTrailingSlash x = x := by
  apply stripTrailingSlash_of_noTrail
  rw [h]; decide

theorem SameSlot.dumpKey_eq {t r : Bytes} (h : SameSlot t r) : dumpKey t = dumpKey r := by
  unfold dumpKey
  rw [eraseNames_strip, eraseNames_strip]
  rcases h.erase_strong with h1 | ⟨h1, h2⟩ | ⟨h1, h2⟩
  · rw [h1]
  · rw [h1, stripTrailingSlash_snoc, stripTrailingSlash_of_last_colon _ h2]
  · rw [h1, stripTrailingSlash_snoc, stripTrailingSlash_of_last_colon _ h2]

/-! ### The writes of `dump` and the stored templates -/

theorem mem_entriesList_of_getElem : ∀ (cs : List node) (i : Nat) (ch : node) (pre : Bytes)
    (x : Bytes × Int), cs[i]? = some ch → x ∈ entries ch pre → x ∈ entriesList cs pre := by
  intro cs
  induction cs with
  | nil => intro i ch pre x h; simp at h
  | cons c0 cs ih =>
    intro i ch pre x h hx
    simp only [entriesList, List.mem_append]
    cases i with
    | zero => simp at h; subst h; left; exact hx
    | succ i => simp at h; right; exact ih i ch pre x h hx

theorem entriesList_append : ∀ (cs : List node) (ch : node) (pre : Bytes),
    entriesList (cs ++ [ch]) pre = entriesList cs pre ++ entries ch pre := by
  intro cs
  induction cs with
  | nil => intro ch pre; simp [entriesList]
  | cons c0 cs ih => intro ch pre; simp [entriesList, ih]

theorem mem_entriesList_set : ∀ (cs : List node) (i : Nat) (ch1 : node) (pre : Bytes)
    (x : Bytes × Int), x ∈ entriesList (cs.set i ch1) pre →
      x ∈ entries ch1 pre ∨
        ∃ (j : Nat) (ch : node), j ≠ i ∧ cs[j]? = some ch ∧ x ∈ entries ch pre := by
  intro cs
  induction cs with
  | nil => intro i ch1 pre x h; simp [entriesList] at h
  | cons c0 cs ih =>
    intro i ch1 pre x h
    cases i with
    | zero =>
      simp only [List.set_cons_zero, entriesList, List.mem_append] at h
      rcases h with h | h
      · left; exact h
      · right
        -- the write comes from a later child
        have : ∃ (j : Nat) (ch : node), cs[j]? = some ch ∧ x ∈ entries ch pre := by
          clear ih
          induction cs with
          | nil => simp [entriesList] at h
          | cons c1 cs ih2 =>
            simp only [entriesList, List.mem_append] at h
            rcases h with h | h
            · exact ⟨0, c1, by simp, h⟩
            · obtain ⟨j, ch, hj, hx⟩ := ih2 h
              exact ⟨j + 1, ch, by simpa using hj, hx⟩
        obtain ⟨j, ch, hj, hx⟩ := this
        exact ⟨j + 1, ch, by simp, by simpa using hj, hx⟩
    | succ i =>
      simp only [List.set_cons_succ, entriesList, List.mem_append] at h
      rcases h with h | h
      · right; exact ⟨0, c0, by simp, by simp, h⟩
      · rcases ih i ch1 pre x h with h1 | ⟨j, ch, hj, hc, hx⟩
        · left; exact h1
        · right; exact ⟨j + 1, ch, by simpa using hj, by simpa using hc, hx⟩

theorem mem_entries_own (n : node) (pre : Bytes) (h : 0 < n.cost) :
    (stripTrailingSlash (pre ++ n.route), n.cost) ∈ entries n pre := by
  rw [entries_eq]
  simp [h]

theorem mem_entries_of_below (n : node) (pre : Bytes) (x : Bytes × Int)
    (h : x ∈ entriesBelow n (downRoute n pre)) : x ∈ entries n pre := by
  rw [entries_eq]
  exact List.mem_append_right _ h

theorem mem_below_of_child (n : node) (i : Nat) (ch : node) (full1 : Bytes) (x : Bytes × Int)
    (hch : n.children[i]? = some ch) (h : x ∈ entries ch full1) : x ∈ entriesBelow n full1 := by
  unfold entriesBelow
  exact List.mem_append_right _ (mem_entriesList_of_getElem _ i ch full1 x hch h)

theorem mem_below_of_special (n sp : node) (full1 : Bytes) (x : Bytes × Int)
    (hsp : n.special = some sp) (h : x ∈ entries sp full1) : x ∈ entriesBelow n full1 := by
  unfold entriesBelow
  rw [hsp]
  exact List.mem_append_left _ (by simpa [entriesOpt] using h)

theorem downRoute_text (n : node) (pre : Bytes) (h : n.kind = .text) :
    downRoute n pre = pre ++ n.route := by
  simp [downRoute, h]

theorem downRoute_param (n : node) (pre : Bytes) (h : n.kind = .parameter) :
    downRoute n pre = addTrailingSlash (pre ++ n.route) := by
  simp [downRoute, h]

theorem After.nil_cost {n : node} {c : Int} (h : After n [] c) : n.cost = c := by
  cases h; assumption

/-- The segment of a template that goes on after a parameter ends in `'/'`. -/
theorem takeParameter_shape_more (t : Bytes)
    (h : (colon :: t).drop (takeParameter (colon :: t)).length ≠ []) :
    ∃ nm, slash ∉ nm ∧ takeParameter (colon :: t) = colon :: (nm ++ [slash]) := by
  have hfix := takeParameter_idem (colon :: t)
  rw [takeParameter_cons_colon] at hfix ⊢
  obtain ⟨nm, hnm, h1 | h1⟩ := param_shape (takeParameter t) (by
    rw [← takeParameter_cons_colon]; exact hfix)
  · exfalso
    apply h
    rw [drop_takeParameter_colon]
    have hsl : slash ∉ t := by
      intro hm
      -- a segment without '/' is the whole remainder
      have : ∀ (l : Bytes), slash ∈ l → slash ∈ takeParameter l := by
        intro l
        induction l with
        | nil => simp
        | cons b l ih =>
          intro hb
          simp only [takeParameter]
          split
          · rename_i hbs; simp [hbs]
          · rename_i hbs
            simp at hb
            rcases hb with hb | hb
            · exact absurd hb.symm hbs
            · exact List.mem_cons_of_mem _ (ih hb)
      have := this t hm
      rw [h1] at this
      exact hnm this
    exact drop_takeParameter_of_not_mem t hsl
  · exact ⟨nm, hnm, by rw [h1]⟩

/-- A template stored with a positive cost below a node is written by `dump`, under a key
that agrees with the key of the template. -/
theorem After.has_entry {n : node} {t1 : Bytes} {c : Int} (h : After n t1 c) (hc : 0 < c) :
    n.Inv → ∀ (full1 tfull1 : Bytes), t1 ≠ [] → outside full1 → outside tfull1 →
      eraseNames full1 = eraseNames tfull1 →
      ∃ k, (k, c) ∈ entriesBelow n full1 ∧ eraseNames k = dumpKey (tfull1 ++ t1) := by
  induction h with
  | here n c _ => intro _ _ _ h; exact absurd rfl h
  | child n b t ch t1 c hb hi hch hsplit ha ih =>
    intro hinv full1 tfull1 _ ho hto he
    obtain ⟨hck, _, hcc, hchinv⟩ := childrenInv_get _ _ ((node_Inv_iff n).mp hinv).1 _ _ hch
    by_cases ht1 : t1 = []
    · subst ht1
      have hcost := ha.nil_cost
      refine ⟨stripTrailingSlash (full1 ++ ch.route), ?_, ?_⟩
      · apply mem_below_of_child n _ ch full1 _ hch
        rw [← hcost]
        exact mem_entries_own ch full1 (by rw [hcost]; exact hc)
      · rw [hsplit]
        simp only [List.append_nil]
        exact dumpKey_text ho hto he hcc
    · obtain ⟨o1, e1⟩ := outside_append_text ho hcc
      obtain ⟨o2, e2⟩ := outside_append_text hto hcc
      obtain ⟨k, hk, hkey⟩ := ih hc hchinv (full1 ++ ch.route) (tfull1 ++ ch.route) ht1 o1 o2
        (by rw [e1, e2, he])
      refine ⟨k, ?_, ?_⟩
      · apply mem_below_of_child n _ ch full1 _ hch
        apply mem_entries_of_below
        rw [downRoute_text ch full1 hck]
        exact hk
      · rw [hkey, hsplit]; simp
  | special n t sp c hsp ha ih =>
    intro hinv full1 tfull1 _ ho hto he
    have hspi := ((node_Inv_iff n).mp hinv).2
    rw [hsp] at hspi
    obtain ⟨hk, ⟨p, hp⟩, hfix, hspinv⟩ := specialInv_some hspi
    by_cases ht1 : (colon :: t).drop (takeParameter (colon :: t)).length = []
    · rw [ht1] at ha
      have hcost := ha.nil_cost
      refine ⟨stripTrailingSlash (full1 ++ sp.route), ?_, ?_⟩
      · apply mem_below_of_special n sp full1 _ hsp
        rw [← hcost]
        exact mem_entries_own sp full1 (by rw [hcost]; exact hc)
      · rw [hp]
        rw [hp] at hfix
        exact dumpKey_param ho hto he hfix (takeParameter_eq_of_drop_nil _ ht1)
    · obtain ⟨nm, hnm, hseg⟩ := takeParameter_shape_more t ht1
      obtain ⟨nm0, hnm0, hp0⟩ := param_shape p (by rw [← hp]; exact hfix)
      have hdown : downRoute sp full1 = full1 ++ colon :: (nm0 ++ [slash]) := by
        rw [downRoute_param sp full1 hk, hp]
        rcases hp0 with h1 | h1
        · rw [h1]; exact (addTrailingSlash_param full1 nm0 hnm0).1
        · rw [h1]; exact (addTrailingSlash_param full1 nm0 hnm0).2
      obtain ⟨o1, e1⟩ := outside_append_param ho hnm0
      obtain ⟨o2, e2⟩ := outside_append_param hto hnm
      obtain ⟨k, hk1, hkey⟩ := ih hc hspinv (full1 ++ colon :: (nm0 ++ [slash]))
        (tfull1 ++ colon :: (nm ++ [slash])) ht1 o1 o2 (by rw [e1, e2, he])
      refine ⟨k, ?_, ?_⟩
      · apply mem_below_of_special n sp full1 _ hsp
        apply mem_entries_of_below
        rw [hdown]
        exact hk1
      · rw [hkey, ← hseg, List.append_assoc, takeParameter_append_drop]

/-- A template stored with a positive cost under a root is written by `dump`. -/
theorem TextAfter.dump_entry {n : node} {t : Bytes} {c : Int} (h : TextAfter n t c) (hc : 0 < c)
    (hn : rootInv n) : ∃ k, (k, c) ∈ entries n [] ∧ eraseNames k = dumpKey t := by
  obtain ⟨t1, ht1, ha⟩ := h
  obtain ⟨hk, _, hcol, hinv⟩ := hn
  by_cases hnil : t1 = []
  · subst hnil
    have hcost := ha.nil_cost
    refine ⟨stripTrailingSlash ([] ++ n.route), ?_, ?_⟩
    · rw [← hcost]
      exact mem_entries_own n [] (by rw [hcost]; exact hc)
    · rw [ht1]
      have := dumpKey_text outside_nil outside_nil rfl hcol
      simpa using this
  · obtain ⟨o1, e1⟩ := outside_append_text outside_nil hcol
    obtain ⟨k, hk1, hkey⟩ := ha.has_entry hc hinv ([] ++ n.route) ([] ++ n.route) hnil o1 o1 rfl
    refine ⟨k, ?_, ?_⟩
    · apply mem_entries_of_below
      rw [downRoute_text n [] hk]
      exact hk1
    · rw [hkey, ht1]; simp

/-! ### The writes of `dump` after `insertRoute` -/

theorem entries_mk (k : nodeKind) (w : Bool) (r i : Bytes) (cs : List node) (s : Option node)
    (cost : Int) (pre : Bytes) :
    entries (.mk k w r i cs s cost) pre =
      (if cost > 0 then [(stripTrailingSlash (pre ++ r), cost)] else []) ++
        (entriesOpt s (if k = .parameter then addTrailingSlash (pre ++ r) else pre ++ r) ++
          entriesList cs (if k = .parameter then addTrailingSlash (pre ++ r) else pre ++ r)) := by
  simp [entries]

theorem colon_not_mem_of_takeText_eq {r : Bytes} (h : takeText r = r) : colon ∉ r := by
  rw [← h]; exact colon_not_mem_takeText r

/-- The chain of `newList` is written by `dump` under the key of its template only. -/
theorem Chain.entries_new {r : Bytes} {c : Int} {n : node} (h : Chain r c n) :
    ∀ (pre tpre : Bytes), outside pre → outside tpre → eraseNames pre = eraseNames tpre →
      ∀ x ∈ entries n pre, x.2 = c ∧ eraseNames x.1 = dumpKey (tpre ++ r) := by
  induction h with
  | textEnd b r c h1 h2 h3 =>
    intro pre tpre ho hto he x hx
    rw [entries_mk] at hx
    simp only [entriesOpt, entriesList, List.append_nil] at hx
    split at hx
    · simp at hx
      subst hx
      exact ⟨rfl, dumpKey_text ho hto he (colon_not_mem_of_takeText_eq h3)⟩
    · simp at hx
  | textMore b r c next h1 h2 hne hk hchain ih =>
    intro pre tpre ho hto he x hx
    rw [entries_mk] at hx
    simp only [entriesOpt, entriesList, List.append_nil, gt_iff_lt, lt_self_iff_false, if_false,
      List.nil_append, reduceCtorEq] at hx
    obtain ⟨o1, e1⟩ := outside_append_text ho (colon_not_mem_takeText (b :: r))
    obtain ⟨o2, e2⟩ := outside_append_text hto (colon_not_mem_takeText (b :: r))
    have := ih _ _ o1 o2 (by rw [e1, e2, he]) x hx
    rw [List.append_assoc, takeText_append_drop] at this
    exact this
  | paramEnd r c h1 =>
    intro pre tpre ho hto he x hx
    rw [entries_mk] at hx
    simp only [entriesOpt, entriesList, List.append_nil] at hx
    split at hx
    · simp at hx
      subst hx
      exact ⟨rfl, dumpKey_param ho hto he h1 h1⟩
    · simp at hx
  | paramText r c b next hne hk hr hchain ih =>
    intro pre tpre ho hto he x hx
    rw [entries_mk] at hx
    obtain ⟨nm, hnm, hseg⟩ := takeParameter_shape_more r hne
    simp only [entriesOpt, entriesList, List.append_nil, gt_iff_lt, lt_self_iff_false, if_false,
      List.nil_append, if_true] at hx
    rw [hseg, (addTrailingSlash_param pre nm hnm).2] at hx
    obtain ⟨o1, e1⟩ := outside_append_param ho hnm
    obtain ⟨o2, e2⟩ := outside_append_param hto hnm
    have := ih _ _ o1 o2 (by rw [e1, e2, he]) x hx
    rw [← hseg, List.append_assoc, takeParameter_append_drop] at this
    exact this
  | paramParam r c next hne hk hchain ih =>
    intro pre tpre ho hto he x hx
    rw [entries_mk] at hx
    obtain ⟨nm, hnm, hseg⟩ := takeParameter_shape_more r hne
    simp only [entriesOpt, entriesList, List.append_nil, gt_iff_lt, lt_self_iff_false, if_false,
      List.nil_append, if_true] at hx
    rw [hseg, (addTrailingSlash_param pre nm hnm).2] at hx
    obtain ⟨o1, e1⟩ := outside_append_param ho hnm
    obtain ⟨o2, e2⟩ := outside_append_param hto hnm
    have := ih _ _ o1 o2 (by rw [e1, e2, he]) x hx
    rw [← hseg, List.append_assoc, takeParameter_append_drop] at this
    exact this

theorem Ins.nil_eq {n n1 : node} {c : Int} (h : Ins false n [] c n1) : n1 = n.setCost c := by
  cases h; rfl

theorem entriesBelow_congr (n n1 : node) (full1 : Bytes) (hs : n1.special = n.special)
    (hc : n1.children = n.children) : entriesBelow n1 full1 = entriesBelow n full1 := by
  unfold entriesBelow; rw [hs, hc]

theorem entries_stem (n : node) (p : Bytes) (pre : Bytes) (hk : n.kind = .text)
    (hr : p ++ n.route.drop p.length = n.route) :
    entriesBelow (splitNode n p) (pre ++ p) = entries n pre := by
  obtain ⟨_, _, hss, _, hsc, _⟩ := splitNode_fields n p
  unfold entriesBelow
  rw [hss, hsc]
  simp only [entriesOpt, entriesList, List.nil_append, List.append_nil]
  rw [entries_mk, entries_eq n pre, downRoute_text n pre hk]
  simp only [reduceCtorEq, if_false, List.append_assoc, hr]
  rfl

/-- Every write of `dump` below the node that `insertRoute` leaves was a write before, or
has the cost of the inserted template and its key. -/
theorem Ins.entries_old_or_new {mode : Bool} {n : node} {r : Bytes} {c : Int} {n1 : node}
    (h : Ins mode n r c n1) : insPre mode n r →
    ∀ (pre tpre : Bytes), outside pre → outside tpre → eraseNames pre = eraseNames tpre →
    (mode = true → ∀ x ∈ entries n1 pre,
      x ∈ entries n pre ∨ (x.2 = c ∧ eraseNames x.1 = dumpKey (tpre ++ r))) ∧
    (mode = false →
      (∀ x ∈ entriesBelow n1 pre,
        x ∈ entriesBelow n pre ∨ (x.2 = c ∧ eraseNames x.1 = dumpKey (tpre ++ r))) ∧
      (n1.cost = n.cost ∨ (r = [] ∧ n1.cost = c))) := by
  induction h with
  | done n c =>
    intro _ pre tpre _ _ _
    refine ⟨by simp, fun _ => ⟨?_, Or.inr ⟨rfl, (setCost_fields n c).2.2.2.2.2⟩⟩⟩
    intro x hx
    left
    rw [entriesBelow_congr n (n.setCost c) pre (setCost_fields n c).2.2.2.2.1
      (setCost_fields n c).2.2.2.1] at hx
    exact hx
  | newSpecial n t c stem hsp hk hchain =>
    intro _ pre tpre ho hto he
    refine ⟨by simp, fun _ => ⟨?_, Or.inl (setSpecial_fields n _).2.2.2.2.2⟩⟩
    intro x hx
    unfold entriesBelow at hx ⊢
    rw [(setSpecial_fields n _).2.2.2.2.1, (setSpecial_fields n _).2.2.2.1] at hx
    rcases List.mem_append.mp hx with h1 | h1
    · right
      exact hchain.entries_new pre tpre ho hto he x (by simpa [entriesOpt] using h1)
    · left; exact List.mem_append_right _ h1
  | viaSpecial n t c sp sp1 hsp hins ih =>
    intro hp pre tpre ho hto he
    refine ⟨by simp, fun _ => ⟨?_, Or.inl (setSpecial_fields n _).2.2.2.2.2⟩⟩
    intro x hx
    have hspi := ((node_Inv_iff n).mp hp.1).2
    rw [hsp] at hspi
    obtain ⟨hk, ⟨p, hpr⟩, hfix, hspinv⟩ := specialInv_some hspi
    obtain ⟨_, k2, k3, _⟩ := hins.keeps_inv (insPre_special hp.1 hsp _)
    unfold entriesBelow at hx
    rw [(setSpecial_fields n _).2.2.2.2.1, (setSpecial_fields n _).2.2.2.1] at hx
    rcases List.mem_append.mp hx with h1 | h1
    · simp only [entriesOpt] at h1
      rw [entries_eq] at h1
      have hdown1 : downRoute sp1 pre = downRoute sp pre := by
        unfold downRoute; rw [k2, k3 rfl]
      rw [hdown1, k3 rfl] at h1
      by_cases hnil : (colon :: t).drop (takeParameter (colon :: t)).length = []
      · -- the template ends at the parameter node
        rw [hnil] at hins
        have heq := hins.nil_eq
        rcases List.mem_append.mp h1 with h2 | h2
        · right
          rw [heq, (setCost_fields sp c).2.2.2.2.2] at h2
          split at h2
          · simp at h2
            subst h2
            refine ⟨rfl, ?_⟩
            rw [hpr]
            rw [hpr] at hfix
            exact dumpKey_param ho hto he hfix (takeParameter_eq_of_drop_nil _ hnil)
          · simp at h2
        · left
          rw [entriesBelow_congr sp sp1 _ (by rw [heq]; exact (setCost_fields sp c).2.2.2.2.1)
            (by rw [heq]; exact (setCost_fields sp c).2.2.2.1)] at h2
          exact mem_below_of_special n sp pre x hsp (mem_entries_of_below sp pre x h2)
      · obtain ⟨nm, hnm, hseg⟩ := takeParameter_shape_more t hnil
        obtain ⟨nm0, hnm0, hp0⟩ := param_shape p (by rw [← hpr]; exact hfix)
        have hdown : downRoute sp pre = pre ++ colon :: (nm0 ++ [slash]) := by
          rw [downRoute_param sp pre hk, hpr]
          rcases hp0 with h3 | h3
          · rw [h3]; exact (addTrailingSlash_param pre nm0 hnm0).1
          · rw [h3]; exact (addTrailingSlash_param pre nm0 hnm0).2
        obtain ⟨o1, e1⟩ := outside_append_param ho hnm0
        obtain ⟨o2, e2⟩ := outside_append_param hto hnm
        obtain ⟨hbelow, hcost⟩ := (ih (insPre_special hp.1 hsp _) (pre ++ colon :: (nm0 ++ [slash]))
          (tpre ++ colon :: (nm ++ [slash])) o1 o2 (by rw [e1, e2, he])).2 rfl
        have hcost1 : sp1.cost = sp.cost := by
          rcases hcost with h3 | ⟨h3, _⟩
          · exact h3
          · exact absurd h3 hnil
        rcases List.mem_append.mp h1 with h2 | h2
        · left
          rw [hcost1] at h2
          apply mem_below_of_special n sp pre x hsp
          rw [entries_eq]
          exact List.mem_append_left _ h2
        · rw [hdown] at h2
          rcases hbelow x h2 with h3 | ⟨h3, h4⟩
          · left
            apply mem_below_of_special n sp pre x hsp
            apply mem_entries_of_below
            rw [hdown]; exact h3
          · right
            refine ⟨h3, ?_⟩
            rw [h4, ← hseg, List.append_assoc, takeParameter_append_drop]
    · left
      unfold entriesBelow
      exact List.mem_append_right _ h1
  | newChild n b t c stem hb hi hk hr hchain =>
    intro _ pre tpre ho hto he
    refine ⟨by simp, fun _ => ⟨?_, Or.inl rfl⟩⟩
    intro x hx
    have hx' : x ∈ entriesOpt n.special pre ++ entriesList (n.children ++ [stem]) pre := hx
    rw [entriesList_append] at hx'
    rcases List.mem_append.mp hx' with h1 | h1
    · left; exact List.mem_append_left _ h1
    · rcases List.mem_append.mp h1 with h2 | h2
      · left; exact List.mem_append_right _ h2
      · right; exact hchain.entries_new pre tpre ho hto he x h2
  | viaChild n b t c ch ch1 hb hi hch hins ih =>
    intro hp pre tpre ho hto he
    refine ⟨by simp, fun _ => ⟨?_, Or.inl (setChildren_fields n _).2.2.2.2.2⟩⟩
    intro x hx
    unfold entriesBelow at hx
    rw [(setChildren_fields n _).2.2.2.2.1, (setChildren_fields n _).2.2.2.1] at hx
    rcases List.mem_append.mp hx with h1 | h1
    · left; exact List.mem_append_left _ h1
    · rcases mem_entriesList_set _ _ _ _ _ h1 with h2 | ⟨j, ch', _, hj, h2⟩
      · rcases (ih (insPre_child hp.1 hb hi hch t) pre tpre ho hto he).1 rfl x h2 with h3 | h3
        · left; exact mem_below_of_child n _ ch pre x hch h3
        · right; exact h3
      · left; exact mem_below_of_child n j ch' pre x hj h2
  | full n r c n1 hfull hins ih =>
    intro hp pre tpre ho hto he
    refine ⟨fun _ => ?_, by simp⟩
    obtain ⟨hk, hc, _⟩ := hp.2 rfl
    obtain ⟨_, k2, k3, _⟩ := hins.keeps_inv (⟨hp.1, by simp⟩ : insPre false n _)
    obtain ⟨o1, e1⟩ := outside_append_text ho hc
    obtain ⟨o2, e2⟩ := outside_append_text hto hc
    obtain ⟨hbelow, hcost⟩ := (ih ⟨hp.1, by simp⟩ (pre ++ n.route) (tpre ++ n.route) o1 o2
      (by rw [e1, e2, he])).2 rfl
    have hr : r = n.route ++ r.drop n.route.length := by
      have := takePrefix_append_drop r n.route
      rw [hfull] at this
      exact this.symm
    intro x hx
    rw [entries_eq, downRoute_text n1 pre (by rw [k2]; exact hk), k3 rfl] at hx
    rcases List.mem_append.mp hx with h1 | h1
    · rcases hcost with h2 | ⟨h2, h3⟩
      · left
        rw [h2] at h1
        rw [entries_eq]
        exact List.mem_append_left _ h1
      · right
        rw [h3] at h1
        split at h1
        · simp at h1
          subst h1
          refine ⟨rfl, ?_⟩
          have hrr : r = n.route := by rw [hr, h2]; simp
          rw [hrr]
          exact dumpKey_text ho hto he hc
        · simp at h1
    · rcases hbelow x h1 with h2 | ⟨h2, h3⟩
      · left
        apply mem_entries_of_below
        rw [downRoute_text n pre hk]
        exact h2
      · right
        refine ⟨h2, ?_⟩
        rw [h3, List.append_assoc, ← hr]
  | split n r c n1 hlt hins ih =>
    intro hp pre tpre ho hto he
    refine ⟨fun _ => ?_, by simp⟩
    obtain ⟨hk, hc, _⟩ := hp.2 rfl
    have hsi := splitNode_inv hp hlt
    obtain ⟨hsk, hsr, _, _, _, hscost⟩ := splitNode_fields n (takePrefix r n.route)
    obtain ⟨_, k2, k3, _⟩ := hins.keeps_inv
      (⟨hsi, by simp⟩ : insPre false (splitNode n (takePrefix r n.route)) _)
    have hpc : colon ∉ takePrefix r n.route := fun hm => hc (mem_of_mem_takePrefix hm)
    obtain ⟨o1, e1⟩ := outside_append_text ho hpc
    obtain ⟨o2, e2⟩ := outside_append_text hto hpc
    obtain ⟨hbelow, hcost⟩ := (ih ⟨hsi, by simp⟩ (pre ++ takePrefix r n.route)
      (tpre ++ takePrefix r n.route) o1 o2 (by rw [e1, e2, he])).2 rfl
    intro x hx
    rw [entries_eq, downRoute_text n1 pre (by rw [k2]; exact hsk), k3 rfl, hsr] at hx
    rcases List.mem_append.mp hx with h1 | h1
    · rcases hcost with h2 | ⟨h2, h3⟩
      · rw [h2, hscost] at h1
        simp at h1
      · right
        rw [h3] at h1
        split at h1
        · simp at h1
          subst h1
          refine ⟨rfl, ?_⟩
          have hrr : r = takePrefix r n.route := by
            have := takePrefix_append_drop r n.route
            rw [h2] at this
            simpa using this.symm
          conv_rhs => rw [hrr]
          exact dumpKey_text ho hto he hpc
        · simp at h1
    · rcases hbelow x h1 with h2 | ⟨h2, h3⟩
      · left
        rw [entries_stem n _ pre hk (takePrefix_append_drop_right r n.route)] at h2
        exact h2
      · right
        refine ⟨h2, ?_⟩
        rw [h3, List.append_assoc, takePrefix_append_drop]

/-! ### Round trip through `dump` -/

theorem insertRoute_root_ins (n : node) (t : Bytes) (c : Int) (hn : rootInv n)
    (hs : star ∉ slash :: t) :
    ∃ n1, n.insertRoute (slash :: t) c = .ok n1 ∧ Ins true n (slash :: t) c n1 ∧
      insPre true n (slash :: t) := by
  obtain ⟨hk, ⟨q, hq⟩, hc, hinv⟩ := hn
  have hpre : insPre true n (slash :: t) :=
    ⟨hinv, fun _ => ⟨hk, hc, slash, t, q, rfl, by decide, hq⟩⟩
  obtain ⟨n1, hrun, hins⟩ := (insertRouteLoop_ins (2 * n.size + 2) n (slash :: t) c hinv hs).2 hk
    ⟨slash, t, q, rfl, by decide, hq⟩ (by omega)
  exact ⟨n1, hrun, hins, hpre⟩

theorem distinct_setRoot : ∀ (bs : List root) (m : Bytes) (n : node),
    (setRoot bs m n).map (fun r => r.method) = bs.map fun r => r.method := by
  intro bs
  induction bs with
  | nil => intro m n; simp [setRoot]
  | cons b bs ih =>
    intro m n
    simp only [setRoot]
    split
    · simp
    · simp [ih]

/-- The method `add` keeps the writes of `dump` within the routes added. -/
theorem add_sound (t : tree) (rs : List Route) (m tm : Bytes) (c : Int) (hinv : treeInv t)
    (hd : distinctMethods t) (hsound : treeSound t rs) (hs : star ∉ slash :: tm) (t1 : tree)
    (hadd : t.add m (slash :: tm) c = .ok t1) :
    treeSound t1 (⟨m, slash :: tm, c⟩ :: rs) ∧ distinctMethods t1 := by
  obtain ⟨bs⟩ := t
  unfold tree.add at hadd
  cases hg : tree.get ⟨bs⟩ m with
  | some n =>
    rw [hg] at hadd
    simp only [] at hadd
    have hn := get_inv ⟨bs⟩ m n hinv hg
    obtain ⟨n1, hrun, hins, hpre⟩ := insertRoute_root_ins n tm c hn hs
    rw [hrun, Run.andThen_ok] at hadd
    cases hadd
    have hmem := get_some_mem bs m n hg
    constructor
    · intro m0 n0 hg0 x hx
      by_cases hm : m0 = m
      · subst hm
        rw [get_setRoot_same bs m0 n1 hmem] at hg0
        cases hg0
        rcases (hins.entries_old_or_new hpre [] [] outside_nil outside_nil rfl).1 rfl x hx with h1 | ⟨h1, h2⟩
        · obtain ⟨r, hr, h3⟩ := hsound m0 n hg x h1
          exact ⟨r, List.mem_cons_of_mem _ hr, h3⟩
        · exact ⟨⟨m0, slash :: tm, c⟩, by simp, rfl, h1.symm, by simpa using h2⟩
      · rw [get_setRoot_other bs m m0 n1 hm] at hg0
        obtain ⟨r, hr, h3⟩ := hsound m0 n0 hg0 x hx
        exact ⟨r, List.mem_cons_of_mem _ hr, h3⟩
    · unfold distinctMethods
      simp only []
      rw [distinct_setRoot]
      exact hd
  | none =>
    rw [hg] at hadd
    simp only [] at hadd
    obtain ⟨n, hnew, hchain⟩ := newList_chain (slash :: tm) c hs (by simp)
    rw [hnew, Run.andThen_ok] at hadd
    cases hadd
    have hnone := get_none_of_inv bs m hinv hg
    constructor
    · intro m0 n0 hg0 x hx
      by_cases hm : m0 = m
      · subst hm
        rw [get_append_new bs m0 n hnone] at hg0
        cases hg0
        obtain ⟨h1, h2⟩ := hchain.entries_new [] [] outside_nil outside_nil rfl x hx
        exact ⟨⟨m0, slash :: tm, c⟩, by simp, rfl, h1.symm, by simpa using h2⟩
      · have : tree.get ⟨bs⟩ m0 = some n0 := by
          cases hold : tree.get ⟨bs⟩ m0 with
          | some n' =>
            rw [get_append_of_some bs _ m0 n' hold] at hg0
            exact hg0
          | none =>
            exfalso
            -- the only new root has method `m`
            have hx0 := get_some_mem _ m0 n0 hg0
            obtain ⟨b, hb, hbm⟩ := hx0
            rcases List.mem_append.mp hb with h1 | h1
            · exact get_none_of_inv bs m0 hinv hold b h1 hbm
            · simp at h1; subst h1; exact hm hbm.symm
        obtain ⟨r, hr, h3⟩ := hsound m0 n0 this x hx
        exact ⟨r, List.mem_cons_of_mem _ hr, h3⟩
    · unfold distinctMethods at hd ⊢
      simp only [List.map_append, List.map_cons, List.map_nil] at hd ⊢
      rw [List.nodup_append]
      refine ⟨hd, by simp, ?_⟩
      intro a ha hb
      simp at hb
      subst hb
      obtain ⟨b, hb1, hb2⟩ := List.mem_map.mp ha
      exact hnone b hb1 hb2

theorem treeSound_mono {t : tree} {rs rs1 : List Route} (h : treeSound t rs)
    (hsub : ∀ r ∈ rs, r ∈ rs1) : treeSound t rs1 := by
  intro m n hg x hx
  obtain ⟨r, hr, h3⟩ := h m n hg x hx
  exact ⟨r, hsub r hr, h3⟩

/-- After the routes are added in order, every write of `dump` comes from a route added. -/
theorem addAll_sound : ∀ (rs : List Route) (t : tree) (done : List Route), treeInv t →
    distinctMethods t → treeSound t done →
    (∀ r ∈ rs, (∃ tm, r.route = slash :: tm) ∧ star ∉ r.route) →
    ∀ t1, addAll t rs = .ok t1 → treeSound t1 (done ++ rs) ∧ distinctMethods t1 := by
  intro rs
  induction rs with
  | nil =>
    intro t done _ hd hsound _ t1 h
    simp only [addAll] at h
    cases h
    exact ⟨by simpa using hsound, hd⟩
  | cons r rs ih =>
    intro t done hinv hd hsound hgood t1 h
    obtain ⟨⟨tm, htm⟩, hstar⟩ := hgood r (by simp)
    rw [htm] at hstar
    obtain ⟨t2, hadd, hinv2, _, _⟩ := add_stored t r.method tm r.cost hinv hstar
    simp only [addAll] at h
    rw [htm, hadd, Run.andThen_ok] at h
    obtain ⟨hs2, hd2⟩ := add_sound t done r.method tm r.cost hinv hd hsound hstar t2 hadd
    have hr : (⟨r.method, slash :: tm, r.cost⟩ : Route) = r := by
      cases r; simp at htm; simp [htm]
    rw [hr] at hs2
    obtain ⟨hs3, hd3⟩ := ih t2 (r :: done) hinv2 hd2 hs2
      (fun x hx => hgood x (List.mem_cons_of_mem _ hx)) t1 h
    refine ⟨treeSound_mono hs3 ?_, hd3⟩
    intro x hx
    simp at hx ⊢
    tauto

/-! ### Frame of `execute` -/

theorem roundTrip_frame (s : session) (r : Request) (resp : Response) (s1 : session)
    (h : s.roundTrip r = .ok (resp, s1)) :
    s1.rule = s.rule ∧ s1.callDepth = s.callDepth ∧ (s.close = true → s1.close = true) ∧
      s1.serverConn = s.serverConn ∧ s1.dials = s.dials := by
  unfold session.roundTrip at h
  repeat' split at h
  all_goals (cases h <;> simp [session.onWriteErr, session.onReadError])

/-- The method `execute` changes neither the rule nor `callDepth`, and never clears
`close`. -/
theorem execute_frame (s : session) (r : Request) (resp : Response) (s1 : session)
    (h : s.execute r = .ok (resp, s1)) :
    s1.rule = s.rule ∧ s1.callDepth = s.callDepth ∧ (s.close = true → s1.close = true) := by
  unfold session.execute at h
  dsimp only at h
  repeat' split at h
  all_goals first
    | (cases h <;> simp [session.onTCPDialError, session.onTLSConfigError,
        session.onCertificateVerificationFailure])
    | (obtain ⟨h1, h2, h3, _⟩ := roundTrip_frame _ _ _ _ h
       exact ⟨h1, h2, h3⟩)

theorem roundTrip_ne_outOfFuel (s : session) (r : Request) : s.roundTrip r ≠ .outOfFuel := by
  unfold session.roundTrip
  repeat' split
  all_goals simp

/-- The method `execute` has no loop: the model never runs out of fuel. -/
theorem execute_ne_outOfFuel (s : session) (r : Request) : s.execute r ≠ .outOfFuel := by
  unfold session.execute
  dsimp only
  repeat' split
  all_goals first
    | exact roundTrip_ne_outOfFuel _ _
    | simp

/-! ### The handler chain -/

theorem calls_append (l l1 : List Event) : calls (l ++ l1) = calls l ++ calls l1 := by
  induction l with
  | nil => rfl
  | cons e l ih => cases e <;> simp [calls, ih]

theorem mem_ret_append {l l1 : List Event} {x : Nat} (h : Event.ret x ∈ l ++ l1) :
    Event.ret x ∈ l ∨ Event.ret x ∈ l1 :=
  List.mem_append.mp h

theorem LogInv.after_call {n d : Nat} {log : List Event} (h : LogInv n d log) (hd : d < n) :
    LogInv n (d + 1) (log ++ [.call (some d)]) := by
  obtain ⟨h1, h2, h3⟩ := h
  have hm : (calls log).length = d := by omega
  refine ⟨?_, ?_, ?_⟩
  · simp [calls_append, calls]; omega
  · intro k t hk
    rw [calls_append] at hk
    by_cases hlt : k < (calls log).length
    · rw [List.getElem?_append_left hlt] at hk
      exact h2 k t hk
    · rw [List.getElem?_append_right (by omega)] at hk
      have hk0 : k - (calls log).length = 0 := by
        by_contra hne
        have : (calls [Event.call (some d)])[k - (calls log).length]? = none := by
          apply List.getElem?_eq_none
          simp [calls]; omega
        rw [this] at hk; cases hk
      rw [hk0] at hk
      simp [calls] at hk
      have : k = d := by omega
      subst hk; subst this
      simp [specTarget, hd]
  · intro x hx
    rcases mem_ret_append hx with hx | hx
    · exact h3 x hx
    · simp at hx

theorem LogInv.after_transport {n d : Nat} {log : List Event} (h : LogInv n d log) (hd : ¬ d < n) :
    LogInv n d (log ++ [.call none]) := by
  obtain ⟨h1, h2, h3⟩ := h
  have hm : n ≤ (calls log).length := by omega
  refine ⟨?_, ?_, ?_⟩
  · simp [calls_append, calls]; omega
  · intro k t hk
    rw [calls_append] at hk
    by_cases hlt : k < (calls log).length
    · rw [List.getElem?_append_left hlt] at hk
      exact h2 k t hk
    · rw [List.getElem?_append_right (by omega)] at hk
      have hk0 : k - (calls log).length = 0 := by
        by_contra hne
        have : (calls [Event.call none])[k - (calls log).length]? = none := by
          apply List.getElem?_eq_none
          simp [calls]; omega
        rw [this] at hk; cases hk
      rw [hk0] at hk
      simp [calls] at hk
      subst hk
      have : ¬ k < n := by omega
      simp [specTarget, this]
  · intro x hx
    rcases mem_ret_append hx with hx | hx
    · exact h3 x hx
    · simp at hx

theorem LogInv.after_ret {n d : Nat} {log : List Event} (h : LogInv n d log) :
    LogInv n d (log ++ [.ret d]) := by
  obtain ⟨h1, h2, h3⟩ := h
  refine ⟨?_, ?_, ?_⟩
  · simpa [calls_append, calls] using h1
  · intro k t hk
    rw [calls_append] at hk
    simp [calls] at hk
    exact h2 k t hk
  · intro x hx
    rcases mem_ret_append hx with hx | hx
    · exact h3 x hx
    · simp at hx; subst hx; omega

theorem Step.of_same {c c1 : Context} (hs : c1.s = c.s) (hl : c1.log = c.log) : Step c c1 := by
  refine ⟨by rw [hs], by rw [hs], by rw [hs]; exact id, by rw [hs, hl]; exact id, [], ?_, ?_⟩
  · rw [hl]; simp
  · intro e he; cases he

theorem Step.chain {c c1 c2 : Context} (h : Step c c1) (h1 : Step c1 c2) : Step c c2 := by
  obtain ⟨a1, a2, a3, a4, e1, a5, a6⟩ := h
  obtain ⟨b1, b2, b3, b4, e2, b5, b6⟩ := h1
  refine ⟨b1.trans a1, le_trans a2 b2, fun x => b3 (a3 x), ?_, e1 ++ e2, ?_, ?_⟩
  · intro hx
    have := b4 (by rw [a1]; exact a4 hx)
    rw [a1] at this
    exact this
  · rw [b5, a5, List.append_assoc]
  · intro e he
    rcases List.mem_append.mp he with he | he
    · exact a6 e he
    · exact b6 e he

/-- A run of a handler whose calls of `Next` return and are steps is a step itself,
whether it returns or panics. -/
theorem run_spec (R : Rule) (d : Nat) (next : Context → Flow)
    (hnext : ∀ c, c.s.rule = R → d ≤ c.s.callDepth →
      ∃ c1, next c = .done c1 ∧ Step c c1) :
    ∀ (t : HandlerRun) (c : Context), c.s.rule = R → d ≤ c.s.callDepth →
      ∃ c1, (t.run next c = .done c1 ∨ t.run next c = .panicked c1) ∧ Step c c1 := by
  intro t
  induction t with
  | ret rq rs =>
    intro c _ _
    exact ⟨_, Or.inl rfl, Step.of_same rfl rfl⟩
  | throw rq rs =>
    intro c _ _
    exact ⟨_, Or.inr rfl, Step.of_same rfl rfl⟩
  | next rq rs k ih =>
    intro c hR hd
    have h0 : Step c { c with Request := rq, Response := rs } := Step.of_same rfl rfl
    obtain ⟨c1, hn, hs1⟩ := hnext { c with Request := rq, Response := rs } hR hd
    obtain ⟨c2, hrun, hs2⟩ := ih c1.Request c1.Response c1 (by rw [hs1.1]; exact hR)
      (le_trans hd hs1.2.1)
    refine ⟨c2, ?_, (h0.chain hs1).chain hs2⟩
    simp only [HandlerRun.run, hn]
    exact hrun

/-- The transport handler returns or panics, and is a step. -/
theorem handler_spec (c : Context) :
    ∃ c1, (c.handler = .done c1 ∨ c.handler = .panicked c1) ∧ Step c c1 := by
  unfold Context.handler
  cases hrq : c.Request with
  | none =>
    simp only []
    split
    · exact ⟨_, Or.inl rfl, Step.of_same rfl rfl⟩
    · exact ⟨_, Or.inr rfl, Step.of_same rfl rfl⟩
  | some r =>
    simp only []
    cases hex : c.s.execute r with
    | ok v =>
      obtain ⟨resp, s1⟩ := v
      obtain ⟨h1, h2, h3⟩ := execute_frame _ _ _ _ hex
      refine ⟨_, Or.inl rfl, ?_⟩
      refine ⟨h1, le_of_eq h2.symm, h3, ?_, [], by simp, by intro e he; cases he⟩
      intro hx
      show LogInv c.s.rule.Handlers.length s1.callDepth c.log
      rw [h2]; exact hx
    | panic => exact ⟨_, Or.inr rfl, Step.of_same rfl rfl⟩
    | outOfFuel => exact absurd hex (execute_ne_outOfFuel _ _)

/-- The deferred function of `Next` turns a return or a panic that is a step into a
return that is a step. -/
theorem leave_spec {c c1 : Context} {f : Flow} (hf : f = .done c1 ∨ f = .panicked c1)
    (hs : Step c c1) :
    ∃ c2, f.leave = .done c2 ∧ Step c c2 := by
  have hret : ∀ c2 : Context, c2.s.rule = c1.s.rule → c2.s.callDepth = c1.s.callDepth →
      (c1.s.close = true → c2.s.close = true) → c2.log = c1.log ++ [.ret c1.s.callDepth] →
      Step c1 c2 := by
    intro c2 e1 e2 e3 e4
    refine ⟨e1, le_of_eq e2.symm, e3, ?_, _, e4, ?_⟩
    · intro hx
      rw [e2, e4]
      exact hx.after_ret
    · intro e he
      simp at he; subst he; rfl
  rcases hf with hf | hf
  · subst hf
    exact ⟨_, rfl, hs.chain (hret _ rfl rfl id rfl)⟩
  · subst hf
    exact ⟨_, rfl, hs.chain (hret _ rfl rfl (fun _ => rfl) rfl)⟩

theorem Next_succ (fuel : Nat) (c : Context) :
    c.Next (fuel + 1) = (Context.invoke (Context.Next fuel) c).leave := rfl

/-- The body of `Next` returns or panics, and is a step, when the calls of `Next` inside
the handlers are. -/
theorem invoke_spec (R : Rule) (next : Context → Flow) (c : Context) (hR : c.s.rule = R)
    (hnext : c.s.callDepth < R.Handlers.length →
      ∀ c0, c0.s.rule = R → c.s.callDepth + 1 ≤ c0.s.callDepth →
        ∃ c1, next c0 = .done c1 ∧ Step c0 c1) :
    ∃ c1, (Context.invoke next c = .done c1 ∨ Context.invoke next c = .panicked c1) ∧
      Step c c1 := by
  unfold Context.invoke session.nextHandler
  by_cases hlt : c.s.callDepth < c.s.rule.Handlers.length
  · rw [dif_pos hlt]
    simp only []
    have h0 : Step c { c with s := { c.s with callDepth := c.s.callDepth + 1 },
                              log := c.log ++ [.call (some c.s.callDepth)] } := by
      refine ⟨rfl, Nat.le_succ _, id, fun hx => hx.after_call hlt, _, rfl, ?_⟩
      intro e he
      simp at he; subst he; rfl
    obtain ⟨c1, hrun, hs⟩ := run_spec R (c.s.callDepth + 1) next (hnext (hR ▸ hlt))
      (c.s.rule.Handlers.get ⟨c.s.callDepth, hlt⟩ c.Request c.Response)
      { c with s := { c.s with callDepth := c.s.callDepth + 1 },
               log := c.log ++ [.call (some c.s.callDepth)] } hR (le_refl _)
    exact ⟨c1, hrun, h0.chain hs⟩
  · rw [dif_neg hlt]
    simp only []
    have h0 : Step c { c with s := c.s, log := c.log ++ [.call none] } := by
      refine ⟨rfl, le_refl _, id, fun hx => hx.after_transport hlt, _, rfl, ?_⟩
      intro e he
      simp at he; subst he; rfl
    obtain ⟨c1, hrun, hs⟩ := handler_spec { c with s := c.s, log := c.log ++ [.call none] }
    exact ⟨c1, hrun, h0.chain hs⟩

/-- With enough fuel a call of `Next` returns, and is a step. -/
theorem Next_spec (R : Rule) : ∀ (fuel : Nat) (c : Context), c.s.rule = R → 0 < fuel →
    R.Handlers.length + 1 ≤ c.s.callDepth + fuel →
    ∃ c1, c.Next fuel = .done c1 ∧ Step c c1 := by
  intro fuel
  induction fuel with
  | zero => intro c _ h; omega
  | succ fuel ih =>
    intro c hR _ hfuel
    rw [Next_succ]
    obtain ⟨c1, hrun, hs⟩ := invoke_spec R (Context.Next fuel) c hR (by
      intro hlt c0 hR0 hd
      exact ih c0 hR0 (by omega) (by omega))
    exact leave_spec hrun hs

/-- The handler chain of a request returns, and is a step. -/
theorem chain_spec (s : session) (r : Request) :
    ∃ c1, (startContext s r).Next (s.rule.Handlers.length + 1) = .done c1 ∧
      Step (startContext s r) c1 :=
  Next_spec s.rule _ _ rfl (Nat.succ_pos _) (by
    show s.rule.Handlers.length + 1 ≤ s.callDepth + (s.rule.Handlers.length + 1)
    omega)

/-! ### The method `handle` -/

theorem handle_eq (s : session) (cl : ClientSide) (r : Request) (c1 : Context)
    (h : (startContext s r).Next (s.rule.Handlers.length + 1) = .done c1) :
    s.handle cl r = .ok (c1.finish cl) := by
  show (match (startContext s r).Next (s.rule.Handlers.length + 1) with
    | .done c1 => Run.ok (c1.finish cl)
    | .panicked _ => Run.panic
    | .outOfFuel => Run.outOfFuel) = _
  rw [h]

theorem writes_append (l l1 : List Event) : writes (l ++ l1) = writes l ++ writes l1 := by
  induction l with
  | nil => rfl
  | cons e l ih => cases e <;> simp [writes, ih]

theorem actions_append (l l1 : List Event) : actions (l ++ l1) = actions l ++ actions l1 := by
  induction l with
  | nil => rfl
  | cons e l ih => cases e <;> simp [actions, ih]

/-- A log of the chain holds no write and no action. -/
theorem chain_log (l : List Event) (h : ∀ e ∈ l, chainEvent e = true) :
    writes l = [] ∧ actions l = [] := by
  induction l with
  | nil => exact ⟨rfl, rfl⟩
  | cons e l ih =>
    have h1 := h e (by simp)
    have h2 := ih (fun x hx => h x (List.mem_cons_of_mem _ hx))
    cases e <;> simp [chainEvent] at h1 <;> simpa [writes, actions] using h2

theorem settle_spec (c : Context) :
    c.settle.2.postRequestAction = c.s.postRequestAction ∧
    (c.s.close = true → c.settle.2.close = true) ∧
    (c.Response = none → c.settle.2.close = true ∧
      c.settle.1 = newHTTP11Response StatusInternalServerError c.Request) ∧
    (∀ resp, c.Response = some resp → c.settle.1 = resp ∧ c.settle.2 = c.s) := by
  unfold Context.settle
  cases c.Response with
  | none => simp
  | some resp => simp

theorem writeResponse_spec (s : session) (cl : ClientSide) (resp : Response) :
    (s.writeResponse cl resp).1 = { resp with Close := s.close } ∧
    (s.writeResponse cl resp).2.postRequestAction = s.postRequestAction ∧
    (s.close = true → (s.writeResponse cl resp).2.close = true) ∧
    (cl.write { resp with Close := s.close } ≠ none →
      (s.writeResponse cl resp).2.close = true) := by
  unfold session.writeResponse
  simp only []
  cases cl.write { resp with Close := s.close } with
  | none => simp
  | some e => simp

theorem afterWrite_spec (s : session) (cl : ClientSide) :
    (s.afterWrite cl).1.callDepth = 0 ∧ (s.afterWrite cl).1.postRequestAction = none ∧
    (s.close = true → (s.afterWrite cl).1.close = true) ∧
    (s.afterWrite cl).2 = (match s.postRequestAction with
      | some a => [Event.action a]
      | none => []) := by
  unfold session.afterWrite
  cases s.postRequestAction with
  | none => simp [session.reset]
  | some a =>
    simp only []
    cases a with
    | tunnel => simp [PostAction.invoke, session.tunnel, session.reset]
    | clientHandshake =>
      simp only [PostAction.invoke, session.clientHandshake]
      cases cl.handshake s.clientTLSConfig with
      | none => simp [session.reset]
      | some e => simp [session.reset]

/-- The part of `handle` after the chain, in one statement. -/
theorem finish_spec (c : Context) (cl : ClientSide) :
    (c.finish cl).1.callDepth = 0 ∧ (c.finish cl).1.postRequestAction = none ∧
    (c.s.close = true → (c.finish cl).1.close = true) ∧
    (c.settle.2.close = true → (c.finish cl).1.close = true) ∧
    (cl.write { c.settle.1 with Close := c.settle.2.close } ≠ none →
      (c.finish cl).1.close = true) ∧
    (c.finish cl).2 = c.log ++ Event.write { c.settle.1 with Close := c.settle.2.close } ::
      (match c.s.postRequestAction with
        | some a => [Event.action a]
        | none => []) := by
  obtain ⟨a1, a2, _, _⟩ := settle_spec c
  obtain ⟨b1, b2, b3, b4⟩ := writeResponse_spec c.settle.2 cl c.settle.1
  obtain ⟨d1, d2, d3, d4⟩ := afterWrite_spec (c.settle.2.writeResponse cl c.settle.1).2 cl
  refine ⟨d1, d2, fun h => d3 (b3 (a2 h)), fun h => d3 (b3 h), fun h => d3 (b4 h), ?_⟩
  show c.log ++ [Event.write (c.settle.2.writeResponse cl c.settle.1).1] ++
    ((c.settle.2.writeResponse cl c.settle.1).2.afterWrite cl).2 = _
  rw [d4, b1, b2, a1]
  simp

/-- The method `handle` returns: the chain returns with a log of its own events, and the
rest is `finish`. -/
theorem handle_spec (s : session) (cl : ClientSide) (r : Request) :
    ∃ c1, (startContext s r).Next (s.rule.Handlers.length + 1) = .done c1 ∧
      s.handle cl r = .ok (c1.finish cl) ∧ (s.close = true → c1.s.close = true) ∧
      (∀ e ∈ c1.log, chainEvent e = true) ∧
      writes (c1.finish cl).2 = [{ c1.settle.1 with Close := c1.settle.2.close }] ∧
      actions (c1.finish cl).2 = (match c1.s.postRequestAction with
        | some a => [a]
        | none => []) := by
  obtain ⟨c1, hrun, hs⟩ := chain_spec s r
  obtain ⟨ext, hext, hchain⟩ := hs.2.2.2.2
  have hc1 : ∀ e ∈ c1.log, chainEvent e = true := by
    rw [hext]; intro e he
    simpa [startContext] using hchain e (by simpa [startContext] using he)
  obtain ⟨_, _, _, _, _, f6⟩ := finish_spec c1 cl
  refine ⟨c1, hrun, handle_eq s cl r c1 hrun, hs.2.2.1, hc1, ?_, ?_⟩
  · rw [f6, writes_append, (chain_log _ hc1).1]
    cases c1.s.postRequestAction <;> simp [writes]
  · rw [f6, actions_append, (chain_log _ hc1).2]
    cases c1.s.postRequestAction <;> simp [actions]

/-! ### The whitelist -/

theorem flagGet_flagSet (m : List (Bytes × Bool)) (key k : Bytes) (v : Bool) :
    (flagGet (flagSet m key v) k).isSome = (decide (k = key) || (flagGet m k).isSome) := by
  induction m with
  | nil =>
    by_cases h : key = k
    · subst h; simp [flagSet, flagGet]
    · have h1 : ¬ k = key := fun e => h e.symm
      simp [flagSet, flagGet, h, h1]
  | cons p m ih =>
    obtain ⟨a, w⟩ := p
    by_cases h1 : a = key
    · subst h1
      by_cases h2 : a = k
      · subst h2; simp [flagSet, flagGet]
      · have h3 : ¬ k = a := fun e => h2 e.symm
        simp [flagSet, flagGet, h2, h3]
    · by_cases h2 : a = k
      · subst h2; simp [flagSet, flagGet, h1]
      · simp [flagSet, flagGet, h1, h2, ih]

theorem anyMask_iff (lib : NetLib) (ip : IP) (ms : List IPNet) :
    anyMask lib ip ms = true ↔ ∃ m ∈ ms, lib.contains m ip = true := by
  induction ms with
  | nil => simp [anyMask]
  | cons m ms ih =>
    by_cases h : lib.contains m ip = true
    · simp [anyMask, h]
    · simp [anyMask, h, ih]

/-- The options of a list of entries, applied in order. -/
theorem foldl_options (lib : NetLib) (es : List Entry) (o : WhiteListOptions) (key : Bytes) :
    ((flagGet ((es.map (Entry.option lib)).foldl (fun o opt => opt o) o).ip key).isSome = true ↔
      (flagGet o.ip key).isSome = true ∨ ∃ x, Entry.ip x ∈ es ∧ lib.ipString x = key) ∧
    (∀ m, m ∈ ((es.map (Entry.option lib)).foldl (fun o opt => opt o) o).mask ↔
      m ∈ o.mask ∨ Entry.mask m ∈ es) := by
  induction es generalizing o with
  | nil => simp
  | cons e es ih =>
    simp only [List.map_cons, List.foldl_cons]
    obtain ⟨h1, h2⟩ := ih (Entry.option lib e o)
    cases e with
    | ip x =>
      constructor
      · rw [h1]
        simp only [Entry.option, WithIP, flagGet_flagSet, Bool.or_eq_true, decide_eq_true_eq,
          List.mem_cons, Entry.ip.injEq]
        constructor
        · rintro (⟨h | h⟩ | ⟨y, hy, hk⟩)
          · exact Or.inr ⟨x, Or.inl rfl, h.symm⟩
          · exact Or.inl h
          · exact Or.inr ⟨y, Or.inr hy, hk⟩
        · rintro (h | ⟨y, hy | hy, hk⟩)
          · exact Or.inl (Or.inr h)
          · subst hy; exact Or.inl (Or.inl hk.symm)
          · exact Or.inr ⟨y, hy, hk⟩
      · intro m
        rw [h2]
        simp [Entry.option, WithIP]
    | mask n =>
      constructor
      · rw [h1]
        simp [Entry.option, WithMask]
      · intro m
        rw [h2]
        simp only [Entry.option, WithMask, List.mem_append, List.mem_singleton, List.mem_cons,
          Entry.mask.injEq]
        tauto

/-! ### The listener -/

theorem acceptLoop_cons_conn (lib : NetLib) (acl : IP → Bool) (c : NetConn)
    (rest : List Incoming) (closed : List NetConn) :
    acceptLoop lib acl (Incoming.conn c :: rest) closed =
      (match netConnLookup lib c with
      | (_, some lookupErr) =>
        some { conn := none, err := some lookupErr, closed := closed ++ [c], rest := rest }
      | (ip, none) =>
        if acl ip then some { conn := some c, err := none, closed := closed, rest := rest }
        else acceptLoop lib acl rest (closed ++ [c])) := rfl

theorem acceptLoop_refused (lib : NetLib) (acl : IP → Bool) (pre : List NetConn)
    (tail : List Incoming) (closed : List NetConn) (h : ∀ x ∈ pre, refused lib acl x) :
    acceptLoop lib acl (pre.map Incoming.conn ++ tail) closed =
      acceptLoop lib acl tail (closed ++ pre) := by
  induction pre generalizing closed with
  | nil => simp
  | cons x pre ih =>
    obtain ⟨h1, h2⟩ := h x (by simp)
    have hx : netConnLookup lib x = ((netConnLookup lib x).1, none) := by
      rw [← h1]
    rw [List.map_cons, List.cons_append, acceptLoop_cons_conn, hx]
    simp only [h2]
    rw [if_neg (by simp), ih _ (fun y hy => h y (List.mem_cons_of_mem _ hy))]
    simp

/-- A connection returned by the loop passes the ACL, and everything before it was refused
and closed. -/
theorem acceptLoop_conn (lib : NetLib) (acl : IP → Bool) (rs : List Incoming)
    (closed : List NetConn) (res : Accepted) (c : NetConn)
    (h : acceptLoop lib acl rs closed = some res) (hc : res.conn = some c) :
    passes lib acl c ∧ res.err = none ∧
      ∃ pre, rs = pre.map Incoming.conn ++ Incoming.conn c :: res.rest ∧
        res.closed = closed ++ pre ∧ ∀ x ∈ pre, refused lib acl x := by
  induction rs generalizing closed with
  | nil => simp [acceptLoop] at h
  | cons a rs ih =>
    cases a with
    | error e =>
      simp only [acceptLoop, Option.some.injEq] at h
      subst h
      cases hc
    | conn x =>
      rw [acceptLoop_cons_conn] at h
      cases hl : netConnLookup lib x with
      | mk ip err =>
        rw [hl] at h
        cases err with
        | some e =>
          simp only [Option.some.injEq] at h
          subst h
          cases hc
        | none =>
          simp only [] at h
          by_cases ha : acl ip = true
          · rw [if_pos ha, Option.some.injEq] at h
            subst h
            simp only [Option.some.injEq] at hc
            subst hc
            exact ⟨⟨by rw [hl], by rw [hl]; exact ha⟩, rfl, [], by simp, by simp, by simp⟩
          · rw [if_neg ha] at h
            obtain ⟨h1, h2, pre, h3, h4, h5⟩ := ih _ h
            refine ⟨h1, h2, x :: pre, by simp [h3], by simp [h4], ?_⟩
            intro y hy
            rcases List.mem_cons.mp hy with hy | hy
            · subst hy
              exact ⟨by rw [hl], by rw [hl]; simpa using ha⟩
            · exact h5 y hy

/-! ### ClientIP -/

theorem parseIpLoop_eq (lib : NetLib) (trimSpace : Bytes → Bytes) (items : List Bytes) :
    ∀ k, k ≤ items.length → parseIpLoop lib trimSpace items k =
      (match (((items.take k).reverse.map fun e => lib.parseIP (trimSpace e)).find?
          (fun ip => decide (ip ≠ []))) with
        | some ip => ip
        | none => []) := by
  intro k
  induction k with
  | zero => intro _; simp [parseIpLoop]
  | succ k ih =>
    intro hk
    have hlt : k < items.length := hk
    have htake : items.take (k + 1) = items.take k ++ [items[k]] := by
      rw [List.take_succ, List.getElem?_eq_getElem hlt]
      rfl
    simp only [parseIpLoop, List.getElem?_eq_getElem hlt]
    rw [htake, List.reverse_append]
    simp only [List.reverse_singleton, List.singleton_append, List.map_cons, List.find?_cons]
    by_cases hne : lib.parseIP (trimSpace items[k]) = []
    · simp only [hne, ne_eq, not_true_eq_false, decide_False, if_false]
      exact ih (Nat.le_of_lt hlt)
    · simp [hne]

theorem parseIpHeader_eq (lib : NetLib) (trimSpace : Bytes → Bytes) (header : Bytes) :
    parseIpHeader lib trimSpace header = lastLiteral lib trimSpace header := by
  unfold parseIpHeader lastLiteral
  by_cases h : header = []
  · simp [h]
  · simp only [h, if_false]
    rw [parseIpLoop_eq lib trimSpace _ _ (le_refl _), List.take_length]
    try rfl

/-! ### Certificate attributes -/

theorem setExtKeyUsage_spec (cert : Certificate) (us : List Nat) :
    (setExtKeyUsage cert us).IsCA = cert.IsCA ∧
    (setExtKeyUsage cert us).BasicConstraintsValid = cert.BasicConstraintsValid ∧
    (setExtKeyUsage cert us).KeyUsage = cert.KeyUsage ∧
    (∀ u, u ∈ (setExtKeyUsage cert us).ExtKeyUsage ↔ u ∈ cert.ExtKeyUsage ∨ u ∈ us) ∧
    (cert.ExtKeyUsage.Nodup → (setExtKeyUsage cert us).ExtKeyUsage.Nodup) := by
  induction us generalizing cert with
  | nil => simp [setExtKeyUsage]
  | cons u us ih =>
    unfold setExtKeyUsage
    by_cases h : u ∈ cert.ExtKeyUsage
    · rw [if_pos h]
      obtain ⟨h1, h2, h3, h4, h5⟩ := ih cert
      refine ⟨h1, h2, h3, ?_, h5⟩
      intro x
      rw [h4]
      constructor
      · rintro (hx | hx)
        · exact Or.inl hx
        · exact Or.inr (List.mem_cons_of_mem _ hx)
      · rintro (hx | hx)
        · exact Or.inl hx
        · rcases List.mem_cons.mp hx with hx | hx
          · subst hx; exact Or.inl h
          · exact Or.inr hx
    · rw [if_neg h]
      obtain ⟨h1, h2, h3, h4, h5⟩ := ih { cert with ExtKeyUsage := cert.ExtKeyUsage ++ [u] }
      refine ⟨h1, h2, h3, ?_, ?_⟩
      · intro x
        rw [h4]
        simp only [List.mem_append, List.mem_singleton, List.mem_cons]
        tauto
      · intro hn
        apply h5
        show (cert.ExtKeyUsage ++ [u]).Nodup
        rw [List.nodup_append]
        refine ⟨hn, List.nodup_singleton _, ?_⟩
        intro a ha hb
        simp only [List.mem_singleton] at hb
        subst hb
        exact h ha

theorem includesUsage_lor_self (ku u : Nat) : includesUsage (ku ||| u) u := by
  unfold includesUsage
  apply Nat.eq_of_testBit_eq
  intro i
  simp only [Nat.testBit_land, Nat.testBit_lor]
  cases ku.testBit i <;> cases u.testBit i <;> rfl

theorem includesUsage_lor_left (ku v u : Nat) (h : includesUsage ku u) :
    includesUsage (ku ||| v) u := by
  unfold includesUsage at h ⊢
  apply Nat.eq_of_testBit_eq
  intro i
  have hi := congrArg (fun x => Nat.testBit x i) h
  simp only [Nat.testBit_land] at hi
  simp only [Nat.testBit_land, Nat.testBit_lor]
  cases hk : ku.testBit i <;> cases hv : v.testBit i <;> cases hu : u.testBit i <;>
    simp_all

theorem includesUsage_lor_right (ku v u : Nat) (h : includesUsage v u) :
    includesUsage (ku ||| v) u := by
  rw [Nat.lor_comm]
  exact includesUsage_lor_left v ku u h

theorem count_one_of_nodup (l : List Nat) (u : Nat) (h : l.Nodup) (hu : u ∈ l) :
    l.count u = 1 :=
  List.count_eq_one_of_mem h hu

/-! ### Version -/

theorem digitsValue_append (ds : Bytes) (d a : Nat) :
    digitsValue (ds ++ [d]) a = digitsValue ds a * 10 + (d - 48) := by
  induction ds generalizing a with
  | nil => rfl
  | cons b ds ih =>
    show digitsValue (ds ++ [d]) (a * 10 + (b - 48)) = _
    exact ih _

theorem digitsValue_cons_shift (ds : Bytes) (a : Nat) :
    digitsValue ds a = a * 10 ^ ds.length + digitsValue ds 0 := by
  induction ds generalizing a with
  | nil => simp [digitsValue]
  | cons b ds ih =>
    simp only [digitsValue, List.length_cons]
    rw [ih (a * 10 + (b - 48)), ih (0 * 10 + (b - 48))]
    ring

/-- The digits that `digitsLoop` puts in front of `acc`: a non-empty string of digits
whose value is `n`. -/
theorem digitsLoop_spec : ∀ (fuel n : Nat) (acc : Bytes), n < fuel →
    ∃ ds, digitsLoop fuel n acc = ds ++ acc ∧ ds ≠ [] ∧ ds.all isDigit = true ∧
      digitsValue ds 0 = n := by
  intro fuel
  induction fuel with
  | zero => intro n acc h; omega
  | succ fuel ih =>
    intro n acc h
    unfold digitsLoop
    by_cases hn : n < 10
    · rw [if_pos hn]
      refine ⟨[48 + n], rfl, by simp, ?_, ?_⟩
      · simp only [List.all_cons, List.all_nil, Bool.and_true, isDigit, Bool.and_eq_true,
          decide_eq_true_eq]
        omega
      · simp [digitsValue]
    · rw [if_neg hn]
      obtain ⟨ds, h1, h2, h3, h4⟩ := ih (n / 10) ((48 + n % 10) :: acc) (by omega)
      refine ⟨ds ++ [48 + n % 10], by rw [h1]; simp, by simp, ?_, ?_⟩
      · rw [List.all_append, h3]
        simp only [List.all_cons, List.all_nil, Bool.and_true, Bool.true_and, isDigit,
          Bool.and_eq_true, decide_eq_true_eq]
        omega
      · rw [digitsValue_append, h4]
        omega

theorem formatNat_spec (n : Nat) :
    formatNat n ≠ [] ∧ (formatNat n).all isDigit = true ∧ digitsValue (formatNat n) 0 = n := by
  obtain ⟨ds, h1, h2, h3, h4⟩ := digitsLoop_spec (n + 1) n [] (Nat.lt_succ_self n)
  unfold formatNat
  rw [h1, List.append_nil]
  exact ⟨h2, h3, h4⟩

theorem isDigit_ne_dot {b : Nat} (h : isDigit b = true) : b ≠ dot := by
  intro hb; subst hb; exact absurd h (by decide)

/-- `Atoi` reads back a string of digits whose value fits an `int`. -/
theorem Atoi_digits (ds : Bytes) (h1 : ds ≠ []) (h2 : ds.all isDigit = true)
    (h3 : digitsValue ds 0 ≤ maxInt) : Atoi ds = some (digitsValue ds 0 : Int) := by
  cases ds with
  | nil => exact absurd rfl h1
  | cons b s =>
    have hb : isDigit b = true := by
      simp only [List.all_cons, Bool.and_eq_true] at h2
      exact h2.1
    have hb1 : b ≠ minus := by
      intro e; subst e; exact absurd hb (by decide)
    have hb2 : b ≠ 43 := by
      intro e; subst e; exact absurd hb (by decide)
    unfold Atoi
    simp only [hb1, hb2, if_false]
    rw [if_pos ⟨h2, h3⟩]

theorem takeWhile_digits (ds rest : Bytes) (h : ds.all isDigit = true)
    (hrest : ∀ b, rest.head? = some b → isDigit b = false) :
    (ds ++ rest).takeWhile isDigit = ds ∧ (ds ++ rest).drop ds.length = rest := by
  refine ⟨?_, by simp⟩
  induction ds with
  | nil =>
    cases rest with
    | nil => rfl
    | cons b rest =>
      have := hrest b rfl
      simp [List.takeWhile, this]
  | cons d ds ih =>
    simp only [List.all_cons, Bool.and_eq_true] at h
    show List.takeWhile isDigit (d :: (ds ++ rest)) = d :: ds
    simp only [List.takeWhile, h.1]
    rw [ih h.2]

theorem takeWhile_all (p : Nat → Bool) (s : Bytes) (h : s.all p = true) :
    s.takeWhile p = s := by
  induction s with
  | nil => rfl
  | cons b s ih =>
    simp only [List.all_cons, Bool.and_eq_true] at h
    simp only [List.takeWhile, h.1]
    rw [ih h.2]

/-- The pattern, matched at the head of a text of the form `M.m.p` followed by a suffix
without space that does not start with a digit, yields the four parts. -/
theorem matchHere_parts (d1 d2 d3 sfx : Bytes) (h1 : d1 ≠ []) (a1 : d1.all isDigit = true)
    (h2 : d2 ≠ []) (a2 : d2.all isDigit = true) (h3 : d3 ≠ []) (a3 : d3.all isDigit = true)
    (hs : sfx.all (fun b => !isSpace b) = true)
    (hd : ∀ b, sfx.head? = some b → isDigit b = false) :
    matchHere (d1 ++ dot :: d2 ++ dot :: d3 ++ sfx) = some (d1, d2, d3, sfx) := by
  have hdot : ∀ (rest : Bytes) (b : Nat), (dot :: rest).head? = some b → isDigit b = false := by
    intro rest b hb
    simp only [List.head?_cons, Option.some.injEq] at hb
    subst hb; decide
  have e1 := takeWhile_digits d1 (dot :: d2 ++ dot :: d3 ++ sfx) a1 (hdot _)
  have e2 := takeWhile_digits d2 (dot :: d3 ++ sfx) a2 (hdot _)
  have e3 := takeWhile_digits d3 sfx a3 hd
  have s1 : d1 ++ dot :: d2 ++ dot :: d3 ++ sfx = d1 ++ (dot :: d2 ++ dot :: d3 ++ sfx) := by
    simp
  have s2 : d2 ++ dot :: d3 ++ sfx = d2 ++ (dot :: d3 ++ sfx) := by simp
  unfold matchHere
  simp only []
  rw [s1, e1.1, e1.2, if_neg h1]
  simp only [ne_eq, not_true_eq_false, if_false, List.cons_append]
  rw [s2, e2.1, e2.2, if_neg h2]
  simp only [ne_eq, not_true_eq_false, if_false, List.cons_append]
  rw [e3.1, e3.2, if_neg h3, takeWhile_all _ _ hs]

theorem FindStringSubmatch_head (s : Bytes) (g : Bytes × Bytes × Bytes × Bytes)
    (h : matchHere s = some g) : FindStringSubmatch s = some g := by
  cases s with
  | nil => simp [matchHere] at h
  | cons b s =>
    unfold FindStringSubmatch
    rw [h]

theorem formatInt_nonneg (x : Int) (h0 : 0 ≤ x) :
    formatInt x ≠ [] ∧ (formatInt x).all isDigit = true ∧
      (digitsValue (formatInt x) 0 : Int) = x := by
  cases x with
  | ofNat n =>
    obtain ⟨a, b, c⟩ := formatNat_spec n
    exact ⟨a, b, by simp [formatInt, c]⟩
  | negSucc n => exact absurd h0 (by simp)

theorem bitLen_two_pow (n : Nat) : bitLen (2 ^ n) = n + 1 := by
  unfold bitLen
  rw [if_neg (Nat.pos_iff_ne_zero.mp (Nat.two_pow_pos n)), Nat.log2_two_pow]

/-! ### `Next` is the chain of the specification -/

theorem handler_keeps (c c1 : Context)
    (h : c.handler = .done c1 ∨ c.handler = .panicked c1) :
    c1.s.rule = c.s.rule ∧ c1.s.callDepth = c.s.callDepth ∧ c1.log = c.log := by
  unfold Context.handler at h
  cases hrq : c.Request with
  | none =>
    rw [hrq] at h
    simp only [] at h
    split at h
    · rcases h with h | h
      · cases h; exact ⟨rfl, rfl, rfl⟩
      · cases h
    · rcases h with h | h
      · cases h
      · cases h; exact ⟨rfl, rfl, rfl⟩
  | some r =>
    rw [hrq] at h
    simp only [] at h
    cases hex : c.s.execute r with
    | ok v =>
      obtain ⟨resp, s1⟩ := v
      obtain ⟨h1, h2, _⟩ := execute_frame _ _ _ _ hex
      rw [hex] at h
      rcases h with h | h
      · cases h; exact ⟨h1, h2, rfl⟩
      · cases h
    | panic =>
      rw [hex] at h
      rcases h with h | h
      · cases h
      · cases h; exact ⟨rfl, rfl, rfl⟩
    | outOfFuel => exact absurd hex (execute_ne_outOfFuel _ _)

/-- A run of a handler agrees with its counted run, when the calls of `Next` inside it
agree with the chain of the specification. -/
theorem run_counted (R : Rule) (next : Context → Flow) (nextC : Nat → Context → Flow × Nat)
    (hnext : ∀ c k, InChain R k c → next c = (nextC k c).1 ∧
      ∀ c1, ((nextC k c).1 = .done c1 ∨ (nextC k c).1 = .panicked c1) →
        InChain R (nextC k c).2 c1) :
    ∀ (t : HandlerRun) (c : Context) (k : Nat), InChain R k c →
      t.run next c = (t.runCounted nextC k c).1 ∧
      ∀ c1, ((t.runCounted nextC k c).1 = .done c1 ∨
          (t.runCounted nextC k c).1 = .panicked c1) →
        InChain R (t.runCounted nextC k c).2 c1 := by
  intro t
  induction t with
  | ret rq rs =>
    intro c k hc
    refine ⟨rfl, ?_⟩
    intro c1 h
    rcases h with h | h
    · cases h; exact hc
    · cases h
  | throw rq rs =>
    intro c k hc
    refine ⟨rfl, ?_⟩
    intro c1 h
    rcases h with h | h
    · cases h
    · cases h; exact hc
  | next rq rs f ih =>
    intro c k hc
    obtain ⟨e1, e2⟩ := hnext { c with Request := rq, Response := rs } k hc
    simp only [HandlerRun.run, HandlerRun.runCounted]
    rw [e1]
    cases hn : nextC k { c with Request := rq, Response := rs } with
    | mk fl k1 =>
      rw [hn] at e2
      cases fl with
      | done c1 =>
        simp only []
        exact ih c1.Request c1.Response c1 k1 (e2 c1 (Or.inl rfl))
      | panicked c1 =>
        simp only []
        refine ⟨trivial, ?_⟩
        intro c2 h
        rcases h with h | h
        · cases h
        · cases h; exact e2 c1 (Or.inr rfl)
      | outOfFuel =>
        simp only []
        refine ⟨trivial, ?_⟩
        intro c2 h
        rcases h with h | h <;> cases h

theorem leave_inChain (R : Rule) (k : Nat) (f : Flow)
    (h : ∀ c1, (f = .done c1 ∨ f = .panicked c1) → InChain R k c1) :
    ∀ c2, (f.leave = .done c2 ∨ f.leave = .panicked c2) → InChain R k c2 := by
  intro c2 h2
  cases f with
  | done c1 =>
    rcases h2 with h2 | h2
    · cases h2
      obtain ⟨a1, a2, a3⟩ := h c1 (Or.inl rfl)
      exact ⟨a1, a2, by simpa [calls_append, calls] using a3⟩
    · cases h2
  | panicked c1 =>
    rcases h2 with h2 | h2
    · cases h2
      obtain ⟨a1, a2, a3⟩ := h c1 (Or.inr rfl)
      exact ⟨a1, a2, by simpa [calls_append, calls] using a3⟩
    · cases h2
  | outOfFuel => rcases h2 with h2 | h2 <;> cases h2

/-- The method `Next` is the chain of the specification: with `k` calls of `Next` made
before, it ends as `specNext` from the count `k` does. -/
theorem Next_counted (R : Rule) : ∀ (fuel : Nat) (c : Context) (k : Nat), InChain R k c →
    c.Next fuel = (specNext R.Handlers fuel k c).1 ∧
    ∀ c1, ((specNext R.Handlers fuel k c).1 = .done c1 ∨
        (specNext R.Handlers fuel k c).1 = .panicked c1) →
      InChain R (specNext R.Handlers fuel k c).2 c1 := by
  intro fuel
  induction fuel with
  | zero =>
    intro c k _
    refine ⟨rfl, ?_⟩
    intro c1 h
    rcases h with h | h <;> cases h
  | succ fuel ih =>
    intro c k hc
    obtain ⟨hR, hd, hcount⟩ := hc
    rw [Next_succ]
    unfold Context.invoke session.nextHandler
    simp only [specNext]
    by_cases hk : k < R.Handlers.length
    · have hd1 : c.s.callDepth = k := by rw [hd]; exact Nat.min_eq_left (le_of_lt hk)
      have hlt : c.s.callDepth < c.s.rule.Handlers.length := by rw [hR, hd1]; exact hk
      rw [dif_pos hlt, dif_pos hk]
      simp only []
      have hget : c.s.rule.Handlers.get ⟨c.s.callDepth, hlt⟩ = R.Handlers.get ⟨k, hk⟩ := by
        subst hR
        congr 1
        exact Fin.ext hd1
      have hctx : ({ c with s := { c.s with callDepth := c.s.callDepth + 1 },
                            log := c.log ++ [.call (some c.s.callDepth)] } : Context) =
          { c with s := { c.s with callDepth := k + 1 }, log := c.log ++ [.call (some k)] } := by
        rw [hd1]
      rw [hget, hctx]
      obtain ⟨e1, e2⟩ := run_counted R (Context.Next fuel) (specNext R.Handlers fuel) ih
        (R.Handlers.get ⟨k, hk⟩ c.Request c.Response)
        { c with s := { c.s with callDepth := k + 1 }, log := c.log ++ [.call (some k)] }
        (k + 1) ⟨hR, by
          show k + 1 = min (k + 1) R.Handlers.length
          omega, by
          show (calls (c.log ++ [Event.call (some k)])).length = k + 1
          simp [calls_append, calls, hcount]⟩
      rw [e1]
      exact ⟨rfl, leave_inChain R _ _ e2⟩
    · have hd1 : c.s.callDepth = R.Handlers.length := by
        rw [hd]; exact Nat.min_eq_right (by omega)
      have hlt : ¬ c.s.callDepth < c.s.rule.Handlers.length := by rw [hR, hd1]; omega
      rw [dif_neg hlt, dif_neg hk]
      simp only []
      refine ⟨trivial, leave_inChain R _ _ ?_⟩
      intro c1 h
      obtain ⟨a1, a2, a3⟩ := handler_keeps _ c1 h
      exact ⟨a1.trans hR, by
        rw [a2]
        show c.s.callDepth = min (k + 1) R.Handlers.length
        omega, by
        rw [a3]
        show (calls (c.log ++ [Event.call none])).length = k + 1
        simp [calls_append, calls, hcount]⟩

/-! ### The shape of the trie is kept by `add` -/

theorem star_not_mem_takeText (r : Bytes) : star ∉ takeText r := by
  induction r with
  | nil => simp [takeText]
  | cons b r ih =>
    simp only [takeText]
    split
    · simp
    · rename_i h
      simp only [not_or] at h
      simp [ih, Ne.symm h.2]

theorem node_Shape_iff (n : node) :
    n.Shape ↔ n.index.Nodup ∧ childrenShape n.index n.children ∧ specialShape n.special := by
  cases n
  simp [node.Shape, node.index, node.children, node.special]

theorem childrenShape_length : ∀ (i : Bytes) (c : List node), childrenShape i c →
    i.length = c.length := by
  intro i
  induction i with
  | nil => intro c h; cases c <;> simp [childrenShape] at h ⊢
  | cons b i ih =>
    intro c h
    cases c with
    | nil => simp [childrenShape] at h
    | cons ch c => simp [childrenShape] at h; simp [ih c h.2.2.2.2.2]

theorem childrenShape_get : ∀ (i : Bytes) (cs : List node), childrenShape i cs →
    ∀ (k : Nat) (ch : node), cs[k]? = some ch →
      ch.kind = .text ∧ (∃ b r, i[k]? = some b ∧ ch.route = b :: r) ∧ colon ∉ ch.route ∧
        star ∉ ch.route ∧ ch.Shape := by
  intro i
  induction i with
  | nil => intro c h k ch hk; cases c <;> simp [childrenShape] at h hk
  | cons b i ih =>
    intro c h k ch hk
    cases c with
    | nil => simp at hk
    | cons c0 c =>
      simp only [childrenShape] at h
      cases k with
      | zero =>
        simp at hk; subst hk
        obtain ⟨h1, ⟨r, hr⟩, h3, h4, h5, _⟩ := h
        exact ⟨h1, ⟨b, r, by simp, hr⟩, h3, h4, h5⟩
      | succ k =>
        simp at hk
        simpa using ih c h.2.2.2.2.2 k ch hk

theorem childrenShape_snoc : ∀ (i : Bytes) (cs : List node) (b : Nat) (ch : node),
    childrenShape i cs → ch.kind = .text → (∃ r, ch.route = b :: r) → colon ∉ ch.route →
    star ∉ ch.route → ch.Shape → childrenShape (i ++ [b]) (cs ++ [ch]) := by
  intro i
  induction i with
  | nil =>
    intro cs b ch h h1 h2 h3 h4 h5
    cases cs with
    | nil => exact ⟨h1, h2, h3, h4, h5, trivial⟩
    | cons c cs => simp [childrenShape] at h
  | cons x i ih =>
    intro cs b ch h h1 h2 h3 h4 h5
    cases cs with
    | nil => simp [childrenShape] at h
    | cons c cs =>
      simp only [childrenShape] at h
      exact ⟨h.1, h.2.1, h.2.2.1, h.2.2.2.1, h.2.2.2.2.1,
        ih cs b ch h.2.2.2.2.2 h1 h2 h3 h4 h5⟩

theorem childrenShape_set : ∀ (i : Bytes) (cs : List node) (k : Nat) (ch1 : node),
    childrenShape i cs → ch1.kind = .text → (∃ b r, i[k]? = some b ∧ ch1.route = b :: r) →
    colon ∉ ch1.route → star ∉ ch1.route → ch1.Shape → childrenShape i (cs.set k ch1) := by
  intro i
  induction i with
  | nil =>
    intro cs k ch1 h h1 h2
    obtain ⟨b, r, hb, _⟩ := h2
    simp at hb
  | cons x i ih =>
    intro cs k ch1 h h1 h2 h3 h4 h5
    cases cs with
    | nil => simp [childrenShape] at h
    | cons c cs =>
      simp only [childrenShape] at h
      cases k with
      | zero =>
        obtain ⟨b, r, hb, hr⟩ := h2
        simp at hb
        subst hb
        exact ⟨h1, ⟨r, hr⟩, h3, h4, h5, h.2.2.2.2.2⟩
      | succ k =>
        obtain ⟨b, r, hb, hr⟩ := h2
        simp at hb
        exact ⟨h.1, h.2.1, h.2.2.1, h.2.2.2.1, h.2.2.2.2.1,
          ih cs k ch1 h.2.2.2.2.2 h1 ⟨b, r, hb, hr⟩ h3 h4 h5⟩

theorem Shape_setCost (n : node) (c : Int) (h : n.Shape) :
    (n.setCost c).Shape ∧ (n.setCost c).kind = n.kind ∧ (n.setCost c).route = n.route := by
  cases n
  exact ⟨h, rfl, rfl⟩

theorem Shape_setHasWildcard (n : node) (w : Bool) (h : n.Shape) :
    (n.setHasWildcard w).Shape ∧ (n.setHasWildcard w).kind = n.kind ∧
      (n.setHasWildcard w).route = n.route := by
  cases n
  exact ⟨h, rfl, rfl⟩

theorem newNode_fresh (r : Bytes) (n : node) (h : newNode r = some n) :
    fresh n ∧ n.Shape ∧
      ∀ b t, r = b :: t →
        (b = colon → n.kind = .parameter) ∧
        (b ≠ colon → n.kind = .text ∧ n.route = takeText r) := by
  cases r with
  | nil => simp [newNode] at h
  | cons b t =>
    simp only [newNode] at h
    by_cases hb : b = colon
    · rw [if_pos hb] at h
      cases h
      refine ⟨⟨rfl, rfl, rfl⟩, ⟨List.nodup_nil, trivial, trivial⟩, ?_⟩
      intro b1 t1 e
      cases e
      exact ⟨fun _ => rfl, fun hne => absurd hb hne⟩
    · rw [if_neg hb] at h
      cases h
      refine ⟨⟨rfl, rfl, rfl⟩, ⟨List.nodup_nil, trivial, trivial⟩, ?_⟩
      intro b1 t1 e
      cases e
      exact ⟨fun he => absurd he hb, fun _ => ⟨rfl, rfl⟩⟩

/-- The result of `insertNode` on a node of the shape: a text child must start with a
byte that `index` does not hold. -/
theorem insertNode_shape (n child n1 : node) (h : n.insertNode child = .ok n1) (hn : n.Shape)
    (hc : child.Shape) (ht : child.kind = .text → colon ∉ child.route ∧ star ∉ child.route ∧
      ∀ b q, child.route = b :: q → b ∉ n.index) :
    n1.Shape ∧ n1.kind = n.kind ∧ n1.route = n.route := by
  obtain ⟨k, w, r, i, c, s, cost⟩ := n
  simp only [node.insertNode] at h
  by_cases hk : child.kind = .text
  · rw [if_pos hk] at h
    obtain ⟨h1, h2, h3⟩ := ht hk
    cases hr : child.route with
    | nil => rw [hr] at h; cases h
    | cons b q =>
      rw [hr] at h
      cases h
      obtain ⟨a1, a2, a3⟩ := hn
      refine ⟨⟨?_, childrenShape_snoc i c b child a2 hk ⟨q, hr⟩ h1 h2 hc, a3⟩, rfl, rfl⟩
      rw [List.nodup_append]
      refine ⟨a1, List.nodup_singleton _, ?_⟩
      intro x hx hy
      simp only [List.mem_singleton] at hy
      subst hy
      exact h3 x q hr hx
  · rw [if_neg hk] at h
    cases h
    obtain ⟨a1, a2, _⟩ := hn
    have hp : child.kind = .parameter := by
      cases hkk : child.kind with
      | text => exact absurd hkk hk
      | parameter => rfl
    exact ⟨⟨a1, a2, hp, hc⟩, rfl, rfl⟩

theorem fresh_index {n : node} (h : fresh n) : n.index = [] := h.1

/-- The loop of `newList` completes a fresh node to a node of the shape. -/
theorem newListLoop_shape : ∀ (fuel : Nat) (cur : node) (rem : Bytes) (c : Int) (n1 : node),
    newListLoop fuel cur rem c = .ok n1 → fresh cur → cur.Shape →
    n1.Shape ∧ n1.kind = cur.kind ∧ n1.route = cur.route := by
  intro fuel
  induction fuel with
  | zero => intro cur rem c n1 h; simp [newListLoop] at h
  | succ fuel ih =>
    intro cur rem c n1 h hf hs
    rw [newListLoop] at h
    by_cases hend : rem = [] ∨ rem = [star]
    · rw [if_pos hend] at h
      cases h
      exact Shape_setCost cur c hs
    · rw [if_neg hend] at h
      cases hnew : newNode rem with
      | none => rw [hnew] at h; cases h
      | some next =>
        rw [hnew] at h
        simp only [] at h
        cases h0 : cur.insertNode next with
        | panic => rw [h0] at h; cases h
        | outOfFuel => rw [h0] at h; cases h
        | ok v0 =>
          rw [h0, Run.andThen_ok] at h
          cases hrec : newListLoop fuel next (rem.drop next.route.length) c with
          | panic => rw [hrec] at h; cases h
          | outOfFuel => rw [hrec] at h; cases h
          | ok next1 =>
            rw [hrec, Run.andThen_ok] at h
            obtain ⟨nf, ns, nk⟩ := newNode_fresh rem next hnew
            obtain ⟨a1, a2, a3⟩ := ih next _ c next1 hrec nf ns
            refine insertNode_shape cur next1 n1 h hs a1 ?_
            intro hk
            have hkn : next.kind = .text := by rw [← a2]; exact hk
            cases rem with
            | nil => exact absurd (Or.inl rfl) hend
            | cons b t =>
              obtain ⟨k1, k2⟩ := nk b t rfl
              have hb : b ≠ colon := by
                intro e
                have := k1 e
                rw [hkn] at this
                cases this
              obtain ⟨_, hr⟩ := k2 hb
              rw [a3, hr]
              refine ⟨colon_not_mem_takeText _, star_not_mem_takeText _, ?_⟩
              intro x q _
              rw [hf.1]
              simp

theorem newList_shape (rem : Bytes) (c : Int) (stem : node)
    (h : newList rem c = .ok (some stem)) :
    stem.Shape ∧ ∀ b t, rem = b :: t →
      (b = colon → stem.kind = .parameter) ∧
      (b ≠ colon → stem.kind = .text ∧ stem.route = takeText rem) := by
  unfold newList at h
  cases hnew : newNode rem with
  | none => rw [hnew] at h; cases h
  | some head =>
    rw [hnew] at h
    simp only [] at h
    cases hrec : newListLoop (rem.length + 1) head (rem.drop head.route.length) c with
    | panic => rw [hrec] at h; cases h
    | outOfFuel => rw [hrec] at h; cases h
    | ok n1 =>
      rw [hrec, Run.andThen_ok] at h
      cases h
      obtain ⟨nf, ns, nk⟩ := newNode_fresh rem head hnew
      obtain ⟨a1, a2, a3⟩ := newListLoop_shape _ head _ c stem hrec nf ns
      refine ⟨a1, ?_⟩
      intro b t e
      obtain ⟨k1, k2⟩ := nk b t e
      exact ⟨fun hb => by rw [a2]; exact k1 hb, fun hb => by rw [a2, a3]; exact k2 hb⟩

/-- The code after the loop of `insertRoute` keeps the shape, when the first byte of a
remainder that starts with text is not a byte of `index`. -/
theorem insertFinish_shape (cur : node) (rem : Bytes) (c : Int) (n1 : node)
    (h : insertFinish cur rem c = .ok n1) (hs : cur.Shape)
    (hnew : ∀ b t, rem = b :: t → b ≠ colon → b ∉ cur.index) :
    n1.Shape ∧ n1.kind = cur.kind ∧ n1.route = cur.route := by
  unfold insertFinish at h
  by_cases h1 : rem = []
  · rw [if_pos h1] at h
    cases h
    exact Shape_setCost cur c hs
  · rw [if_neg h1] at h
    by_cases h2 : rem = [star]
    · rw [if_pos h2] at h
      cases h
      obtain ⟨a1, a2, a3⟩ := Shape_setCost cur c hs
      obtain ⟨b1, b2, b3⟩ := Shape_setHasWildcard (cur.setCost c) true a1
      exact ⟨b1, b2.trans a2, b3.trans a3⟩
    · rw [if_neg h2] at h
      cases hl : newList rem c with
      | panic => rw [hl] at h; cases h
      | outOfFuel => rw [hl] at h; cases h
      | ok v =>
        rw [hl, Run.andThen_ok] at h
        cases v with
        | none => cases h
        | some stem =>
          simp only [] at h
          obtain ⟨s1, s2⟩ := newList_shape rem c stem hl
          refine insertNode_shape cur stem n1 h hs s1 ?_
          intro hk
          cases rem with
          | nil => exact absurd rfl h1
          | cons b t =>
            obtain ⟨k1, k2⟩ := s2 b t rfl
            have hb : b ≠ colon := by
              intro e
              have := k1 e
              rw [hk] at this
              cases this
            obtain ⟨_, hr⟩ := k2 hb
            rw [hr]
            refine ⟨colon_not_mem_takeText _, star_not_mem_takeText _, ?_⟩
            intro x q hx
            have hx0 : x = b := by
              simp only [takeText] at hx
              split at hx
              · cases hx
              · simp only [List.cons.injEq] at hx
                exact hx.1.symm
            rw [hx0]
            exact hnew b t rfl hb

theorem kept_refl (cur : node) (h : cur.Shape) : kept cur cur :=
  ⟨h, rfl, ⟨[], by simp⟩, id⟩

theorem kept_trans {a b c : node} (h1 : kept a b) (h2 : kept b c) : kept a c := by
  obtain ⟨_, a2, ⟨q1, a3⟩, a4⟩ := h1
  obtain ⟨b1, b2, ⟨q2, b3⟩, b4⟩ := h2
  exact ⟨b1, b2.trans a2, ⟨q2 ++ q1, by rw [a3, b3, List.append_assoc]⟩, fun h => b4 (a4 h)⟩

theorem findChild_shape (cur : node) (rem : Bytes) (b : Nat) (t : Bytes) (hr : rem = b :: t)
    (hb : b ≠ colon) (hs : cur.Shape) : stepShape cur (findChild cur rem b) := by
  unfold findChild
  simp only []
  by_cases hlt : cur.index.indexOf b < cur.index.length
  · rw [if_pos hlt]
    cases hch : cur.children[cur.index.indexOf b]? with
    | none => trivial
    | some child =>
      exact ⟨kept_refl cur hs, hch, b, t, hr, hb, indexOf_getElem b cur.index hlt⟩
  · rw [if_neg hlt]
    refine ⟨kept_refl cur hs, ?_⟩
    intro x y hx _ hmem
    rw [hr] at hx
    cases hx
    exact hlt (List.indexOf_lt_length.mpr hmem)

theorem splitNode_shape (cur : node) (b : Nat) (t q : Bytes) (hs : cur.Shape)
    (hk : cur.kind = .text) (hc : colon ∉ cur.route) (hst : star ∉ cur.route)
    (hq : cur.route = b :: q)
    (hlt : (takePrefix (b :: t) cur.route).length < cur.route.length) :
    kept cur (splitNode cur (takePrefix (b :: t) cur.route)) := by
  obtain ⟨f1, f2, f3, f4, f5, _⟩ := splitNode_fields cur (takePrefix (b :: t) cur.route)
  obtain ⟨y, tb, hy⟩ : ∃ y tb, cur.route.drop (takePrefix (b :: t) cur.route).length = y :: tb := by
    cases h : cur.route.drop (takePrefix (b :: t) cur.route).length with
    | nil =>
      have := congrArg List.length h
      simp at this
      omega
    | cons y tb => exact ⟨y, tb, rfl⟩
  have hsub : ∀ x, x ∈ cur.route.drop (takePrefix (b :: t) cur.route).length → x ∈ cur.route :=
    fun x hx => List.mem_of_mem_drop hx
  refine ⟨?_, by rw [f1, hk], ⟨_, by rw [f2]; exact (takePrefix_append_drop_right _ _).symm⟩, ?_⟩
  · rw [node_Shape_iff, f3, f4, f5, hy]
    refine ⟨by simp, ?_, trivial⟩
    show childrenShape [y] [_]
    refine ⟨rfl, ⟨tb, rfl⟩, ?_, ?_, ?_, trivial⟩
    · intro hx; exact hc (hsub _ (by rw [hy]; exact hx))
    · intro hx; exact hst (hsub _ (by rw [hy]; exact hx))
    · exact (node_Shape_iff cur).mp hs
  · intro _
    rw [f2, hq, takePrefix_cons_cons]
    simp

/-- Every outcome of the loop body of `insertRoute` hands on nodes of the shape. -/
theorem insertBody_shape (cur : node) (rem : Bytes) (hs : cur.Shape) (ht : textHead cur rem) :
    stepShape cur (insertBody cur rem) := by
  unfold insertBody
  cases rem with
  | nil => exact ⟨kept_refl cur hs, by intro b t h; cases h⟩
  | cons b t =>
    simp only []
    by_cases hb : b = colon
    · rw [if_pos hb]
      cases hsp : cur.special with
      | none =>
        refine ⟨kept_refl cur hs, ?_⟩
        intro x y hx hne
        cases hx
        exact absurd hb hne
      | some sp => exact ⟨rfl, hsp⟩
    · rw [if_neg hb]
      by_cases hk : cur.kind = .text
      · rw [if_pos hk]
        obtain ⟨hc, hst, b0, t0, e0, hq⟩ := ht hk
        cases e0
        rcases hq with hq | ⟨q, hq⟩
        · exact absurd hq hb
        · have hkept : kept cur (if (takePrefix (b :: t) cur.route).length < cur.route.length
              then splitNode cur (takePrefix (b :: t) cur.route) else cur) := by
            split
            · rename_i hlt
              exact splitNode_shape cur b t q hs hk hc hst hq hlt
            · exact kept_refl cur hs
          generalize (if (takePrefix (b :: t) cur.route).length < cur.route.length
              then splitNode cur (takePrefix (b :: t) cur.route) else cur) = cur1 at hkept ⊢
          cases hrem : (b :: t).drop (takePrefix (b :: t) cur.route).length with
          | nil => exact ⟨hkept, by intro x y h; cases h⟩
          | cons b1 t1 =>
            simp only []
            have hcs : colon ∉ cur1.route ∧ star ∉ cur1.route := by
              obtain ⟨_, _, ⟨q1, e⟩, _⟩ := hkept
              constructor
              · intro hx; exact hc (by rw [e]; exact List.mem_append_left _ hx)
              · intro hx; exact hst (by rw [e]; exact List.mem_append_left _ hx)
            by_cases hb1 : b1 = colon
            · rw [if_pos hb1]
              exact ⟨hkept, fun _ => ⟨hcs.1, hcs.2, b1, t1, rfl, Or.inl hb1⟩⟩
            · rw [if_neg hb1]
              have := findChild_shape cur1 (b1 :: t1) b1 t1 rfl hb1 hkept.1
              cases hf : findChild cur1 (b1 :: t1) b1 with
              | finish c1 r1 =>
                rw [hf] at this
                exact ⟨kept_trans hkept this.1, this.2⟩
              | again c1 r1 =>
                rw [hf] at this
                exact ⟨kept_trans hkept this.1, this.2⟩
              | intoSpecial c1 sp r1 =>
                exfalso
                unfold findChild at hf
                simp only [] at hf
                split at hf
                · split at hf <;> cases hf
                · cases hf
              | intoChild c1 idx child r1 =>
                rw [hf] at this
                exact ⟨kept_trans hkept this.1, this.2⟩
              | panic => trivial
      · rw [if_neg hk]
        exact findChild_shape cur (b :: t) b t rfl hb hs

theorem Shape_special {n sp : node} (h : n.Shape) (hsp : n.special = some sp) :
    sp.kind = .parameter ∧ sp.Shape := by
  have := ((node_Shape_iff n).mp h).2.2
  rw [hsp] at this
  exact this

theorem Shape_child {n ch : node} {k : Nat} (h : n.Shape) (hch : n.children[k]? = some ch) :
    ch.kind = .text ∧ (∃ b r, n.index[k]? = some b ∧ ch.route = b :: r) ∧ colon ∉ ch.route ∧
      star ∉ ch.route ∧ ch.Shape :=
  childrenShape_get _ _ ((node_Shape_iff n).mp h).2.1 k ch hch

/-- The walk of `insertRoute`, when it returns, leaves a node of the shape. -/
theorem insertRouteLoop_shape : ∀ (fuel : Nat) (cur : node) (rem : Bytes) (c : Int) (n1 : node),
    insertRouteLoop fuel cur rem c = .ok n1 → cur.Shape → textHead cur rem → kept cur n1 := by
  intro fuel
  induction fuel with
  | zero => intro cur rem c n1 h; simp [insertRouteLoop] at h
  | succ fuel ih =>
    intro cur rem c n1 h hs ht
    rw [insertRouteLoop_succ] at h
    have hb := insertBody_shape cur rem hs ht
    cases hbody : insertBody cur rem with
    | finish c1 r1 =>
      rw [hbody] at h hb
      simp only [] at h
      obtain ⟨a1, a2, a3⟩ := insertFinish_shape c1 r1 c n1 h hb.1.1 hb.2
      exact kept_trans hb.1 ⟨a1, a2, ⟨[], by rw [a3]; simp⟩, fun hne => by rw [a3]; exact hne⟩
    | again c1 r1 =>
      rw [hbody] at h hb
      simp only [] at h
      exact kept_trans hb.1 (ih c1 r1 c n1 h hb.1.1 hb.2)
    | intoSpecial c1 sp r1 =>
      rw [hbody] at h hb
      simp only [] at h
      obtain ⟨e1, hsp⟩ := hb
      subst e1
      cases hrec : insertRouteLoop fuel sp r1 c with
      | panic => rw [hrec] at h; cases h
      | outOfFuel => rw [hrec] at h; cases h
      | ok sp1 =>
        rw [hrec, Run.andThen_ok] at h
        cases h
        obtain ⟨k1, k2⟩ := Shape_special hs hsp
        obtain ⟨b1, b2, _, _⟩ := ih sp r1 c sp1 hrec k2 (by
          intro hk; rw [k1] at hk; cases hk)
        obtain ⟨f1, f2, f3, f4, f5, _⟩ := setSpecial_fields c1 (some sp1)
        obtain ⟨g1, g2, _⟩ := (node_Shape_iff c1).mp hs
        refine ⟨?_, f1, ⟨[], by rw [f2]; simp⟩, fun hne => by rw [f2]; exact hne⟩
        rw [node_Shape_iff, f3, f4, f5]
        exact ⟨g1, g2, b2.trans k1, b1⟩
    | intoChild c1 idx child r1 =>
      rw [hbody] at h hb
      simp only [] at h
      obtain ⟨hk, hch, b, t, hr, hbc, hidx⟩ := hb
      cases hrec : insertRouteLoop fuel child r1 c with
      | panic => rw [hrec] at h; cases h
      | outOfFuel => rw [hrec] at h; cases h
      | ok child1 =>
        rw [hrec, Run.andThen_ok] at h
        cases h
        obtain ⟨k1, ⟨b', r', hb', hroute⟩, k3, k4, k5⟩ := Shape_child hk.1 hch
        have hbb : b' = b := by
          rw [hidx] at hb'
          exact (Option.some.inj hb').symm
        subst hbb
        obtain ⟨b1, b2, ⟨q, b3⟩, b4⟩ := ih child r1 c child1 hrec k5 (by
          intro _
          exact ⟨k3, k4, b', t, hr, Or.inr ⟨r', hroute⟩⟩)
        obtain ⟨f1, f2, f3, f4, f5, _⟩ := setChildren_fields c1 (c1.children.set idx child1)
        obtain ⟨g1, g2, g3⟩ := (node_Shape_iff c1).mp hk.1
        have hne : child1.route ≠ [] := b4 (by rw [hroute]; simp)
        have hr1 : ∃ r1, child1.route = b' :: r1 := by
          cases hc1 : child1.route with
          | nil => exact absurd hc1 hne
          | cons x r1 =>
            rw [hc1, hroute] at b3
            simp only [List.cons_append, List.cons.injEq] at b3
            exact ⟨r1, by rw [b3.1]⟩
        have hsub : ∀ x, x ∈ child1.route → x ∈ child.route := by
          intro x hx
          rw [b3]
          exact List.mem_append_left _ hx
        refine kept_trans hk ⟨?_, f1, ⟨[], by rw [f2]; simp⟩, fun hne => by rw [f2]; exact hne⟩
        rw [node_Shape_iff, f3, f4, f5]
        refine ⟨g1, childrenShape_set _ _ idx child1 g2 (b2.trans k1) ?_ ?_ ?_ b1, g3⟩
        · obtain ⟨r1, hr1⟩ := hr1
          exact ⟨b', r1, hb', hr1⟩
        · intro hx; exact k3 (hsub _ hx)
        · intro hx; exact k4 (hsub _ hx)
    | panic =>
      rw [hbody] at h
      cases h

/-! ### The tree of roots -/

theorem get_shape (t : tree) (m : Bytes) (n : node) (hinv : treeShape t)
    (h : t.get m = some n) : rootShape n := by
  obtain ⟨bs⟩ := t
  induction bs with
  | nil => simp [tree_get_nil] at h
  | cons b bs ih =>
    rw [tree_get_cons] at h
    by_cases hb : b.method = m
    · simp only [hb, if_true] at h
      obtain ⟨n0, h0, h1⟩ := hinv b (by simp)
      rw [h] at h0
      cases h0
      exact h1
    · simp only [hb, if_false] at h
      exact ih (fun r hr => hinv r (List.mem_cons_of_mem _ hr)) h

theorem treeShape_setRoot : ∀ (bs : List root) (m : Bytes) (n : node), treeShape ⟨bs⟩ →
    rootShape n → treeShape ⟨setRoot bs m n⟩ := by
  intro bs
  induction bs with
  | nil => intro m n h _; simpa [setRoot] using h
  | cons b bs ih =>
    intro m n h hn r hr
    by_cases hb : b.method = m
    · simp only [setRoot, hb, if_true] at hr
      rcases List.mem_cons.mp hr with hr | hr
      · subst hr
        exact ⟨n, rfl, hn⟩
      · exact h r (List.mem_cons_of_mem _ hr)
    · simp only [setRoot, hb, if_false] at hr
      rcases List.mem_cons.mp hr with hr | hr
      · subst hr
        exact h _ (by simp)
      · exact ih m n (fun x hx => h x (List.mem_cons_of_mem _ hx)) hn r hr

/-- The method `add`, when it returns, keeps the shape of the tree. -/
theorem add_shape (t : tree) (m tm : Bytes) (c : Int) (t1 : tree) (hinv : treeShape t)
    (h : t.add m (slash :: tm) c = .ok t1) : treeShape t1 := by
  obtain ⟨bs⟩ := t
  unfold tree.add at h
  cases hg : tree.get ⟨bs⟩ m with
  | some n =>
    rw [hg] at h
    simp only [] at h
    cases hrun : n.insertRoute (slash :: tm) c with
    | panic => rw [hrun] at h; cases h
    | outOfFuel => rw [hrun] at h; cases h
    | ok n1 =>
      rw [hrun, Run.andThen_ok] at h
      cases h
      obtain ⟨hk, ⟨q, hq⟩, hc, hst, hs⟩ := get_shape _ m n hinv hg
      obtain ⟨a1, a2, ⟨q1, a3⟩, a4⟩ := insertRouteLoop_shape _ n (slash :: tm) c n1 hrun hs
        (fun _ => ⟨hc, hst, slash, tm, rfl, Or.inr ⟨q, hq⟩⟩)
      have hne : n1.route ≠ [] := a4 (by rw [hq]; simp)
      refine treeShape_setRoot bs m n1 hinv ⟨a2.trans hk, ?_, ?_, ?_, a1⟩
      · cases hc1 : n1.route with
        | nil => exact absurd hc1 hne
        | cons x r1 =>
          rw [hc1, hq] at a3
          simp only [List.cons_append, List.cons.injEq] at a3
          exact ⟨r1, by rw [a3.1]⟩
      · intro hx; exact hc (by rw [a3]; exact List.mem_append_left _ hx)
      · intro hx; exact hst (by rw [a3]; exact List.mem_append_left _ hx)
  | none =>
    rw [hg] at h
    simp only [] at h
    cases hl : newList (slash :: tm) c with
    | panic => rw [hl] at h; cases h
    | outOfFuel => rw [hl] at h; cases h
    | ok head =>
      rw [hl, Run.andThen_ok] at h
      cases h
      cases head with
      | none =>
        simp only [newList, newNode] at hl
        rw [if_neg (by decide)] at hl
        simp only [] at hl
        generalize newListLoop _ _ _ _ = x at hl
        cases x <;> simp [Run.andThen] at hl
      | some stem =>
        obtain ⟨s1, s2⟩ := newList_shape _ c stem hl
        obtain ⟨_, k2⟩ := s2 slash tm rfl
        obtain ⟨k3, k4⟩ := k2 (by decide)
        intro r hr
        rcases List.mem_append.mp hr with hr | hr
        · exact hinv r hr
        · simp only [List.mem_singleton] at hr
          subst hr
          refine ⟨stem, rfl, k3, ?_, ?_, ?_, s1⟩
          · rw [k4]
            exact ⟨takeText tm, by simp [takeText]⟩
          · rw [k4]; exact colon_not_mem_takeText _
          · rw [k4]; exact star_not_mem_takeText _

theorem addAll_shape : ∀ (rs : List Route) (t t1 : tree), treeShape t →
    (∀ r ∈ rs, ∃ tm, r.route = slash :: tm) → addAll t rs = .ok t1 → treeShape t1 := by
  intro rs
  induction rs with
  | nil =>
    intro t t1 hinv _ h
    simp only [addAll] at h
    cases h
    exact hinv
  | cons r rs ih =>
    intro t t1 hinv hgood h
    obtain ⟨tm, htm⟩ := hgood r (by simp)
    simp only [addAll] at h
    cases hadd : t.add r.method r.route r.cost with
    | panic => rw [hadd] at h; cases h
    | outOfFuel => rw [hadd] at h; cases h
    | ok t2 =>
      rw [hadd, Run.andThen_ok] at h
      rw [htm] at hadd
      exact ih t2 t1 (add_shape t r.method tm r.cost t2 hinv hadd)
        (fun x hx => hgood x (List.mem_cons_of_mem _ hx)) h

theorem Shape_reach {n m : node} (h : Reach n m) : n.Shape → m.Shape := by
  induction h with
  | self n => exact id
  | child n ch m hch _ ih =>
    intro hs
    obtain ⟨k, hk⟩ := List.getElem?_of_mem hch
    exact ih (Shape_child hs hk).2.2.2.2
  | special n sp m hsp _ ih =>
    intro hs
    exact ih (Shape_special hs hsp).2

theorem wellIndexed_of_shape (n : node) (h : n.Shape) : wellIndexed n := by
  obtain ⟨g1, g2, g3⟩ := (node_Shape_iff n).mp h
  refine ⟨childrenShape_length _ _ g2, ?_, g1, ?_, ?_⟩
  · intro i b ch hb hch
    obtain ⟨_, ⟨b', r, hb', hr⟩, _⟩ := Shape_child h hch
    rw [hb] at hb'
    cases hb'
    rw [hr]
    rfl
  · intro ch hch
    obtain ⟨k, hk⟩ := List.getElem?_of_mem hch
    obtain ⟨k1, ⟨b, r, _, hr⟩, k3, k4, _⟩ := Shape_child h hk
    exact ⟨k1, by rw [hr]; simp, k3, k4⟩
  · intro sp hsp
    exact (Shape_special h hsp).1

/-! ### The walk of `get` ends -/

theorem matchLen_le (a b : Bytes) : matchLen a b ≤ a.length ∧ matchLen a b ≤ b.length := by
  induction a generalizing b with
  | nil => cases b <;> simp [matchLen]
  | cons x a ih =>
    cases b with
    | nil => simp [matchLen]
    | cons y b =>
      simp only [matchLen]
      split
      · have := ih b
        simp only [List.length_cons]
        omega
      · simp

theorem skipParameter_le (route : Bytes) (offset : Nat) :
    skipParameter route offset ≤ route.length := by
  by_cases h : offset < route.length
  · rw [skipParameter_eq route offset h]
    have := takeParameter_length_le (route.drop offset)
    simp only [List.length_drop] at this
    omega
  · simp [skipParameter, h]

theorem popCheckpoint_total (cur : node) (cost : Int) (cps : List checkpoint)
    (hcps : ∀ cp ∈ cps, cp.node.Shape) : stepTotal cur cps (popCheckpoint cost cps) := by
  cases cps with
  | nil => exact ⟨cost, rfl⟩
  | cons cp rest =>
    refine ⟨hcps cp (by simp), fun x hx => hcps x (List.mem_cons_of_mem _ hx), ?_⟩
    have := node_size_pos cur
    simp only [checkpointsSize]
    omega

theorem findNext_total (route : Bytes) (cur : node) (offset : Nat) (cost : Int)
    (cps : List checkpoint) (hoff : offset < route.length) (hs : cur.Shape)
    (hcps : ∀ cp ∈ cps, cp.node.Shape) :
    stepTotal cur cps (findNext route cur offset cost cps) := by
  unfold findNext
  rw [List.getElem?_eq_getElem hoff]
  simp only []
  have hlen := childrenShape_length _ _ ((node_Shape_iff cur).mp hs).2.1
  by_cases hlt : cur.index.indexOf route[offset] < cur.index.length
  · rw [if_pos hlt]
    have hk : cur.index.indexOf route[offset] < cur.children.length := by omega
    rw [List.getElem?_eq_getElem hk]
    simp only []
    have hch : cur.children[cur.index.indexOf route[offset]]? =
        some (cur.children[cur.index.indexOf route[offset]]) := List.getElem?_eq_getElem hk
    have hchs := (Shape_child hs hch).2.2.2.2
    have hsz := size_child_lt cur _ _ hch
    cases hsp : cur.special with
    | some sp =>
      simp only []
      refine ⟨hchs, ?_, ?_⟩
      · intro cp hcp
        rcases List.mem_cons.mp hcp with hcp | hcp
        · subst hcp
          exact (Shape_special hs hsp).2
        · exact hcps cp hcp
      · have h1 : cur.size = 1 + sizeList cur.children + sizeOpt cur.special := by
          cases cur; rfl
        have h2 := size_le_sizeList cur.children _ _ hch
        rw [hsp] at h1
        simp only [sizeOpt] at h1
        simp only [checkpointsSize]
        omega
    | none =>
      simp only []
      exact ⟨hchs, hcps, by omega⟩
  · rw [if_neg hlt]
    cases hsp : cur.special with
    | some sp =>
      simp only []
      refine ⟨(Shape_special hs hsp).2, hcps, ?_⟩
      have h1 : cur.size = 1 + sizeList cur.children + sizeOpt cur.special := by
        cases cur; rfl
      rw [hsp] at h1
      simp only [sizeOpt] at h1
      omega
    | none =>
      simp only []
      split
      · exact ⟨_, rfl⟩
      · exact popCheckpoint_total cur cost cps hcps

/-- A pass through the loop body of `get` never reads out of bounds, and goes on with
fewer nodes to visit. -/
theorem getBody_total (route : Bytes) (cur : node) (offset : Nat) (cost : Int)
    (cps : List checkpoint) (hs : cur.Shape) (hcps : ∀ cp ∈ cps, cp.node.Shape) :
    stepTotal cur cps (getBody route cur offset cost cps) := by
  unfold getBody
  simp only []
  by_cases hk : cur.kind = .text
  · rw [if_pos hk]
    split
    · exact ⟨_, rfl⟩
    · rename_i hnot
      apply findNext_total _ _ _ _ _ _ hs hcps
      obtain ⟨h1, h2⟩ := matchLen_le cur.route (route.drop offset)
      simp only [List.length_drop] at h2
      by_contra hge
      apply hnot
      constructor
      · omega
      · left; omega
  · rw [if_neg hk]
    split
    · split
      · exact ⟨_, rfl⟩
      · exact popCheckpoint_total cur _ cps hcps
    · rename_i hne
      apply findNext_total _ _ _ _ _ _ hs hcps
      have := skipParameter_le route offset
      omega

/-- With as much fuel as there are nodes to visit, the walk of `get` returns a cost. -/
theorem getLoop_total : ∀ (fuel : Nat) (route : Bytes) (cur : node) (offset : Nat) (cost : Int)
    (cps : List checkpoint), cur.Shape → (∀ cp ∈ cps, cp.node.Shape) →
    cur.size + checkpointsSize cps ≤ fuel →
    ∃ v, getLoop fuel route (some cur) offset cost cps = .ok v := by
  intro fuel
  induction fuel with
  | zero =>
    intro route cur offset cost cps _ _ h
    have := node_size_pos cur
    omega
  | succ fuel ih =>
    intro route cur offset cost cps hs hcps h
    rw [getLoop_succ]
    have hb := getBody_total route cur offset cost cps hs hcps
    cases hbody : getBody route cur offset cost cps with
    | done result =>
      rw [hbody] at hb
      exact hb
    | next cur1 o1 c1 cps1 =>
      rw [hbody] at hb
      obtain ⟨a1, a2, a3⟩ := hb
      exact ih route cur1 o1 c1 cps1 a1 a2 (by omega)

/-! ### No node is made current twice -/

theorem getLoop_mono : ∀ (fuel : Nat) (route : Bytes) (cur : Option node) (offset : Nat)
    (cost : Int) (cps : List checkpoint) (v : Int),
    getLoop fuel route cur offset cost cps = .ok v →
    getLoop (fuel + 1) route cur offset cost cps = .ok v := by
  intro fuel
  induction fuel with
  | zero => intro route cur offset cost cps v h; simp [getLoop] at h
  | succ fuel ih =>
    intro route cur offset cost cps v h
    cases cur with
    | none => simpa [getLoop] using h
    | some cur =>
      rw [getLoop_succ] at h ⊢
      cases hb : getBody route cur offset cost cps with
      | done r => rw [hb] at h; exact h
      | next c1 o1 k1 cps1 =>
        rw [hb] at h
        exact ih _ _ _ _ _ _ h

theorem nodeAt_snoc : ∀ (p : Place) (top cur : node) (k : Nat), nodeAt top p = some cur →
    nodeAt top (p ++ [k]) = nodeAt cur [k] := by
  intro p
  induction p with
  | nil =>
    intro top cur k h
    simp only [nodeAt] at h
    cases h
    rfl
  | cons x p ih =>
    intro top cur k h
    cases x with
    | zero =>
      simp only [List.cons_append, nodeAt] at h ⊢
      cases hsp : top.special with
      | none => rw [hsp] at h; cases h
      | some sp =>
        rw [hsp] at h
        simp only [] at h ⊢
        exact ih sp cur k h
    | succ x =>
      simp only [List.cons_append, nodeAt] at h ⊢
      cases hch : top.children[x]? with
      | none => rw [hch] at h; cases h
      | some ch =>
        rw [hch] at h
        simp only [] at h ⊢
        exact ih ch cur k h

theorem nodeAt_child (top cur ch : node) (p : Place) (k : Nat) (h : nodeAt top p = some cur)
    (hch : cur.children[k]? = some ch) : nodeAt top (p ++ [k + 1]) = some ch := by
  rw [nodeAt_snoc p top cur _ h]
  simp [nodeAt, hch]

theorem nodeAt_special (top cur sp : node) (p : Place) (h : nodeAt top p = some cur)
    (hsp : cur.special = some sp) : nodeAt top (p ++ [0]) = some sp := by
  rw [nodeAt_snoc p top cur _ h]
  simp [nodeAt, hsp]

theorem popCheckpoint_place (top : node) (cost : Int) (cps : List checkpoint)
    (places : List Place) (place : Place)
    (hl : List.Forall₂ (fun (cp : checkpoint) (p : Place) => nodeAt top p = some cp.node)
      cps places)
    (cur1 : node) (o1 : Nat) (c1 : Int) (cps1 : List checkpoint)
    (h : popCheckpoint cost cps = .next cur1 o1 c1 cps1) :
    Located top cur1 cps1 (popPlace places).1 (popPlace places).2 ∧
      placeMove place places (popPlace places) := by
  cases hl with
  | nil => simp [popCheckpoint] at h
  | cons hh ht =>
    simp only [popCheckpoint, getStep.next.injEq] at h
    obtain ⟨e1, _, _, e4⟩ := h
    subst e1 e4
    exact ⟨⟨hh, ht⟩, Or.inr (Or.inr rfl)⟩

theorem findNext_place (top : node) (route : Bytes) (cur : node) (offset : Nat) (cost : Int)
    (cps : List checkpoint) (place : Place) (places : List Place)
    (hl : Located top cur cps place places)
    (cur1 : node) (o1 : Nat) (c1 : Int) (cps1 : List checkpoint)
    (h : findNext route cur offset cost cps = .next cur1 o1 c1 cps1) :
    Located top cur1 cps1 (findNextPlace route cur offset place places).1
        (findNextPlace route cur offset place places).2 ∧
      placeMove place places (findNextPlace route cur offset place places) := by
  unfold findNext at h
  unfold findNextPlace
  cases hr : route[offset]? with
  | none => rw [hr] at h; simp at h
  | some c =>
    rw [hr] at h
    simp only [] at h ⊢
    by_cases hlt : cur.index.indexOf c < cur.index.length
    · rw [if_pos hlt] at h ⊢
      cases hch : cur.children[cur.index.indexOf c]? with
      | none => rw [hch] at h; simp at h
      | some ch =>
        rw [hch] at h
        simp only [] at h
        cases hsp : cur.special with
        | some sp =>
          rw [hsp] at h
          simp only [getStep.next.injEq] at h
          obtain ⟨e1, _, _, e4⟩ := h
          subst e1 e4
          exact ⟨⟨nodeAt_child top cur ch place _ hl.1 hch,
            List.Forall₂.cons (nodeAt_special top cur sp place hl.1 hsp) hl.2⟩,
            Or.inr (Or.inl ⟨_, rfl⟩)⟩
        | none =>
          rw [hsp] at h
          simp only [getStep.next.injEq] at h
          obtain ⟨e1, _, _, e4⟩ := h
          subst e1 e4
          exact ⟨⟨nodeAt_child top cur ch place _ hl.1 hch, hl.2⟩, Or.inl ⟨_, rfl⟩⟩
    · rw [if_neg hlt] at h ⊢
      cases hsp : cur.special with
      | some sp =>
        rw [hsp] at h
        simp only [getStep.next.injEq] at h
        obtain ⟨e1, _, _, e4⟩ := h
        subst e1 e4
        exact ⟨⟨nodeAt_special top cur sp place hl.1 hsp, hl.2⟩, Or.inl ⟨_, rfl⟩⟩
      | none =>
        rw [hsp] at h
        simp only [] at h ⊢
        split at h
        · cases h
        · exact popCheckpoint_place top _ cps places place hl.2 cur1 o1 c1 cps1 h

/-- A pass through the loop body that goes on keeps the places in step with the nodes. -/
theorem getBody_place (top : node) (route : Bytes) (cur : node) (offset : Nat) (cost : Int)
    (cps : List checkpoint) (place : Place) (places : List Place)
    (hl : Located top cur cps place places)
    (cur1 : node) (o1 : Nat) (c1 : Int) (cps1 : List checkpoint)
    (h : getBody route cur offset cost cps = .next cur1 o1 c1 cps1) :
    Located top cur1 cps1 (getBodyPlace route cur offset place places).1
        (getBodyPlace route cur offset place places).2 ∧
      placeMove place places (getBodyPlace route cur offset place places) := by
  unfold getBody at h
  unfold getBodyPlace
  simp only [] at h ⊢
  by_cases hk : cur.kind = .text
  · rw [if_pos hk] at h ⊢
    split at h
    · cases h
    · exact findNext_place top route cur _ _ cps place places hl cur1 o1 c1 cps1 h
  · rw [if_neg hk] at h ⊢
    by_cases he : skipParameter route offset = route.length
    · rw [if_pos he] at h ⊢
      split at h
      · cases h
      · exact popCheckpoint_place top _ cps places place hl.2 cur1 o1 c1 cps1 h
    · rw [if_neg he] at h ⊢
      exact findNext_place top route cur _ _ cps place places hl cur1 o1 c1 cps1 h

theorem prefix_snoc_of_ne {a b : Place} {k : Nat} (h : a <+: b ++ [k]) (hne : a ≠ b ++ [k]) :
    a <+: b := by
  rcases List.prefix_concat_iff.mp (by simpa [List.concat_eq_append] using h) with h1 | h1
  · exact absurd h1 (by simpa [List.concat_eq_append] using hne)
  · exact h1

theorem Apart_move (place : Place) (places : List Place) (pp : Place × List Place)
    (ha : Apart (place :: places)) (hm : placeMove place places pp) :
    Apart (pp.1 :: pp.2) ∧
      ∀ x, (∃ q ∈ pp.1 :: pp.2, q <+: x) →
        x ≠ place ∧ ∃ q ∈ place :: places, q <+: x := by
  unfold Apart at ha ⊢
  rw [List.pairwise_cons] at ha
  obtain ⟨ha1, ha2⟩ := ha
  have hdown : ∀ (k : Nat) (x : Place), place ++ [k] <+: x → x ≠ place ∧ place <+: x := by
    intro k x hx
    refine ⟨?_, (List.prefix_append _ _).trans hx⟩
    intro e
    subst e
    have := hx.length_le
    simp at this
  have hside : ∀ (k : Nat) (q : Place), q ∈ places →
      ¬ place ++ [k] <+: q ∧ ¬ q <+: place ++ [k] := by
    intro k q hq
    obtain ⟨b1, b2⟩ := ha1 q hq
    refine ⟨fun hx => b1 ((List.prefix_append _ _).trans hx), fun hx => ?_⟩
    by_cases e : q = place ++ [k]
    · exact b1 (by rw [e]; exact List.prefix_append _ _)
    · exact b2 (prefix_snoc_of_ne hx e)
  have hold : ∀ (x q : Place), q ∈ places → q <+: x →
      x ≠ place ∧ ∃ q ∈ place :: places, q <+: x := by
    intro x q hq hx
    refine ⟨?_, q, List.mem_cons_of_mem _ hq, hx⟩
    intro e
    subst e
    exact (ha1 q hq).2 hx
  rcases hm with ⟨k, e⟩ | ⟨k, e⟩ | e
  · subst e
    refine ⟨List.pairwise_cons.mpr ⟨fun q hq => hside k q hq, ha2⟩, ?_⟩
    intro x ⟨q, hq, hx⟩
    rcases List.mem_cons.mp hq with hq | hq
    · subst hq
      obtain ⟨c1, c2⟩ := hdown k x hx
      exact ⟨c1, place, by simp, c2⟩
    · exact hold x q hq hx
  · subst e
    refine ⟨List.pairwise_cons.mpr ⟨?_, List.pairwise_cons.mpr
      ⟨fun q hq => hside 0 q hq, ha2⟩⟩, ?_⟩
    · intro q hq
      rcases List.mem_cons.mp hq with hq | hq
      · subst hq
        constructor
        · intro hx
          have := List.prefix_of_prefix_length_le hx (List.prefix_refl (place ++ [0]))
            (by simp)
          have := this.eq_of_length (by simp)
          simp at this
        · intro hx
          have := List.prefix_of_prefix_length_le hx (List.prefix_refl (place ++ [k + 1]))
            (by simp)
          have := this.eq_of_length (by simp)
          simp at this
      · exact hside (k + 1) q hq
    · intro x ⟨q, hq, hx⟩
      rcases List.mem_cons.mp hq with hq | hq
      · subst hq
        obtain ⟨c1, c2⟩ := hdown (k + 1) x hx
        exact ⟨c1, place, by simp, c2⟩
      · rcases List.mem_cons.mp hq with hq | hq
        · subst hq
          obtain ⟨c1, c2⟩ := hdown 0 x hx
          exact ⟨c1, place, by simp, c2⟩
        · exact hold x q hq hx
  · rw [e] at ha2
    refine ⟨ha2, ?_⟩
    intro x ⟨q, hq, hx⟩
    exact hold x q (by rw [e]; exact hq) hx

/-- The walk of `get` makes no node current twice, and every place it visits holds a node of
the trie. -/
theorem getVisits_nodup (top : node) : ∀ (fuel : Nat) (route : Bytes) (cur : node)
    (offset : Nat) (cost : Int) (cps : List checkpoint) (place : Place) (places : List Place),
    Located top cur cps place places → Apart (place :: places) →
    (getVisits fuel route cur offset cost cps place places).Nodup ∧
    (∀ x ∈ getVisits fuel route cur offset cost cps place places,
      (∃ q ∈ place :: places, q <+: x) ∧ ∃ n, nodeAt top x = some n) := by
  intro fuel
  induction fuel with
  | zero => intro route cur offset cost cps place places _ _; simp [getVisits]
  | succ fuel ih =>
    intro route cur offset cost cps place places hl ha
    simp only [getVisits]
    cases hb : getBody route cur offset cost cps with
    | done r =>
      simp only [List.nodup_cons, List.not_mem_nil, not_false_eq_true, List.nodup_nil,
        and_self, List.mem_singleton, true_and]
      intro x hx
      subst hx
      exact ⟨⟨x, by simp, List.prefix_refl _⟩, cur, hl.1⟩
    | next cur1 o1 c1 cps1 =>
      simp only []
      obtain ⟨hl1, hm⟩ := getBody_place top route cur offset cost cps place places hl
        cur1 o1 c1 cps1 hb
      obtain ⟨ha1, hunder⟩ := Apart_move place places _ ha hm
      obtain ⟨i1, i2⟩ := ih route cur1 o1 c1 cps1 _ _ hl1 ha1
      refine ⟨List.nodup_cons.mpr ⟨?_, i1⟩, ?_⟩
      · intro hmem
        exact (hunder place (i2 place hmem).1).1 rfl
      · intro x hx
        rcases List.mem_cons.mp hx with hx | hx
        · subst hx
          exact ⟨⟨x, by simp, List.prefix_refl _⟩, cur, hl.1⟩
        · exact ⟨(hunder x (i2 x hx).1).2, (i2 x hx).2⟩

/-- A check by evaluation hands out the tree that `build` returns, the root of `m` and
its first child. -/
theorem build_child_of_check (rs : List Route) (m : Bytes)
    (h : (match build rs with
      | .ok t =>
        (match t.get m with
        | some n => n.children.length != 0
        | none => false)
      | _ => false) = true) :
    ∃ t top ch, build rs = .ok t ∧ t.get m = some top ∧ top.children[0]? = some ch := by
  cases hb : build rs with
  | panic => rw [hb] at h; cases h
  | outOfFuel => rw [hb] at h; cases h
  | ok t =>
    rw [hb] at h
    simp only [] at h
    cases hg : t.get m with
    | none => rw [hg] at h; cases h
    | some top =>
      rw [hg] at h
      simp only [] at h
      cases hc : top.children with
      | nil => rw [hc] at h; cases h
      | cons ch rest => exact ⟨t, top, ch, rfl, hg, by simp [hc]⟩

/-! ### `get` on tries that differ in parameter names and the order of children -/

theorem Sim.refl_of_size : ∀ (k : Nat) (n : node), n.size ≤ k → Sim n n := by
  intro k
  induction k with
  | zero =>
    intro n h
    have := node_size_pos n
    omega
  | succ k ih =>
    intro n h
    refine Sim.mk n n rfl rfl rfl (fun _ => rfl) Iff.rfl ?_ (fun _ => Iff.rfl)
      (fun _ _ => Iff.rfl) ?_
    · intro sa sb h1 h2
      rw [h1] at h2
      cases h2
      have := sizeOpt_special_le n sa h1
      exact ih sa (by omega)
    · intro c ca cb _ h1 h2
      rw [h1] at h2
      cases h2
      have := size_child_lt n _ ca h1
      exact ih ca (by omega)

theorem Sim.self (n : node) : Sim n n := Sim.refl_of_size n.size n (le_refl _)

theorem Sim.fields {a b : node} (h : Sim a b) :
    a.kind = b.kind ∧ a.hasWildcard = b.hasWildcard ∧ a.cost = b.cost ∧
      (a.kind = .text → a.route = b.route) := by
  cases h with
  | mk _ _ h1 h2 h3 h4 _ _ _ _ _ => exact ⟨h1, h2, h3, h4⟩

theorem popCheckpoint_sim (cost : Int) (x y : List checkpoint) (h : cpSim x y) :
    stepSim (popCheckpoint cost x) (popCheckpoint cost y) := by
  cases h with
  | nil => simp [popCheckpoint, stepSim]
  | cons hh ht =>
    simp only [popCheckpoint, stepSim]
    exact ⟨hh.1, hh.2.1, hh.2.2, ht⟩

theorem findNext_sim (route : Bytes) (a b : node) (offset : Nat) (cost : Int)
    (x y : List checkpoint) (hs : Sim a b) (hc : cpSim x y) :
    stepSim (findNext route a offset cost x) (findNext route b offset cost y) := by
  cases hs with
  | mk _ _ h1 h2 h3 h4 h5 h6 h7 h8 h9 =>
    unfold findNext
    cases hr : route[offset]? with
    | none => simp [stepSim]
    | some c =>
      simp only []
      by_cases hlt : a.index.indexOf c < a.index.length
      · rw [if_pos hlt, if_pos ((h7 c).mp hlt)]
        cases hca : a.children[a.index.indexOf c]? with
        | none =>
          rw [(h8 c hlt).mp hca]
          simp [stepSim]
        | some ca =>
          cases hcb : b.children[b.index.indexOf c]? with
          | none => rw [(h8 c hlt).mpr hcb] at hca; cases hca
          | some cb =>
            simp only []
            have hch := h9 c ca cb hlt hca hcb
            cases hsa : a.special with
            | none =>
              rw [h5.mp hsa]
              simp only [stepSim]
              exact ⟨hch, trivial, trivial, hc⟩
            | some sa =>
              cases hsb : b.special with
              | none => rw [h5.mpr hsb] at hsa; cases hsa
              | some sb =>
                simp only [stepSim]
                exact ⟨hch, trivial, trivial, List.Forall₂.cons ⟨h6 sa sb hsa hsb, rfl, rfl⟩ hc⟩
      · rw [if_neg hlt, if_neg (fun h => hlt ((h7 c).mpr h))]
        cases hsa : a.special with
        | none =>
          rw [h5.mp hsa]
          simp only []
          rw [h2, h3]
          split
          · simp [stepSim]
          · exact popCheckpoint_sim cost x y hc
        | some sa =>
          cases hsb : b.special with
          | none => rw [h5.mpr hsb] at hsa; cases hsa
          | some sb =>
            simp only [stepSim]
            exact ⟨h6 sa sb hsa hsb, trivial, trivial, hc⟩

/-- On nodes that stand for the same trie the loop body of `get` decides the same. -/
theorem getBody_sim (route : Bytes) (a b : node) (offset : Nat) (cost : Int)
    (x y : List checkpoint) (hs : Sim a b) (hc : cpSim x y) :
    stepSim (getBody route a offset cost x) (getBody route b offset cost y) := by
  obtain ⟨h1, h2, h3, h4⟩ := hs.fields
  unfold getBody
  simp only []
  rw [← h1, ← h2, ← h3]
  by_cases hk : a.kind = .text
  · rw [if_pos hk, if_pos hk, ← h4 hk]
    split
    · simp [stepSim]
    · exact findNext_sim route a b _ _ x y hs hc
  · rw [if_neg hk, if_neg hk]
    split
    · split
      · simp [stepSim]
      · exact popCheckpoint_sim _ x y hc
    · exact findNext_sim route a b _ _ x y hs hc

/-- The walk of `get` returns the same on nodes that stand for the same trie. -/
theorem getLoop_sim : ∀ (fuel : Nat) (route : Bytes) (a b : node) (offset : Nat) (cost : Int)
    (x y : List checkpoint), Sim a b → cpSim x y →
    getLoop fuel route (some a) offset cost x = getLoop fuel route (some b) offset cost y := by
  intro fuel
  induction fuel with
  | zero => intro route a b offset cost x y _ _; rfl
  | succ fuel ih =>
    intro route a b offset cost x y hs hc
    rw [getLoop_succ, getLoop_succ]
    have hb := getBody_sim route a b offset cost x y hs hc
    cases h1 : getBody route a offset cost x with
    | done r =>
      cases h2 : getBody route b offset cost y with
      | done r1 =>
        rw [h1, h2] at hb
        exact hb
      | next _ _ _ _ => rw [h1, h2] at hb; exact hb.elim
    | next a1 o1 c1 x1 =>
      cases h2 : getBody route b offset cost y with
      | done r1 => rw [h1, h2] at hb; exact hb.elim
      | next b1 o2 c2 y1 =>
        rw [h1, h2] at hb
        obtain ⟨k1, k2, k3, k4⟩ := hb
        subst k2 k3
        exact ih route a1 b1 o1 c1 x1 y1 k1 k4

theorem getLoop_mono_le (route : Bytes) (cur : Option node) (offset : Nat) (cost : Int)
    (cps : List checkpoint) (v : Int) (fuel : Nat) :
    getLoop fuel route cur offset cost cps = .ok v →
    ∀ k, getLoop (fuel + k) route cur offset cost cps = .ok v := by
  intro h k
  induction k with
  | zero => exact h
  | succ k ih => exact getLoop_mono _ _ _ _ _ _ _ ih

/-- The method `get` returns the same cost on nodes of the shape that stand for the same
trie. -/
theorem get_sim (a b : node) (path : Bytes) (hs : Sim a b) (ha : a.Shape) (hb : b.Shape) :
    ∃ v, node.get (some a) path = .ok v ∧ node.get (some b) path = .ok v := by
  obtain ⟨v, hv⟩ := getLoop_total a.size path a 0 0 [] ha (fun cp hcp => by cases hcp)
    (by simp [checkpointsSize])
  obtain ⟨w, hw⟩ := getLoop_total b.size path b 0 0 [] hb (fun cp hcp => by cases hcp)
    (by simp [checkpointsSize])
  have h1 := getLoop_mono_le path (some a) 0 0 [] v a.size hv (b.size + 1)
  have h2 := getLoop_mono_le path (some b) 0 0 [] w b.size hw (a.size + 1)
  have h3 := getLoop_sim (a.size + (b.size + 1)) path a b 0 0 [] [] hs List.Forall₂.nil
  rw [show b.size + (a.size + 1) = a.size + (b.size + 1) by omega] at h2
  rw [h1, h2] at h3
  cases h3
  exact ⟨v, getLoop_mono_le path (some a) 0 0 [] v a.size hv 1,
    getLoop_mono_le path (some b) 0 0 [] v b.size hw 1⟩

/-! ### The relations `Chain` and `Ins` are functions -/

theorem Chain.same_node {r : Bytes} {c : Int} {n : node} (h : Chain r c n) :
    ∀ n1, Chain r c n1 → n1 = n := by
  induction h with
  | textEnd b r c h1 h2 h3 =>
    intro n1 h
    cases h with
    | textEnd _ _ _ _ _ _ => rfl
    | textMore _ _ _ next _ _ k3 _ _ =>
      rw [h3] at k3
      simp at k3
    | paramEnd _ _ _ => exact absurd rfl h1
    | paramText _ _ _ _ _ _ _ _ => exact absurd rfl h1
    | paramParam _ _ _ _ _ _ => exact absurd rfl h1
  | textMore b r c next h1 h2 h3 h4 h5 ih =>
    intro n1 h
    cases h with
    | textEnd _ _ _ _ _ k3 =>
      rw [k3] at h3
      simp at h3
    | textMore _ _ _ next1 _ _ _ _ k5 => rw [ih next1 k5]
    | paramEnd _ _ _ => exact absurd rfl h1
    | paramText _ _ _ _ _ _ _ _ => exact absurd rfl h1
    | paramParam _ _ _ _ _ _ => exact absurd rfl h1
  | paramEnd r c h1 =>
    intro n1 h
    cases h with
    | textEnd _ _ _ k1 _ _ => exact absurd rfl k1
    | textMore _ _ _ _ k1 _ _ _ _ => exact absurd rfl k1
    | paramEnd _ _ _ => rfl
    | paramText _ _ _ _ k1 _ _ _ =>
      rw [h1] at k1
      simp at k1
    | paramParam _ _ _ k1 _ _ =>
      rw [h1] at k1
      simp at k1
  | paramText r c b next h1 h2 h3 h4 ih =>
    intro n1 h
    cases h with
    | textEnd _ _ _ k1 _ _ => exact absurd rfl k1
    | textMore _ _ _ _ k1 _ _ _ _ => exact absurd rfl k1
    | paramEnd _ _ k1 =>
      rw [k1] at h1
      simp at h1
    | paramText _ _ b1 next1 _ _ k3 k4 =>
      have e := ih next1 k4
      subst e
      obtain ⟨q, hq⟩ := h3
      obtain ⟨q1, hq1⟩ := k3
      rw [hq] at hq1
      cases hq1
      rfl
    | paramParam _ _ next1 _ k2 k3 =>
      have e := ih next1 k3
      subst e
      rw [h2] at k2
      cases k2
  | paramParam r c next h1 h2 h3 ih =>
    intro n1 h
    cases h with
    | textEnd _ _ _ k1 _ _ => exact absurd rfl k1
    | textMore _ _ _ _ k1 _ _ _ _ => exact absurd rfl k1
    | paramEnd _ _ k1 =>
      rw [k1] at h1
      simp at h1
    | paramText _ _ b1 next1 _ k2 _ k4 =>
      have e := ih next1 k4
      subst e
      rw [h2] at k2
      cases k2
    | paramParam _ _ next1 _ _ k3 => rw [ih next1 k3]

theorem Ins.same_result {mode : Bool} {n : node} {r : Bytes} {c : Int} {n1 : node}
    (h : Ins mode n r c n1) : ∀ n2, Ins mode n r c n2 → n2 = n1 := by
  induction h with
  | done n c =>
    intro n2 h
    cases h
    rfl
  | newSpecial n t c stem h1 h2 h3 =>
    intro n2 h
    cases h with
    | newSpecial _ _ _ stem1 _ _ k3 => rw [h3.same_node stem1 k3]
    | viaSpecial _ _ _ sp sp1 k1 _ =>
      rw [h1] at k1
      cases k1
    | newChild _ _ _ _ _ k1 _ _ _ _ => exact absurd rfl k1
    | viaChild _ _ _ _ _ _ k1 _ _ _ => exact absurd rfl k1
  | viaSpecial n t c sp sp1 h1 h2 ih =>
    intro n2 h
    cases h with
    | newSpecial _ _ _ stem1 k1 _ _ =>
      rw [h1] at k1
      cases k1
    | viaSpecial _ _ _ sp2 sp3 k1 k2 =>
      rw [h1] at k1
      cases k1
      rw [ih sp3 k2]
    | newChild _ _ _ _ _ k1 _ _ _ _ => exact absurd rfl k1
    | viaChild _ _ _ _ _ _ k1 _ _ _ => exact absurd rfl k1
  | newChild n b t c stem h1 h2 h3 h4 h5 =>
    intro n2 h
    cases h with
    | newSpecial _ _ _ _ _ _ _ => exact absurd rfl h1
    | viaSpecial _ _ _ _ _ _ _ => exact absurd rfl h1
    | newChild _ _ _ _ stem1 _ _ _ _ k5 => rw [h5.same_node stem1 k5]
    | viaChild _ _ _ _ _ _ _ k2 _ _ => exact absurd k2 h2
  | viaChild n b t c ch ch1 h1 h2 h3 h4 ih =>
    intro n2 h
    cases h with
    | newSpecial _ _ _ _ _ _ _ => exact absurd rfl h1
    | viaSpecial _ _ _ _ _ _ _ => exact absurd rfl h1
    | newChild _ _ _ _ _ _ k2 _ _ _ => exact absurd h2 k2
    | viaChild _ _ _ _ ch2 ch3 _ _ k3 k4 =>
      rw [h3] at k3
      cases k3
      rw [ih ch3 k4]
  | full n r c n1 h1 h2 ih =>
    intro n2 h
    cases h with
    | full _ _ _ _ _ k2 => exact ih n2 k2
    | split _ _ _ _ k1 _ =>
      rw [h1] at k1
      omega
  | split n r c n1 h1 h2 ih =>
    intro n2 h
    cases h with
    | full _ _ _ _ k1 _ =>
      rw [k1] at h1
      omega
    | split _ _ _ _ _ k2 => exact ih n2 k2

/-! ### The forms of the chains -/

/-- What follows the first node of a chain: nothing, and the node carries the cost, or the
chain of the rest, under `special`. -/
theorem Chain.text_form {r : Bytes} {c : Int} {n : node} (h : Chain r c n)
    (hk : n.kind = .text) :
    ∃ sp k, n = .mk .text false (takeText r) [] [] sp k ∧
      ((r.drop (takeText r).length = [] ∧ sp = none ∧ k = c) ∨
        (∃ u next, r.drop (takeText r).length = colon :: u ∧ Chain (colon :: u) c next ∧
          sp = some next ∧ k = 0)) := by
  cases h with
  | textEnd b r c h1 h2 h3 =>
    refine ⟨none, _, by rw [h3], Or.inl ⟨by rw [h3]; simp, rfl, rfl⟩⟩
  | textMore b r c next h1 h2 h3 h4 h5 =>
    refine ⟨some next, 0, rfl, Or.inr ?_⟩
    rcases h5.head with ⟨t, e1, _, _⟩ | ⟨_, _, _, _, _, e4, _⟩
    · rw [e1] at h5
      exact ⟨t, next, e1, h5, rfl, rfl⟩
    · rw [h4] at e4
      cases e4
  | paramEnd _ _ _ => cases hk
  | paramText _ _ _ _ _ _ _ _ => cases hk
  | paramParam _ _ _ _ _ _ => cases hk

theorem takeText_append_nil (d : Bytes) (hc : colon ∉ d) (hs : star ∉ d) : takeText d = d := by
  induction d with
  | nil => rfl
  | cons b d ih =>
    simp only [List.mem_cons, not_or] at hc hs
    rw [takeText_cons b d (Ne.symm hc.1) (Ne.symm hs.1), ih hc.2 hs.2]

theorem takeText_append_colon (d u : Bytes) (hc : colon ∉ d) (hs : star ∉ d) :
    takeText (d ++ colon :: u) = d := by
  induction d with
  | nil => simp [takeText]
  | cons b d ih =>
    simp only [List.mem_cons, not_or] at hc hs
    rw [List.cons_append, takeText_cons b _ (Ne.symm hc.1) (Ne.symm hs.1), ih hc.2 hs.2]

/-- A text node with the route `d` and the rest of a chain below it is the chain of `d`
followed by the rest. -/
theorem Chain.of_text (z : Nat) (d rest : Bytes) (c : Int) (sp : Option node) (k : Int)
    (hc : colon ∉ z :: d) (hs : star ∉ z :: d)
    (h : (rest = [] ∧ sp = none ∧ k = c) ∨
      (∃ u next, rest = colon :: u ∧ Chain (colon :: u) c next ∧ sp = some next ∧ k = 0)) :
    Chain (z :: d ++ rest) c (.mk .text false (z :: d) [] [] sp k) := by
  have hz1 : z ≠ colon := fun e => hc (by rw [e]; simp)
  have hz2 : z ≠ star := fun e => hs (by rw [e]; simp)
  rcases h with ⟨e1, e2, e3⟩ | ⟨u, next, e1, e2, e3, e4⟩
  · subst e1 e2 e3
    have ht := takeText_append_nil (z :: d) hc hs
    rw [List.append_nil]
    exact Chain.textEnd z d _ hz1 hz2 ht
  · subst e1 e3 e4
    have ht := takeText_append_colon (z :: d) u hc hs
    have hd : (z :: d ++ colon :: u).drop (takeText (z :: d ++ colon :: u)).length =
        colon :: u := by
      rw [ht]
      simp
    have := Chain.textMore z (d ++ colon :: u) c next hz1 hz2
      (by rw [← List.cons_append, hd]; simp) e2.param_kind
      (by rw [← List.cons_append, hd]; exact e2)
    rw [← List.cons_append, ht] at this
    exact this

/-- The three forms of the first node of a chain that starts with a parameter. -/
theorem Chain.param_form {u : Bytes} {c : Int} {n : node} (h : Chain (colon :: u) c n) :
    ((colon :: u).drop (takeParameter (colon :: u)).length = [] ∧
      n = .mk .parameter false (colon :: u) [] [] none c) ∨
    (∃ b t next, (colon :: u).drop (takeParameter (colon :: u)).length = b :: t ∧ b ≠ colon ∧
      Chain (b :: t) c next ∧ next.kind = .text ∧
      n = .mk .parameter false (takeParameter (colon :: u)) [b] [next] none 0) ∨
    (∃ t next, (colon :: u).drop (takeParameter (colon :: u)).length = colon :: t ∧
      Chain (colon :: t) c next ∧
      n = .mk .parameter false (takeParameter (colon :: u)) [] [] (some next) 0) := by
  cases h with
  | textEnd _ _ _ h1 _ _ => exact absurd rfl h1
  | textMore _ _ _ _ h1 _ _ _ _ => exact absurd rfl h1
  | paramEnd _ _ h1 =>
    left
    exact ⟨by rw [h1]; simp, rfl⟩
  | paramText _ _ b next h1 h2 h3 h4 =>
    right; left
    rcases h4.head with ⟨t, _, e3, _⟩ | ⟨b1, t, e1, e2, _, _, e5⟩
    · rw [h2] at e3
      cases e3
    · obtain ⟨q, hq⟩ := h3
      have hb : b1 = b := by
        rw [hq, e1, takeText_cons b1 t e2 (by assumption)] at e5
        cases e5
        rfl
      subst hb
      rw [e1] at h4
      exact ⟨b1, t, next, e1, e2, h4, h2, rfl⟩
  | paramParam _ _ next h1 h2 h3 =>
    right; right
    rcases h3.head with ⟨t, e1, _, _⟩ | ⟨_, _, _, _, _, e4, _⟩
    · rw [e1] at h3
      exact ⟨t, next, e1, h3, rfl⟩
    · rw [h2] at e4
      cases e4

/-! ### The common start of two text segments -/

theorem takePrefix_comm : ∀ (a b : Bytes), takePrefix a b = takePrefix b a := by
  intro a
  induction a with
  | nil => intro b; cases b <;> rfl
  | cons x a ih =>
    intro b
    cases b with
    | nil => rfl
    | cons y b =>
      simp only [takePrefix]
      by_cases h : x = y
      · subst h
        simp [ih b]
      · rw [if_neg h, if_neg (Ne.symm h)]

theorem takePrefix_append_nil (a b : Bytes) : takePrefix (a ++ []) b = takePrefix a b := by
  rw [List.append_nil]

theorem takePrefix_append_colon : ∀ (a b u : Bytes), colon ∉ b →
    takePrefix (a ++ colon :: u) b = takePrefix a b := by
  intro a
  induction a with
  | nil =>
    intro b u hb
    cases b with
    | nil => rfl
    | cons y b =>
      simp only [List.mem_cons, not_or] at hb
      simp only [List.nil_append, takePrefix]
      rw [if_neg hb.1]
  | cons x a ih =>
    intro b u hb
    cases b with
    | nil => rfl
    | cons y b =>
      simp only [List.mem_cons, not_or] at hb
      simp only [List.cons_append, takePrefix]
      rw [show a.append (colon :: u) = a ++ colon :: u from rfl, ih b u hb.2]

theorem takePrefix_self (a rest : Bytes) : takePrefix (a ++ rest) a = a := by
  induction a with
  | nil => cases rest <;> rfl
  | cons x a ih => simp [takePrefix, ih]

/-! ### Nodes that stand for the same trie -/

theorem Sim.of_special (k : nodeKind) (w : Bool) (r r1 i : Bytes) (cs : List node)
    (s s1 : Option node) (c : Int) (hr : k = .text → r = r1) (hs : s = none ↔ s1 = none)
    (hss : ∀ sa sb, s = some sa → s1 = some sb → Sim sa sb) :
    Sim (.mk k w r i cs s c) (.mk k w r1 i cs s1 c) :=
  Sim.mk _ _ rfl rfl rfl hr hs hss (fun _ => Iff.rfl) (fun _ _ => Iff.rfl)
    (fun _ ca cb _ h1 h2 => by
      have e : some ca = some cb := h1.symm.trans h2
      cases e
      exact Sim.self ca)

theorem Sim.same_below (k : nodeKind) (w : Bool) (r r1 i : Bytes) (cs : List node)
    (s : Option node) (c : Int) (hr : k = .text → r = r1) :
    Sim (.mk k w r i cs s c) (.mk k w r1 i cs s c) :=
  Sim.of_special k w r r1 i cs s s c hr Iff.rfl (fun sa sb h1 h2 => by
    have e : some sa = some sb := h1.symm.trans h2
    cases e
    exact Sim.self sa)

theorem Sim.one_child (k : nodeKind) (w : Bool) (r r1 : Bytes) (b : Nat) (ca cb : node)
    (s : Option node) (c : Int) (hr : k = .text → r = r1) (h : Sim ca cb) :
    Sim (.mk k w r [b] [ca] s c) (.mk k w r1 [b] [cb] s c) := by
  refine Sim.mk _ _ rfl rfl rfl hr Iff.rfl (fun sa sb h1 h2 => ?_) (fun _ => Iff.rfl) ?_ ?_
  · have e : some sa = some sb := h1.symm.trans h2
    cases e
    exact Sim.self sa
  · intro x hx
    have h0 : List.indexOf x [b] = 0 := by
      have : List.indexOf x [b] < 1 := hx
      omega
    show [ca][List.indexOf x [b]]? = none ↔ [cb][List.indexOf x [b]]? = none
    rw [h0]
    simp
  · intro x a1 b1 hx h1 h2
    have h0 : List.indexOf x [b] = 0 := by
      have : List.indexOf x [b] < 1 := hx
      omega
    have h1' : [ca][List.indexOf x [b]]? = some a1 := h1
    have h2' : [cb][List.indexOf x [b]]? = some b1 := h2
    rw [h0] at h1' h2'
    simp only [List.getElem?_cons_zero, Option.some.injEq] at h1' h2'
    subst h1' h2'
    exact h

theorem Sim.swap (k : nodeKind) (w : Bool) (r r1 : Bytes) (z1 z2 : Nat) (x1 x2 : node)
    (s : Option node) (c : Int) (hr : k = .text → r = r1) (hne : z1 ≠ z2) :
    Sim (.mk k w r [z1, z2] [x1, x2] s c) (.mk k w r1 [z2, z1] [x2, x1] s c) := by
  have hne1 : z2 ≠ z1 := Ne.symm hne
  refine Sim.mk _ _ rfl rfl rfl hr Iff.rfl (fun sa sb h1 h2 => ?_) ?_ ?_ ?_
  · have e : some sa = some sb := h1.symm.trans h2
    cases e
    exact Sim.self sa
  · intro x
    show List.indexOf x [z1, z2] < 2 ↔ List.indexOf x [z2, z1] < 2
    have e1 := @List.indexOf_lt_length _ _ x [z1, z2]
    have e2 := @List.indexOf_lt_length _ _ x [z2, z1]
    simp only [List.length_cons, List.length_nil, List.mem_cons, List.mem_singleton,
      List.not_mem_nil, or_false] at e1 e2
    rw [e1, e2]
    exact Or.comm
  · intro x hx
    have hx1 : List.indexOf x [z1, z2] < 2 := hx
    have e2 : List.indexOf x [z2, z1] < 2 := by
      have e1 := @List.indexOf_lt_length _ _ x [z1, z2]
      have e2 := @List.indexOf_lt_length _ _ x [z2, z1]
      simp only [List.length_cons, List.length_nil, List.mem_cons, List.mem_singleton,
        List.not_mem_nil, or_false] at e1 e2
      exact e2.mpr (Or.symm (e1.mp hx1))
    show [x1, x2][List.indexOf x [z1, z2]]? = none ↔ [x2, x1][List.indexOf x [z2, z1]]? = none
    rw [List.getElem?_eq_none_iff, List.getElem?_eq_none_iff]
    simp only [List.length_cons, List.length_nil]
    omega
  · intro x a1 b1 hx h1 h2
    have hx1 : List.indexOf x [z1, z2] < 2 := hx
    have h1' : [x1, x2][List.indexOf x [z1, z2]]? = some a1 := h1
    have h2' : [x2, x1][List.indexOf x [z2, z1]]? = some b1 := h2
    have e1 := @List.indexOf_lt_length _ _ x [z1, z2]
    simp only [List.length_cons, List.length_nil, List.mem_cons, List.mem_singleton,
      List.not_mem_nil, or_false] at e1
    rcases e1.mp hx1 with e | e
    · subst e
      simp [List.indexOf_cons, hne1] at h1' h2'
      subst h1' h2'
      exact Sim.self _
    · subst e
      simp [List.indexOf_cons, hne] at h1' h2'
      subst h1' h2'
      exact Sim.self _

/-! ### Steps of `insertRoute` on a node given by its fields -/

theorem Ins.full_mk (k : nodeKind) (w : Bool) (q i : Bytes) (cs : List node) (sp : Option node)
    (cost : Int) (rest : Bytes) (c : Int) (x : node)
    (h : Ins false (.mk k w q i cs sp cost) rest c x) :
    Ins true (.mk k w q i cs sp cost) (q ++ rest) c x := by
  refine Ins.full (.mk k w q i cs sp cost) (q ++ rest) c x (takePrefix_self q rest) ?_
  show Ins false _ ((q ++ rest).drop q.length) c x
  rw [List.drop_left]
  exact h

theorem takePrefix_stop (p rest e : Bytes) (z : Nat) (h : ∀ x t, rest = x :: t → x ≠ z) :
    takePrefix (p ++ rest) (p ++ z :: e) = p := by
  induction p with
  | nil =>
    cases rest with
    | nil => rfl
    | cons x t =>
      simp only [List.nil_append, takePrefix]
      rw [if_neg (h x t rfl)]
  | cons y p ih => simp [takePrefix, ih]

theorem Ins.split_mk (k : nodeKind) (w : Bool) (p e i : Bytes) (z : Nat) (cs : List node)
    (sp : Option node) (cost : Int) (rest : Bytes) (c : Int) (x : node)
    (hrest : ∀ y t, rest = y :: t → y ≠ z)
    (h : Ins false (.mk .text w p [z] [.mk .text w (z :: e) i cs sp cost] none 0) rest c x) :
    Ins true (.mk k w (p ++ z :: e) i cs sp cost) (p ++ rest) c x := by
  have hp := takePrefix_stop p rest e z hrest
  refine Ins.split (.mk k w (p ++ z :: e) i cs sp cost) (p ++ rest) c x ?_ ?_
  · show (takePrefix (p ++ rest) (p ++ z :: e)).length < (p ++ z :: e).length
    rw [hp]
    simp
  · show Ins false (splitNode (.mk k w (p ++ z :: e) i cs sp cost)
        (takePrefix (p ++ rest) (p ++ z :: e)))
      ((p ++ rest).drop (takePrefix (p ++ rest) (p ++ z :: e)).length) c x
    rw [hp, List.drop_left]
    have hs : splitNode (.mk k w (p ++ z :: e) i cs sp cost) p =
        .mk .text w p [z] [.mk .text w (z :: e) i cs sp cost] none 0 := by
      simp [splitNode, node.route]
    rw [hs]
    exact h

theorem takePrefix_split : ∀ (a b : Bytes), ∃ p d1 d2, a = p ++ d1 ∧ b = p ++ d2 ∧
    ∀ x y t1 t2, d1 = x :: t1 → d2 = y :: t2 → x ≠ y := by
  intro a
  induction a with
  | nil => intro b; exact ⟨[], [], b, rfl, rfl, fun _ _ _ _ h => by cases h⟩
  | cons x a ih =>
    intro b
    cases b with
    | nil => exact ⟨[], x :: a, [], rfl, rfl, fun _ _ _ _ _ h => by cases h⟩
    | cons y b =>
      by_cases h : x = y
      · subst h
        obtain ⟨p, d1, d2, e1, e2, e3⟩ := ih b
        exact ⟨x :: p, d1, d2, by rw [e1]; rfl, by rw [e2]; rfl, e3⟩
      · refine ⟨[], x :: a, y :: b, rfl, rfl, ?_⟩
        intro x1 y1 t1 t2 h1 h2
        cases h1
        cases h2
        exact h

theorem chainTail_head {rest : Bytes} {c : Int} {sp : Option node} {k : Int}
    (h : chainTail rest c sp k) (z : Nat) (hz : z ≠ colon) : ∀ y t, rest = y :: t → y ≠ z := by
  intro y t e
  rcases h with ⟨e1, _, _⟩ | ⟨u, _, e1, _, _, _⟩
  · rw [e1] at e; cases e
  · rw [e1] at e
    cases e
    exact Ne.symm hz

/-- Both ways of adding a second route at a text node that starts a chain, when the
route of the one node is the start of the route of the other. -/
theorem commute_short (p e rest1 rest2 : Bytes) (z : Nat) (c1 c2 : Int)
    (sp1 sp2 : Option node) (k1 k2 : Int)
    (hc : colon ∉ z :: e) (hs : star ∉ z :: e)
    (T1 : chainTail rest1 c1 sp1 k1) (T2 : chainTail rest2 c2 sp2 k2) :
    ∃ x, Ins true (.mk .text false p [] [] sp1 k1) (p ++ (z :: e ++ rest2)) c2 x ∧
      Ins true (.mk .text false (p ++ z :: e) [] [] sp2 k2) (p ++ rest1) c1 x := by
  have hz : z ≠ colon := fun h => hc (by rw [h]; simp)
  have hstem := Chain.of_text z e rest2 c2 sp2 k2 hc hs T2
  refine ⟨.mk .text false p [z] [.mk .text false (z :: e) [] [] sp2 k2] sp1 k1, ?_, ?_⟩
  · apply Ins.full_mk
    exact Ins.newChild (.mk .text false p [] [] sp1 k1) z (e ++ rest2) c2 _ hz (by simp [node.index]) rfl
      ⟨e, rfl⟩ hstem
  · apply Ins.split_mk _ _ _ _ _ _ _ _ _ _ _ _ (chainTail_head T1 z hz)
    rcases T1 with ⟨e1, e2, e3⟩ | ⟨u, next, e1, e2, e3, e4⟩
    · subst e1 e2 e3
      exact Ins.done (.mk .text false p [z] [.mk .text false (z :: e) [] [] sp2 k2] none 0) _
    · subst e1 e3 e4
      exact Ins.newSpecial (.mk .text false p [z] [.mk .text false (z :: e) [] [] sp2 k2] none 0)
        u c1 next rfl e2.param_kind e2

theorem not_mem_of_append_right {a : Nat} {p d : Bytes} (h : a ∉ p ++ d) : a ∉ d :=
  fun hx => h (List.mem_append_right _ hx)

theorem not_mem_of_append_left {a : Nat} {p d : Bytes} (h : a ∉ p ++ d) : a ∉ p :=
  fun hx => h (List.mem_append_left _ hx)

/-- Both ways of adding two routes that start at a text node give the same trie, when
both ways of adding their rests at a parameter node do. -/
theorem commute_text (q1 q2 rest1 rest2 : Bytes) (c1 c2 : Int) (sp1 sp2 : Option node)
    (k1 k2 : Int) (hc1 : colon ∉ q1) (hs1 : star ∉ q1) (hc2 : colon ∉ q2) (hs2 : star ∉ q2)
    (T1 : chainTail rest1 c1 sp1 k1) (T2 : chainTail rest2 c2 sp2 k2)
    (hns : ¬ SameSlot (q1 ++ rest1) (q2 ++ rest2))
    (IH : ∀ u1 u2 next1 next2, rest1 = colon :: u1 → rest2 = colon :: u2 →
      ¬ SameSlot (colon :: u1) (colon :: u2) →
      Chain (colon :: u1) c1 next1 → Chain (colon :: u2) c2 next2 →
      ∃ x y, Ins false next1 ((colon :: u2).drop (takeParameter (colon :: u2)).length) c2 x ∧
        Ins false next2 ((colon :: u1).drop (takeParameter (colon :: u1)).length) c1 y ∧
        Sim x y) :
    ∃ x y, Ins true (.mk .text false q1 [] [] sp1 k1) (q2 ++ rest2) c2 x ∧
      Ins true (.mk .text false q2 [] [] sp2 k2) (q1 ++ rest1) c1 y ∧ Sim x y := by
  obtain ⟨p, d1, d2, e1, e2, hd⟩ := takePrefix_split q1 q2
  subst e1 e2
  cases d1 with
  | nil =>
    cases d2 with
    | nil =>
      rw [List.append_nil] at hns hc1 ⊢
      rcases T1 with ⟨a1, a2, a3⟩ | ⟨u1, next1, a1, a2, a3, a4⟩
      · rcases T2 with ⟨b1, b2, b3⟩ | ⟨u2, next2, b1, b2, b3, b4⟩
        · subst a1 b1
          exact absurd (SameSlot.append_left p hc1 SameSlot.nil) hns
        · subst a1 a2 a3 b1 b3 b4
          refine ⟨.mk .text false p [] [] (some next2) k1, _, ?_, ?_, Sim.self _⟩
          · apply Ins.full_mk
            exact Ins.newSpecial (.mk .text false p [] [] none k1) u2 c2 next2 rfl
              b2.param_kind b2
          · apply Ins.full_mk
            exact Ins.done (.mk .text false p [] [] (some next2) 0) k1
      · rcases T2 with ⟨b1, b2, b3⟩ | ⟨u2, next2, b1, b2, b3, b4⟩
        · subst a1 a3 a4 b1 b2 b3
          refine ⟨_, .mk .text false p [] [] (some next1) k2, ?_, ?_, Sim.self _⟩
          · apply Ins.full_mk
            exact Ins.done (.mk .text false p [] [] (some next1) 0) k2
          · apply Ins.full_mk
            exact Ins.newSpecial (.mk .text false p [] [] none k2) u1 c1 next1 rfl
              a2.param_kind a2
        · subst a1 a3 a4 b1 b3 b4
          obtain ⟨x1, y1, i1, i2, i3⟩ := IH u1 u2 next1 next2 rfl rfl
            (fun hss => hns (SameSlot.append_left p hc1 hss)) a2 b2
          refine ⟨.mk .text false p [] [] (some x1) 0, .mk .text false p [] [] (some y1) 0,
            ?_, ?_, ?_⟩
          · apply Ins.full_mk
            exact Ins.viaSpecial (.mk .text false p [] [] (some next1) 0) u2 c2 next1 x1 rfl i1
          · apply Ins.full_mk
            exact Ins.viaSpecial (.mk .text false p [] [] (some next2) 0) u1 c1 next2 y1 rfl i2
          · refine Sim.of_special _ _ _ _ _ _ _ _ _ (fun _ => rfl) (by simp) ?_
            intro sa sb h1 h2
            cases h1
            cases h2
            exact i3
    | cons z e =>
      obtain ⟨x, i1, i2⟩ := commute_short p e rest1 rest2 z c1 c2 sp1 sp2 k1 k2
        (not_mem_of_append_right hc2) (not_mem_of_append_right hs2) T1 T2
      rw [List.append_nil, List.append_assoc]
      exact ⟨x, x, i1, i2, Sim.self x⟩
  | cons z1 e1 =>
    cases d2 with
    | nil =>
      obtain ⟨x, i1, i2⟩ := commute_short p e1 rest2 rest1 z1 c2 c1 sp2 sp1 k2 k1
        (not_mem_of_append_right hc1) (not_mem_of_append_right hs1) T2 T1
      rw [List.append_nil, List.append_assoc]
      exact ⟨x, x, i2, i1, Sim.self x⟩
    | cons z2 e2 =>
      have hne : z1 ≠ z2 := hd z1 z2 e1 e2 rfl rfl
      have hcz1 := not_mem_of_append_right hc1
      have hcz2 := not_mem_of_append_right hc2
      have hz1 : z1 ≠ colon := fun h => hcz1 (by rw [h]; simp)
      have hz2 : z2 ≠ colon := fun h => hcz2 (by rw [h]; simp)
      have stem1 := Chain.of_text z1 e1 rest1 c1 sp1 k1 hcz1 (not_mem_of_append_right hs1) T1
      have stem2 := Chain.of_text z2 e2 rest2 c2 sp2 k2 hcz2 (not_mem_of_append_right hs2) T2
      rw [List.append_assoc, List.append_assoc]
      refine ⟨.mk .text false p [z1, z2]
          [.mk .text false (z1 :: e1) [] [] sp1 k1, .mk .text false (z2 :: e2) [] [] sp2 k2]
          none 0,
        .mk .text false p [z2, z1]
          [.mk .text false (z2 :: e2) [] [] sp2 k2, .mk .text false (z1 :: e1) [] [] sp1 k1]
          none 0, ?_, ?_, Sim.swap _ _ _ _ _ _ _ _ _ _ (fun _ => rfl) hne⟩
      · apply Ins.split_mk
        · intro y t h
          simp only [List.cons_append, List.cons.injEq] at h
          rw [← h.1]
          exact Ne.symm hne
        · exact Ins.newChild
            (.mk .text false p [z1] [.mk .text false (z1 :: e1) [] [] sp1 k1] none 0)
            z2 (e2 ++ rest2) c2 _ hz2 (by simp [node.index, List.indexOf_cons, hne]) rfl
            ⟨e2, rfl⟩ stem2
      · apply Ins.split_mk
        · intro y t h
          simp only [List.cons_append, List.cons.injEq] at h
          rw [← h.1]
          exact hne
        · exact Ins.newChild
            (.mk .text false p [z2] [.mk .text false (z2 :: e2) [] [] sp2 k2] none 0)
            z1 (e1 ++ rest1) c1 _ hz1 (by simp [node.index, List.indexOf_cons, Ne.symm hne]) rfl
            ⟨e1, rfl⟩ stem1

/-- Both ways of adding two routes whose chains start at a parameter node give the same
trie up to the names of the parameters, when both ways of adding their rests do. -/
theorem commute_param (u1 u2 : Bytes) (c1 c2 : Int) (s1 s2 : node)
    (h1 : Chain (colon :: u1) c1 s1) (h2 : Chain (colon :: u2) c2 s2)
    (hns : ¬ SameSlot ((colon :: u1).drop (takeParameter (colon :: u1)).length)
      ((colon :: u2).drop (takeParameter (colon :: u2)).length))
    (IHt : ∀ b t1 t2 next1 next2,
      (colon :: u1).drop (takeParameter (colon :: u1)).length = b :: t1 →
      (colon :: u2).drop (takeParameter (colon :: u2)).length = b :: t2 → b ≠ colon →
      Chain (b :: t1) c1 next1 → Chain (b :: t2) c2 next2 →
      ∃ x y, Ins true next1 (b :: t2) c2 x ∧ Ins true next2 (b :: t1) c1 y ∧ Sim x y)
    (IHp : ∀ t1 t2 next1 next2,
      (colon :: u1).drop (takeParameter (colon :: u1)).length = colon :: t1 →
      (colon :: u2).drop (takeParameter (colon :: u2)).length = colon :: t2 →
      Chain (colon :: t1) c1 next1 → Chain (colon :: t2) c2 next2 →
      ∃ x y, Ins false next1 ((colon :: t2).drop (takeParameter (colon :: t2)).length) c2 x ∧
        Ins false next2 ((colon :: t1).drop (takeParameter (colon :: t1)).length) c1 y ∧
        Sim x y) :
    ∃ x y, Ins false s1 ((colon :: u2).drop (takeParameter (colon :: u2)).length) c2 x ∧
      Ins false s2 ((colon :: u1).drop (takeParameter (colon :: u1)).length) c1 y ∧
      Sim x y := by
  have hpk : ∀ (r r1 : Bytes), nodeKind.parameter = .text → r = r1 := fun _ _ h => by cases h
  rcases h1.param_form with ⟨a1, a2⟩ | ⟨b1, t1, next1, a1, a2, a3, a4, a5⟩ |
      ⟨t1, next1, a1, a2, a3⟩
  · rcases h2.param_form with ⟨e1, e2⟩ | ⟨b2, t2, next2, e1, e2, e3, e4, e5⟩ |
        ⟨t2, next2, e1, e2, e3⟩
    · rw [a1, e1] at hns
      exact absurd SameSlot.nil hns
    · rw [a1, e1]
      subst a2 e5
      refine ⟨.mk .parameter false (colon :: u1) [b2] [next2] none c1,
        .mk .parameter false (takeParameter (colon :: u2)) [b2] [next2] none c1, ?_, ?_,
        Sim.same_below _ _ _ _ _ _ _ _ (hpk _ _)⟩
      · exact Ins.newChild (.mk .parameter false (colon :: u1) [] [] none c1) b2 t2 c2 next2 e2
          (by simp [node.index]) e4 (e3.text_route e2).2 e3
      · exact Ins.done (.mk .parameter false (takeParameter (colon :: u2)) [b2] [next2] none 0) c1
    · rw [a1, e1]
      subst a2 e3
      refine ⟨.mk .parameter false (colon :: u1) [] [] (some next2) c1,
        .mk .parameter false (takeParameter (colon :: u2)) [] [] (some next2) c1, ?_, ?_,
        Sim.same_below _ _ _ _ _ _ _ _ (hpk _ _)⟩
      · exact Ins.newSpecial (.mk .parameter false (colon :: u1) [] [] none c1) t2 c2 next2 rfl
          e2.param_kind e2
      · exact Ins.done (.mk .parameter false (takeParameter (colon :: u2)) [] [] (some next2) 0) c1
  · rcases h2.param_form with ⟨e1, e2⟩ | ⟨b2, t2, next2, e1, e2, e3, e4, e5⟩ |
        ⟨t2, next2, e1, e2, e3⟩
    · rw [a1, e1]
      subst a5 e2
      refine ⟨.mk .parameter false (takeParameter (colon :: u1)) [b1] [next1] none c2,
        .mk .parameter false (colon :: u2) [b1] [next1] none c2, ?_, ?_,
        Sim.same_below _ _ _ _ _ _ _ _ (hpk _ _)⟩
      · exact Ins.done (.mk .parameter false (takeParameter (colon :: u1)) [b1] [next1] none 0) c2
      · exact Ins.newChild (.mk .parameter false (colon :: u2) [] [] none c2) b1 t1 c1 next1 a2
          (by simp [node.index]) a4 (a3.text_route a2).2 a3
    · rw [a1, e1]
      subst a5 e5
      by_cases hb : b1 = b2
      · subst hb
        obtain ⟨x1, y1, i1, i2, i3⟩ := IHt b1 t1 t2 next1 next2 a1 e1 a2 a3 e3
        refine ⟨.mk .parameter false (takeParameter (colon :: u1)) [b1] [x1] none 0,
          .mk .parameter false (takeParameter (colon :: u2)) [b1] [y1] none 0, ?_, ?_,
          Sim.one_child _ _ _ _ _ _ _ _ _ (hpk _ _) i3⟩
        · have := Ins.viaChild
            (.mk .parameter false (takeParameter (colon :: u1)) [b1] [next1] none 0) b1 t2 c2
            next1 x1 a2 (by simp [node.index]) (by simp [node.index, node.children]) i1
          simpa [node.setChildren, node.index, node.children] using this
        · have := Ins.viaChild
            (.mk .parameter false (takeParameter (colon :: u2)) [b1] [next2] none 0) b1 t1 c1
            next2 y1 a2 (by simp [node.index]) (by simp [node.index, node.children]) i2
          simpa [node.setChildren, node.index, node.children] using this
      · refine ⟨.mk .parameter false (takeParameter (colon :: u1)) [b1, b2] [next1, next2] none 0,
          .mk .parameter false (takeParameter (colon :: u2)) [b2, b1] [next2, next1] none 0,
          ?_, ?_, Sim.swap _ _ _ _ _ _ _ _ _ _ (hpk _ _) hb⟩
        · exact Ins.newChild
            (.mk .parameter false (takeParameter (colon :: u1)) [b1] [next1] none 0) b2 t2 c2
            next2 e2 (by simp [node.index, List.indexOf_cons, hb]) e4 (e3.text_route e2).2 e3
        · exact Ins.newChild
            (.mk .parameter false (takeParameter (colon :: u2)) [b2] [next2] none 0) b1 t1 c1
            next1 a2 (by simp [node.index, List.indexOf_cons, Ne.symm hb]) a4
            (a3.text_route a2).2 a3
    · rw [a1, e1]
      subst a5 e3
      refine ⟨.mk .parameter false (takeParameter (colon :: u1)) [b1] [next1] (some next2) 0,
        .mk .parameter false (takeParameter (colon :: u2)) [b1] [next1] (some next2) 0, ?_, ?_,
        Sim.same_below _ _ _ _ _ _ _ _ (hpk _ _)⟩
      · exact Ins.newSpecial
          (.mk .parameter false (takeParameter (colon :: u1)) [b1] [next1] none 0) t2 c2 next2
          rfl e2.param_kind e2
      · exact Ins.newChild
          (.mk .parameter false (takeParameter (colon :: u2)) [] [] (some next2) 0) b1 t1 c1
          next1 a2 (by simp [node.index]) a4 (a3.text_route a2).2 a3
  · rcases h2.param_form with ⟨e1, e2⟩ | ⟨b2, t2, next2, e1, e2, e3, e4, e5⟩ |
        ⟨t2, next2, e1, e2, e3⟩
    · rw [a1, e1]
      subst a3 e2
      refine ⟨.mk .parameter false (takeParameter (colon :: u1)) [] [] (some next1) c2,
        .mk .parameter false (colon :: u2) [] [] (some next1) c2, ?_, ?_,
        Sim.same_below _ _ _ _ _ _ _ _ (hpk _ _)⟩
      · exact Ins.done (.mk .parameter false (takeParameter (colon :: u1)) [] [] (some next1) 0) c2
      · exact Ins.newSpecial (.mk .parameter false (colon :: u2) [] [] none c2) t1 c1 next1 rfl
          a2.param_kind a2
    · rw [a1, e1]
      subst a3 e5
      refine ⟨.mk .parameter false (takeParameter (colon :: u1)) [b2] [next2] (some next1) 0,
        .mk .parameter false (takeParameter (colon :: u2)) [b2] [next2] (some next1) 0, ?_, ?_,
        Sim.same_below _ _ _ _ _ _ _ _ (hpk _ _)⟩
      · exact Ins.newChild
          (.mk .parameter false (takeParameter (colon :: u1)) [] [] (some next1) 0) b2 t2 c2
          next2 e2 (by simp [node.index]) e4 (e3.text_route e2).2 e3
      · exact Ins.newSpecial
          (.mk .parameter false (takeParameter (colon :: u2)) [b2] [next2] none 0) t1 c1 next1
          rfl a2.param_kind a2
    · subst a3 e3
      obtain ⟨x1, y1, i1, i2, i3⟩ := IHp t1 t2 next1 next2 a1 e1 a2 e2
      rw [a1, e1]
      refine ⟨.mk .parameter false (takeParameter (colon :: u1)) [] [] (some x1) 0,
        .mk .parameter false (takeParameter (colon :: u2)) [] [] (some y1) 0, ?_, ?_, ?_⟩
      · exact Ins.viaSpecial
          (.mk .parameter false (takeParameter (colon :: u1)) [] [] (some next1) 0) t2 c2 next1
          x1 rfl i1
      · exact Ins.viaSpecial
          (.mk .parameter false (takeParameter (colon :: u2)) [] [] (some next2) 0) t1 c1 next2
          y1 rfl i2
      · refine Sim.of_special _ _ _ _ _ _ _ _ _ (hpk _ _) (by simp) ?_
        intro sa sb k1 k2
        cases k1
        cases k2
        exact i3

/-! ### Two routes, in both orders -/

theorem Chain.length_pos {r : Bytes} {c : Int} {n : node} (h : Chain r c n) : 0 < r.length := by
  rcases h.head with ⟨t, e, _⟩ | ⟨b, t, e, _⟩ <;> rw [e] <;> simp

theorem takeText_pos {b : Nat} {t : Bytes} (h1 : b ≠ colon) (h2 : b ≠ star) :
    0 < (takeText (b :: t)).length := by
  rw [takeText_cons b t h1 h2]
  simp

theorem takeParameter_colon_pos (u : Bytes) : 0 < (takeParameter (colon :: u)).length := by
  rw [takeParameter_cons_colon]
  simp

/-- Both ways of adding two routes give the same trie up to the names of the parameters
and the order of the children, when the two do not lead to the same node. -/
theorem commute : ∀ (N : Nat) (r1 r2 : Bytes) (c1 c2 : Int) (n1 n2 : node), r1.length ≤ N →
    ¬ SameSlot r1 r2 → Chain r1 c1 n1 → Chain r2 c2 n2 →
    (n1.kind = .text → n2.kind = .text →
      ∃ x y, Ins true n1 r2 c2 x ∧ Ins true n2 r1 c1 y ∧ Sim x y) ∧
    (n1.kind = .parameter → n2.kind = .parameter →
      ∃ x y, Ins false n1 (r2.drop (takeParameter r2).length) c2 x ∧
        Ins false n2 (r1.drop (takeParameter r1).length) c1 y ∧ Sim x y) := by
  intro N
  induction N with
  | zero =>
    intro r1 r2 c1 c2 n1 n2 hlen _ h1 _
    have := h1.length_pos
    omega
  | succ N ih =>
    intro r1 r2 c1 c2 n1 n2 hlen hns h1 h2
    constructor
    · intro hk1 hk2
      obtain ⟨sp1, k1, e1, T1⟩ := h1.text_form hk1
      obtain ⟨sp2, k2, e2, T2⟩ := h2.text_form hk2
      have hq1 : 0 < (takeText r1).length := by
        rcases h1.head with ⟨t, _, e, _⟩ | ⟨b, t, e, a1, a2, _, _⟩
        · rw [hk1] at e; cases e
        · rw [e]; exact takeText_pos a1 a2
      have hr1 := takeText_append_drop r1
      have hr2 := takeText_append_drop r2
      have hlen1 : (r1.drop (takeText r1).length).length ≤ N := by
        rw [List.length_drop]
        omega
      have := commute_text (takeText r1) (takeText r2) (r1.drop (takeText r1).length)
        (r2.drop (takeText r2).length) c1 c2 sp1 sp2 k1 k2
        (colon_not_mem_takeText r1) (star_not_mem_takeText r1)
        (colon_not_mem_takeText r2) (star_not_mem_takeText r2) T1 T2
        (by rw [hr1, hr2]; exact hns)
        (by
          intro u1 u2 next1 next2 a1 a2 a3 a4 a5
          have := (ih _ _ c1 c2 next1 next2 (by rw [← a1]; exact hlen1) a3 a4 a5).2
            a4.param_kind a5.param_kind
          exact this)
      rw [hr1, hr2, ← e1, ← e2] at this
      exact this
    · intro hk1 hk2
      obtain ⟨u1, e1⟩ : ∃ u1, r1 = colon :: u1 := by
        rcases h1.head with ⟨t, e, _⟩ | ⟨_, _, _, _, _, e, _⟩
        · exact ⟨t, e⟩
        · rw [hk1] at e; cases e
      obtain ⟨u2, e2⟩ : ∃ u2, r2 = colon :: u2 := by
        rcases h2.head with ⟨t, e, _⟩ | ⟨_, _, _, _, _, e, _⟩
        · exact ⟨t, e⟩
        · rw [hk2] at e; cases e
      subst e1 e2
      have hns1 : ¬ SameSlot ((colon :: u1).drop (takeParameter (colon :: u1)).length)
          ((colon :: u2).drop (takeParameter (colon :: u2)).length) :=
        fun h => hns (SameSlot.par u1 u2 h)
      have hlen1 : ((colon :: u1).drop (takeParameter (colon :: u1)).length).length ≤ N := by
        have := takeParameter_colon_pos u1
        rw [List.length_drop]
        omega
      refine commute_param u1 u2 c1 c2 n1 n2 h1 h2 hns1 ?_ ?_
      · intro b t1 t2 next1 next2 a1 a2 a3 a4 a5
        exact (ih _ _ c1 c2 next1 next2 (by rw [← a1]; exact hlen1)
          (by rw [← a1, ← a2]; exact hns1) a4 a5).1 (a4.text_route a3).1 (a5.text_route a3).1
      · intro t1 t2 next1 next2 a1 a2 a3 a4
        exact (ih _ _ c1 c2 next1 next2 (by rw [← a1]; exact hlen1)
          (by rw [← a1, ← a2]; exact hns1) a3 a4).2 a3.param_kind a4.param_kind

/-- The trie that two calls of `add` on one method build from the empty tree. -/
theorem build_pair (m tm1 tm2 : Bytes) (c1 c2 : Int) (hs1 : star ∉ slash :: tm1)
    (hs2 : star ∉ slash :: tm2) :
    ∃ n1 x, Chain (slash :: tm1) c1 n1 ∧ Ins true n1 (slash :: tm2) c2 x ∧
      build [⟨m, slash :: tm1, c1⟩, ⟨m, slash :: tm2, c2⟩] = .ok ⟨[⟨m, some x⟩]⟩ := by
  obtain ⟨n1, hn1, hch⟩ := newList_chain (slash :: tm1) c1 hs1 (by simp)
  obtain ⟨hk, q, hq⟩ := hch.text_route (by decide)
  obtain ⟨x, hx, hins⟩ := (insertRouteLoop_ins (2 * n1.size + 2) n1 (slash :: tm2) c2
    hch.nodes_inv.1 hs2).2 hk ⟨slash, tm2, q, rfl, by decide, hq⟩ (by omega)
  refine ⟨n1, x, hch, hins, ?_⟩
  have hadd1 : tree.add ⟨[]⟩ m (slash :: tm1) c1 = .ok ⟨[⟨m, some n1⟩]⟩ := by
    unfold tree.add
    rw [tree_get_nil]
    simp only []
    rw [hn1]
    rfl
  have hadd2 : tree.add ⟨[⟨m, some n1⟩]⟩ m (slash :: tm2) c2 = .ok ⟨[⟨m, some x⟩]⟩ := by
    unfold tree.add
    rw [tree_get_cons]
    simp only [if_true]
    have : n1.insertRoute (slash :: tm2) c2 = .ok x := hx
    rw [this]
    simp [Run.andThen, setRoot]
  simp only [build, addAll]
  rw [hadd1, Run.andThen_ok, hadd2]
  rfl

theorem lookup_pair (m tm1 tm2 : Bytes) (c1 c2 : Int) (hs1 : star ∉ slash :: tm1)
    (hs2 : star ∉ slash :: tm2) :
    ∃ n1 x, Chain (slash :: tm1) c1 n1 ∧ Ins true n1 (slash :: tm2) c2 x ∧ x.Shape ∧
      ∀ path, lookup [⟨m, slash :: tm1, c1⟩, ⟨m, slash :: tm2, c2⟩] m path =
        node.get (some x) path := by
  obtain ⟨n1, x, h1, h2, h3⟩ := build_pair m tm1 tm2 c1 c2 hs1 hs2
  have hg : tree.get ⟨[⟨m, some x⟩]⟩ m = some x := by
    rw [tree_get_cons]
    simp
  have hshape : treeShape ⟨[⟨m, some x⟩]⟩ :=
    addAll_shape _ ⟨[]⟩ _ (fun r hr => by cases hr)
      (by
        intro r hr
        simp only [List.mem_cons, List.mem_singleton, List.not_mem_nil, or_false] at hr
        rcases hr with e | e <;> subst e <;> exact ⟨_, rfl⟩) h3
  refine ⟨n1, x, h1, h2, (get_shape _ m x hshape hg).2.2.2.2, ?_⟩
  intro path
  unfold lookup
  rw [h3, Run.andThen_ok, hg]

/-- Two routes of one method that do not lead to the same node give the same lookups in
both orders of `add`. -/
theorem lookup_commute (m tm1 tm2 : Bytes) (c1 c2 : Int) (hs1 : star ∉ slash :: tm1)
    (hs2 : star ∉ slash :: tm2) (hns : ¬ SameSlot (slash :: tm1) (slash :: tm2)) (path : Bytes) :
    ∃ v, lookup [⟨m, slash :: tm1, c1⟩, ⟨m, slash :: tm2, c2⟩] m path = .ok v ∧
      lookup [⟨m, slash :: tm2, c2⟩, ⟨m, slash :: tm1, c1⟩] m path = .ok v := by
  obtain ⟨n1, x, a1, a2, a3, a4⟩ := lookup_pair m tm1 tm2 c1 c2 hs1 hs2
  obtain ⟨n2, y, b1, b2, b3, b4⟩ := lookup_pair m tm2 tm1 c2 c1 hs2 hs1
  obtain ⟨x1, y1, i1, i2, i3⟩ := (commute _ _ _ c1 c2 n1 n2 (le_refl _) hns a1 b1).1
    (a1.text_route (by decide)).1 (b1.text_route (by decide)).1
  have ex : x = x1 := i1.same_result x a2
  have ey : y = y1 := i2.same_result y b2
  subst ex ey
  obtain ⟨v, hv1, hv2⟩ := get_sim x y path i3 a3 b3
  exact ⟨v, by rw [a4, hv1], by rw [b4, hv2]⟩

/-! ## Theorems -/

/-- C1 (code at the failing input): with the accepted templates `/abc` (cost 1) and `/:p`
(cost 3) added in this order, the path `/ab` matches exactly one of them, `/:p`, and yet
`get` returns 1, the cost of `/abc`: the walk stops inside the text node `abc` as soon
as the path is used up. -/
theorem C1_get_returns_cost_of_unmatched_template :
    validateRoute (str "/abc") = .ok (str "/abc", none) ∧
    validateRoute (str "/:p") = .ok (str "/:p", none) ∧
    specMatch (str "/abc") (str "/ab") = false ∧
    specMatch (str "/:p") (str "/ab") = true ∧
    lookup [⟨GET, str "/abc", 1⟩, ⟨GET, str "/:p", 3⟩] GET (str "/ab") = .ok 1 := by
  decide

/-- C2 (code at the failing input): with the single template `/v1/entities` (cost 1) the
path `/v1` matches no template, with or without a trailing `'/'`, and yet `get` returns
1: the walk returns the cost of the text node as soon as the path is used up inside it.
With the single template `/abc/:p` (cost 7) the path `/abzzz` matches no template and
`get` returns 7: after the partial match `/ab` the walk goes on to the parameter child. -/
theorem C2_get_nonzero_without_match :
    validateRoute (str "/v1/entities") = .ok (str "/v1/entities", none) ∧
    specMatch (str "/v1/entities") (str "/v1") = false ∧
    specWildcardMatch (str "/v1/entities") (str "/v1") = false ∧
    lookup [⟨GET, str "/v1/entities", 1⟩] GET (str "/v1") = .ok 1 ∧
    validateRoute (str "/abc/:p") = .ok (str "/abc/:p", none) ∧
    specMatch (str "/abc/:p") (str "/abzzz") = false ∧
    specWildcardMatch (str "/abc/:p") (str "/abzzz") = false ∧
    lookup [⟨GET, str "/abc/:p", 7⟩] GET (str "/abzzz") = .ok 7 := by
  decide

/-- C3 (code at the failing input): with `/:p/x` (cost 1) and `/a*` (cost 9) added, the
path `/ab/x` is matched as a whole by the wildcard-free template `/:p/x`, and yet `get`
returns 9, the cost of the wildcard template: the text node `a` returns its wildcard
cost while a checkpoint for the parameter branch is still on the stack. -/
theorem C3_wildcard_returned_before_backtracking :
    validateRoute (str "/:p/x") = .ok (str "/:p/x", none) ∧
    validateRoute (str "/a*") = .ok (str "/a*", none) ∧
    specMatch (str "/:p/x") (str "/ab/x") = true ∧
    specWildcardMatch (str "/a*") (str "/ab/x") = true ∧
    lookup [⟨GET, str "/:p/x", 1⟩, ⟨GET, str "/a*", 9⟩] GET (str "/ab/x") = .ok 9 := by
  decide

/-- C4 (code at the failing input): the accepted template `/a/:b/*` added with cost 5 to
the empty trie; the path `/a/x/y` starts with an instance of `/a/:b/`, no other template
exists, and yet `get` returns 0: `newList` gives the cost to the parameter node without
setting its `hasWildcard`, which `insertRoute` does for the same template. -/
theorem C4_wildcard_after_parameter_is_lost :
    validateRoute (str "/a/:b/*") = .ok (str "/a/:b/*", none) ∧
    specWildcardMatch (str "/a/:b/*") (str "/a/x/y") = true ∧
    lookup [⟨GET, str "/a/:b/*", 5⟩] GET (str "/a/x/y") = .ok 0 ∧
    lookup [⟨GET, str "/a/:b/c", 1⟩, ⟨GET, str "/a/:b/*", 5⟩] GET (str "/a/x/y") = .ok 5 := by
  decide

/-- A text that `validateRoute` returns unchanged, without error, holds no `'*'` and does
not end in `'/'` is a template of the round-trip claims. -/
theorem plainTemplate_of_validate (t : Bytes) (h1 : validateRoute t = .ok (t, none))
    (h2 : star ∉ t) (h3 : noTrailingSlash t) : plainTemplate t :=
  ⟨((validateRoute_ok_iff t t).mp h1).1, h2, h3⟩

/-- C5 (counterexample): the routes `/a/:x` (cost 0) and `/:y/:z` (cost 5) satisfy every
condition of the claim, and looking up the template text `/a/:x` returns 5, not the cost 0
of that route: a parameter node of cost 0 at the end of the path makes `get` backtrack. -/
theorem C5_zero_cost_counterexample :
    (∀ r ∈ zeroCostRoutes, plainTemplate r.route) ∧
    zeroCostRoutes.Pairwise
      (fun a b => a.method = b.method → eraseNames a.route ≠ eraseNames b.route) ∧
    (⟨GET, str "/a/:x", 0⟩ : Route) ∈ zeroCostRoutes ∧
    lookup zeroCostRoutes GET (str "/a/:x") = .ok 5 := by
  refine ⟨?_, by decide, by decide, by decide⟩
  intro r hr
  simp only [zeroCostRoutes, List.mem_cons, List.mem_singleton, List.not_mem_nil, or_false] at hr
  rcases hr with h | h <;> subst h <;>
    exact plainTemplate_of_validate _ (by decide) (by decide)
        (by unfold noTrailingSlash; decide)

/-- C5 (amended): for every list of routes of positive cost whose templates are accepted
in shape (start with `'/'`, well-formed `:name` parameters), hold no `'*'`, do not end in
`'/'`, and are pairwise distinct per method after their parameter names are erased: after
all of them are added in order to the empty trie, looking up the own template text of each
route under its method returns the cost of that route. -/
theorem C5_own_template_round_trip (rs : List Route)
    (hgood : ∀ r ∈ rs, plainTemplate r.route ∧ 0 < r.cost)
    (hdist : rs.Pairwise
      fun a b => a.method = b.method → eraseNames a.route ≠ eraseNames b.route) :
    ∀ r ∈ rs, lookup rs r.method r.route = .ok r.cost := by
  intro r hr
  have := lookup_own rs [] (Or.inl rfl) hgood hdist r hr
  simpa using this

/-- C5 (witness): the amended round trip at three routes of the Coinbase Prime table. -/
theorem C5_own_template_round_trip_witness :
    (∀ r ∈ sampleRoutes, plainTemplate r.route ∧ 0 < r.cost) ∧
    sampleRoutes.Pairwise
      (fun a b => a.method = b.method → eraseNames a.route ≠ eraseNames b.route) ∧
    ∀ r ∈ sampleRoutes, lookup sampleRoutes r.method r.route = .ok r.cost := by
  have h1 : ∀ r ∈ sampleRoutes, plainTemplate r.route ∧ 0 < r.cost := by
    intro r hr
    simp only [sampleRoutes, List.mem_cons, List.mem_singleton, List.not_mem_nil, or_false] at hr
    rcases hr with h | h | h <;> subst h <;>
      exact ⟨plainTemplate_of_validate _ (by decide) (by decide)
        (by unfold noTrailingSlash; decide), by decide⟩
  have h2 : sampleRoutes.Pairwise
      (fun a b => a.method = b.method → eraseNames a.route ≠ eraseNames b.route) := by decide
  exact ⟨h1, h2, C5_own_template_round_trip sampleRoutes h1 h2⟩

/-- A text that `validateRoute` accepts and that holds no `'*'` is a template that `dump`
can report. -/
theorem dumpTemplate_of_validate (t r : Bytes) (h1 : validateRoute t = .ok (r, none))
    (h2 : star ∉ t) : dumpTemplate t :=
  ⟨((validateRoute_ok_iff t r).mp h1).1, h2⟩

/-- C6 (counterexample): three lists of accepted templates of positive cost whose dump is
not the list inserted: the wildcard template `/v1/*` is dumped as `/v1`; the templates
`/:a/x` and `/:b/y` are dumped with the parameter name of the first one, `/:a/y`; of the
two routes of the template `/a` only the second one is dumped. -/
theorem C6_dump_differs_from_inserted :
    validateRoute (str "/v1/*") = .ok (str "/v1/*", none) ∧
    (build [⟨GET, str "/v1/*", 2⟩]).andThen tree.dump = .ok [⟨GET, str "/v1", 2⟩] ∧
    validateRoute (str "/:a/x") = .ok (str "/:a/x", none) ∧
    validateRoute (str "/:b/y") = .ok (str "/:b/y", none) ∧
    (build [⟨GET, str "/:a/x", 1⟩, ⟨GET, str "/:b/y", 2⟩]).andThen tree.dump =
      .ok [⟨GET, str "/:a/x", 1⟩, ⟨GET, str "/:a/y", 2⟩] ∧
    validateRoute (str "/a") = .ok (str "/a", none) ∧
    (build [⟨GET, str "/a", 1⟩, ⟨GET, str "/a", 2⟩]).andThen tree.dump =
      .ok [⟨GET, str "/a", 2⟩] := by
  decide

/-- C6 (amended): for every list of routes of positive cost whose templates are accepted
in shape, hold no `'*'`, and are pairwise distinct per method after the trailing `'/'` is
stripped and the parameter names are erased: `dump` of the trie built from the empty one
succeeds, and its triples, read with their parameter names erased, are exactly the routes
of the list with the trailing `'/'` stripped and the parameter names erased. -/
theorem C6_dump_round_trip (rs : List Route)
    (hgood : ∀ r ∈ rs, dumpTemplate r.route ∧ 0 < r.cost)
    (hdist : rs.Pairwise fun a b => a.method = b.method → dumpKey a.route ≠ dumpKey b.route) :
    ∃ d, (build rs).andThen tree.dump = .ok d ∧
      ∀ (m k : Bytes) (c : Int),
        (∃ x ∈ d, x.method = m ∧ eraseNames x.route = k ∧ x.cost = c) ↔
          (∃ r ∈ rs, r.method = m ∧ dumpKey r.route = k ∧ r.cost = c) := by
  have hshape : ∀ r ∈ rs, (∃ tm, r.route = slash :: tm) ∧ star ∉ r.route :=
    fun x hx => ⟨specAccepts_head (hgood x hx).1.1, (hgood x hx).1.2⟩
  have hpw : rs.Pairwise (fun a b => a.method = b.method → ¬ SameSlot a.route b.route) := by
    refine hdist.imp ?_
    intro a b hne hm hs
    exact hne hm hs.dumpKey_eq
  have hempty : treeInv ⟨[]⟩ := by intro x hx; simp at hx
  obtain ⟨t1, hall, hinv1, hst, _⟩ := addAll_stored rs ⟨[]⟩ hempty hshape hpw
  obtain ⟨hsound, hd1⟩ := addAll_sound rs ⟨[]⟩ [] hempty (by simp [distinctMethods])
    (by intro m n hg; simp [tree_get_nil] at hg) hshape t1 hall
  simp only [List.nil_append] at hsound
  obtain ⟨d, hdump, hmem⟩ := dump_mem t1 hinv1 hd1
  refine ⟨d, by unfold build; rw [hall, Run.andThen_ok, hdump], ?_⟩
  have hsym : ∀ a ∈ rs, ∀ b ∈ rs, a.method = b.method → dumpKey a.route = dumpKey b.route →
      a = b := by
    intro a ha b hb hm hk
    by_contra hne
    have hR : Symmetric (fun a b : Route => a.method = b.method →
        dumpKey a.route ≠ dumpKey b.route) := by
      intro x y hxy hm' hk'
      exact hxy hm'.symm hk'.symm
    exact hdist.forall hR ha hb hne hm hk
  intro m k c
  constructor
  · rintro ⟨x, hx, rfl, rfl, rfl⟩
    obtain ⟨n, hg, hin⟩ := (hmem x).mp hx
    rcases mem_foldl_mapSet_imp _ _ _ hin with h1 | h1
    · simp at h1
    · obtain ⟨r, hr, h1, h2, h3⟩ := hsound x.method n hg _ h1
      exact ⟨r, hr, h1, h3.symm, h2⟩
  · rintro ⟨r, hr, rfl, rfl, rfl⟩
    obtain ⟨n, hg, hta⟩ := hst r hr
    have hn := get_inv t1 r.method n hinv1 hg
    obtain ⟨k, hk, hkey⟩ := hta.dump_entry (hgood r hr).2 hn
    obtain ⟨v, hv1, hv2⟩ := mem_foldl_mapSet_key (entries n []) [] (k, r.cost) hk
    obtain ⟨r2, hr2, h1, h2, h3⟩ := hsound r.method n hg _ hv2
    have heq : r2 = r := hsym r2 hr2 r hr h1 (by rw [← h3, hkey])
    subst heq
    refine ⟨⟨r2.method, k, v⟩, (hmem _).mpr ⟨n, hg, hv1⟩, rfl, hkey, h2.symm⟩

/-- C6 (witness): the amended claim at three routes with a trailing `'/'` and two names
for one parameter. -/
theorem C6_dump_round_trip_witness :
    (∀ r ∈ dumpRoutes, dumpTemplate r.route ∧ 0 < r.cost) ∧
    dumpRoutes.Pairwise
      (fun a b => a.method = b.method → dumpKey a.route ≠ dumpKey b.route) ∧
    ∃ d, (build dumpRoutes).andThen tree.dump = .ok d ∧
      ∀ (m k : Bytes) (c : Int),
        (∃ x ∈ d, x.method = m ∧ eraseNames x.route = k ∧ x.cost = c) ↔
          (∃ r ∈ dumpRoutes, r.method = m ∧ dumpKey r.route = k ∧ r.cost = c) := by
  have h1 : ∀ r ∈ dumpRoutes, dumpTemplate r.route ∧ 0 < r.cost := by
    intro r hr
    simp only [dumpRoutes, List.mem_cons, List.mem_singleton, List.not_mem_nil, or_false] at hr
    rcases hr with h | h | h <;> subst h
    · exact ⟨dumpTemplate_of_validate _ (str "/v1/:id/a") (by decide) (by decide), by decide⟩
    · exact ⟨dumpTemplate_of_validate _ (str "/v1/:key/b") (by decide) (by decide), by decide⟩
    · exact ⟨dumpTemplate_of_validate _ (str "/v1") (by decide) (by decide), by decide⟩
  have h2 : dumpRoutes.Pairwise
      (fun a b => a.method = b.method → dumpKey a.route ≠ dumpKey b.route) := by decide
  exact ⟨h1, h2, C6_dump_round_trip dumpRoutes h1 h2⟩

/-- C7 (counterexample): with the routes `/a/:x` (cost 0) and `/:y/:z` (cost 5), which
satisfy every condition of the claim, looking up `/a/:x/` returns 5, not the cost 0 of the
route `/a/:x`. -/
theorem C7_zero_cost_counterexample :
    (∀ r ∈ zeroCostRoutes, plainTemplate r.route) ∧
    zeroCostRoutes.Pairwise
      (fun a b => a.method = b.method → eraseNames a.route ≠ eraseNames b.route) ∧
    (⟨GET, str "/a/:x", 0⟩ : Route) ∈ zeroCostRoutes ∧
    lookup zeroCostRoutes GET (str "/a/:x" ++ [slash]) = .ok 5 := by
  refine ⟨?_, by decide, by decide, by decide⟩
  intro r hr
  simp only [zeroCostRoutes, List.mem_cons, List.mem_singleton, List.not_mem_nil, or_false] at hr
  rcases hr with h | h <;> subst h <;>
    exact plainTemplate_of_validate _ (by decide) (by decide)
        (by unfold noTrailingSlash; decide)

/-- C7 (amended): for every list of wildcard-free routes of positive cost as in the
own-template round trip (templates accepted in shape, not ending in `'/'`, distinct per
method after their parameter names are erased), and every route of the list, looking up
its template text followed by one extra `'/'` returns the cost of that route. -/
theorem C7_trailing_slash_round_trip (rs : List Route)
    (hgood : ∀ r ∈ rs, plainTemplate r.route ∧ 0 < r.cost)
    (hdist : rs.Pairwise
      fun a b => a.method = b.method → eraseNames a.route ≠ eraseNames b.route) :
    ∀ r ∈ rs, lookup rs r.method (r.route ++ [slash]) = .ok r.cost :=
  lookup_own rs [slash] (Or.inr rfl) hgood hdist

/-- C7 (witness): the amended claim at three routes of the Coinbase Prime table. -/
theorem C7_trailing_slash_round_trip_witness :
    (∀ r ∈ sampleRoutes, plainTemplate r.route ∧ 0 < r.cost) ∧
    sampleRoutes.Pairwise
      (fun a b => a.method = b.method → eraseNames a.route ≠ eraseNames b.route) ∧
    ∀ r ∈ sampleRoutes, lookup sampleRoutes r.method (r.route ++ [slash]) = .ok r.cost := by
  have h1 : ∀ r ∈ sampleRoutes, plainTemplate r.route ∧ 0 < r.cost := by
    intro r hr
    simp only [sampleRoutes, List.mem_cons, List.mem_singleton, List.not_mem_nil, or_false] at hr
    rcases hr with h | h | h <;> subst h <;>
      exact ⟨plainTemplate_of_validate _ (by decide) (by decide)
        (by unfold noTrailingSlash; decide), by decide⟩
  have h2 : sampleRoutes.Pairwise
      (fun a b => a.method = b.method → eraseNames a.route ≠ eraseNames b.route) := by decide
  exact ⟨h1, h2, C7_trailing_slash_round_trip sampleRoutes h1 h2⟩

/-- C8: `validateRoute` succeeds (returns a nil error) exactly on the texts that start with
`'/'`, hold `'*'` at their last byte only, and whose every `':'` directly follows a `'/'`
and is directly followed by a word byte; on success the returned route is the text with
one trailing `'/'` removed. -/
theorem C8_validateRoute_accepts_iff (text : Bytes) :
    ((∃ r, validateRoute text = .ok (r, none)) ↔ specAccepts text) ∧
    (∀ r, validateRoute text = .ok (r, none) ↔ specAccepts text ∧ r = stripTrailingSlash text) := by
  refine ⟨?_, validateRoute_ok_iff text⟩
  constructor
  · rintro ⟨r, hr⟩; exact ((validateRoute_ok_iff text r).mp hr).1
  · intro h; exact ⟨_, (validateRoute_ok_iff text _).mpr ⟨h, rfl⟩⟩

/-- C9 (code at the failing input): the text `/a:b` starts with `'/'`, has no `'*'`, and
its `':'` follows `a`; `validateRoute` panics on the slice `text[start : end+1]`, whose
upper bound 5 exceeds the length 4, instead of returning an error. -/
theorem C9_malformed_parameter_at_end_panics :
    validateRoute (str "/a:b") = .panic ∧
    validateRoute (str "/:one:two") = .panic ∧
    (validateRoute (str "/:one:two/")).andThen (fun x => .ok x.1) = .ok [] := by
  decide

/-- C10 (code at the failing input): for a session whose rule blocks the host and whose
`close` is false, `execute` returns the synthesised HTTP/1.1 response with status 403 and
leaves `close` false. -/
theorem C10_blocked_host_leaves_close_false :
    (blockedSession.execute ⟨MethodConnect, str "example.org:443", false⟩).andThen
        (fun x => .ok (x.1.StatusCode, x.1.ProtoMajor, x.1.ProtoMinor, x.2.close)) =
      .ok (403, 1, 1, false) ∧
    (blockedSession.execute ⟨str "GET", str "example.org:80", false⟩).andThen
        (fun x => .ok (x.1.StatusCode, x.1.ProtoMajor, x.1.ProtoMinor, x.2.close)) =
      .ok (403, 1, 1, false) := by
  decide

/-- C11: under a Block rule `execute` returns, for every request, the 403 response, makes
no dial (the list of dials is unchanged), and leaves `serverConn`, `serverReader`,
`clientTLSConfig` and `postRequestAction` as they were. -/
theorem C11_block_returns_403_without_dial (s : session) (r : Request)
    (h : s.rule.Action = .BlockAction) :
    ∃ resp s1, s.execute r = .ok (resp, s1) ∧ resp.StatusCode = 403 ∧
      s1.dials = s.dials ∧ s1.serverConn = s.serverConn ∧
      s1.serverReader = s.serverReader ∧ s1.clientTLSConfig = s.clientTLSConfig ∧
      s1.postRequestAction = s.postRequestAction := by
  refine ⟨newHTTP11Response StatusForbidden none, s, ?_, rfl, rfl, rfl, rfl, rfl, rfl⟩
  unfold session.execute
  rw [if_pos h]

/-- C11 (witness): a CONNECT request on the session of a blocked host. -/
theorem C11_block_returns_403_without_dial_witness :
    blockedSession.rule.Action = .BlockAction ∧
    ∃ resp s1, blockedSession.execute connectRequest = .ok (resp, s1) ∧ resp.StatusCode = 403 ∧
      s1.dials = blockedSession.dials ∧ s1.serverConn = blockedSession.serverConn ∧
      s1.serverReader = blockedSession.serverReader ∧
      s1.clientTLSConfig = blockedSession.clientTLSConfig ∧
      s1.postRequestAction = blockedSession.postRequestAction :=
  ⟨rfl, C11_block_returns_403_without_dial blockedSession connectRequest rfl⟩

/-- C12 (counterexample): a CONNECT request under a MITM rule whose TLS dial to the origin
succeeds with the connection 7 and whose client TLS configuration fails to resolve:
`execute` stores the connection and returns the HTTP/1.1 response 500, with no
post-request action. -/
theorem C12_client_config_error_counterexample :
    (freshSession (reachableEngine false) .MITMAction []).rule.Action ≠ .BlockAction ∧
    connectRequest.Method = MethodConnect ∧
    originEstablished (freshSession (reachableEngine false) .MITMAction []) connectRequest 7 ∧
    ((freshSession (reachableEngine false) .MITMAction []).execute connectRequest).andThen
        (fun x => .ok (x.1.StatusCode, x.1.ProtoMajor, x.1.ProtoMinor, x.2.serverConn,
          x.2.postRequestAction, x.2.close)) =
      .ok (500, 1, 1, some 7, none, true) :=
  ⟨by decide, rfl, Or.inr ⟨rfl, 1, rfl, Or.inl rfl⟩, rfl⟩

/-- C12 (amended): for every CONNECT request under a Tunnel or MITM rule whose origin
connection is established and, under MITM, whose client TLS configuration resolves to
`cc`: `execute` returns the HTTP/1.0 response `200 Connection established`, stores the
origin connection in `serverConn`, and sets the post-request action to `tunnel` under
Tunnel, to `clientHandshake` with `clientTLSConfig = cc` under MITM. -/
theorem C12_connect_established (s : session) (r : Request) (conn : Conn) (cc : TLSConfig)
    (hm : r.Method = MethodConnect) (ho : originEstablished s r conn)
    (hc : s.rule.Action = .MITMAction → s.clientConfigOrDefault = .ok cc) :
    ∃ resp s1, s.execute r = .ok (resp, s1) ∧
      resp.ProtoMajor = 1 ∧ resp.ProtoMinor = 0 ∧ resp.StatusCode = 200 ∧
      resp.Status = str "200 Connection established" ∧
      s1.serverConn = some conn ∧
      (s.rule.Action = .TunnelAction → s1.postRequestAction = some .tunnel) ∧
      (s.rule.Action = .MITMAction →
        s1.postRequestAction = some .clientHandshake ∧ s1.clientTLSConfig = some cc) := by
  have hcc : ∀ s2 : session, s.rule.Action = .MITMAction → s2.rule = s.rule →
      s2.engine = s.engine → s2.serverHost = s.serverHost →
      s2.clientConfigOrDefault = .ok cc := by
    intro s2 ha h1 h2 h3
    rw [← hc ha]
    unfold session.clientConfigOrDefault
    rw [h1, h2, h3]
  refine ⟨newHTTP10ConnectionEstablished r, ?_⟩
  unfold session.execute
  rcases ho with ⟨ha, hd⟩ | ⟨ha, cfg, hcfg, hd⟩
  · rw [if_neg (by rw [ha]; decide), if_pos hm, if_pos ha]
    dsimp only
    rw [hd]
    exact ⟨_, rfl, rfl, rfl, rfl, rfl, rfl, fun _ => rfl,
      fun h => absurd (ha.symm.trans h) (by decide)⟩
  · rw [if_neg (by rw [ha]; decide), if_pos hm, if_neg (by rw [ha]; decide)]
    rw [hcfg]
    dsimp only
    rcases hd with hd | ⟨e, hd, he, htcp⟩
    · rw [hd]
      dsimp only
      rw [hcc _ ha]
      · exact ⟨_, rfl, rfl, rfl, rfl, rfl, rfl,
          fun h => absurd (ha.symm.trans h) (by decide), fun _ => ⟨rfl, rfl⟩⟩
      all_goals rfl
    · rw [hd]
      dsimp only
      rw [if_pos he, htcp]
      dsimp only
      rw [hcc _ ha]
      · exact ⟨_, rfl, rfl, rfl, rfl, rfl, rfl,
          fun h => absurd (ha.symm.trans h) (by decide), fun _ => ⟨rfl, rfl⟩⟩
      all_goals rfl

/-- C12 (witness): a CONNECT request under a MITM rule with a reachable origin and a
client TLS configuration that resolves to 2. -/
theorem C12_connect_established_witness :
    connectRequest.Method = MethodConnect ∧
    originEstablished (freshSession (reachableEngine true) .MITMAction []) connectRequest 7 ∧
    ∃ resp s1, (freshSession (reachableEngine true) .MITMAction []).execute connectRequest =
        .ok (resp, s1) ∧
      resp.ProtoMajor = 1 ∧ resp.ProtoMinor = 0 ∧ resp.StatusCode = 200 ∧
      resp.Status = str "200 Connection established" ∧
      s1.serverConn = some 7 ∧
      ((freshSession (reachableEngine true) .MITMAction []).rule.Action = .TunnelAction →
        s1.postRequestAction = some .tunnel) ∧
      ((freshSession (reachableEngine true) .MITMAction []).rule.Action = .MITMAction →
        s1.postRequestAction = some .clientHandshake ∧ s1.clientTLSConfig = some 2) :=
  ⟨rfl, Or.inr ⟨rfl, 1, rfl, Or.inl rfl⟩,
    C12_connect_established (freshSession (reachableEngine true) .MITMAction [])
      connectRequest 7 2 rfl (Or.inr ⟨rfl, 1, rfl, Or.inl rfl⟩) (fun _ => rfl)⟩

/-- C13: when the origin dial of `execute` fails with the error `e` (at each place that
answers through `onTCPDialError`), the response has status 504 if `e` wraps
`context.DeadlineExceeded` and 502 otherwise, is an HTTP/1.1 response, `close` is true
and `serverConn` is as before; and this is what `onTCPDialError` builds from every
session. -/
theorem C13_failed_dial_response (s : session) (r : Request) (e : NetError)
    (hb : s.rule.Action ≠ .BlockAction) (hf : originDialFails s r e) :
    ∃ resp s1, s.execute r = .ok (resp, s1) ∧
      resp.StatusCode = (if e.deadlineExceeded then 504 else 502) ∧
      resp.ProtoMajor = 1 ∧ resp.ProtoMinor = 1 ∧
      s1.close = true ∧ s1.serverConn = s.serverConn ∧
      ∀ s0 : session, (s0.onTCPDialError r e).1 = resp ∧
        (s0.onTCPDialError r e).2.close = true ∧
        (s0.onTCPDialError r e).2.serverConn = s0.serverConn := by
  have key : ∀ s0 : session, s0.serverConn = s.serverConn →
      s.execute r = .ok (s0.onTCPDialError r e) →
      ∃ resp s1, s.execute r = .ok (resp, s1) ∧
      resp.StatusCode = (if e.deadlineExceeded then 504 else 502) ∧
      resp.ProtoMajor = 1 ∧ resp.ProtoMinor = 1 ∧
      s1.close = true ∧ s1.serverConn = s.serverConn ∧
      ∀ s0 : session, (s0.onTCPDialError r e).1 = resp ∧
        (s0.onTCPDialError r e).2.close = true ∧
        (s0.onTCPDialError r e).2.serverConn = s0.serverConn := by
    intro s0 hs0 hex
    exact ⟨_, _, hex, rfl, rfl, rfl, rfl, hs0, fun _ => ⟨rfl, rfl, rfl⟩⟩
  unfold originDialFails at hf
  rcases hf with ⟨hm, hsc, hd⟩ | ⟨hm, ha, hd⟩ | ⟨hm, ha, cfg, hcfg, hd⟩
  · refine key { s with dials := s.dials ++ [Dial.tcp r.Host] } rfl ?_
    unfold session.execute
    rw [if_neg hb, if_neg hm, hsc]
    dsimp only
    rw [hd]
  · refine key { s with dials := s.dials ++ [Dial.tcp r.Host] } rfl ?_
    unfold session.execute
    rw [if_neg hb, if_pos hm, if_pos ha]
    dsimp only
    rw [hd]
  · rcases hd with ⟨hd, h1, h2⟩ | ⟨e0, hd, h1, htcp⟩
    · refine key { s with dials := s.dials ++ [Dial.tls r.Host cfg] } rfl ?_
      unfold session.execute
      rw [if_neg hb, if_pos hm, if_neg (by rw [ha]; decide), hcfg]
      dsimp only
      rw [hd]
      dsimp only
      rw [if_neg (by rw [h1]; decide), if_neg (by rw [h2]; decide)]
    · refine key { s with dials := s.dials ++ [Dial.tls r.Host cfg] ++ [Dial.tcp r.Host] } rfl ?_
      unfold session.execute
      rw [if_neg hb, if_pos hm, if_neg (by rw [ha]; decide), hcfg]
      dsimp only
      rw [hd]
      dsimp only
      rw [if_pos h1, htcp]

/-- C13 (witness): a GET request on a fresh session under Tunnel whose dial times out:
the response is 504. -/
theorem C13_failed_dial_response_witness :
    (freshSession timeoutEngine .TunnelAction []).rule.Action ≠ .BlockAction ∧
    originDialFails (freshSession timeoutEngine .TunnelAction []) getRequest ⟨true, false, false⟩ ∧
    ∃ resp s1, (freshSession timeoutEngine .TunnelAction []).execute getRequest = .ok (resp, s1) ∧
      resp.StatusCode = (if (⟨true, false, false⟩ : NetError).deadlineExceeded then 504 else 502) ∧
      resp.ProtoMajor = 1 ∧ resp.ProtoMinor = 1 ∧
      s1.close = true ∧ s1.serverConn = (freshSession timeoutEngine .TunnelAction []).serverConn ∧
      ∀ s0 : session, (s0.onTCPDialError getRequest ⟨true, false, false⟩).1 = resp ∧
        (s0.onTCPDialError getRequest ⟨true, false, false⟩).2.close = true ∧
        (s0.onTCPDialError getRequest ⟨true, false, false⟩).2.serverConn = s0.serverConn :=
  ⟨by decide, Or.inl ⟨by decide, rfl, rfl⟩,
    C13_failed_dial_response (freshSession timeoutEngine .TunnelAction []) getRequest
      ⟨true, false, false⟩ (by decide) (Or.inl ⟨by decide, rfl, rfl⟩)⟩

/-- C14: for a rule with `n` handlers and a request that starts with `callDepth = 0`,
`Next` ends as the chain of the specification counted from 0 does (`specNext`), in which
the call of `Next` number `k` (counted from 0) invokes `Handlers[k]` when `k < n` and the
transport handler otherwise; the chain started by `Next` returns, the count of the
specification is the number of dispatches in the log, the call number `k` of the log
dispatched `Handlers[k]` when `k < n` and the transport handler otherwise, every call of
`Next` returned with `callDepth ≤ n`, and `callDepth` is the number of calls capped at
`n`. -/
theorem C14_next_dispatches_in_order (c : Context) (h0 : c.s.callDepth = 0)
    (hlog : c.log = []) :
    ∃ c1, c.Next (c.s.rule.Handlers.length + 1) = .done c1 ∧
      (∀ fuel, c.Next fuel = (specNext c.s.rule.Handlers fuel 0 c).1) ∧
      (specNext c.s.rule.Handlers (c.s.rule.Handlers.length + 1) 0 c).2 =
        (calls c1.log).length ∧
      (∀ k t, (calls c1.log)[k]? = some t →
        t = if k < c.s.rule.Handlers.length then some k else none) ∧
      (∀ d, Event.ret d ∈ c1.log → d ≤ c.s.rule.Handlers.length) ∧
      c1.s.callDepth = min (calls c1.log).length c.s.rule.Handlers.length ∧
      c1.s.callDepth ≤ c.s.rule.Handlers.length := by
  obtain ⟨c1, hrun, hs⟩ := Next_spec c.s.rule (c.s.rule.Handlers.length + 1) c rfl
    (Nat.succ_pos _) (by omega)
  have hinv : LogInv c.s.rule.Handlers.length c.s.callDepth c.log := by
    rw [h0, hlog]
    exact ⟨by simp [calls], by intro k t hk; simp [calls] at hk, by intro x hx; cases hx⟩
  have hin : InChain c.s.rule 0 c := ⟨rfl, by rw [h0]; simp, by rw [hlog]; rfl⟩
  obtain ⟨h1, h2, h3⟩ := hs.2.2.2.1 hinv
  obtain ⟨e1, e2⟩ := Next_counted c.s.rule (c.s.rule.Handlers.length + 1) c 0 hin
  refine ⟨c1, hrun, fun fuel => (Next_counted c.s.rule fuel c 0 hin).1, ?_, h2, h3, h1,
    by rw [h1]; exact Nat.min_le_right _ _⟩
  exact (e2 c1 (Or.inl (e1.symm.trans hrun))).2.2.symm

/-- C14 (witness): two handlers, the first calls `Next` twice and the second once; the
four calls of `Next` dispatch `Handlers[0]`, `Handlers[1]`, and the transport handler
twice. -/
theorem C14_next_dispatches_in_order_witness :
    (startContext (freshSession (reachableEngine true) .BlockAction
      [twiceHandler, passHandler]) getRequest).s.callDepth = 0 ∧
    (startContext (freshSession (reachableEngine true) .BlockAction
      [twiceHandler, passHandler]) getRequest).log = [] ∧
    (match (startContext (freshSession (reachableEngine true) .BlockAction
        [twiceHandler, passHandler]) getRequest).Next 3 with
      | .done c1 => calls c1.log
      | _ => []) = [some 0, some 1, none, none] ∧
    ∃ c1, (startContext (freshSession (reachableEngine true) .BlockAction
        [twiceHandler, passHandler]) getRequest).Next 3 = .done c1 ∧
      (∀ fuel, (startContext (freshSession (reachableEngine true) .BlockAction
          [twiceHandler, passHandler]) getRequest).Next fuel =
        (specNext [twiceHandler, passHandler] fuel 0
          (startContext (freshSession (reachableEngine true) .BlockAction
            [twiceHandler, passHandler]) getRequest)).1) ∧
      (specNext [twiceHandler, passHandler] 3 0
          (startContext (freshSession (reachableEngine true) .BlockAction
            [twiceHandler, passHandler]) getRequest)).2 = (calls c1.log).length ∧
      (∀ k t, (calls c1.log)[k]? = some t → t = if k < 2 then some k else none) ∧
      (∀ d, Event.ret d ∈ c1.log → d ≤ 2) ∧
      c1.s.callDepth = min (calls c1.log).length 2 ∧
      c1.s.callDepth ≤ 2 :=
  ⟨rfl, rfl, by decide,
    C14_next_dispatches_in_order (startContext (freshSession (reachableEngine true) .BlockAction
      [twiceHandler, passHandler]) getRequest) rfl rfl⟩

/-- C15: for every session and request `handle` returns with `callDepth = 0` and
`postRequestAction = nil`; the actions it invoked are the one action pending after the
handler chain, or none when none was pending; and in the log of the request they stand
after the write of the response, which stands after the events of the chain. -/
theorem C15_handle_resets_and_runs_pending_action (s : session) (cl : ClientSide)
    (r : Request) :
    ∃ c1 s1 log resp, (startContext s r).Next (s.rule.Handlers.length + 1) = .done c1 ∧
      s.handle cl r = .ok (s1, log) ∧
      s1.callDepth = 0 ∧ s1.postRequestAction = none ∧
      actions log = (match c1.s.postRequestAction with
        | some a => [a]
        | none => []) ∧
      log = c1.log ++ Event.write resp :: (actions log).map Event.action ∧
      (∀ e ∈ c1.log, chainEvent e = true) := by
  obtain ⟨c1, hrun, hh, _, hc1, _, hact⟩ := handle_spec s cl r
  obtain ⟨f1, f2, _, _, _, f6⟩ := finish_spec c1 cl
  refine ⟨c1, (c1.finish cl).1, (c1.finish cl).2,
    { c1.settle.1 with Close := c1.settle.2.close }, hrun, hh, f1, f2, hact, ?_, hc1⟩
  rw [hact, f6]
  cases c1.s.postRequestAction <;> simp

/-- C16: if the body of `Next` (the handler that `nextHandler` returned, run on the
Context) panics, `Next` returns, `close` is true and the response of the Context is the
HTTP/1.1 response 500; no call of `Next` ends in a panic. -/
theorem C16_handler_panic_recovered (fuel : Nat) (c c1 : Context)
    (h : Context.invoke (Context.Next fuel) c = .panicked c1) :
    ∃ c2, c.Next (fuel + 1) = .done c2 ∧ c2.s.close = true ∧
      c2.Response = some (newHTTP11Response StatusInternalServerError c1.Request) ∧
      (∀ resp, c2.Response = some resp →
        resp.StatusCode = 500 ∧ resp.ProtoMajor = 1 ∧ resp.ProtoMinor = 1) ∧
      ∀ (n : Nat) (x y : Context), x.Next n ≠ .panicked y := by
  refine ⟨_, by rw [Next_succ, h]; rfl, rfl, rfl, ?_, ?_⟩
  · intro resp hr
    cases hr
    exact ⟨rfl, rfl, rfl⟩
  · intro n x y
    cases n with
    | zero => intro hx; cases hx
    | succ n =>
      rw [Next_succ]
      cases Context.invoke (Context.Next n) x <;> simp [Flow.leave]

/-- C16 (witness): a rule whose only handler panics. -/
theorem C16_handler_panic_recovered_witness :
    Context.invoke (Context.Next 1)
        (startContext (freshSession (reachableEngine true) .MITMAction [panicHandler])
          getRequest) =
      .panicked { Request := some getRequest, Response := none,
                  s := { freshSession (reachableEngine true) .MITMAction [panicHandler] with
                         callDepth := 1 },
                  log := [.call (some 0)] } ∧
    ∃ c2, (startContext (freshSession (reachableEngine true) .MITMAction [panicHandler])
        getRequest).Next 2 = .done c2 ∧ c2.s.close = true ∧
      c2.Response = some (newHTTP11Response StatusInternalServerError (some getRequest)) ∧
      (∀ resp, c2.Response = some resp →
        resp.StatusCode = 500 ∧ resp.ProtoMajor = 1 ∧ resp.ProtoMinor = 1) ∧
      ∀ (n : Nat) (x y : Context), x.Next n ≠ .panicked y :=
  ⟨rfl, C16_handler_panic_recovered 1
    (startContext (freshSession (reachableEngine true) .MITMAction [panicHandler]) getRequest)
    { Request := some getRequest, Response := none,
      s := { freshSession (reachableEngine true) .MITMAction [panicHandler] with callDepth := 1 },
      log := [.call (some 0)] } rfl⟩

/-- C17: `handle` returns, and the one response it hands to `Response.Write` is, when the
chain leaves a nil response, the HTTP/1.1 response 500 (with `close` set, which it then
carries in its `Close` field), and otherwise the response the chain left, with its
`Close` field set from the session. -/
theorem C17_nil_response_becomes_500 (s : session) (cl : ClientSide) (r : Request) :
    ∃ c1 s1 log, (startContext s r).Next (s.rule.Handlers.length + 1) = .done c1 ∧
      s.handle cl r = .ok (s1, log) ∧
      (c1.Response = none → s1.close = true ∧
        writes log =
          [{ newHTTP11Response StatusInternalServerError c1.Request with Close := true }]) ∧
      (∀ resp, c1.Response = some resp → writes log = [{ resp with Close := c1.s.close }]) := by
  obtain ⟨c1, hrun, hh, _, _, hw, _⟩ := handle_spec s cl r
  obtain ⟨_, _, _, f4, _, _⟩ := finish_spec c1 cl
  obtain ⟨_, _, a3, a4⟩ := settle_spec c1
  refine ⟨c1, (c1.finish cl).1, (c1.finish cl).2, hrun, hh, ?_, ?_⟩
  · intro hnil
    obtain ⟨h1, h2⟩ := a3 hnil
    refine ⟨f4 h1, ?_⟩
    rw [hw, h1, h2]
  · intro resp hresp
    obtain ⟨h1, h2⟩ := a4 resp hresp
    rw [hw, h1, h2]

/-- C18: `handle` returns having handed one response to `Response.Write`; if `close` was
true before `handle`, or the write fails, `close` is true afterwards; and the `Close`
field of the response written is the value of `close` just before the write (after the
nil check), which is true when `close` was true before `handle`. -/
theorem C18_close_sticky_across_handle (s : session) (cl : ClientSide) (r : Request) :
    ∃ c1 s1 log resp, (startContext s r).Next (s.rule.Handlers.length + 1) = .done c1 ∧
      s.handle cl r = .ok (s1, log) ∧ writes log = [resp] ∧
      (s.close = true → s1.close = true) ∧
      (cl.write resp ≠ none → s1.close = true) ∧
      resp.Close = c1.settle.2.close ∧
      (s.close = true → resp.Close = true) := by
  obtain ⟨c1, hrun, hh, hclose, _, hw, _⟩ := handle_spec s cl r
  obtain ⟨_, _, f3, _, f5, _⟩ := finish_spec c1 cl
  obtain ⟨_, a2, _, _⟩ := settle_spec c1
  exact ⟨c1, (c1.finish cl).1, (c1.finish cl).2,
    { c1.settle.1 with Close := c1.settle.2.close }, hrun, hh, hw,
    fun h => f3 (hclose h), f5, rfl, fun h => a2 (hclose h)⟩

/-- C19: for every list of entries (literal IPs and CIDR masks) and every IP, `Allowed`
of the whitelist built from the entries is true exactly when the IP has the text form
(`String()`, the key of the map) of a configured literal IP or a configured mask contains
it; the empty whitelist allows no IP. -/
theorem C19_allowed_iff_listed (lib : NetLib) (es : List Entry) (ip : IP) :
    ((NewWhitelist (es.map (Entry.option lib))).Allowed lib ip = true ↔
      (∃ x, Entry.ip x ∈ es ∧ lib.ipString x = lib.ipString ip) ∨
        ∃ m, Entry.mask m ∈ es ∧ lib.contains m ip = true) ∧
    (NewWhitelist []).Allowed lib ip = false := by
  constructor
  · have key := foldl_options lib es { ip := [], mask := [] } (lib.ipString ip)
    unfold Whitelist.Allowed NewWhitelist
    simp only []
    revert key
    generalize List.foldl (fun (o : WhiteListOptions) (opt : WhitelistOption) => opt o)
      ({ ip := [], mask := [] } : WhiteListOptions) (es.map (Entry.option lib)) = opts
    rintro ⟨h1, h2⟩
    cases hg : flagGet opts.ip (lib.ipString ip) with
    | some v =>
      simp only [true_iff]
      rw [hg] at h1
      rcases h1.mp rfl with h | h
      · simp [flagGet] at h
      · exact Or.inl h
    | none =>
      simp only []
      rw [hg] at h1
      rw [anyMask_iff]
      constructor
      · rintro ⟨m, hm, hc⟩
        rcases (h2 m).mp hm with h | h
        · simp at h
        · exact Or.inr ⟨m, h, hc⟩
      · rintro (h | ⟨m, hm, hc⟩)
        · have := h1.mpr (Or.inr h)
          simp at this
        · exact ⟨m, (h2 m).mpr (Or.inr hm), hc⟩
  · rfl

/-- C20: for every listener, whatever results the wrapped listener returns: a connection
returned by `Accept` is one whose lookup succeeded and whose IP the ACL allows, it comes
with a nil error, and the connections accepted before it were all refused by the ACL and
are exactly the connections closed, once each and in order; after refused connections a
connection that passes is returned, and an error of the wrapped listener is returned
unchanged with a nil connection. -/
theorem C20_accept_filters_by_acl (lib : NetLib) (l : Listener) :
    (∀ res c, l.Accept lib = some res → res.conn = some c →
      passes lib l.acl c ∧ res.err = none ∧
        ∃ pre, l.listener = pre.map Incoming.conn ++ Incoming.conn c :: res.rest ∧
          res.closed = pre ∧ ∀ x ∈ pre, refused lib l.acl x) ∧
    (∀ pre c rest, l.listener = pre.map Incoming.conn ++ Incoming.conn c :: rest →
      (∀ x ∈ pre, refused lib l.acl x) → passes lib l.acl c →
      l.Accept lib = some { conn := some c, err := none, closed := pre, rest := rest }) ∧
    (∀ pre e rest, l.listener = pre.map Incoming.conn ++ Incoming.error e :: rest →
      (∀ x ∈ pre, refused lib l.acl x) →
      l.Accept lib = some { conn := none, err := some e, closed := pre, rest := rest }) := by
  refine ⟨?_, ?_, ?_⟩
  · intro res c h hc
    obtain ⟨h1, h2, pre, h3, h4, h5⟩ := acceptLoop_conn lib l.acl l.listener [] res c h hc
    exact ⟨h1, h2, pre, h3, by simpa using h4, h5⟩
  · intro pre c rest hl hpre hc
    unfold Listener.Accept
    rw [hl, acceptLoop_refused lib l.acl pre _ [] hpre]
    obtain ⟨h1, h2⟩ := hc
    have hx : netConnLookup lib c = ((netConnLookup lib c).1, none) := by
      rw [← h1]
    rw [acceptLoop_cons_conn, hx]
    simp only [h2, if_true, List.nil_append]
  · intro pre e rest hl hpre
    unfold Listener.Accept
    rw [hl, acceptLoop_refused lib l.acl pre _ [] hpre]
    simp [acceptLoop]

/-- C20 (witness): a connection from `9.9.9.9` is closed and skipped, the connection from
`10.0.0.1` is returned. -/
theorem C20_accept_filters_by_acl_witness :
    sampleListener.Accept textLib =
      some { conn := some ⟨2, some (str "10.0.0.1:80")⟩, err := none,
             closed := [⟨1, some (str "9.9.9.9:80")⟩], rest := [] } :=
  (C20_accept_filters_by_acl textLib sampleListener).2.1 [⟨1, some (str "9.9.9.9:80")⟩]
    ⟨2, some (str "10.0.0.1:80")⟩ [] rfl
    (by
      intro x hx
      simp only [List.mem_singleton] at hx
      subst hx
      exact ⟨by decide, by decide⟩)
    ⟨by decide, by decide⟩

/-- C21 (counterexample): with a `RemoteAddr` that `net.SplitHostPort` rejects, `ClientIP`
returns nil although `X-Forwarded-For` holds an IP literal; and for the header value
`1.2.3.4,`, whose last comma-separated entry is empty, `ClientIP` returns `1.2.3.4`, the
last entry that parses. -/
theorem C21_client_ip_counterexample :
    RemoteIp textLib id (sampleRequest [] (str "1.2.3.4") []) = [] ∧
    lastLiteral textLib id (str "1.2.3.4") = str "1.2.3.4" ∧
    ClientIP textLib id (sampleRequest [] (str "1.2.3.4") []) = [] ∧
    (splitComma (str "1.2.3.4,")).getLast? = some [] ∧
    ClientIP textLib id (sampleRequest (str "9.9.9.9:80") (str "1.2.3.4,") []) =
      str "1.2.3.4" := by
  decide

/-- C21 (amended): for every request, `ClientIP` returns nil when `RemoteAddr` yields no
IP; otherwise the last comma-separated entry of `X-Forwarded-For` that parses as an IP
literal, if there is one; otherwise the last such entry of `X-Real-IP`, if there is one;
otherwise the IP parsed from `RemoteAddr`. -/
theorem C21_client_ip_order (lib : NetLib) (trimSpace : Bytes → Bytes) (r : HTTPRequest) :
    ClientIP lib trimSpace r =
      if RemoteIp lib trimSpace r = [] then []
      else if lastLiteral lib trimSpace (r.Header (str "X-Forwarded-For")) ≠ [] then
        lastLiteral lib trimSpace (r.Header (str "X-Forwarded-For"))
      else if lastLiteral lib trimSpace (r.Header (str "X-Real-IP")) ≠ [] then
        lastLiteral lib trimSpace (r.Header (str "X-Real-IP"))
      else RemoteIp lib trimSpace r := by
  unfold ClientIP
  simp only [headerLoop, parseIpHeader_eq]

/-- C22: for every certificate template whose `ExtKeyUsage` has no duplicates, after
`setAttributesForCA` the flags `IsCA` and `BasicConstraintsValid` are set and `KeyUsage`
includes `digitalSignature` and `certSign`; after `setAttributesForTLS`
`BasicConstraintsValid` is set and `KeyUsage` includes `digitalSignature`, and
`keyEncipherment` when the key is RSA; in both cases `ExtKeyUsage` holds `serverAuth` and
`clientAuth` exactly once each, and every key usage and extended key usage of the
template is kept. -/
theorem C22_certificate_attributes (cert : Certificate) (key : PrivateKey)
    (hnodup : cert.ExtKeyUsage.Nodup) :
    ((setAttributesForCA cert).IsCA = true ∧
      (setAttributesForCA cert).BasicConstraintsValid = true ∧
      includesUsage (setAttributesForCA cert).KeyUsage KeyUsageDigitalSignature ∧
      includesUsage (setAttributesForCA cert).KeyUsage KeyUsageCertSign ∧
      (setAttributesForCA cert).ExtKeyUsage.count ExtKeyUsageServerAuth = 1 ∧
      (setAttributesForCA cert).ExtKeyUsage.count ExtKeyUsageClientAuth = 1 ∧
      (∀ u, includesUsage cert.KeyUsage u → includesUsage (setAttributesForCA cert).KeyUsage u) ∧
      (∀ u ∈ cert.ExtKeyUsage, u ∈ (setAttributesForCA cert).ExtKeyUsage)) ∧
    ((setAttributesForTLS cert key).BasicConstraintsValid = true ∧
      (setAttributesForTLS cert key).IsCA = cert.IsCA ∧
      includesUsage (setAttributesForTLS cert key).KeyUsage KeyUsageDigitalSignature ∧
      ((∃ N, key = .rsa N) →
        includesUsage (setAttributesForTLS cert key).KeyUsage KeyUsageKeyEncipherment) ∧
      (setAttributesForTLS cert key).ExtKeyUsage.count ExtKeyUsageServerAuth = 1 ∧
      (setAttributesForTLS cert key).ExtKeyUsage.count ExtKeyUsageClientAuth = 1 ∧
      (∀ u, includesUsage cert.KeyUsage u →
        includesUsage (setAttributesForTLS cert key).KeyUsage u) ∧
      (∀ u ∈ cert.ExtKeyUsage, u ∈ (setAttributesForTLS cert key).ExtKeyUsage)) := by
  constructor
  · obtain ⟨h1, h2, h3, h4, h5⟩ := setExtKeyUsage_spec
      { cert with IsCA := true, BasicConstraintsValid := true,
                  KeyUsage := cert.KeyUsage ||| (KeyUsageDigitalSignature ||| KeyUsageCertSign) }
      [ExtKeyUsageServerAuth, ExtKeyUsageClientAuth]
    have hk : (setAttributesForCA cert).KeyUsage =
        cert.KeyUsage ||| (KeyUsageDigitalSignature ||| KeyUsageCertSign) := h3
    refine ⟨h1, h2, ?_, ?_, ?_, ?_, ?_, ?_⟩
    · rw [hk]
      exact includesUsage_lor_right _ _ _ (by unfold includesUsage; decide)
    · rw [hk]
      exact includesUsage_lor_right _ _ _ (by unfold includesUsage; decide)
    · exact List.count_eq_one_of_mem (h5 hnodup) ((h4 _).mpr (Or.inr (by simp)))
    · exact List.count_eq_one_of_mem (h5 hnodup) ((h4 _).mpr (Or.inr (by simp)))
    · intro u hu
      rw [hk]
      exact includesUsage_lor_left _ _ _ hu
    · intro u hu
      exact (h4 u).mpr (Or.inl hu)
  · cases key with
    | rsa N =>
      obtain ⟨h1, h2, h3, h4, h5⟩ := setExtKeyUsage_spec
        { cert with BasicConstraintsValid := true,
                    KeyUsage := cert.KeyUsage ||| KeyUsageDigitalSignature |||
                      KeyUsageKeyEncipherment }
        [ExtKeyUsageServerAuth, ExtKeyUsageClientAuth]
      have hk : (setAttributesForTLS cert (.rsa N)).KeyUsage =
          cert.KeyUsage ||| KeyUsageDigitalSignature ||| KeyUsageKeyEncipherment := h3
      refine ⟨h2, h1, ?_, ?_, ?_, ?_, ?_, ?_⟩
      · rw [hk]
        exact includesUsage_lor_left _ _ _ (includesUsage_lor_self _ _)
      · intro _
        rw [hk]
        exact includesUsage_lor_self _ _
      · exact List.count_eq_one_of_mem (h5 hnodup) ((h4 _).mpr (Or.inr (by simp)))
      · exact List.count_eq_one_of_mem (h5 hnodup) ((h4 _).mpr (Or.inr (by simp)))
      · intro u hu
        rw [hk]
        exact includesUsage_lor_left _ _ _ (includesUsage_lor_left _ _ _ hu)
      · intro u hu
        exact (h4 u).mpr (Or.inl hu)
    | ecdsa curve =>
      obtain ⟨h1, h2, h3, h4, h5⟩ := setExtKeyUsage_spec
        { cert with BasicConstraintsValid := true,
                    KeyUsage := cert.KeyUsage ||| KeyUsageDigitalSignature }
        [ExtKeyUsageServerAuth, ExtKeyUsageClientAuth]
      have hk : (setAttributesForTLS cert (.ecdsa curve)).KeyUsage =
          cert.KeyUsage ||| KeyUsageDigitalSignature := h3
      refine ⟨h2, h1, ?_, ?_, ?_, ?_, ?_, ?_⟩
      · rw [hk]
        exact includesUsage_lor_self _ _
      · rintro ⟨N, hN⟩
        cases hN
      · exact List.count_eq_one_of_mem (h5 hnodup) ((h4 _).mpr (Or.inr (by simp)))
      · exact List.count_eq_one_of_mem (h5 hnodup) ((h4 _).mpr (Or.inr (by simp)))
      · intro u hu
        rw [hk]
        exact includesUsage_lor_left _ _ _ hu
      · intro u hu
        exact (h4 u).mpr (Or.inl hu)
    | other kind =>
      obtain ⟨h1, h2, h3, h4, h5⟩ := setExtKeyUsage_spec
        { cert with BasicConstraintsValid := true,
                    KeyUsage := cert.KeyUsage ||| KeyUsageDigitalSignature }
        [ExtKeyUsageServerAuth, ExtKeyUsageClientAuth]
      have hk : (setAttributesForTLS cert (.other kind)).KeyUsage =
          cert.KeyUsage ||| KeyUsageDigitalSignature := h3
      refine ⟨h2, h1, ?_, ?_, ?_, ?_, ?_, ?_⟩
      · rw [hk]
        exact includesUsage_lor_self _ _
      · rintro ⟨N, hN⟩
        cases hN
      · exact List.count_eq_one_of_mem (h5 hnodup) ((h4 _).mpr (Or.inr (by simp)))
      · exact List.count_eq_one_of_mem (h5 hnodup) ((h4 _).mpr (Or.inr (by simp)))
      · intro u hu
        rw [hk]
        exact includesUsage_lor_left _ _ _ hu
      · intro u hu
        exact (h4 u).mpr (Or.inl hu)

/-- C22 (witness): a template that already holds `clientAuth` and the key usage
`certSign`, with an RSA key. -/
theorem C22_certificate_attributes_witness :
    (⟨false, false, 32, [2]⟩ : Certificate).ExtKeyUsage.Nodup ∧
    setAttributesForCA ⟨false, false, 32, [2]⟩ = ⟨true, true, 33, [2, 1]⟩ ∧
    setAttributesForTLS ⟨false, false, 32, [2]⟩ (.rsa 77) = ⟨false, true, 37, [2, 1]⟩ ∧
    (setAttributesForCA ⟨false, false, 32, [2]⟩).ExtKeyUsage.count ExtKeyUsageServerAuth = 1 :=
  ⟨by decide, by decide, by decide,
    (C22_certificate_attributes ⟨false, false, 32, [2]⟩ (.rsa 77) (by decide)).1.2.2.2.2.1⟩

/-- C23 (code at the failing input): for an RSA key whose modulus has 2048 bits,
`NewKeyGenerator` returns an `RSAKeyGenerator` with `Bits = 256`, the size of the modulus
in bytes (`PublicKey.Size()`), and `Next` asks `rsa.GenerateKey` for a key of 256 bits;
for every modulus of at least 2 bits the field is smaller than the bit size. -/
theorem C23_rsa_generator_bits_are_bytes :
    bitLen (2 ^ 2047) = 2048 ∧
    NewKeyGenerator (.rsa (2 ^ 2047)) = .ok (.RSAKeyGenerator 256) ∧
    (KeyGenerator.RSAKeyGenerator 256).nextBits = some 256 ∧
    (∀ N, NewKeyGenerator (.rsa N) = .ok (.RSAKeyGenerator ((bitLen N + 7) / 8))) ∧
    (∀ N, 2 ≤ bitLen N → (bitLen N + 7) / 8 < bitLen N) ∧
    (∀ curve, NewKeyGenerator (.ecdsa curve) = .ok (.ECDSAKeyGenerator curve)) ∧
    (∀ kind, NewKeyGenerator (.other kind) = .error kind) := by
  have h : bitLen (2 ^ 2047) = 2048 := bitLen_two_pow 2047
  have hgen : ∀ N, NewKeyGenerator (.rsa N) = .ok (.RSAKeyGenerator ((bitLen N + 7) / 8)) :=
    fun _ => rfl
  refine ⟨h, ?_, rfl, hgen, fun N hN => by omega, fun _ => rfl, fun _ => rfl⟩
  rw [hgen, h]

/-- C24 (counterexample): the version `{-1, 2, 3, ""}` formats to `-1.2.3` and parses to
`{1, 2, 3, ""}`; `{1, 2, 3, "4"}` parses back as `{1, 2, 34, ""}`; `{1, 2, 3, "rc 1"}`
parses back with the suffix `rc`. -/
theorem C24_round_trip_counterexample :
    (⟨-1, 2, 3, []⟩ : Version).String = str "-1.2.3" ∧
    ParseVersion (⟨-1, 2, 3, []⟩ : Version).String = .ok (⟨1, 2, 3, []⟩, none) ∧
    ParseVersion (⟨1, 2, 3, str "4"⟩ : Version).String = .ok (⟨1, 2, 34, []⟩, none) ∧
    ParseVersion (⟨1, 2, 3, str "rc 1"⟩ : Version).String = .ok (⟨1, 2, 3, str "rc"⟩, none) := by
  decide

/-- C24 (amended): for every Version whose `Major`, `Minor` and `Patch` are not negative
(and are values of `int`) and whose `Suffix` holds no white space and does not start with
a digit, `ParseVersion(v.String())` returns a nil error and a Version equal to `v`. -/
theorem C24_version_round_trip (v : Version) (hM : 0 ≤ v.Major ∧ v.Major ≤ maxInt)
    (hm : 0 ≤ v.Minor ∧ v.Minor ≤ maxInt) (hp : 0 ≤ v.Patch ∧ v.Patch ≤ maxInt)
    (hs : v.Suffix.all (fun b => !isSpace b) = true)
    (hd : ∀ b, v.Suffix.head? = some b → isDigit b = false) :
    ParseVersion v.String = .ok (v, none) := by
  obtain ⟨a1, a2, a3⟩ := formatInt_nonneg v.Major hM.1
  obtain ⟨b1, b2, b3⟩ := formatInt_nonneg v.Minor hm.1
  obtain ⟨c1, c2, c3⟩ := formatInt_nonneg v.Patch hp.1
  have hmatch := FindStringSubmatch_head _ _
    (matchHere_parts (formatInt v.Major) (formatInt v.Minor) (formatInt v.Patch) v.Suffix
      a1 a2 b1 b2 c1 c2 hs hd)
  have hA := Atoi_digits _ a1 a2 (by have := hM.2; rw [← a3] at this; exact_mod_cast this)
  have hB := Atoi_digits _ b1 b2 (by have := hm.2; rw [← b3] at this; exact_mod_cast this)
  have hC := Atoi_digits _ c1 c2 (by have := hp.2; rw [← c3] at this; exact_mod_cast this)
  unfold ParseVersion
  have hstr : v.String = formatInt v.Major ++ dot :: formatInt v.Minor ++ dot ::
      formatInt v.Patch ++ v.Suffix := by
    unfold Version.String; simp
  rw [hstr, hmatch]
  simp only [mustParseInt, hA, hB, hC, Run.andThen, a3, b3, c3]

/-- C24 (witness): the version `0.20.2-186-g21514d8c` of the doc comment. -/
theorem C24_version_round_trip_witness :
    ParseVersion (⟨0, 20, 2, str "-186-g21514d8c"⟩ : Version).String =
      .ok (⟨0, 20, 2, str "-186-g21514d8c"⟩, none) :=
  C24_version_round_trip ⟨0, 20, 2, str "-186-g21514d8c"⟩ (by decide) (by decide) (by decide)
    (by decide) (by intro b hb; simp only [str] at hb; cases hb; decide)

/-- C25 (code at the failing input): the text `9223372036854775808.0.0` matches the
pattern and its first number does not fit an `int`: `mustParseInt` panics, so
`ParseVersion` and `CurrentVersion` panic instead of yielding `ErrInvalidFormat` and
`0.0.0`.  The number below it parses, and a text without a match yields the zero Version
with `ErrInvalidFormat`. -/
theorem C25_parse_version_panics_on_overflow :
    ParseVersion (str "9223372036854775808.0.0") = .panic ∧
    CurrentVersion (str "9223372036854775808.0.0") = .panic ∧
    ParseVersion (str "9223372036854775807.0.0") =
      .ok (⟨9223372036854775807, 0, 0, []⟩, none) ∧
    ParseVersion (str "v1") = .ok (⟨0, 0, 0, []⟩, some .ErrInvalidFormat) := by
  decide

/-- C26: after the calls of `add` on the routes `rs`, in order, from the empty tree, with
templates that start with `'/'`, every node reachable from a method root through
`children` and `special` is well indexed: `index` and `children` have the same length,
`index[i]` is the first byte of `children[i].route`, the bytes of `index` are pairwise
distinct, every child is a text node with a non-empty route holding neither `':'` nor
`'*'`, and `special`, when present, is a parameter node. -/
theorem C26_reachable_nodes_well_indexed (rs : List Route)
    (hgood : ∀ r ∈ rs, ∃ tm, r.route = slash :: tm) (t : tree) (hbuild : build rs = .ok t)
    (m : Bytes) (top n : node) (htop : t.get m = some top) (hreach : Reach top n) :
    wellIndexed n :=
  wellIndexed_of_shape n
    (Shape_reach hreach
      (get_shape t m top
        (addAll_shape rs ⟨[]⟩ t (fun r hr => by cases hr) hgood hbuild) htop).2.2.2.2)

/-- C26 (witness): the root of GET and its child, after three routes of the Coinbase
Prime table. -/
theorem C26_reachable_nodes_well_indexed_witness :
    (∀ r ∈ sampleRoutes, ∃ tm, r.route = slash :: tm) ∧
    ∃ t top ch, build sampleRoutes = .ok t ∧ t.get GET = some top ∧
      top.children[0]? = some ch ∧ Reach top ch ∧ wellIndexed top ∧ wellIndexed ch := by
  have h1 : ∀ r ∈ sampleRoutes, ∃ tm, r.route = slash :: tm := by
    intro r hr
    simp only [sampleRoutes, List.mem_cons, List.mem_singleton, List.not_mem_nil, or_false] at hr
    rcases hr with h | h | h <;> subst h <;> exact ⟨_, rfl⟩
  obtain ⟨t, top, ch, hb, ht, hc⟩ := build_child_of_check sampleRoutes GET rfl
  have hr : Reach top ch :=
    Reach.child top ch ch (List.getElem?_mem hc) (Reach.self ch)
  exact ⟨h1, t, top, ch, hb, ht, hc, hr,
    C26_reachable_nodes_well_indexed sampleRoutes h1 t hb GET top top ht (Reach.self top),
    C26_reachable_nodes_well_indexed sampleRoutes h1 t hb GET top ch ht hr⟩

/-- C27 (code at the failing input): after `add("/a/:b/*", 5)` on the empty trie the root
text node `/a/`, an intermediate node of the template, has `hasWildcard = true`, and the
parameter node `:b/`, where the template ends, has not; after `add("/ab*", 1)` and
`add("/ac", 2)` the split leaves the flag on the prefix node `/a`, where no template
ends, as well as on the suffix node `b`. -/
theorem C27_wildcard_flag_on_wrong_nodes :
    validateRoute (str "/a/:b/*") = .ok (str "/a/:b/*", none) ∧
    rootSummary [⟨GET, str "/a/:b/*", 5⟩] GET =
      .ok ((str "/a/", true, 0), some (str ":b/", false, 5), []) ∧
    validateRoute (str "/ab*") = .ok (str "/ab*", none) ∧
    validateRoute (str "/ac") = .ok (str "/ac", none) ∧
    rootSummary [⟨GET, str "/ab*", 1⟩, ⟨GET, str "/ac", 2⟩] GET =
      .ok ((str "/a", true, 0), none, [(str "b", true, 1), (str "c", false, 2)]) :=
  ⟨by decide, rfl, by decide, by decide, rfl⟩

/-- With `/a/*` (cost 1) and `/a` (cost 2) the path `/b` costs 2 when `/a/*` is added first
and 0 when `/a` is added first: the split of the node `/a/` leaves `hasWildcard` on the
prefix node `/a`, which then takes the cost 2. -/
theorem wildcard_pair_depends_on_order :
    lookup [⟨GET, str "/a/*", 1⟩, ⟨GET, str "/a", 2⟩] GET (str "/b") = .ok 2 ∧
    lookup [⟨GET, str "/a", 2⟩, ⟨GET, str "/a/*", 1⟩] GET (str "/b") = .ok 0 := by
  decide

/-- C28 (counterexample): the templates `/:a` (cost 1) and `/:b` (cost 2) are accepted and
differ, and the path `/x` costs 2 when `/:a` is added first and 1 when `/:b` is added
first: both templates end at the one parameter node below the root, whose cost is that of
the later `add`. -/
theorem C28_insertion_order_counterexample :
    validateRoute (str "/:a") = .ok (str "/:a", none) ∧
    validateRoute (str "/:b") = .ok (str "/:b", none) ∧
    str "/:a" ≠ str "/:b" ∧
    lookup [⟨GET, str "/:a", 1⟩, ⟨GET, str "/:b", 2⟩] GET (str "/x") = .ok 2 ∧
    lookup [⟨GET, str "/:b", 2⟩, ⟨GET, str "/:a", 1⟩] GET (str "/x") = .ok 1 := by
  decide

/-- C28 (amended): for two routes of one method whose templates start with `'/'`, hold no
`'*'` and do not lead to the same node of the trie (`SameSlot`: equal literal bytes and
parameters at the same places, whatever their names), and for every path, `get` returns a
cost, the same on the trie built by adding the first route and then the second as on the
trie built by adding them in the opposite order. -/
theorem C28_lookup_independent_of_order (m t1 t2 : Bytes) (c1 c2 : Int)
    (h1 : ∃ tm, t1 = slash :: tm) (h2 : ∃ tm, t2 = slash :: tm)
    (hs1 : star ∉ t1) (hs2 : star ∉ t2) (hns : ¬ SameSlot t1 t2) (path : Bytes) :
    ∃ v, lookup [⟨m, t1, c1⟩, ⟨m, t2, c2⟩] m path = .ok v ∧
      lookup [⟨m, t2, c2⟩, ⟨m, t1, c1⟩] m path = .ok v := by
  obtain ⟨tm1, e1⟩ := h1
  obtain ⟨tm2, e2⟩ := h2
  subst e1 e2
  exact lookup_commute m tm1 tm2 c1 c2 hs1 hs2 hns path

/-- C28 (witness): two accepted routes of the Coinbase Prime table, one the start of the
other, and a path of the longer one. -/
theorem C28_lookup_independent_of_order_witness :
    validateRoute (str "/v1/portfolios/:portfolio_id/allocations") =
      .ok (str "/v1/portfolios/:portfolio_id/allocations", none) ∧
    validateRoute (str "/v1/portfolios") = .ok (str "/v1/portfolios", none) ∧
    star ∉ str "/v1/portfolios/:portfolio_id/allocations" ∧ star ∉ str "/v1/portfolios" ∧
    ¬ SameSlot (str "/v1/portfolios/:portfolio_id/allocations") (str "/v1/portfolios") ∧
    ∃ v, lookup [⟨GET, str "/v1/portfolios/:portfolio_id/allocations", 20⟩,
          ⟨GET, str "/v1/portfolios", 30⟩] GET (str "/v1/portfolios/7/allocations") = .ok v ∧
      lookup [⟨GET, str "/v1/portfolios", 30⟩,
          ⟨GET, str "/v1/portfolios/:portfolio_id/allocations", 20⟩] GET
        (str "/v1/portfolios/7/allocations") = .ok v :=
  ⟨by decide, by decide, by decide, by decide,
    fun h => absurd h.dumpKey_eq (by decide),
    C28_lookup_independent_of_order GET (str "/v1/portfolios/:portfolio_id/allocations")
      (str "/v1/portfolios") 20 30 ⟨_, rfl⟩ ⟨_, rfl⟩ (by decide) (by decide)
      (fun h => absurd h.dumpKey_eq (by decide)) (str "/v1/portfolios/7/allocations")⟩

/-- C29: on the tree built by `add` from routes whose templates start with `'/'`, `get`
returns a cost for every method and every path, the empty path included: the walk neither
runs on nor reads out of bounds (which the model reports as a panic).  From a root `top`
the walk ends within as many passes through the loop body as `top` has nodes, the nodes it
makes current lie at pairwise distinct places below `top`, and each of these places holds a
node. -/
theorem C29_get_is_total (rs : List Route) (hgood : ∀ r ∈ rs, ∃ tm, r.route = slash :: tm)
    (t : tree) (hbuild : build rs = .ok t) (m path : Bytes) :
    ∃ v, node.get (t.get m) path = .ok v ∧
      ∀ top, t.get m = some top →
        getLoop top.size path (some top) 0 0 [] = .ok v ∧
        (getVisits top.size path top 0 0 [] [] []).Nodup ∧
        ∀ p ∈ getVisits top.size path top 0 0 [] [] [], ∃ n, nodeAt top p = some n := by
  cases htop : t.get m with
  | none => exact ⟨0, rfl, fun top h => by cases h⟩
  | some top =>
    have hs : top.Shape :=
      (get_shape t m top
        (addAll_shape rs ⟨[]⟩ t (fun r hr => by cases hr) hgood hbuild) htop).2.2.2.2
    obtain ⟨v, hv⟩ := getLoop_total top.size path top 0 0 [] hs (fun cp hcp => by cases hcp)
      (by simp [checkpointsSize])
    obtain ⟨i1, i2⟩ := getVisits_nodup top top.size path top 0 0 [] [] []
      ⟨rfl, List.Forall₂.nil⟩ (by simp [Apart])
    refine ⟨v, getLoop_mono _ _ _ _ _ _ _ hv, ?_⟩
    intro top1 h1
    cases h1
    exact ⟨hv, i1, fun p hp => (i2 p hp).2⟩

/-- C29 (witness): the empty path and a path that no template matches, on three routes of
the Coinbase Prime table. -/
theorem C29_get_is_total_witness :
    (∀ r ∈ sampleRoutes, ∃ tm, r.route = slash :: tm) ∧
    ∃ t, build sampleRoutes = .ok t ∧
      (∃ v, node.get (t.get GET) [] = .ok v) ∧
      ∃ v, node.get (t.get GET) (str "/v1/portfolios/7/orders") = .ok v := by
  have h1 : ∀ r ∈ sampleRoutes, ∃ tm, r.route = slash :: tm := by
    intro r hr
    simp only [sampleRoutes, List.mem_cons, List.mem_singleton, List.not_mem_nil, or_false] at hr
    rcases hr with h | h | h <;> subst h <;> exact ⟨_, rfl⟩
  obtain ⟨t, _, _, hb, _, _⟩ := build_child_of_check sampleRoutes GET rfl
  obtain ⟨v1, hv1, _⟩ := C29_get_is_total sampleRoutes h1 t hb GET []
  obtain ⟨v2, hv2, _⟩ := C29_get_is_total sampleRoutes h1 t hb GET (str "/v1/portfolios/7/orders")
  exact ⟨h1, t, hb, ⟨v1, hv1⟩, ⟨v2, hv2⟩⟩

/-- C30 (code at the failing input): `validateRoute("/")` succeeds and returns the empty
route, which `validateRoute` itself rejects; `validateRoute("/a//")` succeeds and returns
`/a/`, which ends in `'/'` and is not returned unchanged. -/
theorem C30_validateRoute_result_not_fixed :
    validateRoute (str "/") = .ok ([], none) ∧
    (validateRoute []).andThen (fun x => .ok x.2.isSome) = .ok true ∧
    validateRoute (str "/a//") = .ok (str "/a/", none) ∧
    validateRoute (str "/a/") = .ok (str "/a", none) := by
  decide

end Glove
